import Mathlib

/-!
# Containers of `morganxf/algorithm`: AVL tree, B-tree and binary heap

A shallow embedding of `tree/avltree`, `tree/btree` and `tree/binaryheap` together with
the properties of the specification that were checked against it.

Conventions of the embedding

* A Go pointer graph that is owned through child slots is an algebraic tree.
  The weak `Parent` back-reference of a node is the enclosing position: for the
  recursive AVL operations it is the caller's frame, for cursors it is the
  list of frames above the focused node.
  Where the `Parent` fields themselves are the subject, the AVL insertion is embedded a
  second time over a heap of node records (`avlptr`).
* A Go panic (nil dereference, index out of range) is the result `none`.
* The comparator of package `util` is a parameter `K → K → Int`.
* `int8` arithmetic is arithmetic on `Int` wrapped by `int8`.
-/

set_option autoImplicit false

/-! ## Comparator contract -/

/-- The comparator contract: the sign of `cmp a b` decides the linear order of the keys. -/
structure LawfulCmp {K : Type} [LinearOrder K] (cmp : K → K → Int) : Prop where
  lt_iff : ∀ a b, cmp a b < 0 ↔ a < b
  eq_iff : ∀ a b, cmp a b = 0 ↔ a = b

/-- The comparator only answers `-1`, `0` or `+1` (as the integer comparator of `util` does). -/
def UnitCmp {K : Type} (cmp : K → K → Int) : Prop :=
  ∀ a b, cmp a b = -1 ∨ cmp a b = 0 ∨ cmp a b = 1

/-- The integer comparator: `-1`, `0`, `+1`. -/
def IntComparator (a b : Int) : Int :=
  if a < b then -1 else if a = b then 0 else 1

namespace avltree

/-! ## Data model (`avltree.go`) -/

/-- An AVL node pointer: `nil`, or a node with key, value, balance tag and the two
child slots `Children[0]` (`left`) and `Children[1]` (`right`). -/
inductive Node (K V : Type) where
  | nil : Node K V
  | node (Key : K) (Value : V) (balance : Int) (left right : Node K V) : Node K V
  deriving DecidableEq, Repr

/-- The tree header: root pointer, comparator and element count. -/
structure Tree (K V : Type) where
  Root : Node K V
  Comparator : K → K → Int
  size : Int

variable {K V : Type}

/-- Conversion `int8(x)`: two's complement wrap into `[-128, 127]`. -/
def int8 (x : Int) : Int := (x + 128) % 256 - 128

/-- The child index `(c+1)/2` computed in `int8` (Go division truncates toward zero). -/
def childIndex (c : Int) : Int := Int.tdiv (int8 (c + 1)) 2

/-- The index `d^1` (exclusive or with 1 flips the lowest bit). -/
def xor1 (d : Int) : Int := if d % 2 = 0 then d + 1 else d - 1

/-- Read `n.Children[d]`; fails on a nil `n` and on an index outside `[0, 2)`. -/
def getChild : Node K V → Int → Option (Node K V)
  | .nil, _ => none
  | .node _ _ _ l r, d => if d = 0 then some l else if d = 1 then some r else none

/-- Write `n.Children[d] = x`; fails on a nil `n` and on an index outside `[0, 2)`. -/
def setChild : Node K V → Int → Node K V → Option (Node K V)
  | .nil, _, _ => none
  | .node k v b l r, d, x =>
    if d = 0 then some (.node k v b x r) else if d = 1 then some (.node k v b l x) else none

/-- Read `n.balance`; fails on nil. -/
def getBalance : Node K V → Option Int
  | .nil => none
  | .node _ _ b _ _ => some b

/-- Write `n.balance = b`; fails on nil. -/
def setBalance : Node K V → Int → Option (Node K V)
  | .nil, _ => none
  | .node k v _ l r, b => some (.node k v b l r)

/-- `NewWith(comparator)`. -/
def NewWith (comparator : K → K → Int) : Tree K V :=
  { Root := .nil, Comparator := comparator, size := 0 }

/-! ## Rotations -/

/-- `rotate(c, root)`: the child on side `d = (c+1)/2` becomes the new root of the subtree. -/
def rotate (c : Int) (root : Node K V) : Option (Node K V) := do
  let d := childIndex c
  let newRoot ← getChild root d
  let inner ← getChild newRoot (xor1 d)
  let root ← setChild root d inner
  setChild newRoot (xor1 d) root

/-- `singleRotate(c, root)`. -/
def singleRotate (c : Int) (root : Node K V) : Option (Node K V) := do
  let root ← setBalance root 0
  let root ← rotate c root
  setBalance root 0

/-- `doubleRotate(c, root)`. After the two rotations the node `root` is
`newRoot.Children[d^1]`; the node `child` is `newRoot.Children[d]` when the inner rotation
went the other way (index `(-c+1)/2` different from `d`) and `root.Children[d]` otherwise.
The balance tags written through the pointers `root` and `child` are written there. -/
def doubleRotate (c : Int) (root : Node K V) : Option (Node K V) := do
  let d := childIndex c
  let child ← getChild root d
  let rotated ← rotate (int8 (-c)) child
  let root ← setChild root d rotated
  let newRoot ← rotate c root
  let nb ← getBalance newRoot
  let (rootBalance, childBalance) :=
    if nb = c then (int8 (-c), (0 : Int))
    else if nb = int8 (-c) then ((0 : Int), c)
    else ((0 : Int), (0 : Int))
  let rootNode ← getChild newRoot (xor1 d)
  let newRoot ←
    if childIndex (int8 (-c)) = d then do
      let childNode ← getChild rootNode d
      let childNode ← setBalance childNode childBalance
      let rootNode ← setChild rootNode d childNode
      let rootNode ← setBalance rootNode rootBalance
      setChild newRoot (xor1 d) rootNode
    else do
      let rootNode ← setBalance rootNode rootBalance
      let newRoot ← setChild newRoot (xor1 d) rootNode
      let childNode ← getChild newRoot d
      let childNode ← setBalance childNode childBalance
      setChild newRoot d childNode
  setBalance newRoot 0

/-! ## Insertion -/

/-- `putRebalance(c, root)`: returns the new subtree and whether it grew. -/
def putRebalance (c : Int) (cur : Node K V) : Option (Node K V × Bool) :=
  match cur with
  | .nil => none
  | .node k v b l r =>
    if b = 0 then some (.node k v c l r, true)
    else if b = int8 (-c) then some (.node k v 0 l r, false)
    else do
      let ch ← getChild (.node k v b l r) (childIndex c)
      let cb ← getBalance ch
      let cur ← if cb = c then singleRotate c (.node k v b l r) else doubleRotate c (.node k v b l r)
      pure (cur, false)

/-- `Tree.put(key, value, parent, target)`: the subtree stored in `*target` and the
count `t.size` go in, their new values and the flag come out. -/
def put (cmp : K → K → Int) (key : K) (value : V) :
    Node K V → Int → Option (Node K V × Int × Bool)
  | .nil, size => some (.node key value 0 .nil .nil, size + 1, true)
  | .node k v b l r, size =>
    let c := cmp key k
    if c = 0 then some (.node key value b l r, size, false)
    else if c < 0 then
      match put cmp key value l size with
      | none => none
      | some (l', size', imbalanced) =>
        if imbalanced then
          (putRebalance (int8 c) (.node k v b l' r)).map fun p => (p.1, size', p.2)
        else some (.node k v b l' r, size', false)
    else
      match put cmp key value r size with
      | none => none
      | some (r', size', imbalanced) =>
        if imbalanced then
          (putRebalance (int8 c) (.node k v b l r')).map fun p => (p.1, size', p.2)
        else some (.node k v b l r', size', false)

/-- `Tree.Put(key, value)`. -/
def Tree.Put (t : Tree K V) (key : K) (value : V) : Option (Tree K V) :=
  (put t.Comparator key value t.Root t.size).map fun p =>
    { t with Root := p.1, size := p.2.1 }

/-- `Tree.Get(key)`: `some v` is `(v, true)`, `none` is `(nil, false)`. -/
def get (cmp : K → K → Int) (key : K) : Node K V → Option V
  | .nil => none
  | .node k v _ l r =>
    let c := cmp key k
    if c = 0 then some v else if c < 0 then get cmp key l else get cmp key r

/-- `Tree.Get(key)`. -/
def Tree.Get (t : Tree K V) (key : K) : Option V := get t.Comparator key t.Root

/-! ## Removal -/

/-- `removeFix(c, root)`: returns the new subtree and whether it became shorter. -/
def removeFix (c : Int) (cur : Node K V) : Option (Node K V × Bool) :=
  match cur with
  | .nil => none
  | .node k v b l r =>
    if b = 0 then some (.node k v c l r, false)
    else if b = int8 (-c) then some (.node k v 0 l r, true)
    else do
      let ch ← getChild (.node k v b l r) (childIndex c)
      let cb ← getBalance ch
      if cb = 0 then do
        let cur ← rotate c (.node k v b l r)
        let cur ← setBalance cur (int8 (-c))
        pure (cur, false)
      else do
        let cur ← if cb = c then singleRotate c (.node k v b l r)
                  else doubleRotate c (.node k v b l r)
        pure (cur, true)

/-- `removeMin(target, minKey, minValue)`: splices the leftmost node out of the subtree
and hands back its key and value. -/
def removeMin : Node K V → Option (Node K V × K × V × Bool)
  | .nil => none
  | .node k v b l r =>
    match l with
    | .nil => some (r, k, v, true)
    | .node .. =>
      match removeMin l with
      | none => none
      | some (l', mk, mv, f) => some (.node k v b l' r, mk, mv, f)

/-- `Tree.remove(key, target)`. -/
def remove (cmp : K → K → Int) (key : K) :
    Node K V → Int → Option (Node K V × Int × Bool)
  | .nil, size => some (.nil, size, false)
  | .node k v b l r, size =>
    let c := cmp key k
    if c = 0 then
      match r with
      | .nil => some (l, size - 1, true)
      | .node .. =>
        match removeMin r with
        | none => none
        | some (r', mk, mv, f) => some (.node mk mv b l r', size - 1, f)
    else if c < 0 then
      match remove cmp key l size with
      | none => none
      | some (l', size', fix) =>
        if fix then
          (removeFix (int8 (-c)) (.node k v b l' r)).map fun p => (p.1, size', p.2)
        else some (.node k v b l' r, size', false)
    else
      match remove cmp key r size with
      | none => none
      | some (r', size', fix) =>
        if fix then
          (removeFix (int8 (-c)) (.node k v b l r')).map fun p => (p.1, size', p.2)
        else some (.node k v b l r', size', false)

/-- `Tree.Remove(key)`. -/
def Tree.Remove (t : Tree K V) (key : K) : Option (Tree K V) :=
  (remove t.Comparator key t.Root t.size).map fun p =>
    { t with Root := p.1, size := p.2.1 }

/-! ## Specification vocabulary -/

/-- Height of a subtree (number of nodes on the longest downward path). -/
def height : Node K V → Int
  | .nil => 0
  | .node _ _ _ l r => max (height l) (height r) + 1

/-- The AVL balance property: at every node the tag is in `{-1, 0, 1}` and equals
`height(right) - height(left)`. -/
def Balanced : Node K V → Prop
  | .nil => True
  | .node _ _ b l r =>
    (b = -1 ∨ b = 0 ∨ b = 1) ∧ b = height r - height l ∧ Balanced l ∧ Balanced r

/-- In-order list of the entries of a subtree. -/
def toList : Node K V → List (K × V)
  | .nil => []
  | .node k v _ l r => toList l ++ (k, v) :: toList r

/-- In-order list of the keys. -/
def keys (t : Node K V) : List K := (toList t).map Prod.fst

/-- Binary-search-tree ordering: the in-order key sequence is strictly ascending. -/
def Ordered [LinearOrder K] (t : Node K V) : Prop := (keys t).Sorted (· < ·)

/-- Run a sequence of `Put`s. -/
def putAll (t : Tree K V) : List (K × V) → Option (Tree K V)
  | [] => some t
  | (k, v) :: ops => (t.Put k v).bind fun t' => putAll t' ops


/-- The in-order entry list that `put` produces, read off the descent alone. -/
def putList (cmp : K → K → Int) (key : K) (value : V) : Node K V → List (K × V)
  | .nil => [(key, value)]
  | .node k v _ l r =>
    if cmp key k = 0 then toList l ++ (key, value) :: toList r
    else if cmp key k < 0 then putList cmp key value l ++ (k, v) :: toList r
    else toList l ++ (k, v) :: putList cmp key value r

/-- Insertion into a key-sorted association list. -/
def insertL [LinearOrder K] (key : K) (value : V) (L : List (K × V)) : List (K × V) :=
  L.filter (fun e => e.1 < key) ++ (key, value) :: L.filter (fun e => key < e.1)

/-- The shape of a subtree and its balance tags, with the keys and values forgotten. -/
def skeleton : Node K V → Node Unit Unit
  | .nil => .nil
  | .node _ _ b l r => .node () () b (skeleton l) (skeleton r)

/-! ## Cursors and the iterator (`avltree.go`, `iterator.go`) -/

/-- One link of a `Parent` chain: the parent's own fields, the child slot in which the node
below hangs (`true` for `Children[1]`) and the parent's other subtree. -/
structure Frame (K V : Type) where
  slot : Bool
  Key : K
  Value : V
  balance : Int
  other : Node K V

/-- The index of a child slot. -/
def slotIndex (s : Bool) : Int := if s then 1 else 0

/-- The parent node of a frame, with the node below put back into its slot. -/
def Frame.fill (f : Frame K V) (n : Node K V) : Node K V :=
  if f.slot then .node f.Key f.Value f.balance f.other n
  else .node f.Key f.Value f.balance n f.other

/-- A non-nil node pointer into the live tree: the subtree hanging at the node and the
chain of `Parent` references above it. A nil pointer is `none : Option (Cursor K V)`. -/
structure Cursor (K V : Type) where
  node : Node K V
  up : List (Frame K V)

/-- The loop `for child.Children[e] != nil { child = child.Children[e] }`, started at a
non-nil node. -/
def descend (e : Int) : Node K V → List (Frame K V) → Option (Cursor K V)
  | .nil, _ => none
  | .node k v b l r, up =>
    if e = 0 then
      match l with
      | .nil => some ⟨.node k v b .nil r, up⟩
      | .node .. => descend e l (⟨false, k, v, b, r⟩ :: up)
    else if e = 1 then
      match r with
      | .nil => some ⟨.node k v b l .nil, up⟩
      | .node .. => descend e r (⟨true, k, v, b, l⟩ :: up)
    else none

/-- The loop `for parent != nil && parent.Children[d] == cur { cur = parent; parent = parent.Parent }`
followed by `return parent`. -/
def climb (d : Int) : Node K V → List (Frame K V) → Option (Cursor K V)
  | _, [] => none
  | cur, f :: fs =>
    if slotIndex f.slot = d then climb d (f.fill cur) fs else some ⟨f.fill cur, fs⟩

/-- `Tree.bottom(d)`; the outer `Option` is a panic, the inner one the nil pointer. -/
def Tree.bottom (t : Tree K V) (d : Int) : Option (Option (Cursor K V)) :=
  match t.Root with
  | .nil => some none
  | .node k v b l r => (descend d (.node k v b l r) []).map some

/-- `Tree.Left()`. -/
def Tree.Left (t : Tree K V) : Option (Option (Cursor K V)) := t.bottom 0

/-- `Tree.Right()`. -/
def Tree.Right (t : Tree K V) : Option (Option (Cursor K V)) := t.bottom 1

/-- `Node.walk(d)`; the outer `Option` is a panic, the inner one the nil pointer. -/
def walk (d : Int) (n : Option (Cursor K V)) : Option (Option (Cursor K V)) :=
  match n with
  | none => some none
  | some cur =>
    match cur.node with
    | .nil => none
    | .node k v b l r =>
      if d = 0 then
        match l with
        | .nil => some (climb d cur.node cur.up)
        | .node .. => (descend (xor1 d) l (⟨false, k, v, b, r⟩ :: cur.up)).map some
      else if d = 1 then
        match r with
        | .nil => some (climb d cur.node cur.up)
        | .node .. => (descend (xor1 d) r (⟨true, k, v, b, l⟩ :: cur.up)).map some
      else none

/-- `Node.Next()`. -/
def Next (n : Option (Cursor K V)) : Option (Option (Cursor K V)) := walk 1 n

/-- `Node.Prev()`. -/
def Prev (n : Option (Cursor K V)) : Option (Option (Cursor K V)) := walk 0 n

/-- The iterator positions `begin`, `between`, `end`. -/
inductive Position where
  | begin | between | atEnd
  deriving DecidableEq, Repr

/-- The iterator of `iterator.go`. -/
structure Iterator (K V : Type) where
  tree : Tree K V
  node : Option (Cursor K V)
  position : Position

/-- `Tree.Iterator()`. -/
def Tree.Iterator (t : Tree K V) : Iterator K V :=
  { tree := t, node := none, position := .begin }

/-- `Iterator.Next()`: the moved iterator and the returned flag. -/
def Iterator.Next (it : Iterator K V) : Option (Iterator K V × Bool) := do
  let it ← match it.position with
    | .begin => do
      let n ← it.tree.Left
      pure { it with node := n, position := Position.between }
    | .between => do
      let n ← avltree.Next it.node
      pure { it with node := n }
    | .atEnd => pure it
  match it.node with
  | none => pure ({ it with position := Position.atEnd }, false)
  | some _ => pure (it, true)

/-- `Iterator.Key()`; `none` is the nil interface value. -/
def Iterator.Key (it : Iterator K V) : Option K :=
  match it.node with
  | none => none
  | some cur =>
    match cur.node with
    | .nil => none
    | .node k _ _ _ _ => some k

/-- The loop `for it.Next() { keys = append(keys, it.Key()) }` with a bound on the number
of iterations; `none` when the bound is reached before `Next` answers false. -/
def keysLoop : Nat → Iterator K V → List (Option K) → Option (List (Option K))
  | 0, _, _ => none
  | n + 1, it, acc =>
    match it.Next with
    | none => none
    | some (it', true) => keysLoop n it' (acc ++ [it'.Key])
    | some (_, false) => some acc

/-- `Tree.Keys()`, with the iteration bound `fuel`. -/
def Tree.Keys (t : Tree K V) (fuel : Nat) : Option (List (Option K)) :=
  keysLoop fuel t.Iterator []

/-- The keys that follow a node in in-order, read off its `Parent` chain: each ancestor
reached from its left slot contributes its key and its right subtree. -/
def upAfter : List (Frame K V) → List K
  | [] => []
  | f :: fs => if f.slot then upAfter fs else f.Key :: (keys f.other ++ upAfter fs)

/-- The in-order key sequence from a node pointer onward (empty for the nil pointer). -/
def seqFrom : Option (Cursor K V) → List K
  | none => []
  | some cur =>
    match cur.node with
    | .nil => []
    | .node k _ _ _ r => k :: (keys r ++ upAfter cur.up)

/-! ## Backward iteration (`iterator.go`) -/

/-- `Iterator.Prev()`: the moved iterator and the returned flag. -/
def Iterator.Prev (it : Iterator K V) : Option (Iterator K V × Bool) := do
  let it ← match it.position with
    | .atEnd => do
      let n ← it.tree.Right
      pure { it with node := n, position := Position.between }
    | .between => do
      let n ← avltree.Prev it.node
      pure { it with node := n }
    | .begin => pure it
  match it.node with
  | none => pure ({ it with position := Position.begin }, false)
  | some _ => pure (it, true)

/-- `Iterator.Begin()`. -/
def Iterator.Begin (it : Iterator K V) : Iterator K V :=
  { it with node := none, position := Position.begin }

/-- `Iterator.End()`. -/
def Iterator.End (it : Iterator K V) : Iterator K V :=
  { it with node := none, position := Position.atEnd }

/-- The loop `for it.Next() {}` with a bound on the number of iterations: the iterator once
`Next` has answered false. -/
def drain : Nat → Iterator K V → Option (Iterator K V)
  | 0, _ => none
  | n + 1, it =>
    match it.Next with
    | none => none
    | some (it', true) => drain n it'
    | some (it', false) => some it'

/-- The loop `for it.Prev() { keys = append(keys, it.Key()) }` with a bound on the number
of iterations; `none` when the bound is reached before `Prev` answers false. -/
def prevLoop : Nat → Iterator K V → List (Option K) → Option (List (Option K))
  | 0, _, _ => none
  | n + 1, it, acc =>
    match it.Prev with
    | none => none
    | some (it', true) => prevLoop n it' (acc ++ [it'.Key])
    | some (_, false) => some acc

/-- The keys that precede a node in in-order, nearest first, read off its `Parent` chain:
each ancestor reached from its right slot contributes its key and its left subtree. -/
def upBefore : List (Frame K V) → List K
  | [] => []
  | f :: fs => if f.slot then f.Key :: ((keys f.other).reverse ++ upBefore fs) else upBefore fs

/-- The in-order key sequence from a node pointer backward (empty for the nil pointer). -/
def seqBack : Option (Cursor K V) → List K
  | none => []
  | some cur =>
    match cur.node with
    | .nil => []
    | .node k _ _ l _ => k :: ((keys l).reverse ++ upBefore cur.up)

/-! ## Floor and ceiling (`avltree.go`) -/

/-- The loop of `Tree.Floor(key)`: `floor` is the candidate found so far (`none` while
`found` is false). -/
def floorLoop (cmp : K → K → Int) (key : K) : Node K V → Option (Node K V) → Option (Node K V)
  | .nil, floor => floor
  | .node k v b l r, floor =>
    let c := cmp key k
    if c < 0 then floorLoop cmp key l floor
    else if c > 0 then floorLoop cmp key r (some (.node k v b l r))
    else some (.node k v b l r)

/-- `Tree.Floor(key)`: `some n` is `(n, true)`, `none` is `(nil, false)`. -/
def Tree.Floor (t : Tree K V) (key : K) : Option (Node K V) :=
  floorLoop t.Comparator key t.Root none

/-- The loop of `Tree.Ceiling(key)`. -/
def ceilingLoop (cmp : K → K → Int) (key : K) :
    Node K V → Option (Node K V) → Option (Node K V)
  | .nil, ceiling => ceiling
  | .node k v b l r, ceiling =>
    let c := cmp key k
    if c < 0 then ceilingLoop cmp key l (some (.node k v b l r))
    else if c > 0 then ceilingLoop cmp key r ceiling
    else some (.node k v b l r)

/-- `Tree.Ceiling(key)`: `some n` is `(n, true)`, `none` is `(nil, false)`. -/
def Tree.Ceiling (t : Tree K V) (key : K) : Option (Node K V) :=
  ceilingLoop t.Comparator key t.Root none

/-! ## Runs of operations -/

/-- One call of a run: `Put(key, value)` or `Remove(key)`. -/
inductive Op (K V : Type) where
  | put (key : K) (value : V) : Op K V
  | remove (key : K) : Op K V

/-- The tree after one call; `none` is a panic. -/
def Tree.apply (t : Tree K V) : Op K V → Option (Tree K V)
  | .put k v => t.Put k v
  | .remove k => t.Remove k

/-- The tree after a sequence of calls. -/
def runOps (t : Tree K V) : List (Op K V) → Option (Tree K V)
  | [] => some t
  | op :: ops => (t.apply op).bind fun t' => runOps t' ops

/-- The balance tags stored in a subtree, in in-order. -/
def tags : Node K V → List Int
  | .nil => []
  | .node _ _ b l r => tags l ++ b :: tags r

/-- The number of nodes of a subtree. -/
def count : Node K V → Int
  | .nil => 0
  | .node _ _ _ l r => count l + 1 + count r

end avltree

namespace btree

/-! ## Data model (`btree.go`) -/

/-- A key/value pair. -/
structure Entry (K V : Type) where
  Key : K
  Value : V
  deriving DecidableEq, Repr

/-- A B-tree node: its entries and its children (no children: a leaf). -/
inductive Node (K V : Type) where
  | mk (Entries : List (Entry K V)) (Children : List (Node K V)) : Node K V
  deriving Repr

/-- The tree header: root pointer (`none` is nil), comparator, count and order. -/
structure Tree (K V : Type) where
  Root : Option (Node K V)
  Comparator : K → K → Int
  size : Int
  m : Int

variable {K V : Type}

/-- The field `Entries`. -/
def Node.Entries : Node K V → List (Entry K V)
  | .mk es _ => es

/-- The field `Children`. -/
def Node.Children : Node K V → List (Node K V)
  | .mk _ cs => cs

/-- One link of a `Parent` chain: the parent node and the position, in its `Children`, of
the node below. The copy of the node below kept inside `node` is refreshed whenever the
parent is reached through the link. -/
structure Frame (K V : Type) where
  node : Node K V
  index : Int

/-! ## Slices with the bounds checks of Go -/

/-- Read `l[i]`. -/
@[noinline] def getIdx {α : Type} (l : List α) (i : Int) : Option α :=
  if i < 0 then none else l[i.toNat]?

/-- Write `l[i] = x`. -/
@[noinline] def setIdx {α : Type} (l : List α) (i : Int) (x : α) : Option (List α) :=
  if 0 ≤ i ∧ i < l.length then some (l.set i.toNat x) else none

/-- Read `l[:i]` (for `i` up to the length). -/
@[noinline] def sliceTo {α : Type} (l : List α) (i : Int) : Option (List α) :=
  if 0 ≤ i ∧ i ≤ l.length then some (l.take i.toNat) else none

/-- Read `l[i:]`. -/
@[noinline] def sliceFrom {α : Type} (l : List α) (i : Int) : Option (List α) :=
  if 0 ≤ i ∧ i ≤ l.length then some (l.drop i.toNat) else none

/-- The idiom `l = append(l, nil); copy(l[i+1:], l[i:]); l[i] = x`. -/
@[noinline] def insertIdx {α : Type} (l : List α) (i : Int) (x : α) : Option (List α) :=
  if 0 ≤ i ∧ i ≤ l.length then some (l.take i.toNat ++ x :: l.drop i.toNat) else none

/-- The idiom `copy(l[i:], l[i+1:]); l[len(l)-1] = nil; l = l[:len(l)-1]`. -/
@[noinline] def deleteIdx {α : Type} (l : List α) (i : Int) : Option (List α) :=
  if 0 ≤ i ∧ i < l.length then some (l.take i.toNat ++ l.drop (i.toNat + 1)) else none

/-- A write through the pointer stored at `l[i]`: the element is read, changed and put back. -/
@[noinline] def updateIdx {α : Type} (l : List α) (i : Int) (f : α → Option α) : Option (List α) :=
  match getIdx l i with
  | none => none
  | some x =>
    match f x with
    | none => none
    | some y => setIdx l i y

/-- `NewWith(order, comparator)`; `none` is the panic on an order below 3. -/
def NewWith (order : Int) (comparator : K → K → Int) : Option (Tree K V) :=
  if order < 3 then none
  else some { Root := none, Comparator := comparator, size := 0, m := order }

/-- `Tree.Empty()`. -/
def Tree.Empty (t : Tree K V) : Bool := t.size == 0

/-- `Tree.Size()`. -/
def Tree.Size (t : Tree K V) : Int := t.size

/-- `Tree.maxChildren()`. -/
def maxChildren (m : Int) : Int := m

/-- `Tree.minChildren()`, computed in unbounded integers. The 64-bit computation of the Go
code is `minChildren64`; the two agree for every order below `2^63 - 1`, the one order at
which `t.m + 1` wraps. -/
def minChildren (m : Int) : Int := Int.tdiv (m + 1) 2

/-- `Tree.maxEntries()`. -/
def maxEntries (m : Int) : Int := maxChildren m - 1

/-- `Tree.minEntries()`, computed in unbounded integers (see `minChildren`). -/
def minEntries (m : Int) : Int := minChildren m - 1

/-- `Tree.middle()`. -/
def middle (m : Int) : Int := Int.tdiv (m - 1) 2

/-- `Tree.isLeaf(node)`. -/
def isLeaf (node : Node K V) : Bool := node.Children.length == 0

/-- `Tree.shouldSplit(node)`. -/
def shouldSplit (m : Int) (node : Node K V) : Bool := decide ((node.Entries.length : Int) > maxEntries m)

/-! ## Search -/

/-- The loop of `Tree.search`; the first argument bounds the number of iterations. -/
def searchLoop (cmp : K → K → Int) (entries : List (Entry K V)) (key : K) :
    Nat → Int → Int → Option (Int × Bool)
  | 0, low, high => if low ≤ high then none else some (low, false)
  | n + 1, low, high =>
    if low ≤ high then
      let mid := Int.tdiv (low + high) 2
      match getIdx entries mid with
      | none => none
      | some e =>
        let compare := cmp key e.Key
        if compare > 0 then searchLoop cmp entries key n (mid + 1) high
        else if compare < 0 then searchLoop cmp entries key n low (mid - 1)
        else some (mid, true)
    else some (low, false)

/-- `Tree.search(node, key)`: binary search among the entries of one node. Each iteration
shrinks `high - low`, so `len(node.Entries)` iterations are enough. -/
def search (cmp : K → K → Int) (node : Node K V) (key : K) : Option (Int × Bool) :=
  searchLoop cmp node.Entries key node.Entries.length 0 ((node.Entries.length : Int) - 1)

/-! ## Moving along `Parent` references -/

/-- The parent node of a link, with the node below written back at its position. -/
def Frame.fill (f : Frame K V) (n : Node K V) : Option (Node K V) :=
  (setIdx f.node.Children f.index n).map fun cs => .mk f.node.Entries cs

/-- The root of the tree in which the node `n` sits below the chain `path`. -/
def plug : Node K V → List (Frame K V) → Option (Node K V)
  | n, [] => some n
  | n, f :: rest => (f.fill n).bind fun p => plug p rest

/-! ## Insertion -/

/-- `Tree.splitRoot(node)`: returns the new root. -/
def splitRoot (m : Int) (root : Node K V) : Option (Node K V) := do
  let mid := middle m
  let le ← sliceTo root.Entries mid
  let re ← sliceFrom root.Entries (mid + 1)
  let (lc, rc) ←
    if !isLeaf root then do
      let lc ← sliceTo root.Children (mid + 1)
      let rc ← sliceFrom root.Children (mid + 1)
      pure (lc, rc)
    else pure ([], [])
  let e ← getIdx root.Entries mid
  pure (.mk [e] [.mk le lc, .mk re rc])

/-- The body of `Tree.splitNonRoot(node)` up to the recursive call: returns the parent
with the middle entry and the two halves of `node` inserted. -/
def splitNonRoot (m : Int) (cmp : K → K → Int) (node parent : Node K V) :
    Option (Node K V) := do
  let mid := middle m
  let le ← sliceTo node.Entries mid
  let re ← sliceFrom node.Entries (mid + 1)
  let (lc, rc) ←
    if !isLeaf node then do
      let lc ← sliceTo node.Children (mid + 1)
      let rc ← sliceFrom node.Children (mid + 1)
      pure (lc, rc)
    else pure ([], [])
  let e ← getIdx node.Entries mid
  let (insertPosition, _) ← search cmp parent e.Key
  let pes ← insertIdx parent.Entries insertPosition e
  let pcs ← setIdx parent.Children insertPosition (.mk le lc)
  let pcs ← insertIdx pcs (insertPosition + 1) (.mk re rc)
  pure (.mk pes pcs)

/-- `Tree.split(node)`: walks up the parent chain while nodes overflow; returns the root. -/
def split (m : Int) (cmp : K → K → Int) : Node K V → List (Frame K V) → Option (Node K V)
  | node, [] => if shouldSplit m node then splitRoot m node else some node
  | node, f :: rest =>
    if shouldSplit m node then
      match f.fill node with
      | none => none
      | some parent =>
        match splitNonRoot m cmp node parent with
        | none => none
        | some parent' => split m cmp parent' rest
    else plug node (f :: rest)

/-- `Tree.insertIntoLeaf(node, entry)`: returns the root and the flag. -/
def insertIntoLeaf (m : Int) (cmp : K → K → Int) (node : Node K V) (path : List (Frame K V))
    (entry : Entry K V) : Option (Node K V × Bool) := do
  let (insertPosition, found) ← search cmp node entry.Key
  if found then do
    let es ← setIdx node.Entries insertPosition entry
    let root ← plug (.mk es node.Children) path
    pure (root, false)
  else do
    let es ← insertIdx node.Entries insertPosition entry
    let root ← split m cmp (.mk es node.Children) path
    pure (root, true)

mutual
/-- `Tree.insert(node, entry)` with `Tree.insertIntoInternal`: returns the root and the flag. -/
def insert (m : Int) (cmp : K → K → Int) :
    Node K V → List (Frame K V) → Entry K V → Option (Node K V × Bool)
  | .mk es cs, path, entry =>
    if isLeaf (.mk es cs) then insertIntoLeaf m cmp (.mk es cs) path entry
    else
      match search cmp (.mk es cs) entry.Key with
      | none => none
      | some (insertPosition, found) =>
        if found then
          match setIdx es insertPosition entry with
          | none => none
          | some es' => (plug (.mk es' cs) path).map fun root => (root, false)
        else if insertPosition < 0 then none
        else insertChild m cmp cs insertPosition.toNat
          (⟨.mk es cs, insertPosition⟩ :: path) entry
/-- The call `t.insert(node.Children[insertPosition], entry)`: the list is what is left of
`node.Children`, the number what is left of the position. -/
def insertChild (m : Int) (cmp : K → K → Int) :
    List (Node K V) → Nat → List (Frame K V) → Entry K V → Option (Node K V × Bool)
  | [], _, _, _ => none
  | c :: _, 0, path, entry => insert m cmp c path entry
  | _ :: cs, i + 1, path, entry => insertChild m cmp cs i path entry
end

/-- `Tree.Put(key, value)`. -/
def Tree.Put (t : Tree K V) (key : K) (value : V) : Option (Tree K V) :=
  let entry : Entry K V := ⟨key, value⟩
  match t.Root with
  | none => some { t with Root := some (.mk [entry] []), size := t.size + 1 }
  | some root =>
    match insert t.m t.Comparator root [] entry with
    | none => none
    | some (root', inserted) =>
      some { t with Root := some root', size := if inserted then t.size + 1 else t.size }

/-! ## Lookup -/

mutual
/-- The loop of `Tree.searchRecursively`: the node found with its parent chain and the
index of the entry, or `none` inside when the key is absent. -/
def searchNode (cmp : K → K → Int) (key : K) :
    Node K V → List (Frame K V) → Option (Option (Node K V × List (Frame K V) × Int))
  | .mk es cs, path =>
    match search cmp (.mk es cs) key with
    | none => none
    | some (index, found) =>
      if found then some (some (.mk es cs, path, index))
      else if isLeaf (.mk es cs) then some none
      else if index < 0 then none
      else searchChild cmp key cs index.toNat (⟨.mk es cs, index⟩ :: path)
/-- The step `node = node.Children[index]` of the loop. -/
def searchChild (cmp : K → K → Int) (key : K) :
    List (Node K V) → Nat → List (Frame K V) →
      Option (Option (Node K V × List (Frame K V) × Int))
  | [], _, _ => none
  | c :: _, 0, path => searchNode cmp key c path
  | _ :: cs, i + 1, path => searchChild cmp key cs i path
end

/-- `Tree.searchRecursively(t.Root, key)`. -/
def Tree.searchRecursively (t : Tree K V) (key : K) :
    Option (Option (Node K V × List (Frame K V) × Int)) :=
  if t.Empty then some none
  else
    match t.Root with
    | none => none
    | some root => searchNode t.Comparator key root []

/-- `Tree.Get(key)`: the outer `Option` is a panic, `some (some v)` is `(v, true)` and
`some none` is `(nil, false)`. -/
def Tree.Get (t : Tree K V) (key : K) : Option (Option V) :=
  match t.searchRecursively key with
  | none => none
  | some none => some none
  | some (some (node, _, index)) => (getIdx node.Entries index).map fun e => some e.Value

/-! ## Removal -/

mutual
/-- The loop of `Tree.right(n)`: the rightmost leaf below `n` with its parent chain. (The
test `t.Empty()` in front of the loop is false wherever `delete` runs.) -/
def rightLeaf : Node K V → List (Frame K V) → Option (Node K V × List (Frame K V))
  | .mk es cs, path =>
    if isLeaf (.mk es cs) then some (.mk es cs, path)
    else rightLeafChild cs (⟨.mk es cs, (cs.length : Int) - 1⟩ :: path)
/-- The step `current = current.Children[len(current.Children)-1]`. -/
def rightLeafChild : List (Node K V) → List (Frame K V) →
    Option (Node K V × List (Frame K V))
  | [], _ => none
  | [c], path => rightLeaf c path
  | _ :: c :: cs, path => rightLeafChild (c :: cs) path
end

/-- `Tree.leftSibling(node, key)` for a node whose parent is `parent`: the index of the
sibling, or `none` for `(nil, -1)`. -/
def leftSibling (cmp : K → K → Int) (parent : Node K V) (key : K) : Option (Option Int) := do
  let (index, _) ← search cmp parent key
  let index := index - 1
  if index ≥ 0 ∧ index < parent.Children.length then pure (some index) else pure none

/-- `Tree.rightSibling(node, key)` for a node whose parent is `parent`. -/
def rightSibling (cmp : K → K → Int) (parent : Node K V) (key : K) : Option (Option Int) := do
  let (index, _) ← search cmp parent key
  let index := index + 1
  if index < parent.Children.length then pure (some index) else pure none

/-- `Tree.deleteEntry(node, index)`. -/
def deleteEntry (node : Node K V) (index : Int) : Option (Node K V) :=
  (deleteIdx node.Entries index).map fun es => .mk es node.Children

/-- `Tree.deleteChild(node, index)`. -/
def deleteChild (node : Node K V) (index : Int) : Option (Node K V) :=
  if index ≥ node.Children.length then some node
  else (deleteIdx node.Children index).map fun cs => .mk node.Entries cs

/-- The outcome of one round of `Tree.rebalance` below a parent. -/
inductive Step (K V : Type) where
  | done (parent : Node K V) : Step K V
  | merged (node parent : Node K V) (deletedKey : K) : Step K V

/-- The test `sibling != nil && len(sibling.Entries) > t.minEntries()` for the sibling at
the given position of the parent's children. -/
def canLend (m : Int) (pcs : List (Node K V)) (sibling : Option Int) : Option Bool :=
  match sibling with
  | none => some false
  | some si => (getIdx pcs si).map fun s => decide ((s.Entries.length : Int) > minEntries m)

/-- Second half of the borrow from the left sibling: when the sibling is not a leaf its
rightmost child becomes the first child of the node. -/
def borrowLeftChild (parent : Node K V) (i li : Int) : Option (Node K V) := do
  let l ← getIdx parent.Children li
  if isLeaf l then pure parent
  else do
    let c ← getIdx l.Children ((l.Children.length : Int) - 1)
    let pcs ← updateIdx parent.Children i fun node => some (.mk node.Entries (c :: node.Children))
    let pcs ← updateIdx pcs li fun l => deleteChild l ((l.Children.length : Int) - 1)
    pure (.mk parent.Entries pcs)

/-- The borrow from the left sibling at position `li`, for the node at position `i`: the
separator comes down in front of the node's entries, the last entry of the sibling goes
up in its place. -/
def borrowLeft (parent : Node K V) (i li : Int) : Option (Node K V) := do
  let sep ← getIdx parent.Entries li
  let pcs ← updateIdx parent.Children i fun node => some (.mk (sep :: node.Entries) node.Children)
  let l ← getIdx pcs li
  let last ← getIdx l.Entries ((l.Entries.length : Int) - 1)
  let pes ← setIdx parent.Entries li last
  let pcs ← updateIdx pcs li fun l => deleteEntry l ((l.Entries.length : Int) - 1)
  borrowLeftChild (.mk pes pcs) i li

/-- Second half of the borrow from the right sibling: when the sibling is not a leaf its
leftmost child becomes the last child of the node. -/
def borrowRightChild (parent : Node K V) (i ri : Int) : Option (Node K V) := do
  let r ← getIdx parent.Children ri
  if isLeaf r then pure parent
  else do
    let c ← getIdx r.Children 0
    let pcs ← updateIdx parent.Children i fun node => some (.mk node.Entries (node.Children ++ [c]))
    let pcs ← updateIdx pcs ri fun r => deleteChild r 0
    pure (.mk parent.Entries pcs)

/-- The borrow from the right sibling at position `ri`, for the node at position `i`. -/
def borrowRight (parent : Node K V) (i ri : Int) : Option (Node K V) := do
  let sep ← getIdx parent.Entries (ri - 1)
  let pcs ← updateIdx parent.Children i fun node => some (.mk (node.Entries ++ [sep]) node.Children)
  let r ← getIdx pcs ri
  let first ← getIdx r.Entries 0
  let pes ← setIdx parent.Entries (ri - 1) first
  let pcs ← updateIdx pcs ri fun r => deleteEntry r 0
  borrowRightChild (.mk pes pcs) i ri

/-- Second half of the merge with the right sibling: `appendChildren` and `deleteChild`. -/
def mergeRightChildren (parent : Node K V) (i ri : Int) (deletedKey : K) :
    Option (Node K V × Node K V × K) := do
  let r ← getIdx parent.Children ri
  let pcs ← updateIdx parent.Children i fun node => some (.mk node.Entries (node.Children ++ r.Children))
  let node ← getIdx pcs i
  let parent ← deleteChild (.mk parent.Entries pcs) ri
  pure (node, parent, deletedKey)

/-- The merge with the right sibling at position `ri`: the merged node, the parent and
the key of the separator taken out of the parent. -/
def mergeRight (parent : Node K V) (i ri : Int) : Option (Node K V × Node K V × K) := do
  let sep ← getIdx parent.Entries (ri - 1)
  let pcs ← updateIdx parent.Children i fun node => some (.mk (node.Entries ++ [sep]) node.Children)
  let r ← getIdx pcs ri
  let pcs ← updateIdx pcs i fun node => some (.mk (node.Entries ++ r.Entries) node.Children)
  let parent ← deleteEntry (.mk parent.Entries pcs) (ri - 1)
  mergeRightChildren parent i ri sep.Key

/-- Second half of the merge with the left sibling: `prependChildren` and `deleteChild`. -/
def mergeLeftChildren (parent : Node K V) (i li : Int) (deletedKey : K) :
    Option (Node K V × Node K V × K) := do
  let l ← getIdx parent.Children li
  let pcs ← updateIdx parent.Children i fun node => some (.mk node.Entries (l.Children ++ node.Children))
  let node ← getIdx pcs i
  let parent ← deleteChild (.mk parent.Entries pcs) li
  pure (node, parent, deletedKey)

/-- The merge with the left sibling at position `li`. -/
def mergeLeft (parent : Node K V) (i li : Int) : Option (Node K V × Node K V × K) := do
  let l ← getIdx parent.Children li
  let sep ← getIdx parent.Entries li
  let pcs ← updateIdx parent.Children i fun node =>
    some (.mk (l.Entries ++ sep :: node.Entries) node.Children)
  let parent ← deleteEntry (.mk parent.Entries pcs) li
  mergeLeftChildren parent i li sep.Key

/-- One round of `Tree.rebalance(node, deletedKey)` for an underflowing node that sits at
position `i` of `parent`: borrow from the left sibling, else borrow from the right sibling,
else merge. Every statement reads and writes the nodes through their positions in
`parent.Children`. -/
def rebalanceStep (m : Int) (cmp : K → K → Int) (parent : Node K V) (i : Int)
    (deletedKey : K) : Option (Step K V) :=
  match leftSibling cmp parent deletedKey with
  | none => none
  | some left =>
    match canLend m parent.Children left, left with
    | none, _ => none
    | some true, some li => (borrowLeft parent i li).map Step.done
    | some true, none => none
    | some false, _ =>
      match rightSibling cmp parent deletedKey with
      | none => none
      | some right =>
        match canLend m parent.Children right, right with
        | none, _ => none
        | some true, some ri => (borrowRight parent i ri).map Step.done
        | some true, none => none
        | some false, some ri =>
          (mergeRight parent i ri).map fun r => Step.merged r.1 r.2.1 r.2.2
        | some false, none =>
          match left with
          | some li => (mergeLeft parent i li).map fun r => Step.merged r.1 r.2.1 r.2.2
          | none => (getIdx parent.Children i).map fun node => Step.merged node parent deletedKey

/-- `Tree.rebalance(node, deletedKey)`: walks up the parent chain; returns the root. A node
without parent has no siblings and is left as it is, whatever its size. -/
def rebalance (m : Int) (cmp : K → K → Int) :
    Node K V → List (Frame K V) → K → Option (Node K V)
  | node, [], _ => some node
  | node, f :: rest, deletedKey =>
    if (node.Entries.length : Int) ≥ minEntries m then plug node (f :: rest)
    else
      match f.fill node with
      | none => none
      | some parent =>
        match rebalanceStep m cmp parent f.index deletedKey with
        | none => none
        | some (.done parent') => plug parent' rest
        | some (.merged node' parent' deletedKey') =>
          match rest with
          | [] =>
            if parent'.Entries.length = 0 then some node'
            else rebalance m cmp parent' [] deletedKey'
          | g :: rest' => rebalance m cmp parent' (g :: rest') deletedKey'

/-- `Tree.delete(node, index)` for a leaf: returns the new root pointer. -/
def deleteLeaf (m : Int) (cmp : K → K → Int) (node : Node K V) (path : List (Frame K V))
    (index : Int) : Option (Option (Node K V)) := do
  let e ← getIdx node.Entries index
  let node ← deleteEntry node index
  let root ← rebalance m cmp node path e.Key
  if root.Entries.length = 0 then pure none else pure (some root)

/-- `Tree.delete(node, index)` for an internal node: the entry is overwritten with the
largest entry of the subtree to its left, which is then deleted from its leaf. -/
def deleteInternal (m : Int) (cmp : K → K → Int) (node : Node K V) (path : List (Frame K V))
    (index : Int) : Option (Option (Node K V)) := do
  let child ← getIdx node.Children index
  let (leaf, below) ← rightLeaf child []
  let leftLargestEntryIndex := (leaf.Entries.length : Int) - 1
  let e ← getIdx leaf.Entries leftLargestEntryIndex
  let es ← setIdx node.Entries index e
  let leaf ← deleteEntry leaf leftLargestEntryIndex
  let root ← rebalance m cmp leaf (below ++ ⟨.mk es node.Children, index⟩ :: path) e.Key
  pure (some root)

/-- `Tree.delete(node, index)`: returns the new root pointer. -/
def delete (m : Int) (cmp : K → K → Int) (node : Node K V) (path : List (Frame K V))
    (index : Int) : Option (Option (Node K V)) :=
  if isLeaf node then deleteLeaf m cmp node path index
  else deleteInternal m cmp node path index

/-- `Tree.Remove(key)`. -/
def Tree.Remove (t : Tree K V) (key : K) : Option (Tree K V) :=
  match t.searchRecursively key with
  | none => none
  | some none => some t
  | some (some (node, path, index)) =>
    match delete t.m t.Comparator node path index with
    | none => none
    | some root => some { t with Root := root, size := t.size - 1 }

/-- Run a sequence of `Put`s. -/
def putAll (t : Tree K V) : List (K × V) → Option (Tree K V)
  | [] => some t
  | (k, v) :: ops => (t.Put k v).bind fun t' => putAll t' ops

end btree

namespace btree
variable {K V : Type}

/-! ## Specification vocabulary for the B-tree -/

mutual
/-- In-order list of the entries of a subtree. -/
def flatten : Node K V → List (Entry K V)
  | .mk es cs => inter es cs
/-- Children and entries of one node in in-order: child, entry, child, entry, ..., child
(the entries alone for a leaf). -/
def inter : List (Entry K V) → List (Node K V) → List (Entry K V)
  | es, [] => es
  | es, c :: cs =>
    flatten c ++ (match es with
      | [] => inter [] cs
      | e :: es' => e :: inter es' cs)
end

/-- In-order list of child, entry, child, entry, ... for as many pairs as there are. -/
def flatCE : List (Node K V) → List (Entry K V) → List (Entry K V)
  | c :: cs, e :: es => flatten c ++ e :: flatCE cs es
  | _, _ => []

/-- In-order list of entry, child, entry, child, ... for as many pairs as there are. -/
def flatEC : List (Entry K V) → List (Node K V) → List (Entry K V)
  | e :: es, c :: cs => e :: (flatten c ++ flatEC es cs)
  | _, _ => []

/-- A subtree below the root: every node holds between `minEntries` and `maxEntries`
entries, an internal node has one child more than entries, and every leaf is `h` levels
below the top. -/
def WF (m : Int) : Nat → Node K V → Prop
  | 0, .mk es cs =>
    cs = [] ∧ minEntries m ≤ (es.length : Int) ∧ (es.length : Int) ≤ maxEntries m
  | h + 1, .mk es cs =>
    cs.length = es.length + 1 ∧ minEntries m ≤ (es.length : Int) ∧
      (es.length : Int) ≤ maxEntries m ∧ ∀ c ∈ cs, WF m h c

/-- As `WF`, with the bounds on the number of entries of the top node given apart (the
root, or a node caught between an update and its repair). -/
def Shape (m : Int) (lo hi : Int) (h : Nat) (n : Node K V) : Prop :=
  lo ≤ (n.Entries.length : Int) ∧ (n.Entries.length : Int) ≤ hi ∧
    match h with
    | 0 => n.Children = []
    | h' + 1 => n.Children.length = n.Entries.length + 1 ∧ ∀ c ∈ n.Children, WF m h' c

/-- The entries of a list ascend strictly by key. -/
def SortedE [LinearOrder K] (l : List (Entry K V)) : Prop :=
  l.Pairwise fun a b => a.Key < b.Key

/-- A parent chain above a hole at height `h`: every parent is well-formed apart from the
child at the hole, the topmost parent is the root. -/
inductive PathWF (m : Int) : Nat → List (Frame K V) → Prop where
  | nil (h : Nat) : PathWF m h []
  | cons {h : Nat} {ea eb : List (Entry K V)} {ca cb : List (Node K V)} {c0 : Node K V}
      {rest : List (Frame K V)} :
      ea.length = ca.length → eb.length = cb.length →
      (∀ c ∈ ca, WF m h c) → (∀ c ∈ cb, WF m h c) →
      ((ea ++ eb).length : Int) ≤ maxEntries m →
      (rest = [] → 1 ≤ (ea ++ eb).length) →
      (rest ≠ [] → minEntries m ≤ ((ea ++ eb).length : Int)) →
      PathWF m (h + 1) rest →
      PathWF m h (⟨.mk (ea ++ eb) (ca ++ c0 :: cb), (ca.length : Int)⟩ :: rest)

/-- The entries of one parent that precede the hole. -/
def Frame.before (f : Frame K V) : List (Entry K V) :=
  flatCE (f.node.Children.take f.index.toNat) (f.node.Entries.take f.index.toNat)

/-- The entries of one parent that follow the hole. -/
def Frame.after (f : Frame K V) : List (Entry K V) :=
  flatEC (f.node.Entries.drop f.index.toNat) (f.node.Children.drop (f.index.toNat + 1))

/-- All entries of the tree that precede the hole of a parent chain. -/
def ctxL : List (Frame K V) → List (Entry K V)
  | [] => []
  | f :: rest => ctxL rest ++ f.before

/-- All entries of the tree that follow the hole of a parent chain. -/
def ctxR : List (Frame K V) → List (Entry K V)
  | [] => []
  | f :: rest => f.after ++ ctxR rest

/-- The least number of entries of a node below the parent chain `path`: one for the root,
`minEntries` for every other node. -/
def loBound (m : Int) : List (Frame K V) → Int
  | [] => 1
  | _ :: _ => minEntries m

/-- Insertion of an entry into a key-sorted list of entries, replacing an entry of the
same key. -/
def insertE [LinearOrder K] (x : Entry K V) (L : List (Entry K V)) : List (Entry K V) :=
  L.filter (fun e => e.Key < x.Key) ++ x :: L.filter (fun e => x.Key < e.Key)

/-- The value stored under a key in a list of entries. -/
def lookupE [DecidableEq K] (key : K) (L : List (Entry K V)) : Option V :=
  (L.find? fun e => decide (e.Key = key)).map fun e => e.Value

/-- The entries of the parent on top of a chain bracket the key: those before the hole are
below it, those after the hole are not below it. -/
def LocTop [LinearOrder K] (key : K) : List (Frame K V) → Prop
  | [] => True
  | f :: _ =>
    (∀ e ∈ f.node.Entries.take f.index.toNat, e.Key < key) ∧
      (∀ e ∈ f.node.Entries.drop f.index.toNat, key ≤ e.Key)

/-- The in-order entries of a tree (none for the empty tree). -/
def Tree.entries (t : Tree K V) : List (Entry K V) :=
  match t.Root with
  | none => []
  | some r => flatten r

/-- The invariant of a B-tree: order at least 3, a root with at least one and at most
`maxEntries` entries over well-formed subtrees, keys in strictly ascending in-order, and a
count equal to the number of entries. -/
def Tree.Inv [LinearOrder K] (t : Tree K V) : Prop :=
  3 ≤ t.m ∧ t.size = (t.entries.length : Int) ∧
    match t.Root with
    | none => True
    | some r => (∃ h, Shape t.m 1 (maxEntries t.m) h r) ∧ SortedE (flatten r)

end btree

namespace btree
variable {K V : Type}

/-! ## Runs of operations and the properties the tree is meant to keep -/

/-- One call of a run: `Put(key, value)` or `Remove(key)`. -/
inductive Op (K V : Type) where
  | put (key : K) (value : V) : Op K V
  | remove (key : K) : Op K V

/-- The tree after one call; `none` is a panic. -/
def Tree.apply (t : Tree K V) : Op K V → Option (Tree K V)
  | .put k v => t.Put k v
  | .remove k => t.Remove k

/-- The tree after a sequence of calls. -/
def runOps (t : Tree K V) : List (Op K V) → Option (Tree K V)
  | [] => some t
  | op :: ops => (t.apply op).bind fun t' => runOps t' ops

mutual
/-- Every node of the subtree holds between `minEntries` and `maxEntries` entries. -/
def boundedNodes (m : Int) : Node K V → Prop
  | .mk es cs =>
    minEntries m ≤ (es.length : Int) ∧ (es.length : Int) ≤ maxEntries m ∧ boundedNodesL m cs
/-- Every node of every subtree of the list is within the bounds. -/
def boundedNodesL (m : Int) : List (Node K V) → Prop
  | [] => True
  | c :: cs => boundedNodes m c ∧ boundedNodesL m cs
end

mutual
/-- The depths of the leaves of a subtree, from left to right. -/
def leafDepths : Node K V → List Nat
  | .mk _ cs => if cs.isEmpty then [0] else (leafDepthsL cs).map (· + 1)
/-- The depths of the leaves of a list of subtrees. -/
def leafDepthsL : List (Node K V) → List Nat
  | [] => []
  | c :: cs => leafDepths c ++ leafDepthsL cs
end

/-- The fanout property: no node holds more than `maxEntries` entries, every node but the
root holds at least `minEntries`, and all leaves are at the same depth. -/
def Fanout (t : Tree K V) : Prop :=
  match t.Root with
  | none => True
  | some r =>
    (r.Entries.length : Int) ≤ maxEntries t.m ∧ boundedNodesL t.m r.Children ∧
      ∃ d, ∀ x ∈ leafDepths r, x = d

mutual
/-- The search-tree shape of a subtree: in every node the entries ascend strictly under the
comparator, there are no children or one more than entries, and the keys below child `i`
lie strictly between entry `i - 1` and entry `i`. -/
def searchShape (cmp : K → K → Int) : Node K V → Prop
  | .mk es cs =>
    es.Pairwise (fun a b => cmp a.Key b.Key < 0) ∧
      (cs.length = 0 ∨ cs.length = es.length + 1) ∧
      (∀ i c, cs[i]? = some c → ∀ x ∈ flatten c,
        (∀ e, es[i]? = some e → cmp x.Key e.Key < 0) ∧
        (∀ j e, j + 1 = i → es[j]? = some e → cmp e.Key x.Key < 0)) ∧
      searchShapeL cmp cs
/-- The search-tree shape of every subtree of a list. -/
def searchShapeL (cmp : K → K → Int) : List (Node K V) → Prop
  | [] => True
  | c :: cs => searchShape cmp c ∧ searchShapeL cmp cs
end

mutual
/-- The subtree with the values forgotten: its nodes, keys and links. -/
def keysOnly : Node K V → Node K Unit
  | .mk es cs => .mk (es.map fun e => ⟨e.Key, ()⟩) (keysOnlyL cs)
/-- The subtrees of a list with the values forgotten. -/
def keysOnlyL : List (Node K V) → List (Node K Unit)
  | [] => []
  | c :: cs => keysOnly c :: keysOnlyL cs
end

end btree

namespace btree
variable {K V : Type}

/-! ## The iterator (`iterator.go`) -/

/-- A non-nil node pointer into the tree: the node and the chain of `Parent` references
above it, each link holding the parent node and the position of the child in it. -/
structure Cursor (K V : Type) where
  node : Node K V
  up : List (Frame K V)

mutual
/-- The loop of `Tree.left(n)`, which is also the loop
`for len(it.node.Children) > 0 { it.node = it.node.Children[0] }`: the leftmost leaf below
`n` with its parent chain. -/
def leftLeaf : Node K V → List (Frame K V) → Option (Cursor K V)
  | .mk es cs, path =>
    if isLeaf (.mk es cs) then some ⟨.mk es cs, path⟩
    else leftLeafChild cs (⟨.mk es cs, 0⟩ :: path)
/-- The step `current = current.Children[0]`. -/
def leftLeafChild : List (Node K V) → List (Frame K V) → Option (Cursor K V)
  | [], _ => none
  | c :: _, path => leftLeaf c path
end

/-- `Tree.Left()`; the outer `Option` is a panic, the inner one the nil pointer. -/
def Tree.Left (t : Tree K V) : Option (Option (Cursor K V)) :=
  if t.Empty then some none
  else
    match t.Root with
    | none => none
    | some root => (leftLeaf root []).map some

/-- `Tree.Right()`; the outer `Option` is a panic, the inner one the nil pointer. -/
def Tree.Right (t : Tree K V) : Option (Option (Cursor K V)) :=
  if t.Empty then some none
  else
    match t.Root with
    | none => none
    | some root => (rightLeaf root []).map fun r => some ⟨r.1, r.2⟩

/-- The iterator positions `begin`, `between`, `end`. -/
inductive Position where
  | begin | between | atEnd
  deriving DecidableEq, Repr

/-- The iterator of `iterator.go`; `none` is the nil pointer in `node` and in `entry`. -/
structure Iterator (K V : Type) where
  tree : Tree K V
  node : Option (Cursor K V)
  entry : Option (Entry K V)
  position : Position

/-- `Tree.Iterator()`. -/
def Tree.Iterator (t : Tree K V) : Iterator K V :=
  { tree := t, node := none, entry := none, position := .begin }

/-- `Iterator.Begin()`. -/
def Iterator.Begin (it : Iterator K V) : Iterator K V :=
  { it with node := none, position := Position.begin, entry := none }

/-- `Iterator.End()`. -/
def Iterator.End (it : Iterator K V) : Iterator K V :=
  { it with node := none, position := Position.atEnd, entry := none }

/-- `Iterator.Key()`: `none` is the panic of reading `it.entry.Key` through a nil `entry`. -/
def Iterator.Key (it : Iterator K V) : Option K := it.entry.map Entry.Key

/-- `Iterator.Value()`: `none` is the panic of reading `it.entry.Value` through a nil
`entry`. -/
def Iterator.Value (it : Iterator K V) : Option V := it.entry.map Entry.Value

/-- The loop `for it.node.Parent != nil { ... }` of `Next()`: the parent and entry at which
the iteration goes on, or `none` inside when the chain is used up. -/
def climbNext (cmp : K → K → Int) (key : K) :
    List (Frame K V) → Option (Option (Cursor K V × Entry K V))
  | [] => some none
  | f :: rest =>
    match search cmp f.node key with
    | none => none
    | some (e, _) =>
      if e < f.node.Entries.length then
        (getIdx f.node.Entries e).map fun en => some (⟨f.node, rest⟩, en)
      else climbNext cmp key rest

/-- The part of `Next()` that runs in position `between`. -/
def nextBetween (cmp : K → K → Int) (c : Cursor K V) (entry : Entry K V) :
    Option (Option (Cursor K V × Entry K V)) :=
  match search cmp c.node entry.Key with
  | none => none
  | some (e, _) =>
    if e + 1 < c.node.Children.length then
      match getIdx c.node.Children (e + 1) with
      | none => none
      | some child =>
        match leftLeaf child (⟨c.node, e + 1⟩ :: c.up) with
        | none => none
        | some leaf => (getIdx leaf.node.Entries 0).map fun en => some (leaf, en)
    else if e + 1 < c.node.Entries.length then
      (getIdx c.node.Entries (e + 1)).map fun en => some (c, en)
    else climbNext cmp entry.Key c.up

/-- `Iterator.Next()`: the moved iterator and the returned flag. -/
def Iterator.Next (it : Iterator K V) : Option (Iterator K V × Bool) :=
  match it.position with
  | .atEnd => some (it.End, false)
  | .begin =>
    match it.tree.Left with
    | none => none
    | some none => some (it.End, false)
    | some (some left) =>
      (getIdx left.node.Entries 0).map fun en =>
        ({ it with node := some left, entry := some en, position := Position.between }, true)
  | .between =>
    match it.node, it.entry with
    | some c, some entry =>
      match nextBetween it.tree.Comparator c entry with
      | none => none
      | some none => some (it.End, false)
      | some (some (c', en)) =>
        some ({ it with node := some c', entry := some en, position := Position.between },
          true)
    | _, _ => none

/-- The loop `for it.node.Parent != nil { ... }` of `Prev()`. -/
def climbPrev (cmp : K → K → Int) (key : K) :
    List (Frame K V) → Option (Option (Cursor K V × Entry K V))
  | [] => some none
  | f :: rest =>
    match search cmp f.node key with
    | none => none
    | some (e, _) =>
      if e - 1 ≥ 0 then
        (getIdx f.node.Entries (e - 1)).map fun en => some (⟨f.node, rest⟩, en)
      else climbPrev cmp key rest

/-- The part of `Prev()` that runs in position `between`. -/
def prevBetween (cmp : K → K → Int) (c : Cursor K V) (entry : Entry K V) :
    Option (Option (Cursor K V × Entry K V)) :=
  match search cmp c.node entry.Key with
  | none => none
  | some (e, _) =>
    if e < c.node.Children.length then
      match getIdx c.node.Children e with
      | none => none
      | some child =>
        match rightLeaf child (⟨c.node, e⟩ :: c.up) with
        | none => none
        | some (leaf, up) =>
          (getIdx leaf.Entries ((leaf.Entries.length : Int) - 1)).map fun en =>
            some (⟨leaf, up⟩, en)
    else if e - 1 ≥ 0 then
      (getIdx c.node.Entries (e - 1)).map fun en => some (c, en)
    else climbPrev cmp entry.Key c.up

/-- `Iterator.Prev()`: the moved iterator and the returned flag. -/
def Iterator.Prev (it : Iterator K V) : Option (Iterator K V × Bool) :=
  match it.position with
  | .begin => some (it.Begin, false)
  | .atEnd =>
    match it.tree.Right with
    | none => none
    | some none => some (it.Begin, false)
    | some (some right) =>
      (getIdx right.node.Entries ((right.node.Entries.length : Int) - 1)).map fun en =>
        ({ it with node := some right, entry := some en, position := Position.between }, true)
  | .between =>
    match it.node, it.entry with
    | some c, some entry =>
      match prevBetween it.tree.Comparator c entry with
      | none => none
      | some none => some (it.Begin, false)
      | some (some (c', en)) =>
        some ({ it with node := some c', entry := some en, position := Position.between },
          true)
    | _, _ => none

/-- The loop `for i := 0; it.Next(); i++ { keys[i] = it.Key() }` of `Tree.Keys()`, with a
bound on the number of iterations; `none` is a panic or the bound reached. -/
def keysLoop : Nat → Iterator K V → Int → List (Option K) → Option (List (Option K))
  | 0, _, _, _ => none
  | n + 1, it, i, keys =>
    match it.Next with
    | none => none
    | some (_, false) => some keys
    | some (it', true) =>
      match it'.Key with
      | none => none
      | some k =>
        match setIdx keys i (some k) with
        | none => none
        | some keys' => keysLoop n it' (i + 1) keys'

/-- `Tree.Keys()`, with the iteration bound `fuel`: the slice made with `t.size` nil
elements and filled by the loop. -/
def Tree.Keys (t : Tree K V) (fuel : Nat) : Option (List (Option K)) :=
  if t.size < 0 then none
  else keysLoop fuel t.Iterator 0 (List.replicate t.size.toNat none)

/-- The loop `for it.Next() {}` with a bound on the number of iterations: the iterator once
`Next` has answered false. -/
def drain : Nat → Iterator K V → Option (Iterator K V)
  | 0, _ => none
  | n + 1, it =>
    match it.Next with
    | none => none
    | some (it', true) => drain n it'
    | some (it', false) => some it'

/-- The loop `for it.Next() { keys = append(keys, it.Key()) }`, with a bound on the number
of iterations. -/
def nextLoop : Nat → Iterator K V → List K → Option (List K)
  | 0, _, _ => none
  | n + 1, it, acc =>
    match it.Next with
    | none => none
    | some (_, false) => some acc
    | some (it', true) =>
      match it'.Key with
      | none => none
      | some k => nextLoop n it' (acc ++ [k])

/-- The loop `for it.Prev() { keys = append(keys, it.Key()) }`, with a bound on the number
of iterations. -/
def prevLoop : Nat → Iterator K V → List K → Option (List K)
  | 0, _, _ => none
  | n + 1, it, acc =>
    match it.Prev with
    | none => none
    | some (_, false) => some acc
    | some (it', true) =>
      match it'.Key with
      | none => none
      | some k => prevLoop n it' (acc ++ [k])

/-- The child of every link of the chain is the node below it. -/
def Coherent : Node K V → List (Frame K V) → Prop
  | _, [] => True
  | n, f :: rest => getIdx f.node.Children f.index = some n ∧ Coherent f.node rest

/-- The iterator stands on the entry `x` of the node `c`: `T` is the in-order sequence of
the whole tree, `L` the part of it before `x` and `R` the part after `x`. -/
def ItState (m : Int) (T : List (Entry K V)) (c : Cursor K V) (x : Entry K V)
    (L R : List (Entry K V)) : Prop :=
  ∃ (h : Nat) (a b : List (Entry K V)) (ca cb : List (Node K V)),
    c.node = .mk (a ++ x :: b) (ca ++ cb) ∧ ((ca = [] ∧ cb = []) ∨ ca.length = a.length + 1) ∧
      PathWF m h c.up ∧ Shape m (loBound m c.up) (maxEntries m) h c.node ∧
      Coherent c.node c.up ∧ ctxL c.up ++ (flatten c.node ++ ctxR c.up) = T ∧
      L = ctxL c.up ++ inter a ca ∧ R = inter b cb ++ ctxR c.up

end btree

/-! ## AVL tree: the state a panicking call leaves behind

The Go code writes in place, so a call that panics leaves the tree as it was written up to
the panic. In `putRebalance` and `removeFix` every panic (an index outside `Children`, a nil
node) is raised before the call has written anything: by the read of the child on side
`(c+1)/2`, or in `doubleRotate` by the inner `rotate`, which reads both of its nodes before
its first write; past these reads nothing can fail. The subtree below has been written by
the recursive call that returned. -/

namespace avltree
variable {K V : Type}

/-- `Tree.Size()`. -/
def Tree.Size (t : Tree K V) : Int := t.size

/-- `Tree.put(key, value, parent, target)` with the state at a panic: the subtree in
`*target` and the count as the call leaves them, and the flag it returns; the flag is `none`
when the call panicked. -/
def putP (cmp : K → K → Int) (key : K) (value : V) :
    Node K V → Int → Node K V × Int × Option Bool
  | .nil, size => (.node key value 0 .nil .nil, size + 1, some true)
  | .node k v b l r, size =>
    let c := cmp key k
    if c = 0 then (.node key value b l r, size, some false)
    else if c < 0 then
      match putP cmp key value l size with
      | (l', size', some true) =>
        match putRebalance (int8 c) (.node k v b l' r) with
        | some (n, f) => (n, size', some f)
        | none => (.node k v b l' r, size', none)
      | (l', size', f) => (.node k v b l' r, size', f)
    else
      match putP cmp key value r size with
      | (r', size', some true) =>
        match putRebalance (int8 c) (.node k v b l r') with
        | some (n, f) => (n, size', some f)
        | none => (.node k v b l r', size', none)
      | (r', size', f) => (.node k v b l r', size', f)

/-- `Tree.remove(key, target)` with the state at a panic (see `putP`). `removeMin` is
only called on a right child that is not nil and cannot panic there. -/
def removeP (cmp : K → K → Int) (key : K) :
    Node K V → Int → Node K V × Int × Option Bool
  | .nil, size => (.nil, size, some false)
  | .node k v b l r, size =>
    let c := cmp key k
    if c = 0 then
      match r with
      | .nil => (l, size - 1, some true)
      | .node .. =>
        match removeMin r with
        | none => (.node k v b l r, size - 1, none)
        | some (r', mk, mv, f) => (.node mk mv b l r', size - 1, some f)
    else if c < 0 then
      match removeP cmp key l size with
      | (l', size', some true) =>
        match removeFix (int8 (-c)) (.node k v b l' r) with
        | some (n, f) => (n, size', some f)
        | none => (.node k v b l' r, size', none)
      | (l', size', f) => (.node k v b l' r, size', f)
    else
      match removeP cmp key r size with
      | (r', size', some true) =>
        match removeFix (int8 (-c)) (.node k v b l r') with
        | some (n, f) => (n, size', some f)
        | none => (.node k v b l r', size', none)
      | (r', size', f) => (.node k v b l r', size', f)

/-- `Tree.Put(key, value)`: the tree the call leaves and whether it panicked. -/
def Tree.PutP (t : Tree K V) (key : K) (value : V) : Tree K V × Bool :=
  let p := putP t.Comparator key value t.Root t.size
  ({ t with Root := p.1, size := p.2.1 }, p.2.2.isNone)

/-- `Tree.Remove(key)`: the tree the call leaves and whether it panicked. -/
def Tree.RemoveP (t : Tree K V) (key : K) : Tree K V × Bool :=
  let p := removeP t.Comparator key t.Root t.size
  ({ t with Root := p.1, size := p.2.1 }, p.2.2.isNone)

/-- One call, with the state at a panic. -/
def Tree.applyP (t : Tree K V) : Op K V → Tree K V × Bool
  | .put k v => t.PutP k v
  | .remove k => t.RemoveP k

/-- A sequence of calls that stops at the first panic: the tree that is left, and whether
a call panicked. -/
def runOpsP (t : Tree K V) : List (Op K V) → Tree K V × Bool
  | [] => (t, false)
  | op :: ops =>
    match t.applyP op with
    | (t', true) => (t', true)
    | (t', false) => runOpsP t' ops

end avltree

/-! ## The AVL tree as a pointer structure (`avltree.go`)

The same insertion code once more, this time with the nodes as records on a heap and the
`Parent` and `Children` fields as addresses, so that the back-references the code writes
can be read off. -/

namespace avlptr
open avltree (int8 childIndex xor1)

/-- A `Node` record. A pointer is an address: `0` is nil and `a + 1` is cell `a` of the
heap. `Left` is `Children[0]`, `Right` is `Children[1]`. -/
structure Node (K V : Type) where
  Key : K
  Value : V
  Parent : Nat
  Left : Nat
  Right : Nat
  balance : Int
  deriving DecidableEq, Repr

/-- The tree header together with the heap its nodes live on. -/
structure Tree (K V : Type) where
  heap : List (Node K V)
  Root : Nat
  Comparator : K → K → Int
  size : Int

/-- A `**Node`: `&t.Root` or `&p.Children[d]`. -/
inductive Slot where
  | root : Slot
  | child (p : Nat) (d : Int) : Slot
  deriving DecidableEq, Repr

variable {K V : Type}

/-- `NewWith(comparator)`. -/
def NewWith (comparator : K → K → Int) : Tree K V :=
  { heap := [], Root := 0, Comparator := comparator, size := 0 }

/-- Dereference `p`; fails on nil. -/
def Tree.read (t : Tree K V) (p : Nat) : Option (Node K V) :=
  if p = 0 then none else t.heap[p - 1]?

/-- Overwrite the record at `p`; fails on nil. -/
def Tree.write (t : Tree K V) (p : Nat) (n : Node K V) : Option (Tree K V) :=
  if p = 0 ∨ t.heap.length < p then none else some { t with heap := t.heap.set (p - 1) n }

/-- Read `p.Children[d]`; fails on nil `p` and on an index outside `[0, 2)`. -/
def Tree.getChild (t : Tree K V) (p : Nat) (d : Int) : Option Nat :=
  (t.read p).bind fun n => if d = 0 then some n.Left else if d = 1 then some n.Right else none

/-- Write `p.Children[d] = q`. -/
def Tree.setChild (t : Tree K V) (p : Nat) (d : Int) (q : Nat) : Option (Tree K V) :=
  (t.read p).bind fun n =>
    if d = 0 then t.write p { n with Left := q }
    else if d = 1 then t.write p { n with Right := q } else none

/-- Read `p.Parent`. -/
def Tree.getParent (t : Tree K V) (p : Nat) : Option Nat := (t.read p).map fun n => n.Parent

/-- Write `p.Parent = q`. -/
def Tree.setParent (t : Tree K V) (p q : Nat) : Option (Tree K V) :=
  (t.read p).bind fun n => t.write p { n with Parent := q }

/-- Read `p.balance`. -/
def Tree.getBalance (t : Tree K V) (p : Nat) : Option Int := (t.read p).map fun n => n.balance

/-- Write `p.balance = b`. -/
def Tree.setBalance (t : Tree K V) (p : Nat) (b : Int) : Option (Tree K V) :=
  (t.read p).bind fun n => t.write p { n with balance := b }

/-- Read `*slot`. -/
def Tree.load (t : Tree K V) : Slot → Option Nat
  | .root => some t.Root
  | .child p d => t.getChild p d

/-- Write `*slot = q`. -/
def Tree.store (t : Tree K V) : Slot → Nat → Option (Tree K V)
  | .root, q => some { t with Root := q }
  | .child p d, q => t.setChild p d q

/-- `&Node{Key: key, Value: value, Parent: parent}`: the new record and its address. -/
def Tree.alloc (t : Tree K V) (key : K) (value : V) (parent : Nat) : Tree K V × Nat :=
  ({ t with heap := t.heap ++ [⟨key, value, parent, 0, 0, 0⟩] }, t.heap.length + 1)

/-- The first half of `rotate(c, root)`: the child links. Returns `newRoot`. -/
def rotateChildren (c : Int) (root : Nat) (t : Tree K V) : Option (Tree K V × Nat) := do
  let d := childIndex c
  let newRoot ← t.getChild root d
  let inner ← t.getChild newRoot (xor1 d)
  let t ← t.setChild root d inner
  let t ← if inner ≠ 0 then t.setParent inner root else some t
  let t ← t.setChild newRoot (xor1 d) root
  pure (t, newRoot)

/-- `rotate(c, root)`. -/
def rotate (c : Int) (root : Nat) (t : Tree K V) : Option (Tree K V × Nat) := do
  let (t, newRoot) ← rotateChildren c root t
  let rootParent ← t.getParent root
  let t ← t.setParent newRoot rootParent
  let t ← t.setParent root newRoot
  pure (t, newRoot)

/-- `singleRotate(c, root)`. -/
def singleRotate (c : Int) (root : Nat) (t : Tree K V) : Option (Tree K V × Nat) := do
  let t ← t.setBalance root 0
  let (t, newRoot) ← rotate c root t
  let t ← t.setBalance newRoot 0
  pure (t, newRoot)

/-- The `switch` of `doubleRotate`. -/
def doubleRotateTags (c : Int) (root child newRoot : Nat) (t : Tree K V) :
    Option (Tree K V) := do
  let nb ← t.getBalance newRoot
  if nb = c then do
    let t ← t.setBalance root (int8 (-c))
    t.setBalance child 0
  else if nb = int8 (-c) then do
    let t ← t.setBalance root 0
    t.setBalance child c
  else do
    let t ← t.setBalance root 0
    t.setBalance child 0

/-- `doubleRotate(c, root)`. -/
def doubleRotate (c : Int) (root : Nat) (t : Tree K V) : Option (Tree K V × Nat) := do
  let d := childIndex c
  let child ← t.getChild root d
  let (t, rotated) ← rotate (int8 (-c)) child t
  let t ← t.setChild root d rotated
  let (t, newRoot) ← rotate c root t
  let t ← doubleRotateTags c root child newRoot t
  let t ← t.setBalance newRoot 0
  pure (t, newRoot)

/-- `putRebalance(c, root)`; the `**Node` argument `root` is `slot`. -/
def putRebalance (c : Int) (slot : Slot) (t : Tree K V) : Option (Tree K V × Bool) := do
  let cur ← t.load slot
  let b ← t.getBalance cur
  if b = 0 then (t.setBalance cur c).map fun t => (t, true)
  else if b = int8 (-c) then (t.setBalance cur 0).map fun t => (t, false)
  else do
    let ch ← t.getChild cur (childIndex c)
    let cb ← t.getBalance ch
    let (t, cur) ← if cb = c then singleRotate c cur t else doubleRotate c cur t
    let t ← t.store slot cur
    pure (t, false)

/-- `Tree.put(key, value, parent, target)`. The first argument bounds the depth of the
recursion. -/
def put (key : K) (value : V) : Nat → Nat → Slot → Tree K V → Option (Tree K V × Bool)
  | 0, _, _, _ => none
  | fuel + 1, parent, target, t => do
    let cur ← t.load target
    if cur = 0 then
      let (t, p) := ({ t with size := t.size + 1 } : Tree K V).alloc key value parent
      (t.store target p).map fun t => (t, true)
    else do
      let n ← t.read cur
      let cmp := t.Comparator key n.Key
      if cmp = 0 then (t.write cur { n with Key := key, Value := value }).map fun t => (t, false)
      else do
        let newTarget := Slot.child cur (if cmp < 0 then 0 else 1)
        let (t, imbalanced) ← put key value fuel cur newTarget t
        if imbalanced then putRebalance (int8 cmp) target t else pure (t, false)

/-- `Tree.Put(key, value)`. The recursion descends one node per call, so one more call than
there are nodes is enough. -/
def Tree.Put (t : Tree K V) (key : K) (value : V) : Option (Tree K V) :=
  (put key value (t.heap.length + 1) 0 .root t).map Prod.fst

/-- Run a sequence of `Put`s. -/
def putAll (t : Tree K V) : List (K × V) → Option (Tree K V)
  | [] => some t
  | (k, v) :: ops => (t.Put k v).bind fun t' => putAll t' ops

/-- The subtree that hangs at address `p`, read off the child links (to a bounded depth). -/
def subtree (t : Tree K V) : Nat → Nat → avltree.Node K V
  | 0, _ => .nil
  | fuel + 1, p =>
    match t.read p with
    | none => .nil
    | some n => .node n.Key n.Value n.balance (subtree t fuel n.Left) (subtree t fuel n.Right)

end avlptr

/-! ## The order arithmetic of the B-tree in 64-bit `int`

The functions `minChildren` to `middle` above compute in unbounded integers. The Go code
computes in `int`, which is 64 bits wide on the platforms this code is built for; the
functions below are the same expressions with every result wrapped to 64 bits. They are
the same functions for every order from 3 up to `2^63 - 2`; at the largest order that
`NewWith` accepts, `2^63 - 1`, the sum `t.m + 1` wraps. -/

namespace btree

/-- Conversion to a 64-bit `int`: two's complement wrap into `[-2^63, 2^63)`. -/
def int64 (x : Int) : Int := (x + 2 ^ 63) % 2 ^ 64 - 2 ^ 63

/-- `Tree.maxChildren()` in 64-bit `int`. -/
def maxChildren64 (m : Int) : Int := int64 m

/-- `Tree.minChildren()` in 64-bit `int`: `(t.m + 1) / 2`. -/
def minChildren64 (m : Int) : Int := Int.tdiv (int64 (int64 m + 1)) 2

/-- `Tree.maxEntries()` in 64-bit `int`: `t.maxChildren() - 1`. -/
def maxEntries64 (m : Int) : Int := int64 (maxChildren64 m - 1)

/-- `Tree.minEntries()` in 64-bit `int`: `t.minChildren() - 1`. -/
def minEntries64 (m : Int) : Int := int64 (minChildren64 m - 1)

/-- `Tree.middle()` in 64-bit `int`: `(t.m - 1) / 2`. -/
def middle64 (m : Int) : Int := Int.tdiv (int64 (int64 m - 1)) 2

end btree

namespace btree
variable {K V : Type}

/-! ## Runs that may also clear the tree -/

/-- `Tree.Clear()`: drops the root reference and resets the count. -/
def Tree.Clear (t : Tree K V) : Tree K V := { t with Root := none, size := 0 }

/-- One call of a run over the full mutating interface: `Put`, `Remove` or `Clear`. -/
inductive Call (K V : Type) where
  | put (key : K) (value : V) : Call K V
  | remove (key : K) : Call K V
  | clear : Call K V

/-- The tree after one call; `none` is a panic. -/
def Tree.call (t : Tree K V) : Call K V → Option (Tree K V)
  | .put k v => t.Put k v
  | .remove k => t.Remove k
  | .clear => some t.Clear

/-- The tree after a sequence of calls. -/
def runCalls (t : Tree K V) : List (Call K V) → Option (Tree K V)
  | [] => some t
  | c :: cs => (t.call c).bind fun t' => runCalls t' cs

end btree

/-! ## Binary heap (`binaryheap.go`) -/

namespace binaryheap
variable {α : Type}

/-! ### The backing array list (`gods/lists/arraylist`), as far as the heap uses it -/

/-- `list.Get(index)`: the element at `index`; `none` is the answer `(nil, false)` for an
index outside the list. -/
def Get (l : List α) (index : Int) : Option α :=
  if 0 ≤ index ∧ index < (l.length : Int) then l[index.toNat]? else none

/-- `list.Swap(i, j)`: exchanges the two elements when both indices are inside the list, and
does nothing otherwise. -/
def Swap (l : List α) (i j : Int) : List α :=
  match Get l i, Get l j with
  | some a, some b => (l.set i.toNat b).set j.toNat a
  | _, _ => l

/-- `list.Remove(index)`: removes the element when the index is inside the list. -/
def Remove (l : List α) (index : Int) : List α :=
  if 0 ≤ index ∧ index < (l.length : Int) then l.eraseIdx index.toNat else l

/-- `list.Add(values...)`. -/
def Add (l values : List α) : List α := l ++ values

/-- `list.Size()`. -/
def Size (l : List α) : Int := l.length

/-! ### The heap -/

/-- The heap: the backing list and the comparator. -/
structure Heap (α : Type) where
  list : List α
  Comparator : α → α → Int

/-- `NewWith(comparator)`. -/
def NewWith (comparator : α → α → Int) : Heap α := { list := [], Comparator := comparator }

/-- A call `Comparator(a, b)` on two results of `Get`: a nil argument makes the comparator
panic (`none`). -/
def compareValues (cmp : α → α → Int) : Option α → Option α → Option Int
  | some a, some b => some (cmp a b)
  | _, _ => none

/-- The loop of `bubbleUp`, entered at the test `parentIndex >= 0` with the current `index`.
The first argument bounds the number of iterations. -/
def bubbleUpLoop (cmp : α → α → Int) : Nat → List α → Int → Option (List α)
  | 0, _, _ => none
  | fuel + 1, l, index =>
    let parentIndex := (index - 1) >>> (1 : Nat)
    if parentIndex ≥ 0 then
      match compareValues cmp (Get l parentIndex) (Get l index) with
      | none => none
      | some c =>
        if c ≤ 0 then some l
        else bubbleUpLoop cmp fuel (Swap l index parentIndex) parentIndex
    else some l

/-- `heap.bubbleUp()`. The index falls in every iteration, so `Size()` iterations and the
final test are enough. -/
def bubbleUp (cmp : α → α → Int) (l : List α) : Option (List α) :=
  bubbleUpLoop cmp (l.length + 1) l (Size l - 1)

/-- The test `rightIndex < size && Comparator(leftValue, rightValue) > 0`; the comparator is
only called when the first half holds. -/
def rightIsSmaller (cmp : α → α → Int) (l : List α) (size leftIndex : Int) : Option Bool :=
  if leftIndex + 1 < size then
    (compareValues cmp (Get l leftIndex) (Get l (leftIndex + 1))).map fun c => decide (c > 0)
  else some false

/-- The loop of `bubbleDownIndex`, entered at the test `leftIndex < size` with the current
`index`; `index<<1 + 1` is `2 * index + 1`. The first argument bounds the number of
iterations. -/
def bubbleDownLoop (cmp : α → α → Int) (size : Int) : Nat → List α → Int → Option (List α)
  | 0, _, _ => none
  | fuel + 1, l, index =>
    let leftIndex := 2 * index + 1
    if leftIndex < size then
      match rightIsSmaller cmp l size leftIndex with
      | none => none
      | some right =>
        let smallerIndex := if right then leftIndex + 1 else leftIndex
        match compareValues cmp (Get l index) (Get l smallerIndex) with
        | none => none
        | some c =>
          if c > 0 then bubbleDownLoop cmp size fuel (Swap l index smallerIndex) smallerIndex
          else some l
    else some l

/-- `heap.bubbleDownIndex(index)`. The index grows in every iteration, so `Size()` iterations
and the final test are enough. -/
def bubbleDownIndex (cmp : α → α → Int) (l : List α) (index : Int) : Option (List α) :=
  bubbleDownLoop cmp (Size l) (l.length + 1) l index

/-- `heap.bubbleDown()`. -/
def bubbleDown (cmp : α → α → Int) (l : List α) : Option (List α) := bubbleDownIndex cmp l 0

/-- The loop `for i := lastChildParentIndex; i >= 0; i-- { heap.bubbleDownIndex(i) }` of
`Push`, entered with `i + 1` as the first argument (`0`: the loop is over). -/
def heapifyLoop (cmp : α → α → Int) : Nat → List α → Option (List α)
  | 0, l => some l
  | i + 1, l => (bubbleDownIndex cmp l (i : Int)).bind fun l => heapifyLoop cmp i l

/-- `heap.Push(values...)`. -/
def Heap.Push (h : Heap α) (values : List α) : Option (Heap α) :=
  match values with
  | [value] => (bubbleUp h.Comparator (Add h.list [value])).map fun l => { h with list := l }
  | _ =>
    let l := Add h.list values
    let lastChildParentIndex := Int.tdiv (Size l) 2 - 1
    (heapifyLoop h.Comparator (lastChildParentIndex + 1).toNat l).map fun l =>
      { h with list := l }

/-- `heap.Pop()`: the answer (`none` for `(nil, false)`) and the heap it leaves. -/
def Heap.Pop (h : Heap α) : Option (Option α × Heap α) :=
  match Get h.list 0 with
  | none => some (none, h)
  | some value =>
    let lastIndex := Size h.list - 1
    let l := Remove (Swap h.list 0 lastIndex) lastIndex
    (bubbleDown h.Comparator l).map fun l => (some value, { h with list := l })

/-- One call of a run: `Push(values...)` or `Pop()`. -/
inductive Op (α : Type) where
  | push (values : List α) : Op α
  | pop : Op α

/-- The heap after one call; `none` is a panic. -/
def Heap.apply (h : Heap α) : Op α → Option (Heap α)
  | .push values => h.Push values
  | .pop => h.Pop.map Prod.snd

/-- The heap after a sequence of calls. -/
def runOps (h : Heap α) : List (Op α) → Option (Heap α)
  | [] => some h
  | op :: ops => (h.apply op).bind fun h' => runOps h' ops

/-! ### Specification vocabulary -/

/-- The min-heap property of the backing list: no element compares less than its parent,
the element at index `(i - 1) / 2`. -/
def IsMinHeap (cmp : α → α → Int) (l : List α) : Prop :=
  ∀ i x p, 0 < i → l[i]? = some x → l[(i - 1) / 2]? = some p → ¬ cmp x p < 0

/-- The element at `i` is not below its parent. -/
def OrderedAt [LinearOrder α] (l : List α) (i : Nat) : Prop :=
  ∀ x p, l[i]? = some x → l[(i - 1) / 2]? = some p → p ≤ x

/-- Heap order at every element whose parent is at index `s` or later. -/
def HeapFrom [LinearOrder α] (l : List α) (s : Nat) : Prop :=
  ∀ i, 0 < i → s ≤ (i - 1) / 2 → OrderedAt l i

/-- The state of `bubbleUp` at index `k`: heap order everywhere but between `k` and its
parent, and the children of `k` are not below the parent of `k`. -/
def UpInv [LinearOrder α] (l : List α) (k : Nat) : Prop :=
  (∀ i, 0 < i → i ≠ k → OrderedAt l i) ∧
    (0 < k → ∀ i x g, 0 < i → (i - 1) / 2 = k → l[i]? = some x →
      l[(k - 1) / 2]? = some g → g ≤ x)

/-- The state of `bubbleDownIndex` at index `k`, for the part of the list from `s` on: heap
order at every element with a parent from `s` on other than `k`, and the children of `k` are
not below the parent of `k` when that parent is in the part. -/
def DownInv [LinearOrder α] (l : List α) (s k : Nat) : Prop :=
  (∀ i, 0 < i → s ≤ (i - 1) / 2 → (i - 1) / 2 ≠ k → OrderedAt l i) ∧
    (0 < k → s ≤ (k - 1) / 2 → ∀ i x g, 0 < i → (i - 1) / 2 = k → l[i]? = some x →
      l[(k - 1) / 2]? = some g → g ≤ x)

end binaryheap

/-! # Properties of the AVL engine -/

namespace avltree
variable {K V : Type}

/-! ## Arithmetic of the direction argument -/

@[simp] theorem childIndex_neg_one : childIndex (-1) = 0 := by decide
@[simp] theorem childIndex_one : childIndex 1 = 1 := by decide
@[simp] theorem int8_neg_one : int8 (-1) = -1 := by decide
@[simp] theorem int8_one : int8 1 = 1 := by decide
@[simp] theorem int8_zero : int8 0 = 0 := by decide
@[simp] theorem xor1_zero : xor1 0 = 1 := by decide
@[simp] theorem xor1_one : xor1 1 = 0 := by decide

theorem height_nonneg (t : Node K V) : 0 ≤ height t := by
  induction t with
  | nil => simp [height]
  | node k v b l r ihl ihr => simp only [height]; omega

/-! ## The four rotations in closed form -/

theorem singleRotate_left (k : K) (v : V) (b : Int) (lk : K) (lv : V) (lb : Int)
    (ll lr r : Node K V) :
    singleRotate (-1) (.node k v b (.node lk lv lb ll lr) r)
      = some (.node lk lv 0 ll (.node k v 0 lr r)) := by
  simp [singleRotate, rotate, setBalance, getChild, setChild]

theorem singleRotate_right (k : K) (v : V) (b : Int) (rk : K) (rv : V) (rb : Int)
    (l rl rr : Node K V) :
    singleRotate 1 (.node k v b l (.node rk rv rb rl rr))
      = some (.node rk rv 0 (.node k v 0 l rl) rr) := by
  simp [singleRotate, rotate, setBalance, getChild, setChild]

theorem doubleRotate_left (k : K) (v : V) (b : Int) (lk : K) (lv : V) (lb : Int)
    (gk : K) (gv : V) (gb : Int) (ll gl gr r : Node K V) :
    doubleRotate (-1) (.node k v b (.node lk lv lb ll (.node gk gv gb gl gr)) r)
      = some (.node gk gv 0
          (.node lk lv (if gb = -1 then 0 else if gb = 1 then -1 else 0) ll gl)
          (.node k v (if gb = -1 then 1 else 0) gr r)) := by
  simp [doubleRotate, rotate, setBalance, getChild, setChild, getBalance]
  split_ifs <;> simp_all [setBalance, getChild, setChild, getBalance]

theorem doubleRotate_right (k : K) (v : V) (b : Int) (rk : K) (rv : V) (rb : Int)
    (gk : K) (gv : V) (gb : Int) (l gl gr rr : Node K V) :
    doubleRotate 1 (.node k v b l (.node rk rv rb (.node gk gv gb gl gr) rr))
      = some (.node gk gv 0
          (.node k v (if gb = 1 then -1 else 0) l gl)
          (.node rk rv (if gb = 1 then 0 else if gb = -1 then 1 else 0) gr rr)) := by
  simp [doubleRotate, rotate, setBalance, getChild, setChild, getBalance]
  split_ifs <;> simp_all [setBalance, getChild, setChild, getBalance]

/-! ## `putRebalance` -/

/-- Growth of the left subtree by one level, repaired by `putRebalance(-1, ·)`. -/
theorem putRebalance_left {k : K} {v : V} {b : Int} {l0 l r : Node K V}
    (h0 : Balanced (.node k v b l0 r)) (hl : Balanced l) (hh : height l = height l0 + 1)
    (hg : l0 = .nil ∨ getBalance l ≠ some 0) :
    ∃ t f, putRebalance (-1) (.node k v b l r) = some (t, f) ∧ Balanced t ∧
      height t = height (.node k v b l0 r) + (if f then 1 else 0) ∧
      (f = true → getBalance t ≠ some 0) ∧ toList t = toList l ++ (k, v) :: toList r := by
  obtain ⟨hb, hbe, hl0, hr⟩ := h0
  have n1 := height_nonneg l0
  have n2 := height_nonneg r
  rcases hb with hb | hb | hb
  · subst hb
    have hl0ne : l0 ≠ .nil := by
      rintro rfl; simp [height] at hbe; omega
    have hg' : getBalance l ≠ some 0 := hg.resolve_left hl0ne
    cases l with
    | nil => simp [height] at hh; omega
    | node lk lv lb ll lr =>
      obtain ⟨hlb, hlbe, hll, hlr⟩ := hl
      have n3 := height_nonneg ll
      have n4 := height_nonneg lr
      simp [getBalance] at hg'
      simp only [height] at hh hbe
      rcases hlb with hlb | hlb | hlb
      · subst hlb
        refine ⟨.node lk lv 0 ll (.node k v 0 lr r), false, ?_, ?_⟩
        · simp [putRebalance, getChild, getBalance, singleRotate_left]
        · simp [Balanced, height, toList, hll, hlr, hr]
          omega
      · exact absurd hlb hg'
      · subst hlb
        cases lr with
        | nil => simp [height] at hlbe; omega
        | node gk gv gb gl gr =>
          obtain ⟨hgb, hgbe, hgl, hgr⟩ := hlr
          have n5 := height_nonneg gl
          have n6 := height_nonneg gr
          simp only [height] at hh hbe hlbe
          refine ⟨_, false,
            (by simp [putRebalance, getChild, getBalance, doubleRotate_left]; rfl), ?_⟩
          simp [Balanced, height, toList, hll, hgl, hgr, hr]
          rcases hgb with hgb | hgb | hgb <;> subst hgb <;> simp <;> omega
  · subst hb
    refine ⟨.node k v (-1) l r, true, by simp [putRebalance], ?_⟩
    simp [Balanced, height, toList, getBalance, hl, hr]
    omega
  · subst hb
    refine ⟨.node k v 0 l r, false, by simp [putRebalance], ?_⟩
    simp [Balanced, height, toList, getBalance, hl, hr]
    omega

/-- Growth of the right subtree by one level, repaired by `putRebalance(1, ·)`. -/
theorem putRebalance_right {k : K} {v : V} {b : Int} {l r0 r : Node K V}
    (h0 : Balanced (.node k v b l r0)) (hr : Balanced r) (hh : height r = height r0 + 1)
    (hg : r0 = .nil ∨ getBalance r ≠ some 0) :
    ∃ t f, putRebalance 1 (.node k v b l r) = some (t, f) ∧ Balanced t ∧
      height t = height (.node k v b l r0) + (if f then 1 else 0) ∧
      (f = true → getBalance t ≠ some 0) ∧ toList t = toList l ++ (k, v) :: toList r := by
  obtain ⟨hb, hbe, hl, hr0⟩ := h0
  have n1 := height_nonneg r0
  have n2 := height_nonneg l
  rcases hb with hb | hb | hb
  · subst hb
    refine ⟨.node k v 0 l r, false, by simp [putRebalance], ?_⟩
    simp [Balanced, height, toList, getBalance, hl, hr]
    omega
  · subst hb
    refine ⟨.node k v 1 l r, true, by simp [putRebalance], ?_⟩
    simp [Balanced, height, toList, getBalance, hl, hr]
    omega
  · subst hb
    have hr0ne : r0 ≠ .nil := by
      rintro rfl; simp [height] at hbe; omega
    have hg' : getBalance r ≠ some 0 := hg.resolve_left hr0ne
    cases r with
    | nil => simp [height] at hh; omega
    | node rk rv rb rl rr =>
      obtain ⟨hrb, hrbe, hrl, hrr⟩ := hr
      have n3 := height_nonneg rl
      have n4 := height_nonneg rr
      simp [getBalance] at hg'
      simp only [height] at hh hbe
      rcases hrb with hrb | hrb | hrb
      · subst hrb
        cases rl with
        | nil => simp [height] at hrbe; omega
        | node gk gv gb gl gr =>
          obtain ⟨hgb, hgbe, hgl, hgr⟩ := hrl
          have n5 := height_nonneg gl
          have n6 := height_nonneg gr
          simp only [height] at hh hbe hrbe
          refine ⟨_, false,
            (by simp [putRebalance, getChild, getBalance, doubleRotate_right]; rfl), ?_⟩
          simp [Balanced, height, toList, hrr, hgl, hgr, hl]
          rcases hgb with hgb | hgb | hgb <;> subst hgb <;> simp <;> omega
      · exact absurd hrb hg'
      · subst hrb
        refine ⟨.node rk rv 0 (.node k v 0 l rl) rr, false, ?_, ?_⟩
        · simp [putRebalance, getChild, getBalance, singleRotate_right]
        · simp [Balanced, height, toList, hrl, hrr, hl]
          omega

/-- Main invariant of `put`: on a balanced subtree it succeeds, the result is balanced, the
flag says whether the height grew by one, a subtree that grew is a fresh leaf or has a
non-zero tag, and the count grows with the number of entries. -/
theorem put_balanced {cmp : K → K → Int} (hc : UnitCmp cmp) (key : K) (value : V)
    (t : Node K V) (size : Int) (ht : Balanced t) :
    ∃ t' size' f, put cmp key value t size = some (t', size', f) ∧ Balanced t' ∧
      height t' = height t + (if f then 1 else 0) ∧
      (f = true → t = .nil ∨ getBalance t' ≠ some 0) ∧
      toList t' = putList cmp key value t ∧
      size' = size + ((toList t').length - (toList t).length : Int) := by
  induction t generalizing size with
  | nil =>
    exact ⟨_, _, _, rfl, by simp [Balanced, height], by simp [height], by simp,
      by simp [toList, putList], by simp [toList]⟩
  | node k v b l r ihl ihr =>
    have ht' := ht
    obtain ⟨hb, hbe, hl, hr⟩ := ht
    rcases hc key k with h | h | h
    · obtain ⟨l', s', f, he, hbl, hhl, hgl, htl, hsl⟩ := ihl size hl
      cases f with
      | false =>
        refine ⟨.node k v b l' r, s', false, by simp [put, h, he], ?_⟩
        simp at hhl
        simp [Balanced, height, hbl, hr, hhl, toList, putList, h, htl]
        refine ⟨by omega, ?_⟩
        rw [← htl, hsl]
      | true =>
        simp at hhl hgl
        obtain ⟨t, f, e, hbt, hht, hgt, htt⟩ := putRebalance_left ht' hbl hhl hgl
        refine ⟨t, s', f, by simp [put, h, he, e], hbt, hht, fun hf => Or.inr (hgt hf), ?_, ?_⟩
        · simp [htt, putList, h, htl]
        · simp [htt, toList, hsl]
    · refine ⟨.node key value b l r, size, false, by simp [put, h], ?_⟩
      simp [Balanced, height, hl, hr, toList, putList, h]
      omega
    · obtain ⟨r', s', f, he, hbr, hhr, hgr, htr, hsr⟩ := ihr size hr
      cases f with
      | false =>
        refine ⟨.node k v b l r', s', false, by simp [put, h, he], ?_⟩
        simp at hhr
        simp [Balanced, height, hbr, hl, hhr, toList, putList, h, htr]
        refine ⟨by omega, ?_⟩
        rw [← htr, hsr]
      | true =>
        simp at hhr hgr
        obtain ⟨t, f, e, hbt, hht, hgt, htt⟩ := putRebalance_right ht' hbr hhr hgr
        refine ⟨t, s', f, by simp [put, h, he, e], hbt, hht, fun hf => Or.inr (hgt hf), ?_, ?_⟩
        · simp [htt, putList, h, htr]
        · simp [htt, toList, hsr]

end avltree

namespace avltree
variable {K V : Type}

@[simp] theorem keys_nil : keys (Node.nil : Node K V) = [] := rfl

@[simp] theorem keys_node (k : K) (v : V) (b : Int) (l r : Node K V) :
    keys (.node k v b l r) = keys l ++ k :: keys r := by
  simp [keys, toList]

theorem mem_keys_of_mem {t : Node K V} {k : K} {v : V} (h : (k, v) ∈ toList t) : k ∈ keys t :=
  List.mem_map.2 ⟨(k, v), h, rfl⟩

theorem mem_toList_keys {t : Node K V} {e : K × V} (h : e ∈ toList t) : e.1 ∈ keys t :=
  List.mem_map.2 ⟨e, h, rfl⟩

section order
variable [LinearOrder K]

theorem ordered_node {k : K} {v : V} {b : Int} {l r : Node K V} :
    Ordered (.node k v b l r) ↔
      Ordered l ∧ Ordered r ∧ (∀ x ∈ keys l, x < k) ∧ (∀ x ∈ keys r, k < x) := by
  simp only [Ordered, keys_node, List.Sorted, List.pairwise_append, List.pairwise_cons,
    List.mem_cons]
  constructor
  · rintro ⟨h1, ⟨h2, h3⟩, h4⟩
    exact ⟨h1, h3, fun x hx => h4 x hx k (Or.inl rfl), h2⟩
  · rintro ⟨h1, h2, h3, h4⟩
    refine ⟨h1, ⟨h4, h2⟩, ?_⟩
    rintro a ha b (rfl | hb)
    · exact h3 a ha
    · exact lt_trans (h3 a ha) (h4 b hb)

/-- On an ordered tree `get` finds exactly the entries of the tree. -/
theorem get_eq_some_iff {cmp : K → K → Int} (hc : LawfulCmp cmp) (key : K) (v : V)
    (t : Node K V) (ht : Ordered t) : get cmp key t = some v ↔ (key, v) ∈ toList t := by
  induction t with
  | nil => simp [get, toList]
  | node k v' b l r ihl ihr =>
    obtain ⟨hl, hr, hlk, hrk⟩ := ordered_node.1 ht
    have e1 := hc.eq_iff key k
    have e2 := hc.lt_iff key k
    simp only [get, toList, List.mem_append, List.mem_cons, Prod.mk.injEq]
    by_cases h0 : cmp key k = 0
    · have hk : key = k := e1.1 h0
      subst hk
      simp only [h0, if_true, Option.some.injEq]
      constructor
      · rintro rfl; exact Or.inr (Or.inl ⟨trivial, rfl⟩)
      · rintro (h | ⟨-, h⟩ | h)
        · exact absurd (hlk _ (mem_keys_of_mem h)) (lt_irrefl _)
        · exact h.symm
        · exact absurd (hrk _ (mem_keys_of_mem h)) (lt_irrefl _)
    · have hne : key ≠ k := fun h => h0 (e1.2 h)
      by_cases h1 : cmp key k < 0
      · have hlt : key < k := e2.1 h1
        simp only [h0, h1, if_true, if_false, ihl hl]
        constructor
        · exact Or.inl
        · rintro (h | ⟨h, -⟩ | h)
          · exact h
          · exact absurd h hne
          · exact absurd (lt_trans (hrk _ (mem_keys_of_mem h)) hlt) (lt_irrefl _)
      · have hgt : k < key := lt_of_le_of_ne (not_lt.1 (fun h => h1 (e2.2 h))) (Ne.symm hne)
        simp only [h0, h1, if_false, ihr hr]
        constructor
        · exact fun h => Or.inr (Or.inr h)
        · rintro (h | ⟨h, -⟩ | h)
          · exact absurd (lt_trans (hlk _ (mem_keys_of_mem h)) hgt) (lt_irrefl _)
          · exact absurd h hne
          · exact h

theorem filter_lt_of_all_gt {L : List (K × V)} {key : K} (h : ∀ e ∈ L, key < e.1) :
    L.filter (fun e => e.1 < key) = [] := by
  rw [List.filter_eq_nil_iff]
  intro e he
  simpa using le_of_lt (h e he)

theorem filter_gt_of_all_lt {L : List (K × V)} {key : K} (h : ∀ e ∈ L, e.1 < key) :
    L.filter (fun e => key < e.1) = [] := by
  rw [List.filter_eq_nil_iff]
  intro e he
  simpa using le_of_lt (h e he)

theorem filter_lt_of_all_lt {L : List (K × V)} {key : K} (h : ∀ e ∈ L, e.1 < key) :
    L.filter (fun e => e.1 < key) = L := by
  rw [List.filter_eq_self]
  intro e he
  simpa using h e he

theorem filter_gt_of_all_gt {L : List (K × V)} {key : K} (h : ∀ e ∈ L, key < e.1) :
    L.filter (fun e => key < e.1) = L := by
  rw [List.filter_eq_self]
  intro e he
  simpa using h e he

/-- On an ordered tree the descent of `put` is insertion into the sorted entry list. -/
theorem putList_eq_insertL {cmp : K → K → Int} (hc : LawfulCmp cmp) (key : K) (value : V)
    (t : Node K V) (ht : Ordered t) : putList cmp key value t = insertL key value (toList t) := by
  induction t with
  | nil => simp [putList, insertL, toList]
  | node k v b l r ihl ihr =>
    obtain ⟨hl, hr, hlk, hrk⟩ := ordered_node.1 ht
    have e1 := hc.eq_iff key k
    have e2 := hc.lt_iff key k
    have hl' : ∀ e ∈ toList l, e.1 < k := fun e he => hlk _ (mem_toList_keys he)
    have hr' : ∀ e ∈ toList r, k < e.1 := fun e he => hrk _ (mem_toList_keys he)
    by_cases h0 : cmp key k = 0
    · have hk : key = k := e1.1 h0
      subst hk
      simp [putList, h0, insertL, toList, List.filter_append, List.filter_cons,
        filter_lt_of_all_gt hr', filter_gt_of_all_lt hl', filter_lt_of_all_lt hl',
        filter_gt_of_all_gt hr']
    · have hne : key ≠ k := fun h => h0 (e1.2 h)
      by_cases h1 : cmp key k < 0
      · have hlt : key < k := e2.1 h1
        have hr'' : ∀ e ∈ toList r, key < e.1 := fun e he => lt_trans hlt (hr' e he)
        simp [putList, h0, h1, ihl hl, insertL, toList, List.filter_append, List.filter_cons,
          filter_lt_of_all_gt hr'', filter_gt_of_all_gt hr'', hlt, not_lt.2 (le_of_lt hlt)]
      · have hgt : k < key := lt_of_le_of_ne (not_lt.1 (fun h => h1 (e2.2 h))) (Ne.symm hne)
        have hl'' : ∀ e ∈ toList l, e.1 < key := fun e he => lt_trans (hl' e he) hgt
        simp [putList, h0, h1, ihr hr, insertL, toList, List.filter_append, List.filter_cons,
          filter_lt_of_all_lt hl'', filter_gt_of_all_lt hl'', hgt, not_lt.2 (le_of_lt hgt)]

theorem sorted_insertL (key : K) (value : V) (L : List (K × V))
    (h : (L.map Prod.fst).Sorted (· < ·)) :
    ((insertL key value L).map Prod.fst).Sorted (· < ·) := by
  have hp : L.Pairwise (fun a b => a.1 < b.1) := List.pairwise_map.1 h
  simp only [List.Sorted, List.pairwise_map]
  simp only [insertL, List.pairwise_append, List.pairwise_cons, List.mem_cons, List.mem_filter,
    decide_eq_true_eq]
  refine ⟨hp.filter _, ⟨fun e he => he.2, hp.filter _⟩, ?_⟩
  rintro a ⟨-, ha⟩ b (rfl | ⟨-, hb⟩)
  · exact ha
  · exact lt_trans ha hb

theorem mem_insertL {key : K} {value : V} {L : List (K × V)} {e : K × V} :
    e ∈ insertL key value L ↔ e = (key, value) ∨ (e ∈ L ∧ e.1 ≠ key) := by
  simp only [insertL, List.mem_append, List.mem_cons, List.mem_filter, decide_eq_true_eq]
  constructor
  · rintro (⟨h1, h2⟩ | h | ⟨h1, h2⟩)
    · exact Or.inr ⟨h1, ne_of_lt h2⟩
    · exact Or.inl h
    · exact Or.inr ⟨h1, ne_of_gt h2⟩
  · rintro (h | ⟨h1, h2⟩)
    · exact Or.inr (Or.inl h)
    · rcases lt_or_gt_of_ne h2 with h | h
      · exact Or.inl ⟨h1, h⟩
      · exact Or.inr (Or.inr ⟨h1, h⟩)

end order
end avltree

namespace avltree
variable {K V : Type}

section order
variable [LinearOrder K]

/-- `put` on a balanced, ordered subtree: it succeeds and the result is balanced, ordered and
holds the entries of the sorted insertion. -/
theorem put_spec {cmp : K → K → Int} (hl : LawfulCmp cmp) (hu : UnitCmp cmp) (key : K)
    (value : V) (t : Node K V) (size : Int) (hb : Balanced t) (ho : Ordered t) :
    ∃ t' size' f, put cmp key value t size = some (t', size', f) ∧ Balanced t' ∧ Ordered t' ∧
      toList t' = insertL key value (toList t) := by
  obtain ⟨t', s', f, he, hb', -, -, htl, -⟩ := put_balanced hu key value t size hb
  have e : toList t' = insertL key value (toList t) := by
    rw [htl, putList_eq_insertL hl key value t ho]
  refine ⟨t', s', f, he, hb', ?_, e⟩
  have := sorted_insertL key value (toList t) ho
  rw [← e] at this
  exact this

/-- `put` of a key that is present: no flag, no count change, same shape and tags. -/
theorem put_present {cmp : K → K → Int} (hl : LawfulCmp cmp) (key : K) (value : V)
    (t : Node K V) (size : Int) (ho : Ordered t) (hk : key ∈ keys t) :
    ∃ t', put cmp key value t size = some (t', size, false) ∧ skeleton t' = skeleton t ∧
      keys t' = keys t := by
  induction t with
  | nil => simp at hk
  | node k v b l r ihl ihr =>
    obtain ⟨hol, hor, hlk, hrk⟩ := ordered_node.1 ho
    have e1 := hl.eq_iff key k
    have e2 := hl.lt_iff key k
    by_cases h0 : cmp key k = 0
    · have hkk : key = k := e1.1 h0
      exact ⟨.node key value b l r, by simp [put, h0], by simp [skeleton], by simp [hkk]⟩
    · have hne : key ≠ k := fun h => h0 (e1.2 h)
      simp only [keys_node, List.mem_append, List.mem_cons] at hk
      by_cases h1 : cmp key k < 0
      · have hlt : key < k := e2.1 h1
        have hkl : key ∈ keys l := by
          rcases hk with h | h | h
          · exact h
          · exact absurd h hne
          · exact absurd (lt_trans (hrk _ h) hlt) (lt_irrefl _)
        obtain ⟨l', he, hs, hks⟩ := ihl hol hkl
        exact ⟨.node k v b l' r, by simp [put, h0, h1, he], by simp [skeleton, hs], by simp [hks]⟩
      · have hgt : k < key := lt_of_le_of_ne (not_lt.1 (fun h => h1 (e2.2 h))) (Ne.symm hne)
        have hkr : key ∈ keys r := by
          rcases hk with h | h | h
          · exact absurd (lt_trans (hlk _ h) hgt) (lt_irrefl _)
          · exact absurd h hne
          · exact h
        obtain ⟨r', he, hs, hks⟩ := ihr hor hkr
        exact ⟨.node k v b l r', by simp [put, h0, h1, he], by simp [skeleton, hs], by simp [hks]⟩

end order

/-- A sequence of `Put`s keeps a balanced tree balanced. -/
theorem putAll_balanced (ops : List (K × V)) (t : Tree K V) (hu : UnitCmp t.Comparator)
    (hb : Balanced t.Root) : ∃ t', putAll t ops = some t' ∧ Balanced t'.Root := by
  induction ops generalizing t with
  | nil => exact ⟨t, rfl, hb⟩
  | cons op ops ih =>
    obtain ⟨k, v⟩ := op
    obtain ⟨r', s', f, he, hb', -⟩ := put_balanced hu k v t.Root t.size hb
    obtain ⟨t', h1, h2⟩ := ih { t with Root := r', size := s' } hu hb'
    exact ⟨t', by simp [putAll, Tree.Put, he, h1], h2⟩

/-- A sequence of `Put`s keeps a balanced, ordered tree balanced and ordered, keeps the
comparator, and adds exactly the keys that were put. -/
theorem putAll_spec [LinearOrder K] (ops : List (K × V)) (t : Tree K V)
    (hl : LawfulCmp t.Comparator) (hu : UnitCmp t.Comparator)
    (hb : Balanced t.Root) (ho : Ordered t.Root) :
    ∃ t', putAll t ops = some t' ∧ Balanced t'.Root ∧ Ordered t'.Root ∧
      t'.Comparator = t.Comparator ∧
      ∀ k, k ∈ keys t'.Root ↔ k ∈ keys t.Root ∨ k ∈ ops.map Prod.fst := by
  induction ops generalizing t with
  | nil => exact ⟨t, rfl, hb, ho, rfl, by simp⟩
  | cons op ops ih =>
    obtain ⟨k, v⟩ := op
    obtain ⟨r', s', f, he, hb', ho', htl⟩ := put_spec hl hu k v t.Root t.size hb ho
    obtain ⟨t', h1, h2, h3, h4, h5⟩ := ih { t with Root := r', size := s' } hl hu hb' ho'
    refine ⟨t', by simp [putAll, Tree.Put, he, h1], h2, h3, h4, ?_⟩
    intro x
    rw [h5 x]
    have hx : x ∈ keys r' ↔ x = k ∨ x ∈ keys t.Root := by
      simp only [keys, htl, List.mem_map, mem_insertL]
      constructor
      · rintro ⟨e, (rfl | ⟨h, -⟩), rfl⟩
        · exact Or.inl rfl
        · exact Or.inr ⟨e, h, rfl⟩
      · rintro (rfl | ⟨e, h, rfl⟩)
        · exact ⟨(x, v), Or.inl rfl, rfl⟩
        · by_cases hek : e.1 = k
          · exact ⟨(k, v), Or.inl rfl, hek.symm⟩
          · exact ⟨e, Or.inr ⟨h, hek⟩, rfl⟩
    simp only [hx, List.map_cons, List.mem_cons]
    tauto

theorem unitCmp_IntComparator : UnitCmp IntComparator := by
  intro a b
  unfold IntComparator
  split_ifs <;> simp

theorem lawfulCmp_IntComparator : LawfulCmp IntComparator := by
  constructor
  · intro a b
    unfold IntComparator
    split_ifs <;> simp_all
  · intro a b
    unfold IntComparator
    split_ifs <;> simp_all <;> omega

end avltree

namespace avltree
variable {K V : Type}

/-! ## Removal -/

theorem rotate_left (k : K) (v : V) (b : Int) (lk : K) (lv : V) (lb : Int) (ll lr r : Node K V) :
    rotate (-1) (.node k v b (.node lk lv lb ll lr) r)
      = some (.node lk lv lb ll (.node k v b lr r)) := by
  simp [rotate, getChild, setChild]

theorem rotate_right (k : K) (v : V) (b : Int) (rk : K) (rv : V) (rb : Int) (l rl rr : Node K V) :
    rotate 1 (.node k v b l (.node rk rv rb rl rr))
      = some (.node rk rv rb (.node k v b l rl) rr) := by
  simp [rotate, getChild, setChild]

/-- `removeFix(1, ·)` after a removal in the left subtree: the untouched right subtree is
balanced and, when the tag says it is the taller one, not empty; then no missing node is
dereferenced and the in-order sequence is kept. -/
theorem removeFix_right_ok {k : K} {v : V} {b : Int} {l r : Node K V}
    (hb : b = -1 ∨ b = 0 ∨ b = 1) (hr : Balanced r) (hne : b = 1 → 0 < height r) :
    ∃ t f, removeFix 1 (.node k v b l r) = some (t, f) ∧
      toList t = toList l ++ (k, v) :: toList r := by
  rcases hb with hb | hb | hb
  · subst hb
    exact ⟨.node k v 0 l r, true, by simp [removeFix], by simp [toList]⟩
  · subst hb
    exact ⟨.node k v 1 l r, false, by simp [removeFix], by simp [toList]⟩
  · subst hb
    cases r with
    | nil => simp [height] at hne
    | node rk rv rb rl rr =>
      obtain ⟨hrb, hrbe, hrl, hrr⟩ := hr
      have n3 := height_nonneg rl
      have n4 := height_nonneg rr
      rcases hrb with hrb | hrb | hrb
      · subst hrb
        cases rl with
        | nil => simp [height] at hrbe; omega
        | node gk gv gb gl gr =>
          refine ⟨_, true,
            (by simp [removeFix, getChild, getBalance, doubleRotate_right]; rfl), ?_⟩
          simp [toList]
      · subst hrb
        refine ⟨.node rk rv (-1) (.node k v 1 l rl) rr, false, ?_, ?_⟩
        · simp [removeFix, getChild, getBalance, rotate_right, setBalance]
        · simp [toList]
      · subst hrb
        refine ⟨.node rk rv 0 (.node k v 0 l rl) rr, true, ?_, ?_⟩
        · simp [removeFix, getChild, getBalance, singleRotate_right]
        · simp [toList]

/-- `removeFix(-1, ·)` after a removal in the right subtree (mirror image). -/
theorem removeFix_left_ok {k : K} {v : V} {b : Int} {l r : Node K V}
    (hb : b = -1 ∨ b = 0 ∨ b = 1) (hl : Balanced l) (hne : b = -1 → 0 < height l) :
    ∃ t f, removeFix (-1) (.node k v b l r) = some (t, f) ∧
      toList t = toList l ++ (k, v) :: toList r := by
  rcases hb with hb | hb | hb
  · subst hb
    cases l with
    | nil => simp [height] at hne
    | node lk lv lb ll lr =>
      obtain ⟨hlb, hlbe, hll, hlr⟩ := hl
      have n3 := height_nonneg ll
      have n4 := height_nonneg lr
      rcases hlb with hlb | hlb | hlb
      · subst hlb
        refine ⟨.node lk lv 0 ll (.node k v 0 lr r), true, ?_, ?_⟩
        · simp [removeFix, getChild, getBalance, singleRotate_left]
        · simp [toList]
      · subst hlb
        refine ⟨.node lk lv 1 ll (.node k v (-1) lr r), false, ?_, ?_⟩
        · simp [removeFix, getChild, getBalance, rotate_left, setBalance]
        · simp [toList]
      · subst hlb
        cases lr with
        | nil => simp [height] at hlbe; omega
        | node gk gv gb gl gr =>
          refine ⟨_, true,
            (by simp [removeFix, getChild, getBalance, doubleRotate_left]; rfl), ?_⟩
          simp [toList]
  · subst hb
    exact ⟨.node k v (-1) l r, false, by simp [removeFix], by simp [toList]⟩
  · subst hb
    exact ⟨.node k v 0 l r, true, by simp [removeFix], by simp [toList]⟩

/-- `removeMin` on a non-empty subtree splices the first in-order entry out. -/
theorem removeMin_spec (k : K) (v : V) (b : Int) (l r : Node K V) :
    ∃ t' mk mv, removeMin (.node k v b l r) = some (t', mk, mv, true) ∧
      toList (.node k v b l r) = (mk, mv) :: toList t' := by
  induction l generalizing k v b r with
  | nil => exact ⟨r, k, v, by simp [removeMin], by simp [toList]⟩
  | node lk lv lb ll lr ihl _ =>
    obtain ⟨t', mk, mv, he, ht⟩ := ihl lk lv lb lr
    refine ⟨.node k v b t' r, mk, mv, ?_, ?_⟩
    · rw [removeMin, he]
    · rw [toList, ht]; simp [toList]

section order
variable [LinearOrder K]

theorem filter_ne_of_all_lt {L : List (K × V)} {key : K} (h : ∀ e ∈ L, e.1 < key) :
    L.filter (fun e => decide (e.1 ≠ key)) = L := by
  rw [List.filter_eq_self]
  intro e he
  simpa using ne_of_lt (h e he)

theorem filter_ne_of_all_gt {L : List (K × V)} {key : K} (h : ∀ e ∈ L, key < e.1) :
    L.filter (fun e => decide (e.1 ≠ key)) = L := by
  rw [List.filter_eq_self]
  intro e he
  simpa using ne_of_gt (h e he)

/-- `remove` on a balanced, ordered subtree: it completes and leaves exactly the entries
whose key differs from the removed one, in the same order; the count follows. -/
theorem remove_spec {cmp : K → K → Int} (hl : LawfulCmp cmp) (hu : UnitCmp cmp) (key : K)
    (t : Node K V) (size : Int) (hb : Balanced t) (ho : Ordered t) :
    ∃ t' size' f, remove cmp key t size = some (t', size', f) ∧
      toList t' = (toList t).filter (fun e => decide (e.1 ≠ key)) ∧
      size' = size + ((toList t').length - (toList t).length : Int) := by
  induction t generalizing size with
  | nil => exact ⟨.nil, size, false, rfl, by simp [toList], by simp⟩
  | node k v b l r ihl ihr =>
    obtain ⟨hbb, hbe, hbl, hbr⟩ := hb
    obtain ⟨hol, hor, hlk, hrk⟩ := ordered_node.1 ho
    have e1 := hl.eq_iff key k
    have e2 := hl.lt_iff key k
    have hl' : ∀ e ∈ toList l, e.1 < k := fun e he => hlk _ (mem_toList_keys he)
    have hr' : ∀ e ∈ toList r, k < e.1 := fun e he => hrk _ (mem_toList_keys he)
    have n1 := height_nonneg l
    have n2 := height_nonneg r
    rcases hu key k with h | h | h
    · have hlt : key < k := e2.1 (by omega)
      have hr'' : ∀ e ∈ toList r, key < e.1 := fun e he => lt_trans hlt (hr' e he)
      obtain ⟨l', s', f, he, htl, hs⟩ := ihl size hbl hol
      have hfl : (toList (.node k v b l r)).filter (fun e => decide (e.1 ≠ key))
          = toList l' ++ (k, v) :: toList r := by
        simp [toList, List.filter_append, List.filter_cons, htl, ne_of_gt hlt]
        exact fun a b hab => ne_of_gt (hr'' (a, b) hab)
      cases f with
      | false =>
        refine ⟨.node k v b l' r, s', false, by simp [remove, h, he], ?_, ?_⟩
        · rw [hfl]; simp [toList]
        · simp [toList, hs]
      | true =>
        obtain ⟨t, f, e, ht⟩ := removeFix_right_ok (k := k) (v := v) (l := l') hbb hbr
          (by intro hb1; omega)
        refine ⟨t, s', f, by simp [remove, h, he, e], ?_, ?_⟩
        · rw [hfl, ht]
        · simp [ht, toList, hs]
    · have hk : key = k := e1.1 h
      subst hk
      have hfl : (toList (.node key v b l r)).filter (fun e => decide (e.1 ≠ key))
          = toList l ++ toList r := by
        show List.filter _ (toList l ++ (key, v) :: toList r) = _
        rw [List.filter_append, List.filter_cons, filter_ne_of_all_lt hl',
          filter_ne_of_all_gt hr']
        simp
      cases r with
      | nil =>
        refine ⟨l, size - 1, true, by simp [remove, h], ?_, ?_⟩
        · rw [hfl]; simp [toList]
        · simp [toList]; omega
      | node rk rv rb rl rr =>
        obtain ⟨r', mk, mv, he, ht⟩ := removeMin_spec rk rv rb rl rr
        refine ⟨.node mk mv b l r', size - 1, true, by simp [remove, h, he], ?_, ?_⟩
        · rw [hfl, ht]; simp [toList]
        · simp only [toList] at ht ⊢
          simp [ht]; omega
    · have hgt : k < key := by
        have h1 : ¬ cmp key k < 0 := by omega
        have h0 : key ≠ k := fun hh => by have := e1.2 hh; omega
        exact lt_of_le_of_ne (not_lt.1 (fun hh => h1 (e2.2 hh))) (Ne.symm h0)
      have hl'' : ∀ e ∈ toList l, e.1 < key := fun e he => lt_trans (hl' e he) hgt
      obtain ⟨r', s', f, he, htr, hs⟩ := ihr size hbr hor
      have hfl : (toList (.node k v b l r)).filter (fun e => decide (e.1 ≠ key))
          = toList l ++ (k, v) :: toList r' := by
        simp [toList, List.filter_append, List.filter_cons, htr, ne_of_lt hgt]
        exact fun a b hab => ne_of_lt (hl'' (a, b) hab)
      cases f with
      | false =>
        refine ⟨.node k v b l r', s', false, by simp [remove, h, he], ?_, ?_⟩
        · rw [hfl]; simp [toList]
        · simp [toList, hs]
      | true =>
        obtain ⟨t, f, e, ht⟩ := removeFix_left_ok (k := k) (v := v) (r := r') hbb hbl
          (by intro hb1; omega)
        refine ⟨t, s', f, by simp [remove, h, he, e], ?_, ?_⟩
        · rw [hfl, ht]
        · simp [ht, toList, hs]

end order
end avltree

namespace avltree
variable {K V : Type}

/-! ## Iteration -/

/-- Leftmost descent reaches the first node of the subtree; the sequence from there is the
subtree followed by what follows the subtree. -/
theorem descend_zero (k : K) (v : V) (b : Int) (l r : Node K V) (up : List (Frame K V)) :
    ∃ c k' v' b' l' r', descend 0 (.node k v b l r) up = some c ∧
      c.node = .node k' v' b' l' r' ∧
      seqFrom (some c) = keys (.node k v b l r) ++ upAfter up := by
  induction l generalizing k v b r up with
  | nil =>
    exact ⟨⟨.node k v b .nil r, up⟩, k, v, b, .nil, r, by simp [descend], rfl,
      by simp [seqFrom]⟩
  | node lk lv lb ll lr ihl _ =>
    obtain ⟨c, k', v', b', l', r', he, hn, hs⟩ := ihl lk lv lb lr (⟨false, k, v, b, r⟩ :: up)
    refine ⟨c, k', v', b', l', r', ?_, hn, ?_⟩
    · simpa [descend] using he
    · rw [hs]; simp [upAfter]

/-- Climbing while the node is a right child ends at the next ancestor in in-order. -/
theorem climb_one (cur : Node K V) (up : List (Frame K V)) :
    seqFrom (climb 1 cur up) = upAfter up ∧
      ∀ c, climb 1 cur up = some c → ∃ k v b l r, c.node = .node k v b l r := by
  induction up generalizing cur with
  | nil => simp [climb, seqFrom, upAfter]
  | cons f fs ih =>
    cases hs : f.slot with
    | true =>
      have := ih (f.fill cur)
      simpa [climb, slotIndex, hs, upAfter] using this
    | false =>
      simp [climb, slotIndex, hs, upAfter, seqFrom, Frame.fill]

/-- One step of `Next()` on a node: the sequence from the node is its key followed by the
sequence from the node that `walk(1)` returns; the returned pointer is nil or a real node. -/
theorem walk_one (c : Cursor K V) (k : K) (v : V) (b : Int) (l r : Node K V)
    (hc : c.node = .node k v b l r) :
    ∃ n', walk 1 (some c) = some n' ∧ seqFrom (some c) = k :: seqFrom n' ∧
      ∀ c', n' = some c' → ∃ k' v' b' l' r', c'.node = .node k' v' b' l' r' := by
  cases r with
  | nil =>
    refine ⟨climb 1 c.node c.up, by simp [walk, hc], ?_, ?_⟩
    · rw [hc, (climb_one (.node k v b l .nil) c.up).1]; simp [seqFrom, hc]
    · intro c' h
      exact (climb_one c.node c.up).2 c' h
  | node rk rv rb rl rr =>
    obtain ⟨c', k', v', b', l', r', he, hn, hs⟩ :=
      descend_zero rk rv rb rl rr (⟨true, k, v, b, l⟩ :: c.up)
    refine ⟨some c', by simp [walk, hc, he], ?_, ?_⟩
    · rw [hs]; simp [seqFrom, hc, upAfter]
    · intro c'' h
      cases h
      exact ⟨k', v', b', l', r', hn⟩

/-- The loop of `Keys()` started between two elements collects the rest of the in-order
sequence and stops. -/
theorem keysLoop_between (fuel : Nat) (it : Iterator K V) (acc : List (Option K))
    (hp : it.position = .between)
    (hv : ∀ c, it.node = some c → ∃ k v b l r, c.node = .node k v b l r)
    (hf : (seqFrom it.node).length ≤ fuel) (hfp : 0 < fuel) :
    keysLoop fuel it acc = some (acc ++ ((seqFrom it.node).tail).map some) := by
  induction fuel generalizing it acc with
  | zero => omega
  | succ n ih =>
    obtain ⟨tree, node, pos⟩ := it
    simp only at hp hv hf ⊢
    subst hp
    cases node with
    | none => simp [keysLoop, Iterator.Next, avltree.Next, walk, seqFrom]
    | some c =>
      obtain ⟨k, v, b, l, r, hc⟩ := hv c rfl
      obtain ⟨n', hw, hs, hv'⟩ := walk_one c k v b l r hc
      rw [hs] at hf ⊢
      cases n' with
      | none =>
        simp [keysLoop, Iterator.Next, avltree.Next, hw, seqFrom]
      | some c' =>
        obtain ⟨k', v', b', l', r', hc'⟩ := hv' c' rfl
        have hlen : (seqFrom (some c')).length ≤ n := by
          simp at hf; omega
        have hpos : 0 < n := by
          have : 0 < (seqFrom (some c')).length := by simp [seqFrom, hc']
          omega
        have := ih { tree := tree, node := some c', position := .between }
          (acc ++ [some k']) rfl (by intro c'' h; cases h; exact ⟨k', v', b', l', r', hc'⟩)
          hlen hpos
        simp only [keysLoop, Iterator.Next, avltree.Next, hw, Iterator.Key, hc',
          Option.bind_eq_bind, Option.some_bind, Option.pure_def, bind_pure_comp] 
        simp only [List.tail_cons]
        simp only at this
        rw [this]
        simp [seqFrom, hc']

/-- `Keys()` returns the in-order key sequence once the iteration bound exceeds the number
of keys. -/
theorem Keys_eq (t : Tree K V) (fuel : Nat) (hf : (keys t.Root).length < fuel) :
    t.Keys fuel = some ((keys t.Root).map some) := by
  obtain ⟨n, rfl⟩ : ∃ n, fuel = n + 1 := ⟨fuel - 1, by omega⟩
  cases hr : t.Root with
  | nil =>
    simp [Tree.Keys, keysLoop, Iterator.Next, Tree.Iterator, Tree.Left, Tree.bottom, hr]
  | node k v b l r =>
    obtain ⟨c, k', v', b', l', r', he, hn, hs⟩ := descend_zero k v b l r []
    simp only [upAfter, List.append_nil] at hs
    rw [hr] at hf
    have hlen : (seqFrom (some c)).length ≤ n := by rw [hs]; omega
    have hpos : 0 < n := by
      have : 0 < (seqFrom (some c)).length := by simp [seqFrom, hn]
      omega
    have := keysLoop_between n { tree := t, node := some c, position := .between }
      ([] ++ [some k']) rfl (by intro c'' h; cases h; exact ⟨k', v', b', l', r', hn⟩)
      hlen hpos
    simp only [Tree.Keys, keysLoop, Iterator.Next, Tree.Iterator, Tree.Left, Tree.bottom, hr,
      he, Iterator.Key, hn, Option.bind_eq_bind, Option.some_bind, Option.pure_def,
      Option.map_some']
    simp only at this
    rw [this, ← hs]
    simp [seqFrom, hn]

end avltree

namespace avltree
variable {K V : Type}

/-! ## Backward iteration -/

/-- Rightmost descent reaches the last node of the subtree; the backward sequence from
there is the subtree reversed followed by what precedes the subtree. -/
theorem descend_one (k : K) (v : V) (b : Int) (l r : Node K V) (up : List (Frame K V)) :
    ∃ c k' v' b' l' r', descend 1 (.node k v b l r) up = some c ∧
      c.node = .node k' v' b' l' r' ∧
      seqBack (some c) = (keys (.node k v b l r)).reverse ++ upBefore up := by
  induction r generalizing k v b l up with
  | nil =>
    exact ⟨⟨.node k v b l .nil, up⟩, k, v, b, l, .nil, by simp [descend], rfl,
      by simp [seqBack]⟩
  | node rk rv rb rl rr _ ihr =>
    obtain ⟨c, k', v', b', l', r', he, hn, hs⟩ := ihr rk rv rb rl (⟨true, k, v, b, l⟩ :: up)
    refine ⟨c, k', v', b', l', r', ?_, hn, ?_⟩
    · simpa [descend] using he
    · rw [hs]; simp [upBefore]

/-- Climbing while the node is a left child ends at the previous ancestor in in-order. -/
theorem climb_zero (cur : Node K V) (up : List (Frame K V)) :
    seqBack (climb 0 cur up) = upBefore up ∧
      ∀ c, climb 0 cur up = some c → ∃ k v b l r, c.node = .node k v b l r := by
  induction up generalizing cur with
  | nil => simp [climb, seqBack, upBefore]
  | cons f fs ih =>
    cases hs : f.slot with
    | false =>
      have := ih (f.fill cur)
      simpa [climb, slotIndex, hs, upBefore] using this
    | true =>
      simp [climb, slotIndex, hs, upBefore, seqBack, Frame.fill]

/-- One step of `Prev()` on a node: the backward sequence from the node is its key followed
by the backward sequence from the node that `walk(0)` returns. -/
theorem walk_zero (c : Cursor K V) (k : K) (v : V) (b : Int) (l r : Node K V)
    (hc : c.node = .node k v b l r) :
    ∃ n', walk 0 (some c) = some n' ∧ seqBack (some c) = k :: seqBack n' ∧
      ∀ c', n' = some c' → ∃ k' v' b' l' r', c'.node = .node k' v' b' l' r' := by
  cases l with
  | nil =>
    refine ⟨climb 0 c.node c.up, by simp [walk, hc], ?_, ?_⟩
    · rw [hc, (climb_zero (.node k v b .nil r) c.up).1]; simp [seqBack, hc]
    · intro c' h
      exact (climb_zero c.node c.up).2 c' h
  | node lk lv lb ll lr =>
    obtain ⟨c', k', v', b', l', r', he, hn, hs⟩ :=
      descend_one lk lv lb ll lr (⟨false, k, v, b, r⟩ :: c.up)
    refine ⟨some c', by simp [walk, hc, he, xor1], ?_, ?_⟩
    · rw [hs]; simp [seqBack, hc, upBefore]
    · intro c'' h
      cases h
      exact ⟨k', v', b', l', r', hn⟩

/-- The backward loop started between two elements collects the rest of the reversed
in-order sequence and stops. -/
theorem prevLoop_between (fuel : Nat) (it : Iterator K V) (acc : List (Option K))
    (hp : it.position = .between)
    (hv : ∀ c, it.node = some c → ∃ k v b l r, c.node = .node k v b l r)
    (hf : (seqBack it.node).length ≤ fuel) (hfp : 0 < fuel) :
    prevLoop fuel it acc = some (acc ++ ((seqBack it.node).tail).map some) := by
  induction fuel generalizing it acc with
  | zero => omega
  | succ n ih =>
    obtain ⟨tree, node, pos⟩ := it
    simp only at hp hv hf ⊢
    subst hp
    cases node with
    | none => simp [prevLoop, Iterator.Prev, avltree.Prev, walk, seqBack]
    | some c =>
      obtain ⟨k, v, b, l, r, hc⟩ := hv c rfl
      obtain ⟨n', hw, hs, hv'⟩ := walk_zero c k v b l r hc
      rw [hs] at hf ⊢
      cases n' with
      | none =>
        simp [prevLoop, Iterator.Prev, avltree.Prev, hw, seqBack]
      | some c' =>
        obtain ⟨k', v', b', l', r', hc'⟩ := hv' c' rfl
        have hlen : (seqBack (some c')).length ≤ n := by
          simp at hf; omega
        have hpos : 0 < n := by
          have : 0 < (seqBack (some c')).length := by simp [seqBack, hc']
          omega
        have := ih { tree := tree, node := some c', position := .between }
          (acc ++ [some k']) rfl (by intro c'' h; cases h; exact ⟨k', v', b', l', r', hc'⟩)
          hlen hpos
        simp only [prevLoop, Iterator.Prev, avltree.Prev, hw, Iterator.Key, hc',
          Option.bind_eq_bind, Option.some_bind, Option.pure_def, bind_pure_comp]
        simp only [List.tail_cons]
        simp only at this
        rw [this]
        simp [seqBack, hc']

/-- The backward loop from the end returns the reversed in-order key sequence once the
iteration bound exceeds the number of keys. -/
theorem prevLoop_end (t : Tree K V) (fuel : Nat) (hf : (keys t.Root).length < fuel) :
    prevLoop fuel t.Iterator.End [] = some ((keys t.Root).reverse.map some) := by
  obtain ⟨n, rfl⟩ : ∃ n, fuel = n + 1 := ⟨fuel - 1, by omega⟩
  cases hr : t.Root with
  | nil =>
    simp [prevLoop, Iterator.Prev, Tree.Iterator, Iterator.End, Tree.Right, Tree.bottom, hr]
  | node k v b l r =>
    obtain ⟨c, k', v', b', l', r', he, hn, hs⟩ := descend_one k v b l r []
    simp only [upBefore, List.append_nil] at hs
    rw [hr] at hf
    have hlen : (seqBack (some c)).length ≤ n := by rw [hs, List.length_reverse]; omega
    have hpos : 0 < n := by
      have : 0 < (seqBack (some c)).length := by simp [seqBack, hn]
      omega
    have := prevLoop_between n { tree := t, node := some c, position := .between }
      ([] ++ [some k']) rfl (by intro c'' h; cases h; exact ⟨k', v', b', l', r', hn⟩)
      hlen hpos
    simp only [prevLoop, Iterator.Prev, Tree.Iterator, Iterator.End, Tree.Right, Tree.bottom,
      hr, he, Iterator.Key, hn, Option.bind_eq_bind, Option.some_bind, Option.pure_def,
      Option.map_some']
    simp only at this
    rw [this, ← hs]
    simp [seqBack, hn]

end avltree

namespace avltree
variable {K V : Type}

/-- The loop `for it.Next() {}` started between two elements ends with the iterator at the
end position, without node. -/
theorem drain_between (fuel : Nat) (it : Iterator K V)
    (hp : it.position = .between)
    (hv : ∀ c, it.node = some c → ∃ k v b l r, c.node = .node k v b l r)
    (hf : (seqFrom it.node).length ≤ fuel) (hfp : 0 < fuel) :
    drain fuel it = some { tree := it.tree, node := none, position := .atEnd } := by
  induction fuel generalizing it with
  | zero => omega
  | succ n ih =>
    obtain ⟨tree, node, pos⟩ := it
    simp only at hp hv hf ⊢
    subst hp
    cases node with
    | none => simp [drain, Iterator.Next, avltree.Next, walk]
    | some c =>
      obtain ⟨k, v, b, l, r, hc⟩ := hv c rfl
      obtain ⟨n', hw, hs, hv'⟩ := walk_one c k v b l r hc
      rw [hs] at hf
      cases n' with
      | none =>
        simp [drain, Iterator.Next, avltree.Next, hw]
      | some c' =>
        obtain ⟨k', v', b', l', r', hc'⟩ := hv' c' rfl
        have hlen : (seqFrom (some c')).length ≤ n := by
          simp at hf; omega
        have hpos : 0 < n := by
          have : 0 < (seqFrom (some c')).length := by simp [seqFrom, hc']
          omega
        have := ih { tree := tree, node := some c', position := .between }
          rfl (by intro c'' h; cases h; exact ⟨k', v', b', l', r', hc'⟩) hlen hpos
        simp only [drain, Iterator.Next, avltree.Next, hw,
          Option.bind_eq_bind, Option.some_bind, Option.pure_def, bind_pure_comp]
        simpa using this

/-- Running `Next()` on a fresh iterator until it answers false leaves the iterator where
`End()` puts it. -/
theorem drain_eq (t : Tree K V) (fuel : Nat) (hf : (keys t.Root).length < fuel) :
    drain fuel t.Iterator = some t.Iterator.End := by
  obtain ⟨n, rfl⟩ : ∃ n, fuel = n + 1 := ⟨fuel - 1, by omega⟩
  cases hr : t.Root with
  | nil =>
    simp [drain, Iterator.Next, Tree.Iterator, Iterator.End, Tree.Left, Tree.bottom, hr]
  | node k v b l r =>
    obtain ⟨c, k', v', b', l', r', he, hn, hs⟩ := descend_zero k v b l r []
    simp only [upAfter, List.append_nil] at hs
    rw [hr] at hf
    have hlen : (seqFrom (some c)).length ≤ n := by rw [hs]; omega
    have hpos : 0 < n := by
      have : 0 < (seqFrom (some c)).length := by simp [seqFrom, hn]
      omega
    have := drain_between n { tree := t, node := some c, position := .between }
      rfl (by intro c'' h; cases h; exact ⟨k', v', b', l', r', hn⟩) hlen hpos
    simp only [drain, Iterator.Next, Tree.Iterator, Iterator.End, Tree.Left, Tree.bottom, hr,
      he, Option.bind_eq_bind, Option.some_bind, Option.pure_def, Option.map_some']
    simpa using this

/-! ## Removal of an absent key -/

/-- `remove` of a key that no node of the subtree compares equal to returns the subtree and
the count as they are, with the flag false. -/
theorem remove_absent (cmp : K → K → Int) (key : K) (n : Node K V) (size : Int)
    (h : ∀ k ∈ keys n, cmp key k ≠ 0) : remove cmp key n size = some (n, size, false) := by
  induction n with
  | nil => rfl
  | node k v b l r ihl ihr =>
    have hk : cmp key k ≠ 0 := h k (by simp [keys, toList])
    have hl : ∀ k' ∈ keys l, cmp key k' ≠ 0 := fun k' hk' => h k' (by
      simp only [keys, toList, List.map_append, List.map_cons, List.mem_append,
        List.mem_cons] at hk' ⊢
      exact Or.inl hk')
    have hr : ∀ k' ∈ keys r, cmp key k' ≠ 0 := fun k' hk' => h k' (by
      simp only [keys, toList, List.map_append, List.map_cons, List.mem_append,
        List.mem_cons] at hk' ⊢
      exact Or.inr (Or.inr hk'))
    simp only [remove, hk, if_false]
    by_cases hlt : cmp key k < 0
    · simp [hlt, ihl hl]
    · simp [hlt, ihr hr]

end avltree

namespace avltree
variable {K V : Type}

/-! ## Floor and ceiling -/

theorem toList_node (k : K) (v : V) (b : Int) (l r : Node K V) :
    toList (.node k v b l r) = toList l ++ (k, v) :: toList r := rfl

theorem mem_keys_node {x k : K} {v : V} {b : Int} {l r : Node K V} :
    x ∈ keys (.node k v b l r) ↔ x ∈ keys l ∨ x = k ∨ x ∈ keys r := by
  simp

section order
variable [LinearOrder K]

/-- The loop of `Floor` on an ordered subtree: without a key at most `key` in the subtree
the candidate is returned, otherwise the node of the greatest such key. -/
theorem floorLoop_spec {cmp : K → K → Int} (hc : LawfulCmp cmp) (key : K) (n : Node K V) :
    ∀ acc, Ordered n →
      ((∀ k' ∈ keys n, key < k') ∧ floorLoop cmp key n acc = acc) ∨
      (∃ k' v' b' l' r', floorLoop cmp key n acc = some (.node k' v' b' l' r') ∧
        (k', v') ∈ toList n ∧ k' ≤ key ∧ ∀ k'' ∈ keys n, k'' ≤ key → k'' ≤ k') := by
  induction n with
  | nil => intro acc _; exact Or.inl ⟨by simp, rfl⟩
  | node k v b l r ihl ihr =>
    intro acc ho
    obtain ⟨ol, or', hl, hr⟩ := ordered_node.1 ho
    rcases lt_trichotomy key k with hlt | heq | hgt
    · have hc1 : cmp key k < 0 := (hc.lt_iff key k).2 hlt
      have he : floorLoop cmp key (.node k v b l r) acc = floorLoop cmp key l acc := by
        simp [floorLoop, hc1]
      rw [he]
      rcases ihl acc ol with ⟨h1, h2⟩ | ⟨k', v', b', l', r', h1, h2, h3, h4⟩
      · refine Or.inl ⟨?_, h2⟩
        intro k'' hk''
        rcases mem_keys_node.1 hk'' with h | rfl | h
        · exact h1 k'' h
        · exact hlt
        · exact lt_trans hlt (hr k'' h)
      · refine Or.inr ⟨k', v', b', l', r', h1, by simp [toList_node, h2], h3, ?_⟩
        intro k'' hk'' hle
        rcases mem_keys_node.1 hk'' with h | rfl | h
        · exact h4 k'' h hle
        · exact absurd hlt (not_lt.2 hle)
        · exact absurd (lt_trans hlt (hr k'' h)) (not_lt.2 hle)
    · subst heq
      have hc0 : cmp key key = 0 := (hc.eq_iff key key).2 rfl
      refine Or.inr ⟨key, v, b, l, r, by simp [floorLoop, hc0], by simp [toList_node], le_rfl,
        fun k'' _ hle => hle⟩
    · have hn1 : ¬ cmp key k < 0 := fun h => lt_asymm hgt ((hc.lt_iff key k).1 h)
      have hn2 : cmp key k ≠ 0 := fun h => ne_of_gt hgt ((hc.eq_iff key k).1 h)
      have hp : cmp key k > 0 := by omega
      have he : floorLoop cmp key (.node k v b l r) acc
          = floorLoop cmp key r (some (.node k v b l r)) := by
        simp [floorLoop, hn1, hp]
      rw [he]
      rcases ihr (some (.node k v b l r)) or' with ⟨h1, h2⟩ | ⟨k', v', b', l', r', h1, h2, h3, h4⟩
      · refine Or.inr ⟨k, v, b, l, r, h2, by simp [toList_node], le_of_lt hgt, ?_⟩
        intro k'' hk'' hle
        rcases mem_keys_node.1 hk'' with h | rfl | h
        · exact le_of_lt (hl k'' h)
        · exact le_rfl
        · exact absurd (h1 k'' h) (not_lt.2 hle)
      · have hkk : k < k' := hr k' (mem_keys_of_mem h2)
        refine Or.inr ⟨k', v', b', l', r', h1, by simp [toList_node, h2], h3, ?_⟩
        intro k'' hk'' hle
        rcases mem_keys_node.1 hk'' with h | rfl | h
        · exact le_of_lt (lt_trans (hl k'' h) hkk)
        · exact le_of_lt hkk
        · exact h4 k'' h hle

/-- The loop of `Ceiling` on an ordered subtree: without a key at least `key` in the
subtree the candidate is returned, otherwise the node of the least such key. -/
theorem ceilingLoop_spec {cmp : K → K → Int} (hc : LawfulCmp cmp) (key : K) (n : Node K V) :
    ∀ acc, Ordered n →
      ((∀ k' ∈ keys n, k' < key) ∧ ceilingLoop cmp key n acc = acc) ∨
      (∃ k' v' b' l' r', ceilingLoop cmp key n acc = some (.node k' v' b' l' r') ∧
        (k', v') ∈ toList n ∧ key ≤ k' ∧ ∀ k'' ∈ keys n, key ≤ k'' → k' ≤ k'') := by
  induction n with
  | nil => intro acc _; exact Or.inl ⟨by simp, rfl⟩
  | node k v b l r ihl ihr =>
    intro acc ho
    obtain ⟨ol, or', hl, hr⟩ := ordered_node.1 ho
    rcases lt_trichotomy key k with hlt | heq | hgt
    · have hc1 : cmp key k < 0 := (hc.lt_iff key k).2 hlt
      have he : ceilingLoop cmp key (.node k v b l r) acc
          = ceilingLoop cmp key l (some (.node k v b l r)) := by
        simp [ceilingLoop, hc1]
      rw [he]
      rcases ihl (some (.node k v b l r)) ol with
        ⟨h1, h2⟩ | ⟨k', v', b', l', r', h1, h2, h3, h4⟩
      · refine Or.inr ⟨k, v, b, l, r, h2, by simp [toList_node], le_of_lt hlt, ?_⟩
        intro k'' hk'' hle
        rcases mem_keys_node.1 hk'' with h | rfl | h
        · exact absurd (h1 k'' h) (not_lt.2 hle)
        · exact le_rfl
        · exact le_of_lt (hr k'' h)
      · have hkk : k' < k := hl k' (mem_keys_of_mem h2)
        refine Or.inr ⟨k', v', b', l', r', h1, by simp [toList_node, h2], h3, ?_⟩
        intro k'' hk'' hle
        rcases mem_keys_node.1 hk'' with h | rfl | h
        · exact h4 k'' h hle
        · exact le_of_lt hkk
        · exact le_of_lt (lt_trans hkk (hr k'' h))
    · subst heq
      have hc0 : cmp key key = 0 := (hc.eq_iff key key).2 rfl
      refine Or.inr ⟨key, v, b, l, r, by simp [ceilingLoop, hc0], by simp [toList_node],
        le_rfl, fun k'' _ hle => hle⟩
    · have hn1 : ¬ cmp key k < 0 := fun h => lt_asymm hgt ((hc.lt_iff key k).1 h)
      have hn2 : cmp key k ≠ 0 := fun h => ne_of_gt hgt ((hc.eq_iff key k).1 h)
      have hp : cmp key k > 0 := by omega
      have he : ceilingLoop cmp key (.node k v b l r) acc = ceilingLoop cmp key r acc := by
        simp [ceilingLoop, hn1, hp]
      rw [he]
      rcases ihr acc or' with ⟨h1, h2⟩ | ⟨k', v', b', l', r', h1, h2, h3, h4⟩
      · refine Or.inl ⟨?_, h2⟩
        intro k'' hk''
        rcases mem_keys_node.1 hk'' with h | rfl | h
        · exact lt_trans (hl k'' h) hgt
        · exact hgt
        · exact h1 k'' h
      · refine Or.inr ⟨k', v', b', l', r', h1, by simp [toList_node, h2], h3, ?_⟩
        intro k'' hk'' hle
        rcases mem_keys_node.1 hk'' with h | rfl | h
        · exact absurd (lt_trans (hl k'' h) hgt) (not_lt.2 hle)
        · exact absurd hgt (not_lt.2 hle)
        · exact h4 k'' h hle

end order
end avltree

namespace avltree
variable {K V : Type}

/-! ## `removeFix` as a local repair -/

/-- `removeFix(1, ·)` after the left subtree lost one level. -/
theorem removeFix_right_spec {k : K} {v : V} {b : Int} {l0 l r : Node K V}
    (h0 : Balanced (.node k v b l0 r)) (hl : Balanced l) (hh : height l = height l0 - 1) :
    ∃ t f, removeFix 1 (.node k v b l r) = some (t, f) ∧ Balanced t ∧
      toList t = toList l ++ (k, v) :: toList r ∧
      height t = height (.node k v b l0 r) - (if f then 1 else 0) ∧
      (b = 0 → t = .node k v 1 l r ∧ f = false) ∧
      (b = -1 → t = .node k v 0 l r ∧ f = true) ∧
      (b = 1 → (f = false ↔ getBalance r = some 0)) := by
  obtain ⟨hb, hbe, hl0, hr⟩ := h0
  have n1 := height_nonneg l
  have n2 := height_nonneg r
  simp only [height]
  rcases hb with hb | hb | hb
  · subst hb
    refine ⟨.node k v 0 l r, true, by simp [removeFix], ?_⟩
    simp [Balanced, height, toList, hl, hr]
    omega
  · subst hb
    refine ⟨.node k v 1 l r, false, by simp [removeFix], ?_⟩
    simp [Balanced, height, toList, hl, hr]
    omega
  · subst hb
    cases r with
    | nil => simp [height] at hbe; omega
    | node rk rv rb rl rr =>
      obtain ⟨hrb, hrbe, hrl, hrr⟩ := hr
      have n3 := height_nonneg rl
      have n4 := height_nonneg rr
      simp only [height] at *
      rcases hrb with hrb | hrb | hrb
      · subst hrb
        cases rl with
        | nil => simp [height] at hrbe; omega
        | node gk gv gb gl gr =>
          obtain ⟨hgb, hgbe, hgl, hgr⟩ := hrl
          have n5 := height_nonneg gl
          have n6 := height_nonneg gr
          simp only [height] at *
          refine ⟨_, true,
            (by simp [removeFix, getChild, getBalance, doubleRotate_right]; rfl), ?_⟩
          simp [Balanced, height, toList, getBalance, hl, hgl, hgr, hrr]
          rcases hgb with hgb | hgb | hgb <;> subst hgb <;> simp <;> omega
      · subst hrb
        refine ⟨.node rk rv (-1) (.node k v 1 l rl) rr, false, ?_, ?_⟩
        · simp [removeFix, getChild, getBalance, rotate_right, setBalance]
        · simp [Balanced, height, toList, getBalance, hl, hrl, hrr]
          omega
      · subst hrb
        refine ⟨.node rk rv 0 (.node k v 0 l rl) rr, true, ?_, ?_⟩
        · simp [removeFix, getChild, getBalance, singleRotate_right]
        · simp [Balanced, height, toList, getBalance, hl, hrl, hrr]
          omega

/-- `removeFix(-1, ·)` after the right subtree lost one level (mirror image). -/
theorem removeFix_left_spec {k : K} {v : V} {b : Int} {l r0 r : Node K V}
    (h0 : Balanced (.node k v b l r0)) (hr : Balanced r) (hh : height r = height r0 - 1) :
    ∃ t f, removeFix (-1) (.node k v b l r) = some (t, f) ∧ Balanced t ∧
      toList t = toList l ++ (k, v) :: toList r ∧
      height t = height (.node k v b l r0) - (if f then 1 else 0) ∧
      (b = 0 → t = .node k v (-1) l r ∧ f = false) ∧
      (b = 1 → t = .node k v 0 l r ∧ f = true) ∧
      (b = -1 → (f = false ↔ getBalance l = some 0)) := by
  obtain ⟨hb, hbe, hl, hr0⟩ := h0
  have n1 := height_nonneg l
  have n2 := height_nonneg r
  simp only [height]
  rcases hb with hb | hb | hb
  · subst hb
    cases l with
    | nil => simp [height] at hbe; omega
    | node lk lv lb ll lr =>
      obtain ⟨hlb, hlbe, hll, hlr⟩ := hl
      have n3 := height_nonneg ll
      have n4 := height_nonneg lr
      simp only [height] at *
      rcases hlb with hlb | hlb | hlb
      · subst hlb
        refine ⟨.node lk lv 0 ll (.node k v 0 lr r), true, ?_, ?_⟩
        · simp [removeFix, getChild, getBalance, singleRotate_left]
        · simp [Balanced, height, toList, getBalance, hr, hll, hlr]
          omega
      · subst hlb
        refine ⟨.node lk lv 1 ll (.node k v (-1) lr r), false, ?_, ?_⟩
        · simp [removeFix, getChild, getBalance, rotate_left, setBalance]
        · simp [Balanced, height, toList, getBalance, hr, hll, hlr]
          omega
      · subst hlb
        cases lr with
        | nil => simp [height] at hlbe; omega
        | node gk gv gb gl gr =>
          obtain ⟨hgb, hgbe, hgl, hgr⟩ := hlr
          have n5 := height_nonneg gl
          have n6 := height_nonneg gr
          simp only [height] at *
          refine ⟨_, true,
            (by simp [removeFix, getChild, getBalance, doubleRotate_left]; rfl), ?_⟩
          simp [Balanced, height, toList, getBalance, hr, hgl, hgr, hll]
          rcases hgb with hgb | hgb | hgb <;> subst hgb <;> simp <;> omega
  · subst hb
    refine ⟨.node k v (-1) l r, false, by simp [removeFix], ?_⟩
    simp [Balanced, height, toList, hl, hr]
    omega
  · subst hb
    refine ⟨.node k v 0 l r, true, by simp [removeFix], ?_⟩
    simp [Balanced, height, toList, hl, hr]
    omega

end avltree

namespace avltree
variable {K V : Type}

/-! ## The claims about the AVL engine -/

theorem balanced_nil : Balanced (Node.nil : Node K V) := trivial

theorem ordered_nil [LinearOrder K] : Ordered (Node.nil : Node K V) := by
  simp [Ordered]

/-- C1: `Remove` does not preserve the AVL balance property when the removed node has a right
child. After `Put` of 1, 2, 3 the tree is balanced (root 2 with leaves 1 and 3); `Remove(2)`
copies the successor 3 into the root and splices the successor node out through `removeMin`,
but neither `removeMin` nor the calling branch of `remove` runs `removeFix`, so the root keeps
tag 0 although its right subtree is now empty and its left subtree has height 1. -/
theorem avl_remove_successor_keeps_stale_tag :
    (putAll (NewWith IntComparator) [((1 : Int), (1 : Int)), (2, 2), (3, 3)]).map Tree.Root
        = some (.node 2 2 0 (.node 1 1 0 .nil .nil) (.node 3 3 0 .nil .nil)) ∧
      Balanced (Node.node (2 : Int) (2 : Int) 0 (.node 1 1 0 .nil .nil) (.node 3 3 0 .nil .nil)) ∧
      ((putAll (NewWith IntComparator) [((1 : Int), (1 : Int)), (2, 2), (3, 3)]).bind
          (fun t => t.Remove 2)).map Tree.Root
        = some (.node 3 3 0 (.node 1 1 0 .nil .nil) .nil) ∧
      ¬ Balanced (Node.node (3 : Int) (3 : Int) 0 (.node 1 1 0 .nil .nil) .nil) := by
  refine ⟨by decide, by simp [Balanced, height], by decide, by simp [Balanced, height]⟩

/-- C2: every finite sequence of `Put`s applied to an empty AVL tree whose comparator answers
-1, 0 or +1 runs to completion, and in the resulting tree every node's balance tag is in
{-1, 0, +1} and equals height(right) - height(left). -/
theorem avl_put_preserves_balance (cmp : K → K → Int) (hu : UnitCmp cmp)
    (ops : List (K × V)) :
    ∃ t, putAll (NewWith cmp) ops = some t ∧ Balanced t.Root :=
  putAll_balanced ops (NewWith cmp) hu balanced_nil

theorem avl_put_preserves_balance_witness :
    UnitCmp IntComparator ∧
      ∃ t, putAll (NewWith IntComparator) [((1 : Int), (10 : Int)), (2, 20), (3, 30)] = some t ∧
        Balanced t.Root :=
  ⟨unitCmp_IntComparator, avl_put_preserves_balance IntComparator unitCmp_IntComparator _⟩

section order
variable [LinearOrder K]

/-- C6: `Put`/`Get` map semantics, for a comparator that meets the contract and answers only
-1, 0 or +1. In a tree built from empty by `Put`s, `Put(k, v)` completes, afterwards `Get(k)`
is `(v, true)` and `Get(k')` is unchanged for every `k'` that compares unequal to `k`; when
`k` was present, the shape of the tree, all balance tags, the key sequence and the count are
unchanged. -/
theorem avl_put_get (cmp : K → K → Int) (hl : LawfulCmp cmp) (hu : UnitCmp cmp)
    (ops : List (K × V)) (k : K) (v : V) :
    ∃ t t', putAll (NewWith cmp) ops = some t ∧ t.Put k v = some t' ∧
      t'.Get k = some v ∧
      (∀ k', cmp k' k ≠ 0 → t'.Get k' = t.Get k') ∧
      (k ∈ keys t.Root →
        skeleton t'.Root = skeleton t.Root ∧ keys t'.Root = keys t.Root ∧ t'.size = t.size) := by
  obtain ⟨t, ht, hb, ho, hcmp, -⟩ :=
    putAll_spec ops (NewWith cmp) hl hu balanced_nil ordered_nil
  have hcmp' : t.Comparator = cmp := hcmp
  obtain ⟨r', s', f, he, hb', ho', htl⟩ := put_spec hl hu k v t.Root t.size hb ho
  refine ⟨t, { t with Root := r', size := s' }, ht, by simp [Tree.Put, hcmp', he], ?_, ?_, ?_⟩
  · simp only [Tree.Get, hcmp']
    rw [get_eq_some_iff hl k v r' ho', htl, mem_insertL]
    exact Or.inl rfl
  · intro k' hk'
    have hne : k' ≠ k := fun h => hk' ((hl.eq_iff k' k).2 h)
    simp only [Tree.Get, hcmp']
    apply Option.ext
    intro v'
    simp only [Option.mem_def]
    rw [get_eq_some_iff hl k' v' r' ho', get_eq_some_iff hl k' v' t.Root ho, htl, mem_insertL]
    constructor
    · rintro (h | ⟨h, -⟩)
      · exact absurd (congrArg Prod.fst h) hne
      · exact h
    · exact fun h => Or.inr ⟨h, hne⟩
  · intro hk
    obtain ⟨r'', he', hs, hks⟩ := put_present hl k v t.Root t.size ho hk
    rw [he] at he'
    simp only [Option.some.injEq, Prod.mk.injEq] at he'
    obtain ⟨rfl, rfl, -⟩ := he'
    exact ⟨hs, hks, rfl⟩

theorem avl_put_get_witness :
    LawfulCmp IntComparator ∧ UnitCmp IntComparator ∧
      ∃ t t', putAll (NewWith IntComparator) [((1 : Int), (10 : Int)), (2, 20), (3, 30)]
          = some t ∧ t.Put 2 21 = some t' ∧
        t'.Get 2 = some 21 ∧
        (∀ k', IntComparator k' 2 ≠ 0 → t'.Get k' = t.Get k') ∧
        (2 ∈ keys t.Root →
          skeleton t'.Root = skeleton t.Root ∧ keys t'.Root = keys t.Root ∧
            t'.size = t.size) :=
  ⟨lawfulCmp_IntComparator, unitCmp_IntComparator,
    avl_put_get IntComparator lawfulCmp_IntComparator unitCmp_IntComparator _ 2 21⟩

/-- The comparator that answers the difference of the keys meets the contract. -/
theorem lawfulCmp_sub : LawfulCmp (fun a b : Int => a - b) :=
  ⟨fun a b => by constructor <;> intro h <;> omega,
    fun a b => by constructor <;> intro h <;> omega⟩

/-- Counterexample to C6 as stated for every comparator: with the comparator `a - b`, which
meets the contract, the tree built by `Put(0)`, `Put(3)` exists (root 0 with tag 3 over the
leaf 3), but `Put(6)` on it does not complete: at the root it calls `putRebalance` with the
direction 6 and indexes `Children` at `(6+1)/2 = 3`. -/
theorem avl_put_get_counterexample :
    LawfulCmp (fun a b : Int => a - b) ∧
      (putAll (NewWith fun a b : Int => a - b) [((0 : Int), (0 : Int)), (3, 3)]).map
          (fun t => (t.Root, t.size))
        = some (.node 0 0 3 .nil (.node 3 3 0 .nil .nil), 2) ∧
      put (fun a b : Int => a - b) (6 : Int) (6 : Int) (.node 3 3 0 .nil .nil) 2
        = some (.node 3 3 3 .nil (.node 6 6 0 .nil .nil), 3, true) ∧
      childIndex (int8 ((6 : Int) - 0)) = 3 ∧
      putRebalance (int8 ((6 : Int) - 0))
          (.node (0 : Int) (0 : Int) 3 .nil (.node 3 3 3 .nil (.node 6 6 0 .nil .nil)))
        = none ∧
      ((putAll (NewWith fun a b : Int => a - b) [((0 : Int), (0 : Int)), (3, 3)]).bind
          fun t => t.Put 6 6).isNone = true := by
  refine ⟨lawfulCmp_sub, by decide, by decide, by decide, by decide, by decide⟩

/-- C9: `Remove` semantics, for a comparator that meets the contract and answers only -1, 0
or +1. In a tree built from empty by `Put`s, `Remove(k)` completes; afterwards `Get(k)`
reports not-found, every other entry of the tree is still found with its value (so is every
other key that was put, and a successor that was copied into the removed node), `Get(k')`
returns what it returned before for every `k'` that compares unequal to `k`, and the tree
holds exactly the entries with another key, in ascending order. -/
theorem avl_remove_semantics (cmp : K → K → Int) (hl : LawfulCmp cmp) (hu : UnitCmp cmp)
    (ops : List (K × V)) (k : K) :
    ∃ t t', putAll (NewWith cmp) ops = some t ∧ t.Remove k = some t' ∧
      t'.Get k = none ∧
      (∀ k' v', (k', v') ∈ toList t.Root → k' ≠ k → t'.Get k' = some v') ∧
      (∀ k', k' ∈ ops.map Prod.fst → k' ≠ k →
        ∃ v', t.Get k' = some v' ∧ t'.Get k' = some v') ∧
      (∀ k', cmp k' k ≠ 0 → t'.Get k' = t.Get k') ∧ Ordered t'.Root ∧
      toList t'.Root = (toList t.Root).filter (fun e => decide (e.1 ≠ k)) := by
  obtain ⟨t, ht, hb, ho, hcmp, hkeys⟩ :=
    putAll_spec ops (NewWith cmp) hl hu balanced_nil ordered_nil
  have hcmp' : t.Comparator = cmp := hcmp
  obtain ⟨r', s', f, he, htl, -⟩ := remove_spec hl hu k t.Root t.size hb ho
  have ho' : Ordered r' := by
    have h1 : (toList t.Root).Pairwise (fun a b => a.1 < b.1) := List.pairwise_map.1 ho
    have h2 := h1.filter (fun e => decide (e.1 ≠ k))
    rw [← htl] at h2
    exact List.pairwise_map.2 h2
  have hfound : ∀ k' v', (k', v') ∈ toList t.Root → k' ≠ k →
      get cmp k' r' = some v' := by
    intro k' v' hmem hne
    rw [get_eq_some_iff hl k' v' r' ho', htl]
    simp [hmem, hne]
  refine ⟨t, { t with Root := r', size := s' }, ht, by simp [Tree.Remove, hcmp', he], ?_, ?_,
    ?_, ?_, ho', htl⟩
  · simp only [Tree.Get, hcmp']
    rw [Option.eq_none_iff_forall_not_mem]
    intro v hv
    have := (get_eq_some_iff hl k v r' ho').1 hv
    rw [htl] at this
    simp at this
  · intro k' v' hmem hne
    simp only [Tree.Get, hcmp']
    exact hfound k' v' hmem hne
  · intro k' hk' hne
    have hin : k' ∈ keys t.Root := (hkeys k').2 (Or.inr hk')
    obtain ⟨⟨k'', v'⟩, hmem, rfl⟩ := List.mem_map.1 hin
    refine ⟨v', ?_, ?_⟩
    · simp only [Tree.Get, hcmp']
      exact (get_eq_some_iff hl k'' v' t.Root ho).2 hmem
    · simp only [Tree.Get, hcmp']
      exact hfound k'' v' hmem hne
  · intro k' hk'
    have hne : k' ≠ k := fun h => hk' ((hl.eq_iff k' k).2 h)
    simp only [Tree.Get, hcmp']
    apply Option.ext
    intro v'
    simp only [Option.mem_def]
    rw [get_eq_some_iff hl k' v' r' ho', get_eq_some_iff hl k' v' t.Root ho, htl]
    simp [hne]

theorem avl_remove_semantics_witness :
    LawfulCmp IntComparator ∧ UnitCmp IntComparator ∧
      ((putAll (NewWith IntComparator) [((1 : Int), (10 : Int)), (2, 20), (3, 30)]).map
          fun t => (t.Root, t.Get 1, t.Get 2, t.Get 3))
        = some (.node 2 20 0 (.node 1 10 0 .nil .nil) (.node 3 30 0 .nil .nil),
            some 10, some 20, some 30) ∧
      (((putAll (NewWith IntComparator) [((1 : Int), (10 : Int)), (2, 20), (3, 30)]).bind
          fun t => t.Remove 2).map
          fun t => (t.Root, t.size, t.Get 1, t.Get 2, t.Get 3))
        = some (.node 3 30 0 (.node 1 10 0 .nil .nil) .nil, 2, some 10, none, some 30) ∧
      ∃ t t', putAll (NewWith IntComparator) [((1 : Int), (10 : Int)), (2, 20), (3, 30)]
          = some t ∧ t.Remove 2 = some t' ∧
        t'.Get 2 = none ∧
        (∀ k' v', (k', v') ∈ toList t.Root → k' ≠ 2 → t'.Get k' = some v') ∧
        (∀ k', k' ∈ ([((1 : Int), (10 : Int)), (2, 20), (3, 30)]).map Prod.fst → k' ≠ 2 →
          ∃ v', t.Get k' = some v' ∧ t'.Get k' = some v') ∧
        (∀ k', IntComparator k' 2 ≠ 0 → t'.Get k' = t.Get k') ∧ Ordered t'.Root ∧
        toList t'.Root = (toList t.Root).filter (fun e => decide (e.1 ≠ 2)) :=
  ⟨lawfulCmp_IntComparator, unitCmp_IntComparator, by decide, by decide,
    avl_remove_semantics IntComparator lawfulCmp_IntComparator unitCmp_IntComparator _ 2⟩

/-- Counterexample to C9 as stated for every comparator: with the comparator `a - b`, which
meets the contract, the tree built by `Put` of 0, 2, 1, 4 exists and holds the key 0, but
`Remove(0)` on it does not complete. The root 1 carries the tag 3 that `Put(4)` stored (the
raw difference 4 - 1), so after the leaf 0 is spliced out `removeFix(1, root)` takes the
rotation branch, and its `doubleRotate` rotates about the missing left child of node 2. -/
theorem avl_remove_semantics_counterexample :
    LawfulCmp (fun a b : Int => a - b) ∧
      (putAll (NewWith fun a b : Int => a - b)
          [((0 : Int), (0 : Int)), (2, 2), (1, 1), (4, 4)]).map (fun t => (t.Root, t.size))
        = some (.node 1 1 3 (.node 0 0 0 .nil .nil)
            (.node 2 2 2 .nil (.node 4 4 0 .nil .nil)), 4) ∧
      (0 : Int) ∈ keys (Node.node (1 : Int) (1 : Int) 3 (.node 0 0 0 .nil .nil)
        (.node 2 2 2 .nil (.node 4 4 0 .nil .nil))) ∧
      removeFix 1 (Node.node (1 : Int) (1 : Int) 3 .nil
        (.node 2 2 2 .nil (.node 4 4 0 .nil .nil))) = none ∧
      ((putAll (NewWith fun a b : Int => a - b)
          [((0 : Int), (0 : Int)), (2, 2), (1, 1), (4, 4)]).bind
          fun t => t.Remove 0).isNone = true := by
  refine ⟨lawfulCmp_sub, by decide, by decide, by decide, by decide⟩

/-- C10: forward order, for a comparator that meets the contract and answers only -1, 0 or
+1. Every finite sequence of `Put`s applied to an empty AVL tree completes, and `Keys()` (the
loop calling `Next()` on a fresh iterator until it answers false) terminates as soon as the
iteration bound exceeds the number of keys and yields a strictly ascending sequence without
repetition whose members are exactly the keys that were put. -/
theorem avl_forward_iteration (cmp : K → K → Int) (hl : LawfulCmp cmp) (hu : UnitCmp cmp)
    (ops : List (K × V)) :
    ∃ (t : Tree K V) (ks : List K), putAll (NewWith cmp) ops = some t ∧
      (∀ fuel, ks.length < fuel → t.Keys fuel = some (ks.map some)) ∧
      ks.Sorted (· < ·) ∧ ks.Nodup ∧ ∀ k, k ∈ ks ↔ k ∈ ops.map Prod.fst := by
  obtain ⟨t, ht, -, ho, -, hk⟩ :=
    putAll_spec ops (NewWith cmp) hl hu balanced_nil ordered_nil
  refine ⟨t, keys t.Root, ht, fun fuel hf => Keys_eq t fuel hf, ho, ?_, ?_⟩
  · exact List.Sorted.nodup ho
  · intro k
    rw [hk k]
    simp [NewWith]

theorem avl_forward_iteration_witness :
    LawfulCmp IntComparator ∧ UnitCmp IntComparator ∧
      ∃ (t : Tree Int Int) (ks : List Int), putAll (NewWith IntComparator) [((2 : Int), (20 : Int)), (1, 10), (3, 30)]
          = some t ∧
        (∀ fuel, ks.length < fuel → t.Keys fuel = some (ks.map some)) ∧
        ks.Sorted (· < ·) ∧ ks.Nodup ∧
        ∀ k, k ∈ ks ↔ k ∈ ([((2 : Int), (20 : Int)), (1, 10), (3, 30)]).map Prod.fst :=
  ⟨lawfulCmp_IntComparator, unitCmp_IntComparator,
    avl_forward_iteration IntComparator lawfulCmp_IntComparator unitCmp_IntComparator _⟩

/-- Counterexample to C10 as stated for every comparator: with the comparator `a - b`, which
meets the contract, the sequence `Put(0)`, `Put(3)`, `Put(6)` does not complete (the third
call indexes `Children` at 3), so no tree is built and no key sequence is delivered for
it. -/
theorem avl_forward_iteration_counterexample :
    LawfulCmp (fun a b : Int => a - b) ∧
      (putAll (NewWith fun a b : Int => a - b)
        [((0 : Int), (0 : Int)), (3, 3), (6, 6)]).isNone = true ∧
      ((putAll (NewWith fun a b : Int => a - b)
        [((0 : Int), (0 : Int)), (3, 3), (6, 6)]).bind fun t => t.Keys 4) = none := by
  refine ⟨lawfulCmp_sub, by decide, by decide⟩

end order
end avltree

namespace avltree
variable {K V : Type}

/-- C12: backward iteration is the reverse of forward iteration. For every comparator and
every AVL tree built from empty by `Put`s, with `ks` the key sequence that forward iteration
(`Keys()`) yields: running `Next()` on a fresh iterator until it answers false leaves the
iterator in the state `End()` sets, and calling `Prev()` from there until it answers false
yields exactly `ks` reversed; each loop stops as soon as the iteration bound exceeds the
number of keys. (The iterator reads the shape of the tree only, so nothing is asked of the
comparator.) -/
theorem avl_backward_iteration (cmp : K → K → Int) (ops : List (K × V)) (t : Tree K V)
    (_hbuilt : putAll (NewWith cmp) ops = some t) :
    ∃ ks : List K,
      (∀ fuel, ks.length < fuel → t.Keys fuel = some (ks.map some)) ∧
      (∀ fuel, ks.length < fuel → drain fuel t.Iterator = some t.Iterator.End) ∧
      (∀ fuel, ks.length < fuel →
        prevLoop fuel t.Iterator.End [] = some (ks.reverse.map some)) :=
  ⟨keys t.Root, fun fuel hf => Keys_eq t fuel hf, fun fuel hf => drain_eq t fuel hf,
    fun fuel hf => prevLoop_end t fuel hf⟩

theorem avl_backward_iteration_witness :
    putAll (NewWith IntComparator) [((2 : Int), (20 : Int)), (1, 10), (3, 30)]
        = some ⟨.node 2 20 0 (.node 1 10 0 .nil .nil) (.node 3 30 0 .nil .nil),
            IntComparator, 3⟩ ∧
      (⟨.node 2 20 0 (.node 1 10 0 .nil .nil) (.node 3 30 0 .nil .nil), IntComparator, 3⟩ :
        Tree Int Int).Keys 4 = some [some 1, some 2, some 3] ∧
      prevLoop 4 (⟨.node 2 20 0 (.node 1 10 0 .nil .nil) (.node 3 30 0 .nil .nil),
        IntComparator, 3⟩ : Tree Int Int).Iterator.End [] = some [some 3, some 2, some 1] ∧
      ∃ ks : List Int,
        (∀ fuel, ks.length < fuel →
          (⟨.node 2 20 0 (.node 1 10 0 .nil .nil) (.node 3 30 0 .nil .nil), IntComparator, 3⟩ :
            Tree Int Int).Keys fuel = some (ks.map some)) ∧
        (∀ fuel, ks.length < fuel →
          drain fuel (⟨.node 2 20 0 (.node 1 10 0 .nil .nil) (.node 3 30 0 .nil .nil),
              IntComparator, 3⟩ : Tree Int Int).Iterator
            = some (⟨.node 2 20 0 (.node 1 10 0 .nil .nil) (.node 3 30 0 .nil .nil),
              IntComparator, 3⟩ : Tree Int Int).Iterator.End) ∧
        (∀ fuel, ks.length < fuel →
          prevLoop fuel (⟨.node 2 20 0 (.node 1 10 0 .nil .nil) (.node 3 30 0 .nil .nil),
              IntComparator, 3⟩ : Tree Int Int).Iterator.End [] = some (ks.reverse.map some)) :=
  have hb : putAll (NewWith IntComparator) [((2 : Int), (20 : Int)), (1, 10), (3, 30)]
      = some ⟨.node 2 20 0 (.node 1 10 0 .nil .nil) (.node 3 30 0 .nil .nil),
          IntComparator, 3⟩ := by rfl
  ⟨hb, by decide, by decide, avl_backward_iteration IntComparator _ _ hb⟩

section order
variable [LinearOrder K]

/-- C16: `Floor` and `Ceiling`. On every tree whose keys are in binary-search-tree order and
for every key `k`: `Floor(k)` answers not-found when no present key is at most `k`, and
otherwise returns a node of the tree whose key is at most `k` and at least every present key
that is at most `k`; `Ceiling(k)` answers not-found when no present key is at least `k`, and
otherwise returns a node of the tree whose key is at least `k` and at most every present key
that is at least `k`. -/
theorem avl_floor_ceiling (t : Tree K V) (hl : LawfulCmp t.Comparator) (ho : Ordered t.Root)
    (k : K) :
    ((t.Floor k = none ∧ ∀ k' ∈ keys t.Root, ¬ k' ≤ k) ∨
      ∃ k' v' b' l' r', t.Floor k = some (.node k' v' b' l' r') ∧ (k', v') ∈ toList t.Root ∧
        k' ≤ k ∧ ∀ k'' ∈ keys t.Root, k'' ≤ k → k'' ≤ k') ∧
    ((t.Ceiling k = none ∧ ∀ k' ∈ keys t.Root, ¬ k ≤ k') ∨
      ∃ k' v' b' l' r', t.Ceiling k = some (.node k' v' b' l' r') ∧ (k', v') ∈ toList t.Root ∧
        k ≤ k' ∧ ∀ k'' ∈ keys t.Root, k ≤ k'' → k' ≤ k'') := by
  constructor
  · rcases floorLoop_spec hl k t.Root none ho with ⟨h1, h2⟩ | h
    · exact Or.inl ⟨h2, fun k' hk' => not_le.2 (h1 k' hk')⟩
    · exact Or.inr h
  · rcases ceilingLoop_spec hl k t.Root none ho with ⟨h1, h2⟩ | h
    · exact Or.inl ⟨h2, fun k' hk' => not_le.2 (h1 k' hk')⟩
    · exact Or.inr h

theorem avl_floor_ceiling_witness :
    LawfulCmp IntComparator ∧
      Ordered (Node.node (2 : Int) (20 : Int) 0 (.node 1 10 0 .nil .nil)
        (.node 4 40 0 .nil .nil)) ∧
      (((⟨.node 2 20 0 (.node 1 10 0 .nil .nil) (.node 4 40 0 .nil .nil), IntComparator, 3⟩ :
          Tree Int Int).Floor 3 = none ∧
        ∀ k' ∈ keys (Node.node (2 : Int) (20 : Int) 0 (.node 1 10 0 .nil .nil)
          (.node 4 40 0 .nil .nil)), ¬ k' ≤ 3) ∨
      ∃ k' v' b' l' r', (⟨.node 2 20 0 (.node 1 10 0 .nil .nil) (.node 4 40 0 .nil .nil),
          IntComparator, 3⟩ : Tree Int Int).Floor 3 = some (.node k' v' b' l' r') ∧
        (k', v') ∈ toList (Node.node (2 : Int) (20 : Int) 0 (.node 1 10 0 .nil .nil)
          (.node 4 40 0 .nil .nil)) ∧
        k' ≤ 3 ∧ ∀ k'' ∈ keys (Node.node (2 : Int) (20 : Int) 0 (.node 1 10 0 .nil .nil)
          (.node 4 40 0 .nil .nil)), k'' ≤ 3 → k'' ≤ k') ∧
      (⟨.node 2 20 0 (.node 1 10 0 .nil .nil) (.node 4 40 0 .nil .nil), IntComparator, 3⟩ :
          Tree Int Int).Floor 3 = some (.node 2 20 0 (.node 1 10 0 .nil .nil)
            (.node 4 40 0 .nil .nil)) ∧
      (⟨.node 2 20 0 (.node 1 10 0 .nil .nil) (.node 4 40 0 .nil .nil), IntComparator, 3⟩ :
          Tree Int Int).Ceiling 3 = some (.node 4 40 0 .nil .nil) :=
  have ho : Ordered (Node.node (2 : Int) (20 : Int) 0 (.node 1 10 0 .nil .nil)
      (.node 4 40 0 .nil .nil)) := by
    simp [Ordered]
  ⟨lawfulCmp_IntComparator, ho,
    (avl_floor_ceiling ⟨.node 2 20 0 (.node 1 10 0 .nil .nil) (.node 4 40 0 .nil .nil),
      IntComparator, 3⟩ lawfulCmp_IntComparator ho 3).1, by decide, by decide⟩

end order

/-- C18: a comparator that answers the difference of the keys, which is negative, zero or
positive as the contract asks, breaks the balance tags: `put` passes `int8(cmp)` itself to
`putRebalance` as the direction, so after `Put(0)` and `Put(2)` the root carries the tag 2,
and after `Put(0)`, `Put(3)` the next `Put(6)` indexes `Children` at `(6+1)/2 = 3` and
panics. -/
theorem avl_difference_comparator_breaks_tags :
    (putAll (NewWith fun a b : Int => a - b) [((0 : Int), (0 : Int)), (2, 2)]).map
        (fun t => tags t.Root) = some [2, 0] ∧
      childIndex (int8 6) = 3 ∧
      (putAll (NewWith fun a b : Int => a - b)
        [((0 : Int), (0 : Int)), (3, 3), (6, 6)]).isNone = true := by
  refine ⟨by decide, by decide, by decide⟩

end avltree

namespace avltree
variable {K V : Type}

/-- C26: AVL operations can dereference a missing node. With the integer comparator,
`Put(0)`, `Put(1)`, `Remove(0)` on an empty tree complete and leave the single node 1 with
the stale tag `+1`. `Put(2)` then hangs node 2 below it and calls `putRebalance(1, ·)`: the
child on side `(c+1)/2 = 1` exists and has tag 0, so `doubleRotate(1, ·)` runs, but that
child's inner child `Children[0]` is nil, the inner `rotate(-1, ·)` dereferences it, and the
whole call panics. -/
theorem avl_double_rotation_inner_child_missing :
    ((runOps (NewWith IntComparator) [Op.put (0 : Int) (0 : Int), .put 1 1, .remove 0]).map
        fun t => t.Root) = some (.node 1 1 1 .nil .nil) ∧
      put IntComparator (2 : Int) (2 : Int) .nil 1 = some (.node 2 2 0 .nil .nil, 2, true) ∧
      getChild (.node (1 : Int) (1 : Int) 1 .nil (.node 2 2 0 .nil .nil)) (childIndex 1)
        = some (.node 2 2 0 .nil .nil) ∧
      getChild (.node (2 : Int) (2 : Int) 0 .nil .nil) (xor1 (childIndex 1)) = some .nil ∧
      rotate (int8 (-1)) (.node (2 : Int) (2 : Int) 0 .nil .nil) = none ∧
      doubleRotate 1 (.node (1 : Int) (1 : Int) 1 .nil (.node 2 2 0 .nil .nil)) = none ∧
      putRebalance 1 (.node (1 : Int) (1 : Int) 1 .nil (.node 2 2 0 .nil .nil)) = none ∧
      put IntComparator (2 : Int) (2 : Int) (.node 1 1 1 .nil .nil) 1 = none ∧
      (runOps (NewWith IntComparator)
        [Op.put (0 : Int) (0 : Int), .put 1 1, .remove 0, .put 2 2]).isNone = true := by
  refine ⟨by decide, by decide, by decide, by decide, by decide, by decide, by decide,
    by decide, by decide⟩

/-- C23: `removeFix` restores balance locally. Take a node whose stored tag was correct
while its subtrees were `l0` and `r0`, both balanced, and let the subtree on the side
opposite to `c` (the left one for `c = 1`, the right one for `c = -1`) be replaced by a
balanced subtree one level lower. Then `removeFix(c, ·)` completes, the subtree it leaves is
balanced at every node and has the same in-order sequence of keys and values, and it returns
true exactly when that subtree is one level lower than the subtree was before the removal
(otherwise the height is unchanged): tag 0 becomes tag `c` with false, tag `-c` becomes tag
0 with true, and with tag `c` the child on side `c` exists and the answer is false exactly
when that child's tag is 0. -/
theorem avl_removeFix_local (c : Int) (k : K) (v : V) (b : Int) (l0 r0 l r : Node K V)
    (h0 : Balanced (.node k v b l0 r0)) (hl : Balanced l) (hr : Balanced r)
    (hs : (c = 1 ∧ r = r0 ∧ height l = height l0 - 1) ∨
      (c = -1 ∧ l = l0 ∧ height r = height r0 - 1)) :
    ∃ t f, removeFix c (.node k v b l r) = some (t, f) ∧ Balanced t ∧
      toList t = toList (.node k v b l r) ∧ keys t = keys (.node k v b l r) ∧
      (f = true ↔ height t = height (.node k v b l0 r0) - 1) ∧
      (f = false ↔ height t = height (.node k v b l0 r0)) ∧
      (b = 0 → t = .node k v c l r ∧ f = false) ∧
      (b = -c → t = .node k v 0 l r ∧ f = true) ∧
      (b = c → ∃ ch, getChild (.node k v b l r) (childIndex c) = some ch ∧
        (f = false ↔ getBalance ch = some 0)) := by
  rcases hs with ⟨rfl, rfl, hh⟩ | ⟨rfl, rfl, hh⟩
  · obtain ⟨t, f, h1, h2, h3, h4, h5, h6, h7⟩ := removeFix_right_spec (k := k) (v := v) h0 hl hh
    refine ⟨t, f, h1, h2, by simp [h3, toList], by simp [keys, h3, toList], ?_, ?_, h5,
      by simpa using h6, ?_⟩
    · cases f <;> simp at h4 ⊢ <;> omega
    · cases f <;> simp at h4 ⊢ <;> omega
    · intro hb
      exact ⟨r, by simp [getChild], h7 hb⟩
  · obtain ⟨t, f, h1, h2, h3, h4, h5, h6, h7⟩ := removeFix_left_spec (k := k) (v := v) h0 hr hh
    refine ⟨t, f, h1, h2, by simp [h3, toList], by simp [keys, h3, toList], ?_, ?_, h5,
      by simpa using h6, ?_⟩
    · cases f <;> simp at h4 ⊢ <;> omega
    · cases f <;> simp at h4 ⊢ <;> omega
    · intro hb
      exact ⟨l, by simp [getChild], h7 hb⟩

theorem avl_removeFix_local_witness :
    Balanced (Node.node (2 : Int) (20 : Int) 1 (.node 1 10 0 .nil .nil)
      (.node 3 30 1 .nil (.node 4 40 0 .nil .nil))) ∧
    Balanced (Node.nil : Node Int Int) ∧
    Balanced (Node.node (3 : Int) (30 : Int) 1 .nil (.node 4 40 0 .nil .nil)) ∧
    height (Node.nil : Node Int Int) = height (Node.node (1 : Int) (10 : Int) 0 .nil .nil) - 1 ∧
    removeFix 1 (Node.node (2 : Int) (20 : Int) 1 .nil
        (.node 3 30 1 .nil (.node 4 40 0 .nil .nil)))
      = some (.node 3 30 0 (.node 2 20 0 .nil .nil) (.node 4 40 0 .nil .nil), true) ∧
    ∃ t f, removeFix 1 (Node.node (2 : Int) (20 : Int) 1 .nil
        (.node 3 30 1 .nil (.node 4 40 0 .nil .nil))) = some (t, f) ∧ Balanced t ∧
      toList t = toList (Node.node (2 : Int) (20 : Int) 1 .nil
        (.node 3 30 1 .nil (.node 4 40 0 .nil .nil))) ∧
      keys t = keys (Node.node (2 : Int) (20 : Int) 1 .nil
        (.node 3 30 1 .nil (.node 4 40 0 .nil .nil))) ∧
      (f = true ↔ height t = height (Node.node (2 : Int) (20 : Int) 1 (.node 1 10 0 .nil .nil)
        (.node 3 30 1 .nil (.node 4 40 0 .nil .nil))) - 1) ∧
      (f = false ↔ height t = height (Node.node (2 : Int) (20 : Int) 1 (.node 1 10 0 .nil .nil)
        (.node 3 30 1 .nil (.node 4 40 0 .nil .nil)))) ∧
      ((1 : Int) = 0 → t = .node 2 20 1 .nil (.node 3 30 1 .nil (.node 4 40 0 .nil .nil)) ∧
        f = false) ∧
      ((1 : Int) = -1 → t = .node 2 20 0 .nil (.node 3 30 1 .nil (.node 4 40 0 .nil .nil)) ∧
        f = true) ∧
      ((1 : Int) = 1 → ∃ ch, getChild (Node.node (2 : Int) (20 : Int) 1 .nil
          (.node 3 30 1 .nil (.node 4 40 0 .nil .nil))) (childIndex 1) = some ch ∧
        (f = false ↔ getBalance ch = some 0)) :=
  have hb0 : Balanced (Node.node (2 : Int) (20 : Int) 1 (.node 1 10 0 .nil .nil)
      (.node 3 30 1 .nil (.node 4 40 0 .nil .nil))) := by
    simp [Balanced, height]
  have hb1 : Balanced (Node.nil : Node Int Int) := trivial
  have hb2 : Balanced (Node.node (3 : Int) (30 : Int) 1 .nil (.node 4 40 0 .nil .nil)) := by
    simp [Balanced, height]
  have hh : height (Node.nil : Node Int Int)
      = height (Node.node (1 : Int) (10 : Int) 0 .nil .nil) - 1 := by decide
  ⟨hb0, hb1, hb2, hh, by decide,
    avl_removeFix_local 1 2 20 1 _ _ _ _ hb0 hb1 hb2 (Or.inl ⟨rfl, rfl, hh⟩)⟩

end avltree

namespace avltree
variable {K V : Type}

/-! ## Rotations and repairs keep the in-order sequence -/

theorem setBalance_toList {n n' : Node K V} {b : Int} (h : setBalance n b = some n') :
    toList n' = toList n := by
  cases n with
  | nil => simp [setBalance] at h
  | node k v b0 l r =>
    simp only [setBalance, Option.some.injEq] at h
    subst h
    simp [toList]

/-- Putting a subtree with the same in-order sequence into a child slot keeps the in-order
sequence of the node. -/
theorem setChild_toList {n n' x y : Node K V} {d : Int} (hg : getChild n d = some x)
    (hs : setChild n d y = some n') (hxy : toList y = toList x) : toList n' = toList n := by
  cases n with
  | nil => simp [getChild] at hg
  | node k v b l r =>
    simp only [getChild] at hg
    simp only [setChild] at hs
    by_cases h0 : d = 0
    · simp only [h0, if_true, Option.some.injEq] at hg hs
      subst hg hs
      simp [toList, hxy]
    · by_cases h1 : d = 1
      · simp only [h1, if_true, Option.some.injEq] at hg hs
        simp only [show ((1 : Int) = 0) = False by simp, if_false, Option.some.injEq] at hg hs
        subst hg hs
        simp [toList, hxy]
      · simp [h0, h1] at hg

/-- `rotate` keeps the in-order sequence whenever it completes. -/
theorem rotate_toList {c : Int} {n n' : Node K V} (h : rotate c n = some n') :
    toList n' = toList n := by
  simp only [rotate, Option.bind_eq_bind, Option.bind_eq_some] at h
  obtain ⟨newRoot, h1, inner, h2, root1, h3, h4⟩ := h
  cases n with
  | nil => simp [getChild] at h1
  | node k v b l r =>
    cases newRoot with
    | nil => simp [getChild] at h2
    | node nk nv nb nl nr =>
      by_cases h0 : childIndex c = 0
      · simp only [h0, getChild, setChild, if_true, xor1_zero,
          show ((1 : Int) = 0) = False by simp, if_false, Option.some.injEq] at h1 h2 h3 h4
        subst h1 h2 h3 h4
        simp [toList]
      · by_cases h1' : childIndex c = 1
        · simp only [h1', getChild, setChild, if_true, xor1_one,
            show ((1 : Int) = 0) = False by simp, if_false, Option.some.injEq] at h1 h2 h3 h4
          subst h1 h2 h3 h4
          simp [toList]
        · simp [getChild, h0, h1'] at h1

theorem singleRotate_toList {c : Int} {n n' : Node K V} (h : singleRotate c n = some n') :
    toList n' = toList n := by
  simp only [singleRotate, Option.bind_eq_bind, Option.bind_eq_some] at h
  obtain ⟨n1, h1, n2, h2, h3⟩ := h
  rw [setBalance_toList h3, rotate_toList h2, setBalance_toList h1]

end avltree

namespace avltree
variable {K V : Type}

/-- `doubleRotate` keeps the in-order sequence whenever it completes. -/
theorem doubleRotate_toList {c : Int} {n n' : Node K V} (h : doubleRotate c n = some n') :
    toList n' = toList n := by
  simp only [doubleRotate, Option.bind_eq_bind, Option.bind_eq_some] at h
  obtain ⟨child, h1, rotated, h2, root1, h3, newRoot, h4, nb, -, a, h6, h7⟩ := h
  have e1 : toList root1 = toList n := setChild_toList h1 h3 (rotate_toList h2)
  have e2 : toList newRoot = toList n := (rotate_toList h4).trans e1
  rw [← e2]
  generalize (if nb = c then (int8 (-c), (0 : Int)) else if nb = int8 (-c) then (0, c)
    else (0, 0)) = tg at h7
  split_ifs at h7
  · simp only [Option.bind_eq_some] at h7
    obtain ⟨c1, g1, c2, g2, r1, g3, r2, g4, y, g5, g6⟩ := h7
    have f1 : toList r1 = toList a := setChild_toList g1 g3 (setBalance_toList g2)
    have f2 : toList r2 = toList a := (setBalance_toList g4).trans f1
    rw [setBalance_toList g6, setChild_toList h6 g5 f2]
  · simp only [Option.bind_eq_some] at h7
    obtain ⟨r1, g1, y1, g2, c1, g3, c2, g4, y2, g5, g6⟩ := h7
    have f1 : toList y1 = toList newRoot := setChild_toList h6 g2 (setBalance_toList g1)
    rw [setBalance_toList g6, setChild_toList g3 g5 (setBalance_toList g4), f1]

/-- `putRebalance` keeps the in-order sequence whenever it completes. -/
theorem putRebalance_toList {c : Int} {n n' : Node K V} {f : Bool}
    (h : putRebalance c n = some (n', f)) : toList n' = toList n := by
  cases n with
  | nil => simp [putRebalance] at h
  | node k v b l r =>
    simp only [putRebalance] at h
    split_ifs at h with h0 h1
    · simp only [Option.some.injEq, Prod.mk.injEq] at h
      rw [← h.1]; simp [toList]
    · simp only [Option.some.injEq, Prod.mk.injEq] at h
      rw [← h.1]; simp [toList]
    · simp only [Option.bind_eq_bind] at h
      obtain ⟨ch, -, h2⟩ := Option.bind_eq_some.1 h
      obtain ⟨cb, -, h3⟩ := Option.bind_eq_some.1 h2
      by_cases hcb : cb = c
      · rw [if_pos hcb] at h3
        obtain ⟨cur, h4, h5⟩ := Option.bind_eq_some.1 h3
        simp only [pure, Option.some.injEq, Prod.mk.injEq] at h5
        rw [← h5.1]
        exact singleRotate_toList h4
      · rw [if_neg hcb] at h3
        obtain ⟨cur, h4, h5⟩ := Option.bind_eq_some.1 h3
        simp only [pure, Option.some.injEq, Prod.mk.injEq] at h5
        rw [← h5.1]
        exact doubleRotate_toList h4

/-- `removeFix` keeps the in-order sequence whenever it completes. -/
theorem removeFix_toList {c : Int} {n n' : Node K V} {f : Bool}
    (h : removeFix c n = some (n', f)) : toList n' = toList n := by
  cases n with
  | nil => simp [removeFix] at h
  | node k v b l r =>
    simp only [removeFix] at h
    split_ifs at h with h0 h1
    · simp only [Option.some.injEq, Prod.mk.injEq] at h
      rw [← h.1]; simp [toList]
    · simp only [Option.some.injEq, Prod.mk.injEq] at h
      rw [← h.1]; simp [toList]
    · simp only [Option.bind_eq_bind] at h
      obtain ⟨ch, -, h2⟩ := Option.bind_eq_some.1 h
      obtain ⟨cb, -, h3⟩ := Option.bind_eq_some.1 h2
      by_cases hcb0 : cb = 0
      · rw [if_pos hcb0] at h3
        obtain ⟨c1, g1, g2⟩ := Option.bind_eq_some.1 h3
        obtain ⟨c2, g3, g4⟩ := Option.bind_eq_some.1 g2
        simp only [pure, Option.some.injEq, Prod.mk.injEq] at g4
        rw [← g4.1, setBalance_toList g3, rotate_toList g1]
      · rw [if_neg hcb0] at h3
        by_cases hcb : cb = c
        · rw [if_pos hcb] at h3
          obtain ⟨cur, g1, g2⟩ := Option.bind_eq_some.1 h3
          simp only [pure, Option.some.injEq, Prod.mk.injEq] at g2
          rw [← g2.1]
          exact singleRotate_toList g1
        · rw [if_neg hcb] at h3
          obtain ⟨cur, g1, g2⟩ := Option.bind_eq_some.1 h3
          simp only [pure, Option.some.injEq, Prod.mk.injEq] at g2
          rw [← g2.1]
          exact doubleRotate_toList g1

end avltree

namespace avltree
variable {K V : Type}

/-! ## The state at a panic -/

/-- `put` is `putP` with the state at a panic forgotten. -/
theorem put_eq_putP (cmp : K → K → Int) (key : K) (value : V) (n : Node K V) (size : Int) :
    put cmp key value n size
      = (putP cmp key value n size).2.2.map fun f =>
          ((putP cmp key value n size).1, (putP cmp key value n size).2.1, f) := by
  induction n generalizing size with
  | nil => simp [put, putP]
  | node k v b l r ihl ihr =>
    by_cases h0 : cmp key k = 0
    · simp [put, putP, h0]
    · by_cases h1 : cmp key k < 0
      · rcases hp : putP cmp key value l size with ⟨l', size', f⟩
        have ih := ihl size
        rw [hp] at ih
        simp only [put, putP, h0, h1, if_true, if_false, ih, hp]
        rcases f with _ | _ | _
        · simp
        · simp
        · cases hr : putRebalance (int8 (cmp key k)) (.node k v b l' r) with
          | none => simp [hr]
          | some x => simp [hr]
      · rcases hp : putP cmp key value r size with ⟨r', size', f⟩
        have ih := ihr size
        rw [hp] at ih
        simp only [put, putP, h0, h1, if_true, if_false, ih, hp]
        rcases f with _ | _ | _
        · simp
        · simp
        · cases hr : putRebalance (int8 (cmp key k)) (.node k v b l r') with
          | none => simp [hr]
          | some x => simp [hr]

/-- Whether or not it panics, `put` leaves the entries of the descent and a count that
follows them. -/
theorem putP_spec (cmp : K → K → Int) (key : K) (value : V) (n : Node K V) (size : Int) :
    toList (putP cmp key value n size).1 = putList cmp key value n ∧
      (putP cmp key value n size).2.1
        = size + (((putList cmp key value n).length : Int) - ((toList n).length : Int)) := by
  induction n generalizing size with
  | nil => simp [putP, putList, toList]
  | node k v b l r ihl ihr =>
    by_cases h0 : cmp key k = 0
    · simp [putP, putList, h0, toList]
    · by_cases h1 : cmp key k < 0
      · rcases hp : putP cmp key value l size with ⟨l', size', f⟩
        obtain ⟨e1, e2⟩ := ihl size
        rw [hp] at e1 e2
        simp only at e1 e2
        have hbase : toList (Node.node k v b l' r) = putList cmp key value (.node k v b l r) ∧
            size' = size + (((putList cmp key value (.node k v b l r)).length : Int)
              - ((toList (Node.node k v b l r)).length : Int)) := by
          simp only [putList, h0, h1, if_true, if_false, toList, e1, List.length_append,
            List.length_cons, e2]
          refine ⟨trivial, ?_⟩
          push_cast
          omega
        rcases f with _ | _ | _
        · simp only [putP, h0, h1, if_true, if_false, hp]
          exact hbase
        · simp only [putP, h0, h1, if_true, if_false, hp]
          exact hbase
        · cases hr : putRebalance (int8 (cmp key k)) (.node k v b l' r) with
          | none =>
            simp only [putP, h0, h1, if_true, if_false, hp, hr]
            exact hbase
          | some x =>
            obtain ⟨n', f'⟩ := x
            simp only [putP, h0, h1, if_true, if_false, hp, hr]
            rw [putRebalance_toList hr]
            exact hbase
      · rcases hp : putP cmp key value r size with ⟨r', size', f⟩
        obtain ⟨e1, e2⟩ := ihr size
        rw [hp] at e1 e2
        simp only at e1 e2
        have hbase : toList (Node.node k v b l r') = putList cmp key value (.node k v b l r) ∧
            size' = size + (((putList cmp key value (.node k v b l r)).length : Int)
              - ((toList (Node.node k v b l r)).length : Int)) := by
          simp only [putList, h0, h1, if_true, if_false, toList, e1, List.length_append,
            List.length_cons, e2]
          refine ⟨trivial, ?_⟩
          push_cast
          omega
        rcases f with _ | _ | _
        · simp only [putP, h0, h1, if_true, if_false, hp]
          exact hbase
        · simp only [putP, h0, h1, if_true, if_false, hp]
          exact hbase
        · cases hr : putRebalance (int8 (cmp key k)) (.node k v b l r') with
          | none =>
            simp only [putP, h0, h1, if_true, if_false, hp, hr]
            exact hbase
          | some x =>
            obtain ⟨n', f'⟩ := x
            simp only [putP, h0, h1, if_true, if_false, hp, hr]
            rw [putRebalance_toList hr]
            exact hbase

end avltree

namespace avltree
variable {K V : Type}

/-- `remove` is `removeP` with the state at a panic forgotten. -/
theorem remove_eq_removeP (cmp : K → K → Int) (key : K) (n : Node K V) (size : Int) :
    remove cmp key n size
      = (removeP cmp key n size).2.2.map fun f =>
          ((removeP cmp key n size).1, (removeP cmp key n size).2.1, f) := by
  induction n generalizing size with
  | nil => simp [remove, removeP]
  | node k v b l r ihl ihr =>
    by_cases h0 : cmp key k = 0
    · cases r with
      | nil => simp [remove, removeP, h0]
      | node rk rv rb rl rr =>
        cases hm : removeMin (.node rk rv rb rl rr) with
        | none => simp [remove, removeP, h0, hm]
        | some x => simp [remove, removeP, h0, hm]
    · by_cases h1 : cmp key k < 0
      · rcases hp : removeP cmp key l size with ⟨l', size', f⟩
        have ih := ihl size
        rw [hp] at ih
        rcases f with _ | _ | _
        · simp [remove, removeP, h0, h1, ih, hp]
        · simp [remove, removeP, h0, h1, ih, hp]
        · cases hr : removeFix (int8 (-cmp key k)) (.node k v b l' r) with
          | none => simp [remove, removeP, h0, h1, ih, hp, hr]
          | some x => simp [remove, removeP, h0, h1, ih, hp, hr]
      · rcases hp : removeP cmp key r size with ⟨r', size', f⟩
        have ih := ihr size
        rw [hp] at ih
        rcases f with _ | _ | _
        · simp [remove, removeP, h0, h1, ih, hp]
        · simp [remove, removeP, h0, h1, ih, hp]
        · cases hr : removeFix (int8 (-cmp key k)) (.node k v b l r') with
          | none => simp [remove, removeP, h0, h1, ih, hp, hr]
          | some x => simp [remove, removeP, h0, h1, ih, hp, hr]

section order
variable [LinearOrder K]

/-- Whether or not it panics, `remove` on an ordered subtree leaves exactly the entries whose
key differs from the removed one, and a count that follows them. -/
theorem removeP_spec {cmp : K → K → Int} (hl : LawfulCmp cmp) (key : K) (n : Node K V)
    (size : Int) (ho : Ordered n) :
    toList (removeP cmp key n size).1 = (toList n).filter (fun e => decide (e.1 ≠ key)) ∧
      (removeP cmp key n size).2.1
        = size + (((toList (removeP cmp key n size).1).length : Int)
            - ((toList n).length : Int)) := by
  induction n generalizing size with
  | nil => simp [removeP, toList]
  | node k v b l r ihl ihr =>
    obtain ⟨hol, hor, hlk, hrk⟩ := ordered_node.1 ho
    have e1 := hl.eq_iff key k
    have e2 := hl.lt_iff key k
    have hl' : ∀ e ∈ toList l, e.1 < k := fun e he => hlk _ (mem_toList_keys he)
    have hr' : ∀ e ∈ toList r, k < e.1 := fun e he => hrk _ (mem_toList_keys he)
    by_cases h0 : cmp key k = 0
    · have hk : key = k := e1.1 h0
      subst hk
      have hfl : (toList (.node key v b l r)).filter (fun e => decide (e.1 ≠ key))
          = toList l ++ toList r := by
        show List.filter _ (toList l ++ (key, v) :: toList r) = _
        rw [List.filter_append, List.filter_cons, filter_ne_of_all_lt hl',
          filter_ne_of_all_gt hr']
        simp
      cases r with
      | nil =>
        simp only [removeP, h0, if_true]
        refine ⟨by rw [hfl]; simp [toList], ?_⟩
        simp [toList]
        omega
      | node rk rv rb rl rr =>
        obtain ⟨r', mk, mv, he, ht⟩ := removeMin_spec rk rv rb rl rr
        simp only [removeP, h0, if_true, he]
        refine ⟨by rw [hfl, ht]; simp [toList], ?_⟩
        simp only [toList] at ht ⊢
        simp [ht]
        omega
    · have hne : key ≠ k := fun h => h0 (e1.2 h)
      by_cases h1 : cmp key k < 0
      · have hlt : key < k := e2.1 h1
        have hr'' : ∀ e ∈ toList r, key < e.1 := fun e he => lt_trans hlt (hr' e he)
        rcases hp : removeP cmp key l size with ⟨l', size', f⟩
        obtain ⟨i1, i2⟩ := ihl size hol
        rw [hp] at i1 i2
        simp only at i1 i2
        have hfl : (toList (.node k v b l r)).filter (fun e => decide (e.1 ≠ key))
            = toList l' ++ (k, v) :: toList r := by
          simp [toList, List.filter_append, List.filter_cons, i1, ne_of_gt hlt]
          exact fun a b hab => ne_of_gt (hr'' (a, b) hab)
        have hbase : toList (Node.node k v b l' r)
              = (toList (.node k v b l r)).filter (fun e => decide (e.1 ≠ key)) ∧
            size' = size + (((toList (Node.node k v b l' r)).length : Int)
              - ((toList (Node.node k v b l r)).length : Int)) := by
          refine ⟨by rw [hfl]; simp [toList], ?_⟩
          simp only [toList, List.length_append, List.length_cons]
          push_cast
          omega
        rcases f with _ | _ | _
        · simp only [removeP, h0, h1, if_true, if_false, hp]
          exact hbase
        · simp only [removeP, h0, h1, if_true, if_false, hp]
          exact hbase
        · cases hr : removeFix (int8 (-cmp key k)) (.node k v b l' r) with
          | none =>
            simp only [removeP, h0, h1, if_true, if_false, hp, hr]
            exact hbase
          | some x =>
            obtain ⟨n', f'⟩ := x
            simp only [removeP, h0, h1, if_true, if_false, hp, hr]
            rw [removeFix_toList hr]
            exact hbase
      · have hgt : k < key := lt_of_le_of_ne (not_lt.1 (fun h => h1 (e2.2 h))) (Ne.symm hne)
        have hl'' : ∀ e ∈ toList l, e.1 < key := fun e he => lt_trans (hl' e he) hgt
        rcases hp : removeP cmp key r size with ⟨r', size', f⟩
        obtain ⟨i1, i2⟩ := ihr size hor
        rw [hp] at i1 i2
        simp only at i1 i2
        have hfl : (toList (.node k v b l r)).filter (fun e => decide (e.1 ≠ key))
            = toList l ++ (k, v) :: toList r' := by
          simp [toList, List.filter_append, List.filter_cons, i1, ne_of_lt hgt]
          exact fun a b hab => ne_of_lt (hl'' (a, b) hab)
        have hbase : toList (Node.node k v b l r')
              = (toList (.node k v b l r)).filter (fun e => decide (e.1 ≠ key)) ∧
            size' = size + (((toList (Node.node k v b l r')).length : Int)
              - ((toList (Node.node k v b l r)).length : Int)) := by
          refine ⟨by rw [hfl]; simp [toList], ?_⟩
          simp only [toList, List.length_append, List.length_cons]
          push_cast
          omega
        rcases f with _ | _ | _
        · simp only [removeP, h0, h1, if_true, if_false, hp]
          exact hbase
        · simp only [removeP, h0, h1, if_true, if_false, hp]
          exact hbase
        · cases hr : removeFix (int8 (-cmp key k)) (.node k v b l r') with
          | none =>
            simp only [removeP, h0, h1, if_true, if_false, hp, hr]
            exact hbase
          | some x =>
            obtain ⟨n', f'⟩ := x
            simp only [removeP, h0, h1, if_true, if_false, hp, hr]
            rw [removeFix_toList hr]
            exact hbase

end order
end avltree

namespace avltree
variable {K V : Type}

/-- `Put` is `PutP` with the state at a panic forgotten. -/
theorem Put_eq_PutP (t : Tree K V) (key : K) (value : V) :
    t.Put key value = if (t.PutP key value).2 = true then none else some (t.PutP key value).1 := by
  simp only [Tree.Put, Tree.PutP, put_eq_putP]
  cases (putP t.Comparator key value t.Root t.size).2.2 <;> simp

/-- `Remove` is `RemoveP` with the state at a panic forgotten. -/
theorem Remove_eq_RemoveP (t : Tree K V) (key : K) :
    t.Remove key = if (t.RemoveP key).2 = true then none else some (t.RemoveP key).1 := by
  simp only [Tree.Remove, Tree.RemoveP, remove_eq_removeP]
  cases (removeP t.Comparator key t.Root t.size).2.2 <;> simp

/-- A run that completes leaves the tree at which the run with panic states ends, and that
run has not panicked. -/
theorem runOps_eq_runOpsP (ops : List (Op K V)) :
    ∀ t t' : Tree K V, runOps t ops = some t' ↔ runOpsP t ops = (t', false) := by
  induction ops with
  | nil => intro t t'; simp [runOps, runOpsP]
  | cons op ops ih =>
    intro t t'
    have hstep : t.apply op
        = if (t.applyP op).2 = true then none else some (t.applyP op).1 := by
      cases op with
      | put k v => exact Put_eq_PutP t k v
      | remove k => exact Remove_eq_RemoveP t k
    rcases hp : t.applyP op with ⟨t1, p⟩
    rw [hp] at hstep
    cases p with
    | true => simp [runOps, runOpsP, hstep, hp]
    | false => simp [runOps, runOpsP, hstep, hp, ih]

section order
variable [LinearOrder K]

/-- Whether or not it panics, `Put` on an ordered tree with a right count leaves an ordered
tree with a right count that holds the entries of the sorted insertion. -/
theorem PutP_inv (t : Tree K V) (hl : LawfulCmp t.Comparator) (ho : Ordered t.Root)
    (hs : t.size = ((toList t.Root).length : Int)) (key : K) (value : V) :
    Ordered (t.PutP key value).1.Root ∧
      (t.PutP key value).1.size = ((toList (t.PutP key value).1.Root).length : Int) ∧
      (t.PutP key value).1.Comparator = t.Comparator ∧
      toList (t.PutP key value).1.Root = insertL key value (toList t.Root) := by
  obtain ⟨e1, e2⟩ := putP_spec t.Comparator key value t.Root t.size
  have e3 : toList (putP t.Comparator key value t.Root t.size).1
      = insertL key value (toList t.Root) := by
    rw [e1, putList_eq_insertL hl key value t.Root ho]
  refine ⟨?_, ?_, rfl, e3⟩
  · have := sorted_insertL key value (toList t.Root) ho
    rw [← e3] at this
    exact this
  · show (putP t.Comparator key value t.Root t.size).2.1
      = ((toList (putP t.Comparator key value t.Root t.size).1).length : Int)
    rw [e2, e1]
    omega

/-- Whether or not it panics, `Remove` on an ordered tree with a right count leaves an
ordered tree with a right count that holds the entries with another key. -/
theorem RemoveP_inv (t : Tree K V) (hl : LawfulCmp t.Comparator) (ho : Ordered t.Root)
    (hs : t.size = ((toList t.Root).length : Int)) (key : K) :
    Ordered (t.RemoveP key).1.Root ∧
      (t.RemoveP key).1.size = ((toList (t.RemoveP key).1.Root).length : Int) ∧
      (t.RemoveP key).1.Comparator = t.Comparator ∧
      toList (t.RemoveP key).1.Root
        = (toList t.Root).filter (fun e => decide (e.1 ≠ key)) := by
  obtain ⟨e1, e2⟩ := removeP_spec hl key t.Root t.size ho
  refine ⟨?_, ?_, rfl, e1⟩
  · have h1 : (toList t.Root).Pairwise (fun a b => a.1 < b.1) := List.pairwise_map.1 ho
    have h2 := h1.filter (fun e => decide (e.1 ≠ key))
    rw [← e1] at h2
    exact List.pairwise_map.2 h2
  · show (removeP t.Comparator key t.Root t.size).2.1
      = ((toList (removeP t.Comparator key t.Root t.size).1).length : Int)
    rw [e2]
    omega

/-- Every run, panicking or not, ends in an ordered tree with a right count. -/
theorem runOpsP_inv (ops : List (Op K V)) :
    ∀ t : Tree K V, LawfulCmp t.Comparator → Ordered t.Root →
      t.size = ((toList t.Root).length : Int) →
      Ordered (runOpsP t ops).1.Root ∧
        (runOpsP t ops).1.size = ((toList (runOpsP t ops).1.Root).length : Int) ∧
        (runOpsP t ops).1.Comparator = t.Comparator := by
  induction ops with
  | nil => intro t _ ho hs; exact ⟨ho, hs, rfl⟩
  | cons op ops ih =>
    intro t hl ho hs
    have hstep : Ordered (t.applyP op).1.Root ∧
        (t.applyP op).1.size = ((toList (t.applyP op).1.Root).length : Int) ∧
        (t.applyP op).1.Comparator = t.Comparator := by
      cases op with
      | put k v =>
        obtain ⟨h1, h2, h3, -⟩ := PutP_inv t hl ho hs k v
        exact ⟨h1, h2, h3⟩
      | remove k =>
        obtain ⟨h1, h2, h3, -⟩ := RemoveP_inv t hl ho hs k
        exact ⟨h1, h2, h3⟩
    rcases hp : t.applyP op with ⟨t1, p⟩
    rw [hp] at hstep
    obtain ⟨h1, h2, h3⟩ := hstep
    cases p with
    | true => simpa [runOpsP, hp] using ⟨h1, h2, h3⟩
    | false =>
      obtain ⟨g1, g2, g3⟩ := ih t1 (by rw [h3]; exact hl) h1 h2
      simp only [runOpsP, hp]
      exact ⟨g1, g2, by rw [g3, h3]⟩

end order
end avltree

namespace avltree
variable {K V : Type}

section order
variable [LinearOrder K]

/-- C14: the count. For every comparator that meets the contract and every finite sequence
of `Put` and `Remove` calls applied to an empty AVL tree, take the tree the sequence leaves:
after the last call when all calls complete, and as the panicking call leaves it when a call
panics. `Size()` is the number of nodes reachable from its root, the keys of these nodes are
pairwise distinct and are exactly the keys that `Get` finds, a `Put` of a key that is present
and a `Remove` of a key that is absent complete and leave `Size()` as it was. The sequence
completes exactly when no call panicked, and then it delivers this tree. -/
theorem avl_size (cmp : K → K → Int) (hl : LawfulCmp cmp) (ops : List (Op K V)) :
    ∃ (t : Tree K V) (panicked : Bool), runOpsP (NewWith cmp) ops = (t, panicked) ∧
      (∀ t', runOps (NewWith cmp) ops = some t' ↔ (t' = t ∧ panicked = false)) ∧
      t.Size = ((keys t.Root).length : Int) ∧ (keys t.Root).Nodup ∧
      (∀ k, k ∈ keys t.Root ↔ ∃ v, t.Get k = some v) ∧
      (∀ k v, k ∈ keys t.Root → ∃ t', t.Put k v = some t' ∧ t'.Size = t.Size) ∧
      (∀ k, k ∉ keys t.Root → ∃ t', t.Remove k = some t' ∧ t'.Size = t.Size) := by
  obtain ⟨ho, hs, hcmp⟩ := runOpsP_inv ops (NewWith cmp) hl ordered_nil (by simp [NewWith, toList])
  rcases hp : runOpsP (NewWith cmp) ops with ⟨t, p⟩
  rw [hp] at ho hs hcmp
  simp only at ho hs hcmp
  have hcmp' : t.Comparator = cmp := hcmp
  have hl' : LawfulCmp t.Comparator := by rw [hcmp']; exact hl
  refine ⟨t, p, rfl, ?_, ?_, List.Sorted.nodup ho, ?_, ?_, ?_⟩
  · intro t'
    rw [runOps_eq_runOpsP, hp]
    simp only [Prod.mk.injEq]
    constructor
    · rintro ⟨h1, h2⟩; exact ⟨h1.symm, h2⟩
    · rintro ⟨h1, h2⟩; exact ⟨h1.symm, h2⟩
  · simp [Tree.Size, hs, keys]
  · intro k
    simp only [Tree.Get, keys, List.mem_map]
    constructor
    · rintro ⟨⟨k', v⟩, he, rfl⟩
      exact ⟨v, (get_eq_some_iff hl' k' v t.Root ho).2 he⟩
    · rintro ⟨v, hv⟩
      exact ⟨(k, v), (get_eq_some_iff hl' k v t.Root ho).1 hv, rfl⟩
  · intro k v hk
    obtain ⟨r', he, -, -⟩ := put_present hl' k v t.Root t.size ho hk
    exact ⟨{ t with Root := r', size := t.size }, by simp [Tree.Put, he], rfl⟩
  · intro k hk
    have hne : ∀ k' ∈ keys t.Root, t.Comparator k k' ≠ 0 := by
      intro k' hk' h0
      exact hk (((hl'.eq_iff k k').1 h0) ▸ hk')
    exact ⟨t, by simp [Tree.Remove, remove_absent t.Comparator k t.Root t.size hne], rfl⟩

theorem avl_size_witness :
    LawfulCmp IntComparator ∧
      ((fun r : Tree Int Int × Bool => (r.1.Root, r.1.size, r.2))
          (runOpsP (NewWith IntComparator)
            [Op.put (0 : Int) (0 : Int), .put 1 1, .remove 0, .put 2 2]))
        = (.node 1 1 1 .nil (.node 2 2 0 .nil .nil), 2, true) ∧
      ((fun r : Tree Int Int × Bool => (r.1.Root, r.1.size, r.2))
          (runOpsP (NewWith IntComparator)
            [Op.put (2 : Int) (20 : Int), .put 1 10, .put 2 21, .put 3 30, .remove 5,
              .remove 2]))
        = (.node 3 30 0 (.node 1 10 0 .nil .nil) .nil, 2, false) ∧
      ∃ (t : Tree Int Int) (panicked : Bool),
        runOpsP (NewWith IntComparator)
          [Op.put (0 : Int) (0 : Int), .put 1 1, .remove 0, .put 2 2] = (t, panicked) ∧
        (∀ t', runOps (NewWith IntComparator)
          [Op.put (0 : Int) (0 : Int), .put 1 1, .remove 0, .put 2 2] = some t' ↔
            (t' = t ∧ panicked = false)) ∧
        t.Size = ((keys t.Root).length : Int) ∧ (keys t.Root).Nodup ∧
        (∀ k, k ∈ keys t.Root ↔ ∃ v, t.Get k = some v) ∧
        (∀ k v, k ∈ keys t.Root → ∃ t', t.Put k v = some t' ∧ t'.Size = t.Size) ∧
        (∀ k, k ∉ keys t.Root → ∃ t', t.Remove k = some t' ∧ t'.Size = t.Size) :=
  ⟨lawfulCmp_IntComparator, by decide, by decide,
    avl_size IntComparator lawfulCmp_IntComparator _⟩

end order
end avltree

namespace btree
variable {K V : Type}

/-! # Properties of the B-tree engine -/

/-! ## Slices at a known position -/

section slices
variable {α : Type}

theorem getIdx_at {a b : List α} {x : α} {i : Int} (h : i = a.length) :
    getIdx (a ++ x :: b) i = some x := by
  subst h
  have : ¬ ((a.length : Int) < 0) := by omega
  simp only [getIdx, this, if_false, Int.toNat_ofNat]
  rw [List.getElem?_append_right (le_refl _)]
  simp

theorem getIdx_at2 {a b : List α} {x y : α} {i : Int} (h : i = a.length + 1) :
    getIdx (a ++ x :: y :: b) i = some y := by
  have : a ++ x :: y :: b = (a ++ [x]) ++ y :: b := by simp
  rw [this]
  exact getIdx_at (by simp [h])

theorem setIdx_at {a b : List α} {x : α} {i : Int} (y : α) (h : i = a.length) :
    setIdx (a ++ x :: b) i y = some (a ++ y :: b) := by
  subst h
  simp [setIdx]

theorem setIdx_at2 {a b : List α} {x y : α} {i : Int} (z : α) (h : i = a.length + 1) :
    setIdx (a ++ x :: y :: b) i z = some (a ++ x :: z :: b) := by
  have e1 : a ++ x :: y :: b = (a ++ [x]) ++ y :: b := by simp
  have e2 : a ++ x :: z :: b = (a ++ [x]) ++ z :: b := by simp
  rw [e1, e2]
  exact setIdx_at z (by simp [h])

theorem updateIdx_at {a b : List α} {x : α} {i : Int} (f : α → Option α) (h : i = a.length) :
    updateIdx (a ++ x :: b) i f = (f x).map fun y => a ++ y :: b := by
  simp only [updateIdx, getIdx_at h]
  cases hf : f x with
  | none => simp
  | some y => simp [setIdx_at y h]

theorem updateIdx_at2 {a b : List α} {x y : α} {i : Int} (f : α → Option α)
    (h : i = a.length + 1) :
    updateIdx (a ++ x :: y :: b) i f = (f y).map fun z => a ++ x :: z :: b := by
  simp only [updateIdx, getIdx_at2 h]
  cases hf : f y with
  | none => simp
  | some z => simp [setIdx_at2 z h]

theorem insertIdx_at {a b : List α} {i : Int} (x : α) (h : i = a.length) :
    insertIdx (a ++ b) i x = some (a ++ x :: b) := by
  subst h
  simp [insertIdx]

theorem deleteIdx_at {a b : List α} {x : α} {i : Int} (h : i = a.length) :
    deleteIdx (a ++ x :: b) i = some (a ++ b) := by
  subst h
  simp [deleteIdx]

theorem sliceTo_at {a b : List α} {i : Int} (h : i = a.length) :
    sliceTo (a ++ b) i = some a := by
  subst h
  simp [sliceTo]

theorem sliceFrom_at {a b : List α} {i : Int} (h : i = a.length) :
    sliceFrom (a ++ b) i = some b := by
  subst h
  simp [sliceFrom]

/-- A list splits at every position up to its length. -/
theorem exists_split_at (l : List α) (n : Nat) (h : n ≤ l.length) :
    ∃ a b, l = a ++ b ∧ a.length = n :=
  ⟨l.take n, l.drop n, (List.take_append_drop n l).symm, by simp [h]⟩

/-- A list splits around every position below its length. -/
theorem exists_split_around (l : List α) (n : Nat) (h : n < l.length) :
    ∃ a x b, l = a ++ x :: b ∧ a.length = n := by
  obtain ⟨a, b, e, ha⟩ := exists_split_at l n (le_of_lt h)
  cases b with
  | nil => subst e; simp at h; omega
  | cons x b => exact ⟨a, x, b, e, ha⟩

end slices

/-! ## Binary search -/

/-- The midpoint of the loop of `search` lies between the bounds. -/
theorem mid_bounds {low high : Int} (h1 : 0 ≤ low) (h : low ≤ high) :
    low ≤ Int.tdiv (low + high) 2 ∧ Int.tdiv (low + high) 2 ≤ high := by
  have := Int.tdiv_eq_ediv (a := low + high) (b := 2) (by omega)
  omega

/-- Reading inside the bounds gives an element of the list. -/
theorem getIdx_natCast {α : Type} (l : List α) (j : Nat) : getIdx l (j : Int) = l[j]? := by
  have : ¬ ((j : Int) < 0) := by omega
  simp [getIdx, this]

/-- The loop of `search` on entries split into a part below the key and a part above it:
it ends on the boundary without a match. -/
theorem searchLoop_absent (cmp : K → K → Int) (key : K) (a b : List (Entry K V))
    (ha : ∀ e ∈ a, cmp key e.Key > 0) (hb : ∀ e ∈ b, cmp key e.Key < 0)
    (n : Nat) (low high : Int) (h1 : 0 ≤ low) (h2 : low ≤ a.length)
    (h3 : (a.length : Int) ≤ high + 1) (h4 : high + 1 ≤ a.length + b.length)
    (hn : high + 1 - low ≤ n) :
    searchLoop cmp (a ++ b) key n low high = some ((a.length : Int), false) := by
  induction n generalizing low high with
  | zero =>
    have hlh : ¬ low ≤ high := by omega
    have : low = a.length := by omega
    subst this
    simp only [searchLoop, hlh, if_false]
  | succ n ih =>
    by_cases hlh : low ≤ high
    · simp only [searchLoop, hlh, if_true]
      obtain ⟨hm1, hm2⟩ := mid_bounds h1 hlh
      generalize Int.tdiv (low + high) 2 = mid at hm1 hm2
      obtain ⟨j, rfl⟩ : ∃ j : Nat, mid = j := ⟨mid.toNat, by omega⟩
      rw [getIdx_natCast]
      by_cases hja : j < a.length
      · rw [List.getElem?_append_left hja, List.getElem?_eq_getElem hja]
        have := ha _ (List.getElem_mem hja)
        simp only [this, if_true]
        exact ih _ _ (by omega) (by omega) h3 h4 (by omega)
      · have hjb : j - a.length < b.length := by omega
        rw [List.getElem?_append_right (by omega), List.getElem?_eq_getElem hjb]
        have := hb _ (List.getElem_mem hjb)
        have h' : ¬ cmp key (b[j - a.length]).Key > 0 := by omega
        simp only [h', this, if_true, if_false]
        exact ih _ _ h1 h2 (by omega) (by omega) (by omega)
    · have : low = a.length := by omega
      subst this
      simp only [searchLoop, hlh, if_false]

/-- The loop of `search` when the key sits at position `len a`. -/
theorem searchLoop_present (cmp : K → K → Int) (key : K) (a b : List (Entry K V))
    (x : Entry K V)
    (ha : ∀ e ∈ a, cmp key e.Key > 0) (hx : cmp key x.Key = 0)
    (hb : ∀ e ∈ b, cmp key e.Key < 0)
    (n : Nat) (low high : Int) (h1 : 0 ≤ low) (h2 : low ≤ a.length)
    (h3 : (a.length : Int) ≤ high) (h4 : high ≤ a.length + b.length)
    (hn : high + 1 - low ≤ n) :
    searchLoop cmp (a ++ x :: b) key n low high = some ((a.length : Int), true) := by
  induction n generalizing low high with
  | zero => omega
  | succ n ih =>
    have hlh : low ≤ high := by omega
    simp only [searchLoop, hlh, if_true]
    obtain ⟨hm1, hm2⟩ := mid_bounds h1 hlh
    generalize Int.tdiv (low + high) 2 = mid at hm1 hm2
    obtain ⟨j, rfl⟩ : ∃ j : Nat, mid = j := ⟨mid.toNat, by omega⟩
    rw [getIdx_natCast]
    rcases Nat.lt_trichotomy j a.length with hja | hja | hja
    · rw [List.getElem?_append_left hja, List.getElem?_eq_getElem hja]
      have := ha _ (List.getElem_mem hja)
      simp only [this, if_true]
      exact ih _ _ (by omega) (by omega) h3 h4 (by omega)
    · subst hja
      rw [List.getElem?_append_right (le_refl _)]
      simp [hx]
    · obtain ⟨k, hk⟩ : ∃ k, j - a.length = k + 1 := ⟨j - a.length - 1, by omega⟩
      have hkb : k < b.length := by omega
      rw [List.getElem?_append_right (by omega), hk, List.getElem?_cons_succ,
        List.getElem?_eq_getElem hkb]
      have := hb _ (List.getElem_mem hkb)
      have h' : ¬ cmp key (b[k]).Key > 0 := by omega
      simp only [h', this, if_true, if_false]
      exact ih _ _ h1 h2 (by omega) (by omega) (by omega)

theorem search_absent (cmp : K → K → Int) (key : K) (a b : List (Entry K V))
    (cs : List (Node K V))
    (ha : ∀ e ∈ a, cmp key e.Key > 0) (hb : ∀ e ∈ b, cmp key e.Key < 0) :
    search cmp (.mk (a ++ b) cs) key = some ((a.length : Int), false) := by
  unfold search
  simp only [Node.Entries]
  exact searchLoop_absent cmp key a b ha hb _ _ _ (le_refl _) (by omega) (by simp) (by simp)
    (by simp)

theorem search_present (cmp : K → K → Int) (key : K) (a b : List (Entry K V))
    (x : Entry K V) (cs : List (Node K V))
    (ha : ∀ e ∈ a, cmp key e.Key > 0) (hx : cmp key x.Key = 0)
    (hb : ∀ e ∈ b, cmp key e.Key < 0) :
    search cmp (.mk (a ++ x :: b) cs) key = some ((a.length : Int), true) := by
  unfold search
  simp only [Node.Entries]
  exact searchLoop_present cmp key a b x ha hx hb _ _ _ (le_refl _) (by omega)
    (by simp; omega) (by simp; omega) (by simp)

end btree

namespace btree
variable {K V : Type}

/-! ## In-order sequence of a node -/

@[simp] theorem flatten_mk (es : List (Entry K V)) (cs : List (Node K V)) :
    flatten (.mk es cs) = inter es cs := by
  rw [flatten]

@[simp] theorem inter_nil (es : List (Entry K V)) : inter es ([] : List (Node K V)) = es := by
  rw [inter]

theorem inter_cons_nil (c : Node K V) (cs : List (Node K V)) :
    inter [] (c :: cs) = flatten c ++ inter [] cs := by
  rw [inter]

theorem inter_cons_cons (e : Entry K V) (es : List (Entry K V)) (c : Node K V)
    (cs : List (Node K V)) :
    inter (e :: es) (c :: cs) = flatten c ++ e :: inter es cs := by
  rw [inter]

theorem inter_eq_flatEC (es : List (Entry K V)) (c : Node K V) (cs : List (Node K V))
    (h : es.length = cs.length) : inter es (c :: cs) = flatten c ++ flatEC es cs := by
  induction cs generalizing es c with
  | nil =>
    cases es with
    | nil => simp [inter_cons_nil, flatEC]
    | cons e es => simp at h
  | cons c' cs ih =>
    cases es with
    | nil => simp at h
    | cons e es =>
      simp only [List.length_cons, Nat.add_right_cancel_iff] at h
      rw [inter_cons_cons, ih es c' h, flatEC]

/-- The in-order sequence of a node, cut around one of its children. -/
theorem inter_around_child (ea eb : List (Entry K V)) (ca cb : List (Node K V))
    (c : Node K V) (ha : ea.length = ca.length) (hb : eb.length = cb.length) :
    inter (ea ++ eb) (ca ++ c :: cb) = flatCE ca ea ++ (flatten c ++ flatEC eb cb) := by
  induction ca generalizing ea with
  | nil =>
    cases ea with
    | nil => simp [flatCE, inter_eq_flatEC eb c cb hb]
    | cons e ea => simp at ha
  | cons c1 ca ih =>
    cases ea with
    | nil => simp at ha
    | cons e ea =>
      simp only [List.length_cons, Nat.add_right_cancel_iff] at ha
      simp only [List.cons_append, inter_cons_cons, ih ea ha, flatCE, List.append_assoc]

/-- The in-order sequence of an internal node, cut around one of its entries. -/
theorem inter_around_entry (ea eb : List (Entry K V)) (ca cb : List (Node K V))
    (e : Entry K V) (ha : ca.length = ea.length + 1) :
    inter (ea ++ e :: eb) (ca ++ cb) = inter ea ca ++ e :: inter eb cb := by
  induction ea generalizing ca with
  | nil =>
    match ca, ha with
    | [c], _ => simp [inter_cons_cons, inter_cons_nil]
  | cons e1 ea ih =>
    match ca, ha with
    | c1 :: ca, ha =>
      simp only [List.length_cons, Nat.add_right_cancel_iff] at ha
      simp only [List.cons_append, inter_cons_cons, ih ca ha, List.append_assoc]

/-- The in-order sequence of child, entry, ..., child is that of the pairs followed by the
last child. -/
theorem inter_eq_flatCE (ea : List (Entry K V)) (ca : List (Node K V)) (c : Node K V)
    (ha : ea.length = ca.length) : inter ea (ca ++ [c]) = flatCE ca ea ++ flatten c := by
  have := inter_around_child ea [] ca [] c ha rfl
  simpa [flatEC] using this

theorem flatCE_append (ca : List (Node K V)) (ea : List (Entry K V)) (c : Node K V)
    (e : Entry K V) (ha : ea.length = ca.length) :
    flatCE (ca ++ [c]) (ea ++ [e]) = flatCE ca ea ++ (flatten c ++ [e]) := by
  induction ca generalizing ea with
  | nil =>
    cases ea with
    | nil => simp [flatCE]
    | cons e ea => simp at ha
  | cons c1 ca ih =>
    cases ea with
    | nil => simp at ha
    | cons e1 ea =>
      simp only [List.length_cons, Nat.add_right_cancel_iff] at ha
      simp [flatCE, ih ea ha]

/-! ## Frames in split form -/

theorem before_split (ea eb : List (Entry K V)) (ca cb : List (Node K V)) (c0 : Node K V)
    (ha : ea.length = ca.length) :
    Frame.before (⟨.mk (ea ++ eb) (ca ++ c0 :: cb), (ca.length : Int)⟩ : Frame K V)
      = flatCE ca ea := by
  simp [Frame.before, Node.Children, Node.Entries, ← ha]

theorem after_split (ea eb : List (Entry K V)) (ca cb : List (Node K V)) (c0 : Node K V)
    (ha : ea.length = ca.length) :
    Frame.after (⟨.mk (ea ++ eb) (ca ++ c0 :: cb), (ca.length : Int)⟩ : Frame K V)
      = flatEC eb cb := by
  simp only [Frame.after, Node.Children, Node.Entries, Int.toNat_ofNat]
  rw [← ha, List.drop_left, ha]
  have : ca ++ c0 :: cb = (ca ++ [c0]) ++ cb := by simp
  rw [this]
  have hl : ca.length + 1 = (ca ++ [c0]).length := by simp
  rw [hl, List.drop_left]

theorem fill_split (ea eb : List (Entry K V)) (ca cb : List (Node K V)) (c0 n : Node K V) :
    Frame.fill (⟨.mk (ea ++ eb) (ca ++ c0 :: cb), (ca.length : Int)⟩ : Frame K V) n
      = some (.mk (ea ++ eb) (ca ++ n :: cb)) := by
  simp [Frame.fill, Node.Children, Node.Entries, setIdx_at n rfl]

/-- Putting a node back below a well-formed parent chain gives a root whose in-order
sequence is the context of the chain around the sequence of the node. -/
theorem plug_flatten {m : Int} {h : Nat} {path : List (Frame K V)} (hp : PathWF m h path)
    (n : Node K V) :
    ∃ root, plug n path = some root ∧ flatten root = ctxL path ++ (flatten n ++ ctxR path) := by
  induction hp generalizing n with
  | nil h => exact ⟨n, rfl, by simp [ctxL, ctxR]⟩
  | @cons h ea eb ca cb c0 rest ha hb hca hcb hmax hlo1 hlo2 hrest ih =>
    obtain ⟨root, hr, hf⟩ := ih (.mk (ea ++ eb) (ca ++ n :: cb))
    refine ⟨root, ?_, ?_⟩
    · simp [plug, fill_split, hr]
    · rw [hf, flatten_mk, inter_around_child ea eb ca cb n ha hb]
      simp [ctxL, ctxR, before_split ea eb ca cb c0 ha, after_split ea eb ca cb c0 ha]

end btree

namespace btree
variable {K V : Type}

/-! ## Arithmetic of the order -/

theorem order_facts {m : Int} (hm : 3 ≤ m) :
    maxEntries m = m - 1 ∧ 1 ≤ minEntries m ∧ 0 ≤ middle m ∧
      minEntries m ≤ middle m ∧ minEntries m ≤ m - 1 - middle m ∧
      m - 1 - middle m ≤ maxEntries m ∧ middle m ≤ maxEntries m ∧
      2 * minEntries m ≤ maxEntries m ∧ middle m < m ∧ minEntries m < maxEntries m := by
  have h1 := Int.tdiv_eq_ediv (a := m + 1) (b := 2) (by omega)
  have h2 := Int.tdiv_eq_ediv (a := m - 1) (b := 2) (by omega)
  simp only [maxEntries, minEntries, middle, maxChildren, minChildren, h1, h2]
  refine ⟨trivial, ?_, ?_, ?_, ?_, ?_, ?_, ?_, ?_, ?_⟩ <;> omega

/-! ## Shapes -/

theorem wf_iff_shape {m : Int} {h : Nat} {n : Node K V} :
    WF m h n ↔ Shape m (minEntries m) (maxEntries m) h n := by
  obtain ⟨es, cs⟩ := n
  cases h with
  | zero => simp only [WF, Shape, Node.Entries, Node.Children]; tauto
  | succ h => simp only [WF, Shape, Node.Entries, Node.Children]; tauto

theorem mem_flatCE_of_mem {ca : List (Node K V)} {ea : List (Entry K V)}
    (h : ea.length = ca.length) {e : Entry K V} (he : e ∈ ea) : e ∈ flatCE ca ea := by
  induction ca generalizing ea with
  | nil =>
    cases ea with
    | nil => simp at he
    | cons _ _ => simp at h
  | cons c ca ih =>
    cases ea with
    | nil => simp at he
    | cons e1 ea =>
      simp only [List.length_cons, Nat.add_right_cancel_iff] at h
      simp only [flatCE, List.mem_append, List.mem_cons]
      rcases List.mem_cons.1 he with rfl | he'
      · exact Or.inr (Or.inl rfl)
      · exact Or.inr (Or.inr (ih h he'))

theorem mem_flatEC_of_mem {eb : List (Entry K V)} {cb : List (Node K V)}
    (h : eb.length = cb.length) {e : Entry K V} (he : e ∈ eb) : e ∈ flatEC eb cb := by
  induction cb generalizing eb with
  | nil =>
    cases eb with
    | nil => simp at he
    | cons _ _ => simp at h
  | cons c cb ih =>
    cases eb with
    | nil => simp at he
    | cons e1 eb =>
      simp only [List.length_cons, Nat.add_right_cancel_iff] at h
      simp only [flatEC, List.mem_append, List.mem_cons]
      rcases List.mem_cons.1 he with rfl | he'
      · exact Or.inl rfl
      · exact Or.inr (Or.inr (ih h he'))

/-- Putting a well-formed node back below a well-formed parent chain gives a well-formed
root whose in-order sequence is the context of the chain around the sequence of the node. -/
theorem plug_spec {m : Int} {h : Nat} {path : List (Frame K V)} (hp : PathWF m h path)
    (n : Node K V) (hn : Shape m (loBound m path) (maxEntries m) h n) :
    ∃ root h', plug n path = some root ∧ Shape m 1 (maxEntries m) h' root ∧
      flatten root = ctxL path ++ (flatten n ++ ctxR path) := by
  induction hp generalizing n with
  | nil h => exact ⟨n, h, rfl, hn, by simp [ctxL, ctxR]⟩
  | @cons h ea eb ca cb c0 rest ha hb hca hcb hmax hlo1 hlo2 hrest ih =>
    have hwf : WF m h n := wf_iff_shape.2 hn
    have hP : Shape m (loBound m rest) (maxEntries m) (h + 1) (.mk (ea ++ eb) (ca ++ n :: cb)) := by
      refine ⟨?_, hmax, ?_, ?_⟩
      · cases rest with
        | nil =>
          have := hlo1 rfl
          simp only [loBound, Node.Entries]
          omega
        | cons g rest' => simpa [loBound, Node.Entries] using hlo2 (by simp)
      · simp [Node.Children, Node.Entries, ha, hb]; omega
      · intro c hc
        simp only [Node.Children, List.mem_append, List.mem_cons] at hc
        rcases hc with hc | rfl | hc
        · exact hca c hc
        · exact hwf
        · exact hcb c hc
    obtain ⟨root, h', hr, hsh, hf⟩ := ih _ hP
    refine ⟨root, h', ?_, hsh, ?_⟩
    · simp [plug, fill_split, hr]
    · rw [hf, flatten_mk, inter_around_child ea eb ca cb n ha hb]
      simp [ctxL, ctxR, before_split ea eb ca cb c0 ha, after_split ea eb ca cb c0 ha]

/-! ## Splitting -/

/-- An overflowing node cut at `middle`. -/
theorem split_parts {m : Int} (hm : 3 ≤ m) (es : List (Entry K V)) (cs : List (Node K V))
    (hlen : (es.length : Int) = m) (hcs : cs = [] ∨ cs.length = es.length + 1) :
    ∃ le e re lc rc, es = le ++ e :: re ∧ cs = lc ++ rc ∧ (le.length : Int) = middle m ∧
      ((lc = [] ∧ rc = [] ∧ cs = []) ∨
        (lc.length = le.length + 1 ∧ rc.length = re.length + 1)) := by
  obtain ⟨_, _, h0, _, _, _, _, _, hlt, _⟩ := order_facts hm
  obtain ⟨k, hk⟩ : ∃ k : Nat, middle m = k := ⟨(middle m).toNat, by omega⟩
  obtain ⟨le, e, re, he, hle⟩ := exists_split_around es k (by omega)
  rcases hcs with rfl | hcs
  · exact ⟨le, e, re, [], [], he, rfl, by omega, Or.inl ⟨rfl, rfl, rfl⟩⟩
  · obtain ⟨lc, rc, hc, hlc⟩ := exists_split_at cs (k + 1) (by
      rw [hcs, he]; simp; omega)
    refine ⟨le, e, re, lc, rc, he, hc, by omega, Or.inr ⟨by omega, ?_⟩⟩
    have := congrArg List.length hc
    rw [hcs, he] at this
    simp at this
    omega

theorem flatten_halves (le re : List (Entry K V)) (e : Entry K V) (lc rc : List (Node K V))
    (h : (lc = [] ∧ rc = []) ∨ (lc.length = le.length + 1)) :
    flatten (.mk (le ++ e :: re) (lc ++ rc))
      = flatten (.mk le lc) ++ e :: flatten (.mk re rc) := by
  rcases h with ⟨rfl, rfl⟩ | h
  · simp
  · simp [inter_around_entry le re lc rc e h]

theorem splitRoot_eq {m : Int} (le re : List (Entry K V)) (e : Entry K V)
    (lc rc : List (Node K V)) (hle : (le.length : Int) = middle m)
    (h : (lc = [] ∧ rc = []) ∨ (lc.length = le.length + 1)) :
    splitRoot m (.mk (le ++ e :: re) (lc ++ rc))
      = some (.mk [e] [.mk le lc, .mk re rc]) := by
  have h1 : sliceTo (le ++ e :: re) (middle m) = some le := sliceTo_at hle.symm
  have h2 : sliceFrom (le ++ e :: re) (middle m + 1) = some re := by
    have : le ++ e :: re = (le ++ [e]) ++ re := by simp
    rw [this]
    exact sliceFrom_at (by simp [hle])
  have h3 : getIdx (le ++ e :: re) (middle m) = some e := getIdx_at hle.symm
  rcases h with ⟨rfl, rfl⟩ | h
  · simp [splitRoot, Node.Entries, Node.Children, isLeaf, h1, h2, h3]
  · have h4 : sliceTo (lc ++ rc) (middle m + 1) = some lc := sliceTo_at (by rw [h]; simp [hle])
    have h5 : sliceFrom (lc ++ rc) (middle m + 1) = some rc :=
      sliceFrom_at (by rw [h]; simp [hle])
    have h6 : lc ≠ [] := by intro h0; rw [h0] at h; simp at h
    simp [splitRoot, Node.Entries, Node.Children, isLeaf, h1, h2, h3, h4, h5, h6]

theorem splitNonRoot_eq {m : Int} {cmp : K → K → Int} (le re : List (Entry K V))
    (e : Entry K V) (lc rc : List (Node K V)) (hle : (le.length : Int) = middle m)
    (h : (lc = [] ∧ rc = []) ∨ (lc.length = le.length + 1))
    (ea eb : List (Entry K V)) (ca cb : List (Node K V)) (c0 : Node K V)
    (hea : ea.length = ca.length)
    (hs : search cmp (.mk (ea ++ eb) (ca ++ c0 :: cb)) e.Key = some ((ea.length : Int), false)) :
    splitNonRoot m cmp (.mk (le ++ e :: re) (lc ++ rc)) (.mk (ea ++ eb) (ca ++ c0 :: cb))
      = some (.mk (ea ++ e :: eb) (ca ++ .mk le lc :: .mk re rc :: cb)) := by
  have h1 : sliceTo (le ++ e :: re) (middle m) = some le := sliceTo_at hle.symm
  have h2 : sliceFrom (le ++ e :: re) (middle m + 1) = some re := by
    have : le ++ e :: re = (le ++ [e]) ++ re := by simp
    rw [this]
    exact sliceFrom_at (by simp [hle])
  have h3 : getIdx (le ++ e :: re) (middle m) = some e := getIdx_at hle.symm
  have h7 : insertIdx (ea ++ eb) (ea.length : Int) e = some (ea ++ e :: eb) := insertIdx_at e rfl
  have h8 : setIdx (ca ++ c0 :: cb) (ea.length : Int) (.mk le lc)
      = some (ca ++ .mk le lc :: cb) := setIdx_at _ (by rw [hea])
  have h9 : insertIdx (ca ++ .mk le lc :: cb) ((ea.length : Int) + 1) (.mk re rc)
      = some (ca ++ .mk le lc :: .mk re rc :: cb) := by
    have e1 : ca ++ Node.mk le lc :: cb = (ca ++ [Node.mk le lc]) ++ cb := by simp
    have e2 : ca ++ Node.mk le lc :: Node.mk re rc :: cb
        = (ca ++ [Node.mk le lc]) ++ Node.mk re rc :: cb := by simp
    rw [e1, e2]
    exact insertIdx_at _ (by simp [hea])
  rcases h with ⟨rfl, rfl⟩ | h
  · simp [splitNonRoot, Node.Entries, Node.Children, isLeaf, h1, h2, h3, hs, h7, h8, h9]
  · have h4 : sliceTo (lc ++ rc) (middle m + 1) = some lc := sliceTo_at (by rw [h]; simp [hle])
    have h5 : sliceFrom (lc ++ rc) (middle m + 1) = some rc :=
      sliceFrom_at (by rw [h]; simp [hle])
    have h6 : lc ≠ [] := by intro h0; rw [h0] at h; simp at h
    simp [splitNonRoot, Node.Entries, Node.Children, isLeaf, h1, h2, h3, h4, h5, h6, hs, h7,
      h8, h9]

end btree

namespace btree
variable {K V : Type}

section order
variable [LinearOrder K]

theorem cmp_pos_of_lt {cmp : K → K → Int} (hc : LawfulCmp cmp) {a b : K} (h : b < a) :
    cmp a b > 0 := by
  have h1 : ¬ cmp a b < 0 := fun h' => lt_asymm h ((hc.lt_iff a b).1 h')
  have h2 : ¬ cmp a b = 0 := fun h' => ne_of_gt h ((hc.eq_iff a b).1 h')
  omega

theorem cmp_neg_of_lt {cmp : K → K → Int} (hc : LawfulCmp cmp) {a b : K} (h : a < b) :
    cmp a b < 0 := (hc.lt_iff a b).2 h

theorem cmp_zero_of_eq {cmp : K → K → Int} (hc : LawfulCmp cmp) {a b : K} (h : a = b) :
    cmp a b = 0 := (hc.eq_iff a b).2 h

/-- `split` on a node that overflows by at most one entry, below a well-formed parent
chain: the result is a well-formed root with the same in-order sequence. -/
theorem split_spec {cmp : K → K → Int} (hc : LawfulCmp cmp) {m : Int} (hm : 3 ≤ m)
    {h : Nat} {path : List (Frame K V)} (hp : PathWF m h path) (node : Node K V)
    (hn : Shape m (loBound m path) (maxEntries m + 1) h node)
    (hs : SortedE (ctxL path ++ (flatten node ++ ctxR path))) :
    ∃ root h', split m cmp node path = some root ∧ Shape m 1 (maxEntries m) h' root ∧
      flatten root = ctxL path ++ (flatten node ++ ctxR path) := by
  obtain ⟨hmax, hmin1, hmid0, hminmid, hminr, hrmax, hmidmax, h2min, hmidm, hminmax⟩ :=
    order_facts hm
  induction hp generalizing node with
  | nil h =>
    obtain ⟨es, cs⟩ := node
    obtain ⟨hlo, hhi, hch⟩ := hn
    simp only [Node.Entries, Node.Children, loBound] at hlo hhi hch
    by_cases hov : (es.length : Int) > maxEntries m
    · have hlen : (es.length : Int) = m := by omega
      have hcs : cs = [] ∨ cs.length = es.length + 1 := by
        cases h with
        | zero => exact Or.inl hch
        | succ h => exact Or.inr hch.1
      obtain ⟨le, e, re, lc, rc, he, hcc, hle, hcase⟩ := split_parts hm es cs hlen hcs
      subst he hcc
      have hcase' : (lc = [] ∧ rc = []) ∨ (lc.length = le.length + 1) := by
        rcases hcase with ⟨a, b, -⟩ | ⟨a, -⟩
        · exact Or.inl ⟨a, b⟩
        · exact Or.inr a
      have hre : (re.length : Int) = m - 1 - middle m := by
        simp at hlen; omega
      have hss : shouldSplit m (Node.mk (le ++ e :: re) (lc ++ rc)) = true := by
        simp only [shouldSplit, Node.Entries]; exact decide_eq_true hov
      refine ⟨.mk [e] [.mk le lc, .mk re rc], h + 1, ?_, ?_, ?_⟩
      · simp only [split, hss, ↓reduceIte]
        exact splitRoot_eq le re e lc rc hle hcase'
      · refine ⟨by simp [Node.Entries], by simp [Node.Entries]; omega, ?_⟩
        refine ⟨by simp [Node.Entries, Node.Children], ?_⟩
        intro c hcm
        simp only [Node.Children, List.mem_cons, List.mem_singleton, List.not_mem_nil,
          or_false] at hcm
        cases h with
        | zero =>
          have : lc = [] ∧ rc = [] := by
            simp at hch; exact hch
          obtain ⟨rfl, rfl⟩ := this
          rcases hcm with rfl | rfl
          · exact ⟨rfl, by omega, by omega⟩
          · exact ⟨rfl, by omega, by omega⟩
        | succ h =>
          obtain ⟨hcnt, hall⟩ := hch
          have hlc : lc.length = le.length + 1 := by
            rcases hcase with ⟨a, b, c⟩ | ⟨a, -⟩
            · simp [a, b] at hcnt
            · exact a
          have hrc : rc.length = re.length + 1 := by
            simp at hcnt; omega
          rcases hcm with rfl | rfl
          · exact ⟨hlc, by omega, by omega,
              fun c hc => hall c (List.mem_append_left _ hc)⟩
          · exact ⟨hrc, by omega, by omega,
              fun c hc => hall c (List.mem_append_right _ hc)⟩
      · simp only [ctxL, ctxR, List.nil_append, List.append_nil]
        rw [flatten_halves le re e lc rc hcase']
        simp [inter_cons_cons, inter_cons_nil]
    · have hss : shouldSplit m (Node.mk es cs) = false := by
        simp only [shouldSplit, Node.Entries]; exact decide_eq_false hov
      refine ⟨.mk es cs, h, ?_, ⟨hlo, by simp only [Node.Entries]; omega, hch⟩,
        by simp [ctxL, ctxR]⟩
      simp [split, hss]
  | @cons h ea eb ca cb c0 rest ha hb hca hcb hpmax hlo1 hlo2 hrest ih =>
    obtain ⟨es, cs⟩ := node
    have hn' := hn
    obtain ⟨hlo, hhi, hch⟩ := hn
    simp only [Node.Entries, Node.Children, loBound] at hlo hhi hch
    by_cases hov : (es.length : Int) > maxEntries m
    · have hlen : (es.length : Int) = m := by omega
      have hcs : cs = [] ∨ cs.length = es.length + 1 := by
        cases h with
        | zero => exact Or.inl hch
        | succ h => exact Or.inr hch.1
      obtain ⟨le, e, re, lc, rc, he, hcc, hle, hcase⟩ := split_parts hm es cs hlen hcs
      subst he hcc
      have hcase' : (lc = [] ∧ rc = []) ∨ (lc.length = le.length + 1) := by
        rcases hcase with ⟨a, b, -⟩ | ⟨a, -⟩
        · exact Or.inl ⟨a, b⟩
        · exact Or.inr a
      have hre : (re.length : Int) = m - 1 - middle m := by
        simp at hlen; omega
      -- the two halves are well-formed
      have hwl : WF m h (.mk le lc) ∧ WF m h (.mk re rc) := by
        cases h with
        | zero =>
          have : lc = [] ∧ rc = [] := by
            simp at hch; exact hch
          obtain ⟨rfl, rfl⟩ := this
          exact ⟨⟨rfl, by omega, by omega⟩, ⟨rfl, by omega, by omega⟩⟩
        | succ h =>
          obtain ⟨hcnt, hall⟩ := hch
          have hlc : lc.length = le.length + 1 := by
            rcases hcase with ⟨a, b, c⟩ | ⟨a, -⟩
            · simp [a, b] at hcnt
            · exact a
          have hrc : rc.length = re.length + 1 := by
            simp at hcnt; omega
          exact ⟨⟨hlc, by omega, by omega, fun c hc => hall c (List.mem_append_left _ hc)⟩,
            ⟨hrc, by omega, by omega, fun c hc => hall c (List.mem_append_right _ hc)⟩⟩
      -- the middle key lies between the entries of the parent around the hole
      have hfl : flatten (Node.mk (le ++ e :: re) (lc ++ rc))
          = flatten (.mk le lc) ++ e :: flatten (.mk re rc) :=
        flatten_halves le re e lc rc hcase'
      have hs' := hs
      simp only [ctxL, ctxR, before_split ea eb ca cb c0 ha, after_split ea eb ca cb c0 ha,
        hfl] at hs'
      have hemem : e ∈ flatten (.mk le lc) ++ e :: flatten (.mk re rc) := by simp
      have hlt : ∀ x ∈ ea, x.Key < e.Key := by
        intro x hx
        have hx' := mem_flatCE_of_mem ha hx
        have := List.pairwise_append.1 hs'
        exact this.2.2 x (List.mem_append_right _ hx') e (List.mem_append_left _ hemem)
      have hgt : ∀ x ∈ eb, e.Key < x.Key := by
        intro x hx
        have hx' := mem_flatEC_of_mem hb hx
        have h1 := (List.pairwise_append.1 hs').2.1
        exact (List.pairwise_append.1 h1).2.2 e hemem x (List.mem_append_left _ hx')
      have hsearch : search cmp (.mk (ea ++ eb) (ca ++ Node.mk (le ++ e :: re) (lc ++ rc) :: cb))
          e.Key = some ((ea.length : Int), false) :=
        search_absent cmp e.Key ea eb _ (fun x hx => cmp_pos_of_lt hc (hlt x hx))
          (fun x hx => cmp_neg_of_lt hc (hgt x hx))
      have hsn := @splitNonRoot_eq K V m cmp le re e lc rc hle hcase' ea eb ca cb
        (Node.mk (le ++ e :: re) (lc ++ rc)) ha hsearch
      -- the grown parent
      have hP : Shape m (loBound m rest) (maxEntries m + 1) (h + 1)
          (.mk (ea ++ e :: eb) (ca ++ .mk le lc :: .mk re rc :: cb)) := by
        refine ⟨?_, ?_, ?_, ?_⟩
        · cases rest with
          | nil =>
            simp only [loBound, Node.Entries]
            simp; omega
          | cons g rest' =>
            have := hlo2 (by simp)
            simp only [loBound, Node.Entries]
            simp at this ⊢; omega
        · simp only [Node.Entries]
          simp at hpmax ⊢; omega
        · simp [Node.Children, Node.Entries, ha, hb]; omega
        · intro c hcm
          simp only [Node.Children, List.mem_append, List.mem_cons] at hcm
          rcases hcm with hcm | rfl | rfl | hcm
          · exact hca c hcm
          · exact hwl.1
          · exact hwl.2
          · exact hcb c hcm
      have hflP : flatten (Node.mk (ea ++ e :: eb) (ca ++ .mk le lc :: .mk re rc :: cb))
          = flatCE ca ea ++ ((flatten (.mk le lc) ++ e :: flatten (.mk re rc)) ++ flatEC eb cb) := by
        rw [flatten_mk, inter_around_child ea (e :: eb) ca (.mk re rc :: cb) (.mk le lc) ha
          (by simp [hb])]
        simp [flatEC]
      have hsP : SortedE (ctxL rest ++ (flatten (Node.mk (ea ++ e :: eb)
          (ca ++ .mk le lc :: .mk re rc :: cb)) ++ ctxR rest)) := by
        rw [hflP]
        simpa [SortedE, List.append_assoc] using hs'
      obtain ⟨root, h', hr, hsh, hf⟩ := ih _ hP hsP
      have hss : shouldSplit m (Node.mk (le ++ e :: re) (lc ++ rc)) = true := by
        simp only [shouldSplit, Node.Entries]; exact decide_eq_true hov
      refine ⟨root, h', ?_, hsh, ?_⟩
      · simp only [split, hss, ↓reduceIte, fill_split, hsn, hr]
      · rw [hf, hflP, hfl]
        simp [ctxL, ctxR, before_split ea eb ca cb c0 ha, after_split ea eb ca cb c0 ha]
    · have hn2 : Shape m (loBound m (⟨.mk (ea ++ eb) (ca ++ c0 :: cb), (ca.length : Int)⟩ :: rest))
          (maxEntries m) h (.mk es cs) := ⟨hlo, by simp only [Node.Entries]; omega, hch⟩
      obtain ⟨root, h', hr, hsh, hf⟩ :=
        plug_spec (PathWF.cons ha hb hca hcb hpmax hlo1 hlo2 hrest) (.mk es cs) hn2
      have hss : shouldSplit m (Node.mk es cs) = false := by
        simp only [shouldSplit, Node.Entries]; exact decide_eq_false hov
      refine ⟨root, h', ?_, hsh, hf⟩
      simp only [split, hss]
      simpa using hr

end order
end btree

namespace btree
variable {K V : Type}

/-! ## Sorted lists of entries -/

theorem entries_sublist (es : List (Entry K V)) (cs : List (Node K V)) :
    es.Sublist (inter es cs) := by
  induction cs generalizing es with
  | nil => simp
  | cons c cs ih =>
    cases es with
    | nil => simp
    | cons e es =>
      rw [inter_cons_cons]
      exact List.Sublist.trans ((ih es).cons₂ e) (List.sublist_append_right _ _)

section order
variable [LinearOrder K]

theorem SortedE.entries {es : List (Entry K V)} {cs : List (Node K V)}
    (h : SortedE (inter es cs)) : SortedE es :=
  List.Pairwise.sublist (entries_sublist es cs) h

/-- A key cuts a sorted list of entries into the entries below it, possibly the entry
with that key, and the entries above it. -/
theorem sorted_partition (es : List (Entry K V)) (hs : SortedE es) (key : K) :
    (∃ a b, es = a ++ b ∧ (∀ e ∈ a, e.Key < key) ∧ (∀ e ∈ b, key < e.Key)) ∨
    (∃ a x b, es = a ++ x :: b ∧ (∀ e ∈ a, e.Key < key) ∧ x.Key = key ∧
      (∀ e ∈ b, key < e.Key)) := by
  induction es with
  | nil => exact Or.inl ⟨[], [], rfl, by simp, by simp⟩
  | cons e es ih =>
    have hs' := List.pairwise_cons.1 hs
    rcases lt_trichotomy e.Key key with hlt | heq | hgt
    · rcases ih hs'.2 with ⟨a, b, he, ha, hb⟩ | ⟨a, x, b, he, ha, hx, hb⟩
      · refine Or.inl ⟨e :: a, b, by simp [he], ?_, hb⟩
        intro y hy
        rcases List.mem_cons.1 hy with rfl | hy
        · exact hlt
        · exact ha y hy
      · refine Or.inr ⟨e :: a, x, b, by simp [he], ?_, hx, hb⟩
        intro y hy
        rcases List.mem_cons.1 hy with rfl | hy
        · exact hlt
        · exact ha y hy
    · exact Or.inr ⟨[], e, es, rfl, by simp, heq, fun y hy => heq ▸ hs'.1 y hy⟩
    · exact Or.inl ⟨[], e :: es, rfl, by simp, fun y hy => by
        rcases List.mem_cons.1 hy with rfl | hy
        · exact hgt
        · exact lt_trans hgt (hs'.1 y hy)⟩

theorem filterE_lt_of_all_lt {L : List (Entry K V)} {key : K} (h : ∀ e ∈ L, e.Key < key) :
    L.filter (fun e => decide (e.Key < key)) = L := by
  rw [List.filter_eq_self]
  intro e he
  simpa using h e he

theorem filterE_lt_of_all_gt {L : List (Entry K V)} {key : K} (h : ∀ e ∈ L, key < e.Key) :
    L.filter (fun e => decide (e.Key < key)) = [] := by
  rw [List.filter_eq_nil_iff]
  intro e he
  simpa using le_of_lt (h e he)

theorem filterE_gt_of_all_gt {L : List (Entry K V)} {key : K} (h : ∀ e ∈ L, key < e.Key) :
    L.filter (fun e => decide (key < e.Key)) = L := by
  rw [List.filter_eq_self]
  intro e he
  simpa using h e he

theorem filterE_gt_of_all_lt {L : List (Entry K V)} {key : K} (h : ∀ e ∈ L, e.Key < key) :
    L.filter (fun e => decide (key < e.Key)) = [] := by
  rw [List.filter_eq_nil_iff]
  intro e he
  simpa using le_of_lt (h e he)

/-- Sorted insertion only touches the part of the list that can hold the key. -/
theorem insertE_middle (x : Entry K V) (A B C : List (Entry K V))
    (hA : ∀ e ∈ A, e.Key < x.Key) (hC : ∀ e ∈ C, x.Key < e.Key) :
    insertE x (A ++ (B ++ C)) = A ++ (insertE x B ++ C) := by
  simp only [insertE, List.filter_append, filterE_lt_of_all_lt hA, filterE_lt_of_all_gt hC,
    filterE_gt_of_all_lt hA, filterE_gt_of_all_gt hC, List.append_nil, List.nil_append,
    List.append_assoc, List.cons_append]

theorem insertE_absent (x : Entry K V) (a b : List (Entry K V))
    (ha : ∀ e ∈ a, e.Key < x.Key) (hb : ∀ e ∈ b, x.Key < e.Key) :
    insertE x (a ++ b) = a ++ x :: b := by
  simp only [insertE, List.filter_append, filterE_lt_of_all_lt ha, filterE_lt_of_all_gt hb,
    filterE_gt_of_all_lt ha, filterE_gt_of_all_gt hb, List.append_nil, List.nil_append]

theorem insertE_present (x y : Entry K V) (a b : List (Entry K V))
    (ha : ∀ e ∈ a, e.Key < x.Key) (hy : y.Key = x.Key) (hb : ∀ e ∈ b, x.Key < e.Key) :
    insertE x (a ++ y :: b) = a ++ x :: b := by
  simp only [insertE, List.filter_append, List.filter_cons, hy, lt_irrefl, decide_False,
    filterE_lt_of_all_lt ha, filterE_lt_of_all_gt hb,
    filterE_gt_of_all_lt ha, filterE_gt_of_all_gt hb, List.append_nil, List.nil_append]
  simp

theorem sorted_insertE (x : Entry K V) (L : List (Entry K V)) (h : SortedE L) :
    SortedE (insertE x L) := by
  simp only [SortedE, insertE, List.pairwise_append, List.pairwise_cons, List.mem_cons,
    List.mem_filter, decide_eq_true_eq]
  refine ⟨h.filter _, ⟨fun e he => he.2, h.filter _⟩, ?_⟩
  rintro a ⟨-, ha⟩ b (rfl | ⟨-, hb⟩)
  · exact ha
  · exact lt_trans ha hb

theorem mem_insertE {x e : Entry K V} {L : List (Entry K V)} :
    e ∈ insertE x L ↔ e = x ∨ (e ∈ L ∧ e.Key ≠ x.Key) := by
  simp only [insertE, List.mem_append, List.mem_cons, List.mem_filter, decide_eq_true_eq]
  constructor
  · rintro (⟨h1, h2⟩ | h | ⟨h1, h2⟩)
    · exact Or.inr ⟨h1, ne_of_lt h2⟩
    · exact Or.inl h
    · exact Or.inr ⟨h1, ne_of_gt h2⟩
  · rintro (h | ⟨h1, h2⟩)
    · exact Or.inr (Or.inl h)
    · rcases lt_or_gt_of_ne h2 with h | h
      · exact Or.inl ⟨h1, h⟩
      · exact Or.inr (Or.inr ⟨h1, h⟩)

/-- In a sorted run child, entry, ..., child, entry every key is below what bounds the
entries. -/
theorem flatCE_lt {ca : List (Node K V)} {ea : List (Entry K V)} {key : K}
    (h : ea.length = ca.length) (hs : SortedE (flatCE ca ea))
    (hk : ∀ e ∈ ea, e.Key < key) : ∀ x ∈ flatCE ca ea, x.Key < key := by
  induction ca generalizing ea with
  | nil => intro x hx; cases ea <;> simp [flatCE] at hx
  | cons c ca ih =>
    cases ea with
    | nil => simp at h
    | cons e ea =>
      simp only [List.length_cons, Nat.add_right_cancel_iff] at h
      simp only [flatCE, SortedE, List.pairwise_append, List.pairwise_cons] at hs
      intro x hx
      simp only [flatCE, List.mem_append, List.mem_cons] at hx
      rcases hx with hx | rfl | hx
      · exact lt_trans (hs.2.2 x hx e (List.mem_cons_self _ _)) (hk e (List.mem_cons_self _ _))
      · exact hk _ (List.mem_cons_self _ _)
      · exact ih h hs.2.1.2 (fun y hy => hk y (List.mem_cons_of_mem _ hy)) x hx

/-- In a sorted run entry, child, ..., entry, child every key is above what bounds the
entries. -/
theorem flatEC_gt {eb : List (Entry K V)} {cb : List (Node K V)} {key : K}
    (h : eb.length = cb.length) (hs : SortedE (flatEC eb cb))
    (hk : ∀ e ∈ eb, key < e.Key) : ∀ x ∈ flatEC eb cb, key < x.Key := by
  induction cb generalizing eb with
  | nil => intro x hx; cases eb <;> simp [flatEC] at hx
  | cons c cb ih =>
    cases eb with
    | nil => simp at h
    | cons e eb =>
      simp only [List.length_cons, Nat.add_right_cancel_iff] at h
      simp only [flatEC, SortedE, List.pairwise_append, List.pairwise_cons] at hs
      intro x hx
      simp only [flatEC, List.mem_append, List.mem_cons] at hx
      rcases hx with rfl | hx | hx
      · exact hk _ (List.mem_cons_self _ _)
      · exact lt_trans (hk e (List.mem_cons_self _ _))
          (hs.1 x (List.mem_append_left _ hx))
      · exact ih h hs.2.2.1 (fun y hy => hk y (List.mem_cons_of_mem _ hy)) x hx

theorem SortedE.left {A B : List (Entry K V)} (h : SortedE (A ++ B)) : SortedE A :=
  (List.pairwise_append.1 h).1

theorem SortedE.right {A B : List (Entry K V)} (h : SortedE (A ++ B)) : SortedE B :=
  (List.pairwise_append.1 h).2.1

theorem SortedE.lt {A B : List (Entry K V)} (h : SortedE (A ++ B)) {a b : Entry K V}
    (ha : a ∈ A) (hb : b ∈ B) : a.Key < b.Key :=
  (List.pairwise_append.1 h).2.2 a ha b hb

end order
end btree

namespace btree
variable {K V : Type}

/-! ## Insertion -/

theorem insertChild_at (m : Int) (cmp : K → K → Int) (ca cb : List (Node K V)) (c : Node K V)
    (path : List (Frame K V)) (entry : Entry K V) :
    insertChild m cmp (ca ++ c :: cb) ca.length path entry = insert m cmp c path entry := by
  induction ca with
  | nil => simp [insertChild]
  | cons c1 ca ih => simpa [insertChild] using ih

section order
variable [LinearOrder K]

/-- Sorted insertion into the part around which the rest of a sorted list is arranged keeps
the whole sorted. -/
theorem sorted_insert_middle (x : Entry K V) (A B C : List (Entry K V))
    (hs : SortedE (A ++ (B ++ C)))
    (hA : ∀ e ∈ A, e.Key < x.Key) (hC : ∀ e ∈ C, x.Key < e.Key) :
    SortedE (A ++ (insertE x B ++ C)) := by
  rw [← insertE_middle x A B C hA hC]
  exact sorted_insertE x _ hs

/-- `insert` below a well-formed parent chain whose context brackets the key: the result is
a well-formed root, its in-order sequence is that of the sorted insertion, and the flag
says whether the key was new. -/
theorem insert_spec {cmp : K → K → Int} (hc : LawfulCmp cmp) {m : Int} (hm : 3 ≤ m)
    (entry : Entry K V) (h : Nat) :
    ∀ (node : Node K V) (path : List (Frame K V)), PathWF m h path →
      Shape m (loBound m path) (maxEntries m) h node →
      SortedE (ctxL path ++ (flatten node ++ ctxR path)) →
      (∀ e ∈ ctxL path, e.Key < entry.Key) → (∀ e ∈ ctxR path, entry.Key < e.Key) →
      ∃ root ins h', insert m cmp node path entry = some (root, ins) ∧
        Shape m 1 (maxEntries m) h' root ∧
        flatten root = ctxL path ++ (insertE entry (flatten node) ++ ctxR path) ∧
        (ins = true ↔ ∀ e ∈ flatten node, e.Key ≠ entry.Key) := by
  induction h with
  | zero =>
    intro node path hp hn hs hL hR
    obtain ⟨es, cs⟩ := node
    obtain ⟨hlo, hhi, hch⟩ := hn
    simp only [Node.Entries, Node.Children] at hlo hhi hch
    subst hch
    have hses : SortedE es := by
      have := hs.right.left
      simpa using this
    have hleaf : isLeaf (Node.mk es ([] : List (Node K V))) = true := by
      simp [isLeaf, Node.Children]
    rcases sorted_partition es hses entry.Key with
      ⟨a, b, he, ha, hb⟩ | ⟨a, x, b, he, ha, hx, hb⟩
    · subst he
      have hsearch := search_absent cmp entry.Key a b ([] : List (Node K V))
        (fun e he => cmp_pos_of_lt hc (ha e he)) (fun e he => cmp_neg_of_lt hc (hb e he))
      have hins : insertIdx (a ++ b) (a.length : Int) entry = some (a ++ entry :: b) :=
        insertIdx_at entry rfl
      have hfl : flatten (Node.mk (a ++ entry :: b) ([] : List (Node K V)))
          = insertE entry (flatten (Node.mk (a ++ b) ([] : List (Node K V)))) := by
        simp [insertE_absent entry a b ha hb]
      have hsh : Shape m (loBound m path) (maxEntries m + 1) 0
          (Node.mk (a ++ entry :: b) ([] : List (Node K V))) := by
        refine ⟨?_, ?_, rfl⟩
        · simp only [Node.Entries]; simp at hlo ⊢; omega
        · simp only [Node.Entries]; simp at hhi ⊢; omega
      have hs2 : SortedE (ctxL path ++ (flatten (Node.mk (a ++ entry :: b)
          ([] : List (Node K V))) ++ ctxR path)) := by
        rw [hfl]
        exact sorted_insert_middle entry _ _ _ hs hL hR
      obtain ⟨root, h', hr, hrs, hrf⟩ := split_spec hc hm hp _ hsh hs2
      refine ⟨root, true, h', ?_, hrs, by rw [hrf, hfl], ?_⟩
      · simp only [insert, hleaf, ↓reduceIte, insertIntoLeaf, hsearch, Node.Entries,
          Node.Children, hins, hr, Option.bind_eq_bind, Option.some_bind, Option.pure_def]
        rfl
      · simp only [flatten_mk, inter_nil, List.mem_append, true_iff]
        rintro e (he | he)
        · exact ne_of_lt (ha e he)
        · exact ne_of_gt (hb e he)
    · subst he
      have hsearch := search_present cmp entry.Key a b x ([] : List (Node K V))
        (fun e he => cmp_pos_of_lt hc (ha e he)) (cmp_zero_of_eq hc hx.symm)
        (fun e he => cmp_neg_of_lt hc (hb e he))
      have hset : setIdx (a ++ x :: b) (a.length : Int) entry = some (a ++ entry :: b) :=
        setIdx_at entry rfl
      have hfl : flatten (Node.mk (a ++ entry :: b) ([] : List (Node K V)))
          = insertE entry (flatten (Node.mk (a ++ x :: b) ([] : List (Node K V)))) := by
        simp [insertE_present entry x a b ha hx hb]
      have hsh : Shape m (loBound m path) (maxEntries m) 0
          (Node.mk (a ++ entry :: b) ([] : List (Node K V))) := by
        refine ⟨?_, ?_, rfl⟩
        · simp only [Node.Entries]; simp at hlo ⊢; omega
        · simp only [Node.Entries]; simp at hhi ⊢; omega
      obtain ⟨root, h', hr, hrs, hrf⟩ := plug_spec hp _ hsh
      refine ⟨root, false, h', ?_, hrs, by rw [hrf, hfl], ?_⟩
      · simp only [insert, hleaf, ↓reduceIte, insertIntoLeaf, hsearch, Node.Entries,
          Node.Children, hset, hr, Option.bind_eq_bind, Option.some_bind, Option.pure_def]
      · simp only [flatten_mk, inter_nil, false_iff, Bool.false_eq_true]
        intro hall
        exact hall x (by simp) hx
  | succ h ih =>
    intro node path hp hn hs hL hR
    obtain ⟨es, cs⟩ := node
    obtain ⟨hlo, hhi, hcnt, hall⟩ := hn
    simp only [Node.Entries, Node.Children] at hlo hhi hcnt hall
    have hsn : SortedE (inter es cs) := by
      have := hs.right.left
      simpa using this
    have hses : SortedE es := hsn.entries
    have hleaf : isLeaf (Node.mk es cs) = false := by
      simp [isLeaf, Node.Children]
      intro h0; rw [h0] at hcnt; simp at hcnt
    rcases sorted_partition es hses entry.Key with
      ⟨ea, eb, he, ha, hb⟩ | ⟨a, x, b, he, ha, hx, hb⟩
    · subst he
      obtain ⟨ca, c, cb, hcs, hca⟩ := exists_split_around cs ea.length (by
        rw [hcnt]; simp; omega)
      subst hcs
      have hea : ea.length = ca.length := hca.symm
      have heb : eb.length = cb.length := by
        simp at hcnt; omega
      have hsearch := search_absent cmp entry.Key ea eb (ca ++ c :: cb)
        (fun e he => cmp_pos_of_lt hc (ha e he)) (fun e he => cmp_neg_of_lt hc (hb e he))
      have hflat : flatten (Node.mk (ea ++ eb) (ca ++ c :: cb))
          = flatCE ca ea ++ (flatten c ++ flatEC eb cb) := by
        rw [flatten_mk, inter_around_child ea eb ca cb c hea heb]
      rw [hflat] at hs
      have hsCE : SortedE (flatCE ca ea) := hs.right.left.left
      have hsEC : SortedE (flatEC eb cb) := hs.right.left.right.right
      have hA := flatCE_lt hea hsCE ha
      have hC := flatEC_gt heb hsEC hb
      -- the chain below which the child sits
      have hp' : PathWF m h
          (⟨.mk (ea ++ eb) (ca ++ c :: cb), (ca.length : Int)⟩ :: path) := by
        refine PathWF.cons hea heb (fun c' hc' => hall c' (by simp [hc']))
          (fun c' hc' => hall c' (by simp [hc'])) hhi ?_ ?_ hp
        · intro hpn
          subst hpn
          simp only [loBound] at hlo
          omega
        · intro hpn
          cases path with
          | nil => exact absurd rfl hpn
          | cons g rest => simpa [loBound] using hlo
      have hcw : WF m h c := hall c (by simp)
      have hcs' : Shape m (loBound m
          (⟨.mk (ea ++ eb) (ca ++ c :: cb), (ca.length : Int)⟩ :: path)) (maxEntries m) h c :=
        wf_iff_shape.1 hcw
      have hs' : SortedE (ctxL (⟨.mk (ea ++ eb) (ca ++ c :: cb), (ca.length : Int)⟩ :: path)
          ++ (flatten c ++ ctxR (⟨.mk (ea ++ eb) (ca ++ c :: cb), (ca.length : Int)⟩ :: path))) := by
        simp only [ctxL, ctxR, before_split ea eb ca cb c hea, after_split ea eb ca cb c hea]
        simpa [SortedE, List.append_assoc] using hs
      have hL' : ∀ e ∈ ctxL (⟨.mk (ea ++ eb) (ca ++ c :: cb), (ca.length : Int)⟩ :: path),
          e.Key < entry.Key := by
        intro e he
        simp only [ctxL, before_split ea eb ca cb c hea, List.mem_append] at he
        rcases he with he | he
        · exact hL e he
        · exact hA e he
      have hR' : ∀ e ∈ ctxR (⟨.mk (ea ++ eb) (ca ++ c :: cb), (ca.length : Int)⟩ :: path),
          entry.Key < e.Key := by
        intro e he
        simp only [ctxR, after_split ea eb ca cb c hea, List.mem_append] at he
        rcases he with he | he
        · exact hC e he
        · exact hR e he
      obtain ⟨root, ins, h', hr, hrs, hrf, hins⟩ := ih c _ hp' hcs' hs' hL' hR'
      refine ⟨root, ins, h', ?_, hrs, ?_, ?_⟩
      · have hnn : ¬ ((ea.length : Int) < 0) := by omega
        simp only [insert, hleaf, hsearch, Bool.false_eq_true, ↓reduceIte, hnn,
          Int.toNat_ofNat]
        rw [hea, insertChild_at]
        exact hr
      · rw [hrf, hflat, insertE_middle entry _ _ _ hA hC]
        simp [ctxL, ctxR, before_split ea eb ca cb c hea, after_split ea eb ca cb c hea]
      · rw [hins, hflat]
        constructor
        · intro hh e he
          simp only [List.mem_append] at he
          rcases he with he | he | he
          · exact ne_of_lt (hA e he)
          · exact hh e he
          · exact ne_of_gt (hC e he)
        · intro hh e he
          exact hh e (by simp [he])
    · subst he
      obtain ⟨ca, cb, hcs, hca⟩ := exists_split_at cs (a.length + 1) (by
        rw [hcnt]; simp)
      subst hcs
      have hsearch := search_present cmp entry.Key a b x (ca ++ cb)
        (fun e he => cmp_pos_of_lt hc (ha e he)) (cmp_zero_of_eq hc hx.symm)
        (fun e he => cmp_neg_of_lt hc (hb e he))
      have hset : setIdx (a ++ x :: b) (a.length : Int) entry = some (a ++ entry :: b) :=
        setIdx_at entry rfl
      have hflat : flatten (Node.mk (a ++ x :: b) (ca ++ cb))
          = inter a ca ++ x :: inter b cb := by
        rw [flatten_mk, inter_around_entry a b ca cb x hca]
      have hflat' : flatten (Node.mk (a ++ entry :: b) (ca ++ cb))
          = inter a ca ++ entry :: inter b cb := by
        rw [flatten_mk, inter_around_entry a b ca cb entry hca]
      rw [hflat] at hs
      have hsx : SortedE (inter a ca ++ x :: inter b cb) := hs.right.left
      have hX : ∀ e ∈ inter a ca, e.Key < entry.Key := fun e he =>
        hx ▸ hsx.lt he (List.mem_cons_self _ _)
      have hY : ∀ e ∈ inter b cb, entry.Key < e.Key := fun e he =>
        hx ▸ (List.pairwise_cons.1 hsx.right).1 e he
      have hfl : flatten (Node.mk (a ++ entry :: b) (ca ++ cb))
          = insertE entry (flatten (Node.mk (a ++ x :: b) (ca ++ cb))) := by
        rw [hflat, hflat', insertE_present entry x _ _ hX hx hY]
      have hsh : Shape m (loBound m path) (maxEntries m) (h + 1)
          (Node.mk (a ++ entry :: b) (ca ++ cb)) := by
        refine ⟨?_, ?_, ?_, hall⟩
        · simp only [Node.Entries]; simp at hlo ⊢; omega
        · simp only [Node.Entries]; simp at hhi ⊢; omega
        · simp only [Node.Entries, Node.Children]; simp at hcnt ⊢; omega
      obtain ⟨root, h', hr, hrs, hrf⟩ := plug_spec hp _ hsh
      refine ⟨root, false, h', ?_, hrs, by rw [hrf, hfl], ?_⟩
      · simp only [insert, hleaf, hsearch, Bool.false_eq_true, ↓reduceIte, hset, hr,
          Option.map_some']
      · simp only [false_iff, Bool.false_eq_true, hflat]
        intro hall'
        exact hall' x (by simp) hx

end order
end btree

namespace btree
variable {K V : Type}

theorem searchChild_at (cmp : K → K → Int) (key : K) (ca cb : List (Node K V)) (c : Node K V)
    (path : List (Frame K V)) :
    searchChild cmp key (ca ++ c :: cb) ca.length path = searchNode cmp key c path := by
  induction ca with
  | nil => simp [searchChild]
  | cons c1 ca ih => simpa [searchChild] using ih

section order
variable [LinearOrder K]

theorem locTop_split {key : K} (ea eb : List (Entry K V)) (ca cb : List (Node K V))
    (c0 : Node K V) (rest : List (Frame K V)) (ha : ea.length = ca.length)
    (h1 : ∀ e ∈ ea, e.Key < key) (h2 : ∀ e ∈ eb, key ≤ e.Key) :
    LocTop key (⟨.mk (ea ++ eb) (ca ++ c0 :: cb), (ca.length : Int)⟩ :: rest) := by
  simp only [LocTop, Node.Entries, Int.toNat_ofNat, ← ha, List.take_left, List.drop_left]
  exact ⟨h1, h2⟩

theorem locTop_split_iff {key : K} (ea eb : List (Entry K V)) (ca cb : List (Node K V))
    (c0 : Node K V) (rest : List (Frame K V)) (ha : ea.length = ca.length) :
    LocTop key (⟨.mk (ea ++ eb) (ca ++ c0 :: cb), (ca.length : Int)⟩ :: rest) ↔
      (∀ e ∈ ea, e.Key < key) ∧ (∀ e ∈ eb, key ≤ e.Key) := by
  simp only [LocTop, Node.Entries, Int.toNat_ofNat, ← ha, List.take_left, List.drop_left]

/-- `searchRecursively` below a well-formed parent chain: the key is absent from the
subtree and the search says so, or the search ends at a node holding the key, with a
well-formed parent chain that describes the same tree and brackets the key. -/
theorem searchNode_spec {cmp : K → K → Int} (hc : LawfulCmp cmp) {m : Int} (key : K)
    (h : Nat) :
    ∀ (node : Node K V) (path : List (Frame K V)), PathWF m h path →
      Shape m (loBound m path) (maxEntries m) h node →
      SortedE (ctxL path ++ (flatten node ++ ctxR path)) → LocTop key path →
      ((∀ e ∈ flatten node, e.Key ≠ key) ∧ searchNode cmp key node path = some none) ∨
      ∃ (h' : Nat) (a : List (Entry K V)) (x : Entry K V) (b : List (Entry K V))
        (cs' : List (Node K V)) (path' : List (Frame K V)),
        searchNode cmp key node path
          = some (some (.mk (a ++ x :: b) cs', path', (a.length : Int))) ∧
        x.Key = key ∧ PathWF m h' path' ∧
        Shape m (loBound m path') (maxEntries m) h' (.mk (a ++ x :: b) cs') ∧
        ctxL path' ++ (flatten (.mk (a ++ x :: b) cs') ++ ctxR path')
          = ctxL path ++ (flatten node ++ ctxR path) ∧
        x ∈ flatten node ∧ LocTop key path' := by
  induction h with
  | zero =>
    intro node path hp hn hs hloc
    obtain ⟨es, cs⟩ := node
    have hn' := hn
    obtain ⟨hlo, hhi, hch⟩ := hn
    simp only [Node.Entries, Node.Children] at hlo hhi hch
    subst hch
    have hses : SortedE es := by
      have := hs.right.left
      simpa using this
    rcases sorted_partition es hses key with
      ⟨a, b, he, ha, hb⟩ | ⟨a, x, b, he, ha, hx, hb⟩
    · subst he
      have hsearch := search_absent cmp key a b ([] : List (Node K V))
        (fun e he => cmp_pos_of_lt hc (ha e he)) (fun e he => cmp_neg_of_lt hc (hb e he))
      refine Or.inl ⟨?_, ?_⟩
      · simp only [flatten_mk, inter_nil, List.mem_append]
        rintro e (he | he)
        · exact ne_of_lt (ha e he)
        · exact ne_of_gt (hb e he)
      · simp [searchNode, hsearch, isLeaf, Node.Children]
    · subst he
      have hsearch := search_present cmp key a b x ([] : List (Node K V))
        (fun e he => cmp_pos_of_lt hc (ha e he)) (cmp_zero_of_eq hc hx.symm)
        (fun e he => cmp_neg_of_lt hc (hb e he))
      refine Or.inr ⟨0, a, x, b, [], path, ?_, hx, hp, hn', rfl, by simp, hloc⟩
      simp [searchNode, hsearch]
  | succ h ih =>
    intro node path hp hn hs hloc
    obtain ⟨es, cs⟩ := node
    have hn' := hn
    obtain ⟨hlo, hhi, hcnt, hall⟩ := hn
    simp only [Node.Entries, Node.Children] at hlo hhi hcnt hall
    have hsn : SortedE (inter es cs) := by
      have := hs.right.left
      simpa using this
    have hses : SortedE es := hsn.entries
    have hleaf : isLeaf (Node.mk es cs) = false := by
      simp [isLeaf, Node.Children]
      intro h0; rw [h0] at hcnt; simp at hcnt
    rcases sorted_partition es hses key with
      ⟨ea, eb, he, ha, hb⟩ | ⟨a, x, b, he, ha, hx, hb⟩
    · subst he
      obtain ⟨ca, c, cb, hcs, hca⟩ := exists_split_around cs ea.length (by
        rw [hcnt]; simp; omega)
      subst hcs
      have hea : ea.length = ca.length := hca.symm
      have heb : eb.length = cb.length := by
        simp at hcnt; omega
      have hsearch := search_absent cmp key ea eb (ca ++ c :: cb)
        (fun e he => cmp_pos_of_lt hc (ha e he)) (fun e he => cmp_neg_of_lt hc (hb e he))
      have hflat : flatten (Node.mk (ea ++ eb) (ca ++ c :: cb))
          = flatCE ca ea ++ (flatten c ++ flatEC eb cb) := by
        rw [flatten_mk, inter_around_child ea eb ca cb c hea heb]
      rw [hflat] at hs
      have hsCE : SortedE (flatCE ca ea) := hs.right.left.left
      have hsEC : SortedE (flatEC eb cb) := hs.right.left.right.right
      have hA := flatCE_lt hea hsCE ha
      have hC := flatEC_gt heb hsEC hb
      have hp' : PathWF m h
          (⟨.mk (ea ++ eb) (ca ++ c :: cb), (ca.length : Int)⟩ :: path) := by
        refine PathWF.cons hea heb (fun c' hc' => hall c' (by simp [hc']))
          (fun c' hc' => hall c' (by simp [hc'])) hhi ?_ ?_ hp
        · intro hpn
          subst hpn
          simp only [loBound] at hlo
          omega
        · intro hpn
          cases path with
          | nil => exact absurd rfl hpn
          | cons g rest => simpa [loBound] using hlo
      have hcw : WF m h c := hall c (by simp)
      have hcs' : Shape m (loBound m
          (⟨.mk (ea ++ eb) (ca ++ c :: cb), (ca.length : Int)⟩ :: path)) (maxEntries m) h c :=
        wf_iff_shape.1 hcw
      have hctx : ctxL (⟨.mk (ea ++ eb) (ca ++ c :: cb), (ca.length : Int)⟩ :: path)
          ++ (flatten c ++ ctxR (⟨.mk (ea ++ eb) (ca ++ c :: cb), (ca.length : Int)⟩ :: path))
          = ctxL path ++ (flatCE ca ea ++ (flatten c ++ flatEC eb cb) ++ ctxR path) := by
        simp only [ctxL, ctxR, before_split ea eb ca cb c hea, after_split ea eb ca cb c hea,
          List.append_assoc]
      have hs' := hs
      rw [← hctx] at hs'
      have hloc' : LocTop key (⟨.mk (ea ++ eb) (ca ++ c :: cb), (ca.length : Int)⟩ :: path) :=
        locTop_split ea eb ca cb c path hea ha (fun e he => le_of_lt (hb e he))
      have hstep : searchNode cmp key (Node.mk (ea ++ eb) (ca ++ c :: cb)) path
          = searchNode cmp key c (⟨.mk (ea ++ eb) (ca ++ c :: cb), (ca.length : Int)⟩ :: path) := by
        have hnn : ¬ ((ea.length : Int) < 0) := by omega
        simp only [searchNode, hleaf, hsearch, Bool.false_eq_true, ↓reduceIte, hnn,
          Int.toNat_ofNat]
        rw [hea, searchChild_at]
      rcases ih c _ hp' hcs' hs' hloc' with ⟨habs, hsn'⟩ | ⟨h', a, x, b, cs', path', hsn', hx,
        hp'', hsh, hctx', hmem, hloc''⟩
      · refine Or.inl ⟨?_, by rw [hstep, hsn']⟩
        rw [hflat]
        intro e he
        simp only [List.mem_append] at he
        rcases he with he | he | he
        · exact ne_of_lt (hA e he)
        · exact habs e he
        · exact ne_of_gt (hC e he)
      · refine Or.inr ⟨h', a, x, b, cs', path', by rw [hstep, hsn'], hx, hp'', hsh, ?_, ?_,
          hloc''⟩
        · rw [hctx', hctx, hflat]
        · rw [hflat]; simp [hmem]
    · subst he
      have hsearch := search_present cmp key a b x cs
        (fun e he => cmp_pos_of_lt hc (ha e he)) (cmp_zero_of_eq hc hx.symm)
        (fun e he => cmp_neg_of_lt hc (hb e he))
      refine Or.inr ⟨h + 1, a, x, b, cs, path, ?_, hx, hp, hn', rfl, ?_, hloc⟩
      · simp [searchNode, hsearch]
      · exact (entries_sublist (a ++ x :: b) cs).subset (by simp)

end order
end btree

namespace btree
variable {K V : Type}

section order
variable [LinearOrder K]

/-! ## `Put` and `Get` on whole trees -/

theorem lookupE_eq_some_iff {L : List (Entry K V)} (hs : SortedE L) (key : K) (v : V) :
    lookupE key L = some v ↔ ∃ e ∈ L, e.Key = key ∧ e.Value = v := by
  induction L with
  | nil => simp [lookupE]
  | cons x L ih =>
    have hs' := List.pairwise_cons.1 hs
    by_cases hx : x.Key = key
    · simp only [lookupE, List.find?_cons, hx, decide_True, Option.map_some',
        Option.some.injEq, List.mem_cons, exists_eq_or_imp, true_and]
      constructor
      · exact Or.inl
      · rintro (h | ⟨e, he, hek, -⟩)
        · exact h
        · exact absurd (hx ▸ hek ▸ hs'.1 e he) (lt_irrefl _)
    · have := ih hs'.2
      simp only [lookupE] at this
      simp only [lookupE, List.find?_cons, hx, decide_False, this, List.mem_cons,
        exists_eq_or_imp, false_and, false_or]

theorem length_insertE (x : Entry K V) (L : List (Entry K V)) (hs : SortedE L) :
    ((insertE x L).length : Int)
      = L.length + (if ∀ e ∈ L, e.Key ≠ x.Key then 1 else 0) := by
  rcases sorted_partition L hs x.Key with ⟨a, b, he, ha, hb⟩ | ⟨a, y, b, he, ha, hy, hb⟩
  · subst he
    have : ∀ e ∈ a ++ b, e.Key ≠ x.Key := by
      intro e he
      rcases List.mem_append.1 he with he | he
      · exact ne_of_lt (ha e he)
      · exact ne_of_gt (hb e he)
    rw [insertE_absent x a b ha hb, if_pos this]
    simp; omega
  · subst he
    have : ¬ ∀ e ∈ a ++ y :: b, e.Key ≠ x.Key := fun h => h y (by simp) hy
    rw [insertE_present x y a b ha hy hb, if_neg this]
    simp

/-- `Put` on a well-formed tree: it completes, the tree stays well-formed, and its entries
are those of the sorted insertion. -/
theorem Put_spec (t : Tree K V) (hc : LawfulCmp t.Comparator) (hi : t.Inv) (k : K) (v : V) :
    ∃ t', t.Put k v = some t' ∧ t'.Inv ∧ t'.entries = insertE ⟨k, v⟩ t.entries ∧
      t'.m = t.m ∧ t'.Comparator = t.Comparator ∧ t'.Root ≠ none := by
  obtain ⟨hm, hsize, hroot⟩ := hi
  obtain ⟨_, hmin1, _, _, _, _, _, h2min, _, _⟩ := order_facts hm
  cases hr : t.Root with
  | none =>
    refine ⟨{ t with Root := some (.mk [⟨k, v⟩] []), size := t.size + 1 }, ?_, ?_, ?_, rfl, rfl,
      by simp⟩
    · simp [Tree.Put, hr]
    · refine ⟨hm, ?_, ?_⟩
      · simp [Tree.entries, hr] at hsize
        simp [Tree.entries, hsize]
      · refine ⟨⟨0, ?_, ?_, rfl⟩, by simp [SortedE]⟩
        · simp [Node.Entries]
        · simp only [Node.Entries]; simp; omega
    · simp [Tree.entries, hr, insertE]
  | some root =>
    rw [hr] at hroot
    obtain ⟨⟨h, hsh⟩, hs⟩ := hroot
    have hs' : SortedE (ctxL ([] : List (Frame K V)) ++ (flatten root ++ ctxR [])) := by
      simpa [ctxL, ctxR] using hs
    obtain ⟨root', ins, h', he, hsh', hf, hins⟩ :=
      insert_spec hc hm ⟨k, v⟩ h root [] (PathWF.nil h) hsh hs' (by simp [ctxL])
        (by simp [ctxR])
    simp only [ctxL, ctxR, List.nil_append, List.append_nil] at hf
    refine ⟨{ t with Root := some root', size := if ins then t.size + 1 else t.size }, ?_, ?_,
      ?_, rfl, rfl, by simp⟩
    · simp [Tree.Put, hr, he]
    · refine ⟨hm, ?_, ⟨h', hsh'⟩, hf ▸ sorted_insertE _ _ hs⟩
      simp only [Tree.entries, hr] at hsize
      simp only [Tree.entries, hf, length_insertE _ _ hs, hsize]
      by_cases hall : ∀ e ∈ flatten root, e.Key ≠ k
      · have := hins.2 hall
        rw [if_pos hall]
        simp [this]
      · have : ins = false := by
          cases ins with
          | false => rfl
          | true => exact absurd (hins.1 rfl) hall
        rw [if_neg hall]
        simp [this]
    · simp [Tree.entries, hr, hf]

/-- `Get` on a well-formed tree is the lookup in its sorted entry list. -/
theorem Get_spec (t : Tree K V) (hc : LawfulCmp t.Comparator) (hi : t.Inv) (key : K) :
    t.Get key = some (lookupE key t.entries) := by
  obtain ⟨hm, hsize, hroot⟩ := hi
  cases hr : t.Root with
  | none =>
    simp [Tree.entries, hr] at hsize
    simp [Tree.Get, Tree.searchRecursively, Tree.Empty, hsize, Tree.entries, hr, lookupE]
  | some root =>
    rw [hr] at hroot
    obtain ⟨⟨h, hsh⟩, hs⟩ := hroot
    have hne : t.Empty = false := by
      simp only [Tree.entries, hr] at hsize
      have : 1 ≤ (flatten root).length := by
        obtain ⟨es, cs⟩ := root
        have h1 := hsh.1
        simp only [Node.Entries] at h1
        have := (entries_sublist es cs).length_le
        simp only [flatten_mk]
        omega
      have h0 : ¬ ((flatten root).length : Int) = 0 := by omega
      simp [Tree.Empty, hsize]
      intro h1; rw [h1] at this; simp at this
    have hs' : SortedE (ctxL ([] : List (Frame K V)) ++ (flatten root ++ ctxR [])) := by
      simpa [ctxL, ctxR] using hs
    rcases searchNode_spec hc key h root [] (PathWF.nil h) hsh hs' trivial with
      ⟨habs, hsn⟩ | ⟨h', a, x, b, cs', path', hsn, hx, -, -, -, hmem, -⟩
    · have : lookupE key (flatten root) = none := by
        rw [Option.eq_none_iff_forall_not_mem]
        intro v hv
        obtain ⟨e, he, hk, -⟩ := (lookupE_eq_some_iff hs key v).1 hv
        exact habs e he hk
      simp [Tree.Get, Tree.searchRecursively, hne, hr, hsn, Tree.entries, this]
    · have : lookupE key (flatten root) = some x.Value :=
        (lookupE_eq_some_iff hs key x.Value).2 ⟨x, hmem, hx, rfl⟩
      simp [Tree.Get, Tree.searchRecursively, hne, hr, hsn, Tree.entries, this, Node.Entries,
        getIdx_at]

theorem lookupE_insertE_self (x : Entry K V) (L : List (Entry K V)) (hs : SortedE L) :
    lookupE x.Key (insertE x L) = some x.Value :=
  (lookupE_eq_some_iff (sorted_insertE x L hs) x.Key x.Value).2
    ⟨x, mem_insertE.2 (Or.inl rfl), rfl, rfl⟩

theorem lookupE_insertE_ne (x : Entry K V) (L : List (Entry K V)) (hs : SortedE L) (key : K)
    (hne : key ≠ x.Key) : lookupE key (insertE x L) = lookupE key L := by
  apply Option.ext
  intro v
  simp only [Option.mem_def]
  rw [lookupE_eq_some_iff (sorted_insertE x L hs), lookupE_eq_some_iff hs]
  constructor
  · rintro ⟨e, he, hk, hv⟩
    rcases mem_insertE.1 he with rfl | ⟨he', -⟩
    · exact absurd hk.symm hne
    · exact ⟨e, he', hk, hv⟩
  · rintro ⟨e, he, hk, hv⟩
    exact ⟨e, mem_insertE.2 (Or.inr ⟨he, fun h => hne (hk ▸ h)⟩), hk, hv⟩

end order
end btree

namespace btree
variable {K V : Type}

/-! ## The four repairs of `rebalance` in closed form -/

theorem getIdx_last {α : Type} (a : List α) (x : α) {i : Int}
    (h : i = ((a ++ [x]).length : Int) - 1) : getIdx (a ++ [x]) i = some x :=
  getIdx_at (by simp at h; omega)

theorem deleteIdx_last {α : Type} (a : List α) (x : α) {i : Int}
    (h : i = ((a ++ [x]).length : Int) - 1) : deleteIdx (a ++ [x]) i = some a := by
  have := deleteIdx_at (a := a) (b := []) (x := x) (i := i) (by simp at h; omega)
  simpa using this

theorem borrowLeft_eq (ea eb : List (Entry K V)) (sep last : Entry K V)
    (ca cb : List (Node K V)) (les nes : List (Entry K V)) (lcs ncs lastc : List (Node K V))
    (hea : ea.length = ca.length)
    (hl : (lcs = [] ∧ lastc = []) ∨ ∃ c, lastc = [c]) {i li : Int}
    (hi : i = ca.length + 1) (hli : li = ca.length) :
    borrowLeft (.mk (ea ++ sep :: eb)
        (ca ++ .mk (les ++ [last]) (lcs ++ lastc) :: .mk nes ncs :: cb)) i li
      = some (.mk (ea ++ last :: eb)
          (ca ++ .mk les lcs :: .mk (sep :: nes) (lastc ++ ncs) :: cb)) := by
  have hli' : li = ea.length := by omega
  have h1 : getIdx (ea ++ sep :: eb) li = some sep := getIdx_at hli'
  have h5 : setIdx (ea ++ sep :: eb) li last = some (ea ++ last :: eb) := setIdx_at _ hli'
  simp only [borrowLeft, Node.Entries, Node.Children, h1, h5, Option.bind_eq_bind,
    Option.some_bind, updateIdx_at2 _ hi, Option.map_some', getIdx_at hli,
    getIdx_last les last rfl, updateIdx_at _ hli, deleteEntry, deleteIdx_last les last rfl]
  rcases hl with ⟨rfl, rfl⟩ | ⟨c, rfl⟩
  · simp [borrowLeftChild, Node.Children, getIdx_at hli, isLeaf]
  · have hnl : isLeaf (Node.mk les (lcs ++ [c])) = false := by simp [isLeaf, Node.Children]
    have hge : ¬ ((lcs ++ [c]).length : Int) - 1 ≥ ((lcs ++ [c]).length : Int) := by omega
    simp only [borrowLeftChild, Node.Children, Node.Entries, getIdx_at hli, hnl,
      Option.bind_eq_bind, Option.some_bind, Bool.false_eq_true, ↓reduceIte,
      getIdx_last lcs c rfl, updateIdx_at2 _ hi, Option.map_some', updateIdx_at _ hli,
      deleteChild, hge, deleteIdx_last lcs c rfl, Option.pure_def, List.singleton_append]

end btree

namespace btree
variable {K V : Type}

theorem getIdx_zero {α : Type} (x : α) (l : List α) : getIdx (x :: l) 0 = some x := by
  simp [getIdx]

theorem deleteIdx_zero {α : Type} (x : α) (l : List α) : deleteIdx (x :: l) 0 = some l := by
  simp [deleteIdx]

theorem deleteIdx_at2 {α : Type} {a b : List α} {x y : α} {i : Int} (h : i = a.length + 1) :
    deleteIdx (a ++ x :: y :: b) i = some (a ++ x :: b) := by
  have e1 : a ++ x :: y :: b = (a ++ [x]) ++ y :: b := by simp
  have e2 : a ++ x :: b = (a ++ [x]) ++ b := by simp
  rw [e1, e2]
  exact deleteIdx_at (by simp [h])

theorem borrowRight_eq (ea eb : List (Entry K V)) (sep first : Entry K V)
    (ca cb : List (Node K V)) (res nes : List (Entry K V)) (rcs ncs firstc : List (Node K V))
    (hea : ea.length = ca.length)
    (hr : (rcs = [] ∧ firstc = []) ∨ ∃ c, firstc = [c]) {i ri : Int}
    (hi : i = ca.length) (hri : ri = ca.length + 1) :
    borrowRight (.mk (ea ++ sep :: eb)
        (ca ++ .mk nes ncs :: .mk (first :: res) (firstc ++ rcs) :: cb)) i ri
      = some (.mk (ea ++ first :: eb)
          (ca ++ .mk (nes ++ [sep]) (ncs ++ firstc) :: .mk res rcs :: cb)) := by
  have hri' : ri - 1 = ea.length := by omega
  have h1 : getIdx (ea ++ sep :: eb) (ri - 1) = some sep := getIdx_at hri'
  have h5 : setIdx (ea ++ sep :: eb) (ri - 1) first = some (ea ++ first :: eb) :=
    setIdx_at _ hri'
  simp only [borrowRight, Node.Entries, Node.Children, h1, h5, Option.bind_eq_bind,
    Option.some_bind, updateIdx_at _ hi, Option.map_some', getIdx_at2 hri,
    getIdx_zero, updateIdx_at2 _ hri, deleteEntry, deleteIdx_zero]
  rcases hr with ⟨rfl, rfl⟩ | ⟨c, rfl⟩
  · simp [borrowRightChild, Node.Children, getIdx_at2 hri, isLeaf]
  · have hnl : isLeaf (Node.mk res (c :: rcs)) = false := by simp [isLeaf, Node.Children]
    have hge : ¬ (0 : Int) ≥ ((c :: rcs).length : Int) := by
      simp only [List.length_cons]; omega
    simp only [borrowRightChild, Node.Children, Node.Entries, getIdx_at2 hri, hnl,
      Option.bind_eq_bind, Option.some_bind, Bool.false_eq_true, ↓reduceIte,
      List.singleton_append, getIdx_zero, updateIdx_at _ hi, Option.map_some',
      updateIdx_at2 _ hri, deleteChild, hge, deleteIdx_zero, Option.pure_def]

theorem mergeRight_eq (ea eb : List (Entry K V)) (sep : Entry K V)
    (ca cb : List (Node K V)) (res nes : List (Entry K V)) (rcs ncs : List (Node K V))
    (hea : ea.length = ca.length) {i ri : Int}
    (hi : i = ca.length) (hri : ri = ca.length + 1) :
    mergeRight (.mk (ea ++ sep :: eb) (ca ++ .mk nes ncs :: .mk res rcs :: cb)) i ri
      = some (.mk (nes ++ [sep] ++ res) (ncs ++ rcs),
          .mk (ea ++ eb) (ca ++ .mk (nes ++ [sep] ++ res) (ncs ++ rcs) :: cb), sep.Key) := by
  have hri' : ri - 1 = ea.length := by omega
  have h1 : getIdx (ea ++ sep :: eb) (ri - 1) = some sep := getIdx_at hri'
  have h5 : deleteIdx (ea ++ sep :: eb) (ri - 1) = some (ea ++ eb) := deleteIdx_at hri'
  have hge : ¬ ri ≥ ((ca ++ Node.mk (nes ++ [sep] ++ res) (ncs ++ rcs)
      :: Node.mk res rcs :: cb).length : Int) := by simp; omega
  simp only [mergeRight, Node.Entries, Node.Children, h1, h5, Option.bind_eq_bind,
    Option.some_bind, updateIdx_at _ hi, Option.map_some', getIdx_at2 hri,
    deleteEntry, mergeRightChildren, getIdx_at hi, deleteChild, hge, ↓reduceIte,
    deleteIdx_at2 hri, Option.pure_def]

theorem mergeLeft_eq (ea eb : List (Entry K V)) (sep : Entry K V)
    (ca cb : List (Node K V)) (les nes : List (Entry K V)) (lcs ncs : List (Node K V))
    (hea : ea.length = ca.length) {i li : Int}
    (hi : i = ca.length + 1) (hli : li = ca.length) :
    mergeLeft (.mk (ea ++ sep :: eb) (ca ++ .mk les lcs :: .mk nes ncs :: cb)) i li
      = some (.mk (les ++ sep :: nes) (lcs ++ ncs),
          .mk (ea ++ eb) (ca ++ .mk (les ++ sep :: nes) (lcs ++ ncs) :: cb), sep.Key) := by
  have hli' : li = ea.length := by omega
  have h1 : getIdx (ea ++ sep :: eb) li = some sep := getIdx_at hli'
  have h5 : deleteIdx (ea ++ sep :: eb) li = some (ea ++ eb) := deleteIdx_at hli'
  have hge : ¬ li ≥ ((ca ++ Node.mk les lcs
      :: Node.mk (les ++ sep :: nes) (lcs ++ ncs) :: cb).length : Int) := by simp; omega
  simp only [mergeLeft, Node.Entries, Node.Children, h1, h5, Option.bind_eq_bind,
    Option.some_bind, updateIdx_at2 _ hi, Option.map_some', getIdx_at hli,
    deleteEntry, mergeLeftChildren, getIdx_at2 hi, deleteChild, hge, ↓reduceIte,
    deleteIdx_at hli, Option.pure_def]

end btree

namespace btree
variable {K V : Type}

/-! ## Shapes around a borrow or a merge -/

/-- A node with at least one entry, cut before its last entry and its last child. -/
theorem shape_last {m : Int} {lo hi : Int} {h : Nat} {l : Node K V} (hl : Shape m lo hi h l)
    (h1 : 1 ≤ (l.Entries.length : Int)) :
    ∃ les last lcs lastc, l = .mk (les ++ [last]) (lcs ++ lastc) ∧
      ((h = 0 ∧ lcs = [] ∧ lastc = []) ∨
        (∃ h' c, h = h' + 1 ∧ lastc = [c] ∧ lcs.length = les.length + 1 ∧ WF m h' c ∧
          ∀ x ∈ lcs, WF m h' x)) := by
  obtain ⟨es, cs⟩ := l
  obtain ⟨-, -, hch⟩ := hl
  simp only [Node.Entries, Node.Children] at h1 hch
  obtain ⟨les, last, rfl⟩ : ∃ les last, es = les ++ [last] := by
    rcases List.eq_nil_or_concat es with rfl | ⟨les, last, rfl⟩
    · simp at h1
    · exact ⟨les, last, by simp⟩
  cases h with
  | zero =>
    subst hch
    exact ⟨les, last, [], [], by simp, Or.inl ⟨rfl, rfl, rfl⟩⟩
  | succ h' =>
    obtain ⟨hcnt, hall⟩ := hch
    obtain ⟨lcs, c, rfl⟩ : ∃ lcs c, cs = lcs ++ [c] := by
      rcases List.eq_nil_or_concat cs with rfl | ⟨lcs, c, rfl⟩
      · simp at hcnt
      · exact ⟨lcs, c, by simp⟩
    refine ⟨les, last, lcs, [c], rfl, Or.inr ⟨h', c, rfl, rfl, ?_, hall c (by simp),
      fun x hx => hall x (by simp [hx])⟩⟩
    simp at hcnt; omega

/-- A node with at least one entry, cut after its first entry and its first child. -/
theorem shape_first {m : Int} {lo hi : Int} {h : Nat} {r : Node K V} (hr : Shape m lo hi h r)
    (h1 : 1 ≤ (r.Entries.length : Int)) :
    ∃ first res firstc rcs, r = .mk (first :: res) (firstc ++ rcs) ∧
      ((h = 0 ∧ rcs = [] ∧ firstc = []) ∨
        (∃ h' c, h = h' + 1 ∧ firstc = [c] ∧ rcs.length = res.length + 1 ∧ WF m h' c ∧
          ∀ x ∈ rcs, WF m h' x)) := by
  obtain ⟨es, cs⟩ := r
  obtain ⟨-, -, hch⟩ := hr
  simp only [Node.Entries, Node.Children] at h1 hch
  cases es with
  | nil => simp at h1
  | cons first res =>
    cases h with
    | zero =>
      subst hch
      exact ⟨first, res, [], [], by simp, Or.inl ⟨rfl, rfl, rfl⟩⟩
    | succ h' =>
      obtain ⟨hcnt, hall⟩ := hch
      cases cs with
      | nil => simp at hcnt
      | cons c rcs =>
        refine ⟨first, res, [c], rcs, rfl, Or.inr ⟨h', c, rfl, rfl, ?_, hall c (by simp),
          fun x hx => hall x (by simp [hx])⟩⟩
        simp at hcnt; omega

/-- The children of a node of a given height, as a case distinction that fits
`flatten_halves`. -/
theorem shape_children {m : Int} {lo hi : Int} {h : Nat} {es : List (Entry K V)}
    {cs : List (Node K V)} (hn : Shape m lo hi h (.mk es cs)) :
    (h = 0 ∧ cs = []) ∨ (∃ h', h = h' + 1 ∧ cs.length = es.length + 1 ∧ ∀ x ∈ cs, WF m h' x) := by
  obtain ⟨-, -, hch⟩ := hn
  cases h with
  | zero => exact Or.inl ⟨rfl, hch⟩
  | succ h' => exact Or.inr ⟨h', rfl, hch.1, hch.2⟩

/-- Building a well-formed node of a given height from its parts. -/
theorem wf_mk {m : Int} {h : Nat} {es : List (Entry K V)} {cs : List (Node K V)}
    (h1 : minEntries m ≤ (es.length : Int)) (h2 : (es.length : Int) ≤ maxEntries m)
    (hc : (h = 0 ∧ cs = []) ∨
      (∃ h', h = h' + 1 ∧ cs.length = es.length + 1 ∧ ∀ x ∈ cs, WF m h' x)) :
    WF m h (.mk es cs) := by
  rcases hc with ⟨rfl, rfl⟩ | ⟨h', rfl, hcnt, hall⟩
  · exact ⟨rfl, h1, h2⟩
  · exact ⟨hcnt, h1, h2, hall⟩

theorem shape_mk {m : Int} {lo hi : Int} {h : Nat} {es : List (Entry K V)}
    {cs : List (Node K V)}
    (h1 : lo ≤ (es.length : Int)) (h2 : (es.length : Int) ≤ hi)
    (hc : (h = 0 ∧ cs = []) ∨
      (∃ h', h = h' + 1 ∧ cs.length = es.length + 1 ∧ ∀ x ∈ cs, WF m h' x)) :
    Shape m lo hi h (.mk es cs) := by
  rcases hc with ⟨rfl, rfl⟩ | ⟨h', rfl, hcnt, hall⟩
  · exact ⟨h1, h2, rfl⟩
  · exact ⟨h1, h2, hcnt, hall⟩

theorem wf_entries {m : Int} {h : Nat} {n : Node K V} (hn : WF m h n) :
    minEntries m ≤ (n.Entries.length : Int) ∧ (n.Entries.length : Int) ≤ maxEntries m := by
  have := wf_iff_shape.1 hn
  exact ⟨this.1, this.2.1⟩

end btree

namespace btree
variable {K V : Type}

theorem flatten_one (ea eb : List (Entry K V)) (ca cb : List (Node K V)) (x : Node K V)
    (ha : ea.length = ca.length) (hb : eb.length = cb.length) :
    flatten (.mk (ea ++ eb) (ca ++ x :: cb))
      = flatCE ca ea ++ (flatten x ++ flatEC eb cb) := by
  rw [flatten_mk, inter_around_child ea eb ca cb x ha hb]

theorem flatten_two (ea eb : List (Entry K V)) (s : Entry K V) (ca cb : List (Node K V))
    (x y : Node K V) (ha : ea.length = ca.length) (hb : eb.length = cb.length) :
    flatten (.mk (ea ++ s :: eb) (ca ++ x :: y :: cb))
      = flatCE ca ea ++ (flatten x ++ s :: (flatten y ++ flatEC eb cb)) := by
  rw [flatten_mk, inter_around_child ea (s :: eb) ca (y :: cb) x ha (by simp [hb])]
  simp [flatEC]

/-- The borrow from the left sibling keeps the parent well-formed and its in-order
sequence unchanged. -/
theorem borrowLeft_ok {m : Int} (hm : 3 ≤ m) {h : Nat} (ea eb : List (Entry K V))
    (sep : Entry K V) (ca cb : List (Node K V)) (l : Node K V) (nes : List (Entry K V))
    (ncs : List (Node K V)) (hea : ea.length = ca.length) (heb : eb.length = cb.length)
    (hca : ∀ c ∈ ca, WF m h c) (hcb : ∀ c ∈ cb, WF m h c) (hl : WF m h l)
    (hlend : minEntries m < (l.Entries.length : Int))
    (hn : Shape m (minEntries m - 1) (minEntries m - 1) h (.mk nes ncs)) {i li : Int}
    (hi : i = ca.length + 1) (hli : li = ca.length) :
    ∃ P', borrowLeft (.mk (ea ++ sep :: eb) (ca ++ l :: .mk nes ncs :: cb)) i li = some P' ∧
      Shape m ((ea ++ sep :: eb).length) ((ea ++ sep :: eb).length) (h + 1) P' ∧
      flatten P' = flatten (.mk (ea ++ sep :: eb) (ca ++ l :: .mk nes ncs :: cb)) := by
  obtain ⟨_, hmin1, _, _, _, _, _, _, _, _⟩ := order_facts hm
  have hls := wf_iff_shape.1 hl
  obtain ⟨hl1, hl2⟩ := wf_entries hl
  obtain ⟨les, last, lcs, lastc, rfl, hcase⟩ := shape_last hls (by omega)
  simp only [Node.Entries, List.length_append, List.length_singleton, Nat.cast_add,
    Nat.cast_one] at hlend hl1 hl2
  have hnlen : (nes.length : Int) = minEntries m - 1 := by
    have := hn.1; have := hn.2.1; simp only [Node.Entries] at *; omega
  have hnch := shape_children hn
  have hlast : (lcs = [] ∧ lastc = []) ∨ ∃ c, lastc = [c] := by
    rcases hcase with ⟨-, a, b⟩ | ⟨h', c, -, hc, -⟩
    · exact Or.inl ⟨a, b⟩
    · exact Or.inr ⟨c, hc⟩
  refine ⟨_, borrowLeft_eq ea eb sep last ca cb les nes lcs ncs lastc hea hlast hi hli, ?_, ?_⟩
  · refine ⟨by simp [Node.Entries], by simp [Node.Entries], ?_, ?_⟩
    · simp [Node.Children, Node.Entries, hea, heb]; omega
    · intro c hc
      simp only [Node.Children, List.mem_append, List.mem_cons] at hc
      rcases hc with hc | rfl | rfl | hc
      · exact hca c hc
      · refine wf_mk (by omega) (by omega) ?_
        rcases hcase with ⟨h0, a, -⟩ | ⟨h', c, hh, -, hcnt, -, hall⟩
        · exact Or.inl ⟨h0, a⟩
        · exact Or.inr ⟨h', hh, hcnt, hall⟩
      · refine wf_mk (by simp; omega) (by simp; omega) ?_
        rcases hcase with ⟨h0, -, b⟩ | ⟨h', c, hh, hc, -, hcw, -⟩
        · rcases hnch with ⟨-, hn0⟩ | ⟨h'', hh'', -⟩
          · exact Or.inl ⟨h0, by simp [b, hn0]⟩
          · omega
        · rcases hnch with ⟨h0, -⟩ | ⟨h'', hh'', hcnt, hall⟩
          · omega
          · have : h'' = h' := by omega
            subst this
            refine Or.inr ⟨h'', hh, by simp [hc, hcnt], ?_⟩
            intro x hx
            simp only [hc, List.singleton_append, List.mem_cons] at hx
            rcases hx with rfl | hx
            · exact hcw
            · exact hall x hx
      · exact hcb c hc
  · rw [flatten_two ea eb last ca cb _ _ hea heb, flatten_two ea eb sep ca cb _ _ hea heb]
    congr 1
    rcases hcase with ⟨h0, rfl, rfl⟩ | ⟨h', c, -, rfl, hcnt, -, -⟩
    · rcases hnch with ⟨-, rfl⟩ | ⟨h'', hh'', hcnt', -⟩
      · simp
      · omega
    · have e1 : flatten (Node.mk (les ++ [last]) (lcs ++ [c]))
          = inter les lcs ++ last :: flatten c := by
        rw [flatten_mk, inter_around_entry les [] lcs [c] last hcnt]
        simp [inter_cons_nil]
      rw [e1]
      simp [inter_cons_cons]

/-- The borrow from the right sibling keeps the parent well-formed and its in-order
sequence unchanged. -/
theorem borrowRight_ok {m : Int} (hm : 3 ≤ m) {h : Nat} (ea eb : List (Entry K V))
    (sep : Entry K V) (ca cb : List (Node K V)) (r : Node K V) (nes : List (Entry K V))
    (ncs : List (Node K V)) (hea : ea.length = ca.length) (heb : eb.length = cb.length)
    (hca : ∀ c ∈ ca, WF m h c) (hcb : ∀ c ∈ cb, WF m h c) (hr : WF m h r)
    (hlend : minEntries m < (r.Entries.length : Int))
    (hn : Shape m (minEntries m - 1) (minEntries m - 1) h (.mk nes ncs)) {i ri : Int}
    (hi : i = ca.length) (hri : ri = ca.length + 1) :
    ∃ P', borrowRight (.mk (ea ++ sep :: eb) (ca ++ .mk nes ncs :: r :: cb)) i ri = some P' ∧
      Shape m ((ea ++ sep :: eb).length) ((ea ++ sep :: eb).length) (h + 1) P' ∧
      flatten P' = flatten (.mk (ea ++ sep :: eb) (ca ++ .mk nes ncs :: r :: cb)) := by
  obtain ⟨_, hmin1, _, _, _, _, _, _, _, _⟩ := order_facts hm
  have hrs := wf_iff_shape.1 hr
  obtain ⟨hr1, hr2⟩ := wf_entries hr
  obtain ⟨first, res, firstc, rcs, rfl, hcase⟩ := shape_first hrs (by omega)
  simp only [Node.Entries, List.length_cons, Nat.cast_add, Nat.cast_one] at hlend hr1 hr2
  have hnlen : (nes.length : Int) = minEntries m - 1 := by
    have := hn.1; have := hn.2.1; simp only [Node.Entries] at *; omega
  have hnch := shape_children hn
  have hfirst : (rcs = [] ∧ firstc = []) ∨ ∃ c, firstc = [c] := by
    rcases hcase with ⟨-, a, b⟩ | ⟨h', c, -, hc, -⟩
    · exact Or.inl ⟨a, b⟩
    · exact Or.inr ⟨c, hc⟩
  refine ⟨_, borrowRight_eq ea eb sep first ca cb res nes rcs ncs firstc hea hfirst hi hri,
    ?_, ?_⟩
  · refine ⟨by simp [Node.Entries], by simp [Node.Entries], ?_, ?_⟩
    · simp [Node.Children, Node.Entries, hea, heb]; omega
    · intro c hc
      simp only [Node.Children, List.mem_append, List.mem_cons] at hc
      rcases hc with hc | rfl | rfl | hc
      · exact hca c hc
      · refine wf_mk (by simp; omega) (by simp; omega) ?_
        rcases hcase with ⟨h0, -, b⟩ | ⟨h', c, hh, hc, -, hcw, -⟩
        · rcases hnch with ⟨-, hn0⟩ | ⟨h'', hh'', -⟩
          · exact Or.inl ⟨h0, by simp [b, hn0]⟩
          · omega
        · rcases hnch with ⟨h0, -⟩ | ⟨h'', hh'', hcnt, hall⟩
          · omega
          · have : h'' = h' := by omega
            subst this
            refine Or.inr ⟨h'', hh, by simp [hc, hcnt], ?_⟩
            intro x hx
            simp only [hc, List.mem_append, List.mem_singleton] at hx
            rcases hx with hx | rfl
            · exact hall x hx
            · exact hcw
      · refine wf_mk (by omega) (by omega) ?_
        rcases hcase with ⟨h0, a, -⟩ | ⟨h', c, hh, -, hcnt, -, hall⟩
        · exact Or.inl ⟨h0, a⟩
        · exact Or.inr ⟨h', hh, hcnt, hall⟩
      · exact hcb c hc
  · rw [flatten_two ea eb first ca cb _ _ hea heb, flatten_two ea eb sep ca cb _ _ hea heb]
    congr 1
    rcases hcase with ⟨h0, rfl, rfl⟩ | ⟨h', c, hh, rfl, hcnt, -, -⟩
    · rcases hnch with ⟨-, rfl⟩ | ⟨h'', hh'', hcnt', -⟩
      · simp
      · omega
    · rcases hnch with ⟨h0, -⟩ | ⟨h'', hh'', hcnt', -⟩
      · omega
      · have e1 : flatten (Node.mk (nes ++ [sep]) (ncs ++ [c]))
            = inter nes ncs ++ sep :: flatten c := by
          rw [flatten_mk, inter_around_entry nes [] ncs [c] sep hcnt']
          simp [inter_cons_nil]
        rw [e1]
        simp [inter_cons_cons]

end btree

namespace btree
variable {K V : Type}

/-- The merge with the right sibling: the merged node is well-formed, the parent loses one
entry and one child, and the in-order sequence is unchanged. -/
theorem mergeRight_ok {m : Int} (hm : 3 ≤ m) {h : Nat} (ea eb : List (Entry K V))
    (sep : Entry K V) (ca cb : List (Node K V)) (r : Node K V) (nes : List (Entry K V))
    (ncs : List (Node K V)) (hea : ea.length = ca.length) (heb : eb.length = cb.length)
    (hca : ∀ c ∈ ca, WF m h c) (hcb : ∀ c ∈ cb, WF m h c) (hr : WF m h r)
    (hnl : ¬ minEntries m < (r.Entries.length : Int))
    (hn : Shape m (minEntries m - 1) (minEntries m - 1) h (.mk nes ncs)) {i ri : Int}
    (hi : i = ca.length) (hri : ri = ca.length + 1) :
    ∃ node' pes pcs,
      mergeRight (.mk (ea ++ sep :: eb) (ca ++ .mk nes ncs :: r :: cb)) i ri
        = some (node', .mk pes pcs, sep.Key) ∧
      WF m h node' ∧ pes.length + 1 = (ea ++ sep :: eb).length ∧
      Shape m pes.length pes.length (h + 1) (.mk pes pcs) ∧
      flatten (.mk pes pcs) = flatten (.mk (ea ++ sep :: eb) (ca ++ .mk nes ncs :: r :: cb)) ∧
      (pes = [] → flatten node'
        = flatten (.mk (ea ++ sep :: eb) (ca ++ .mk nes ncs :: r :: cb))) := by
  obtain ⟨_, hmin1, _, _, _, _, _, h2min, _, _⟩ := order_facts hm
  obtain ⟨hr1, hr2⟩ := wf_entries hr
  obtain ⟨res, rcs⟩ := r
  have hrch := shape_children (wf_iff_shape.1 hr)
  simp only [Node.Entries] at hnl hr1 hr2
  have hnlen : (nes.length : Int) = minEntries m - 1 := by
    have := hn.1; have := hn.2.1; simp only [Node.Entries] at *; omega
  have hnch := shape_children hn
  have hhalf : (ncs = [] ∧ rcs = []) ∨ ncs.length = nes.length + 1 := by
    rcases hnch with ⟨h0, a⟩ | ⟨h', hh, hcnt, -⟩
    · rcases hrch with ⟨-, b⟩ | ⟨h'', hh'', -⟩
      · exact Or.inl ⟨a, b⟩
      · omega
    · exact Or.inr hcnt
  have hfn : flatten (Node.mk (nes ++ [sep] ++ res) (ncs ++ rcs))
      = flatten (.mk nes ncs) ++ sep :: flatten (.mk res rcs) := by
    have := flatten_halves nes res sep ncs rcs hhalf
    simpa using this
  have hfl : flatten (Node.mk (ea ++ eb) (ca ++ Node.mk (nes ++ [sep] ++ res) (ncs ++ rcs) :: cb))
      = flatten (.mk (ea ++ sep :: eb) (ca ++ .mk nes ncs :: .mk res rcs :: cb)) := by
    rw [flatten_one ea eb ca cb _ hea heb, flatten_two ea eb sep ca cb _ _ hea heb, hfn]
    simp
  refine ⟨_, _, _, mergeRight_eq ea eb sep ca cb res nes rcs ncs hea hi hri, ?_, by simp; omega, ?_,
    hfl, ?_⟩
  · refine wf_mk (by simp; omega) (by simp; omega) ?_
    rcases hnch with ⟨h0, a⟩ | ⟨h', hh, hcnt, hall⟩
    · rcases hrch with ⟨-, b⟩ | ⟨h'', hh'', -⟩
      · exact Or.inl ⟨h0, by simp [a, b]⟩
      · omega
    · rcases hrch with ⟨h0, -⟩ | ⟨h'', hh'', hcnt', hall'⟩
      · omega
      · have : h'' = h' := by omega
        subst this
        refine Or.inr ⟨h'', hh, by simp [hcnt, hcnt']; omega, ?_⟩
        intro x hx
        rcases List.mem_append.1 hx with hx | hx
        · exact hall x hx
        · exact hall' x hx
  · refine ⟨by simp [Node.Entries], by simp [Node.Entries], ?_, ?_⟩
    · simp [Node.Children, Node.Entries, hea, heb]; omega
    · intro c hc
      simp only [Node.Children, List.mem_append, List.mem_cons] at hc
      rcases hc with hc | rfl | hc
      · exact hca c hc
      · refine wf_mk (by simp; omega) (by simp; omega) ?_
        rcases hnch with ⟨h0, a⟩ | ⟨h', hh, hcnt, hall⟩
        · rcases hrch with ⟨-, b⟩ | ⟨h'', hh'', -⟩
          · exact Or.inl ⟨h0, by simp [a, b]⟩
          · omega
        · rcases hrch with ⟨h0, -⟩ | ⟨h'', hh'', hcnt', hall'⟩
          · omega
          · have : h'' = h' := by omega
            subst this
            refine Or.inr ⟨h'', hh, by simp [hcnt, hcnt']; omega, ?_⟩
            intro x hx
            rcases List.mem_append.1 hx with hx | hx
            · exact hall x hx
            · exact hall' x hx
      · exact hcb c hc
  · intro hp
    have hea0 : ea = [] := by
      cases ea with
      | nil => rfl
      | cons _ _ => simp at hp
    have heb0 : eb = [] := by
      cases eb with
      | nil => rfl
      | cons _ _ => simp at hp
    subst hea0 heb0
    have hca0 : ca = [] := List.length_eq_zero.1 hea.symm
    have hcb0 : cb = [] := List.length_eq_zero.1 heb.symm
    subst hca0 hcb0
    rw [← hfl]
    simp [inter_cons_nil]

/-- The merge with the left sibling: the merged node is well-formed, the parent loses one
entry and one child, and the in-order sequence is unchanged. -/
theorem mergeLeft_ok {m : Int} (hm : 3 ≤ m) {h : Nat} (ea eb : List (Entry K V))
    (sep : Entry K V) (ca cb : List (Node K V)) (l : Node K V) (nes : List (Entry K V))
    (ncs : List (Node K V)) (hea : ea.length = ca.length) (heb : eb.length = cb.length)
    (hca : ∀ c ∈ ca, WF m h c) (hcb : ∀ c ∈ cb, WF m h c) (hl : WF m h l)
    (hnl : ¬ minEntries m < (l.Entries.length : Int))
    (hn : Shape m (minEntries m - 1) (minEntries m - 1) h (.mk nes ncs)) {i li : Int}
    (hi : i = ca.length + 1) (hli : li = ca.length) :
    ∃ node' pes pcs,
      mergeLeft (.mk (ea ++ sep :: eb) (ca ++ l :: .mk nes ncs :: cb)) i li
        = some (node', .mk pes pcs, sep.Key) ∧
      WF m h node' ∧ pes.length + 1 = (ea ++ sep :: eb).length ∧
      Shape m pes.length pes.length (h + 1) (.mk pes pcs) ∧
      flatten (.mk pes pcs) = flatten (.mk (ea ++ sep :: eb) (ca ++ l :: .mk nes ncs :: cb)) ∧
      (pes = [] → flatten node'
        = flatten (.mk (ea ++ sep :: eb) (ca ++ l :: .mk nes ncs :: cb))) := by
  obtain ⟨_, hmin1, _, _, _, _, _, h2min, _, _⟩ := order_facts hm
  obtain ⟨hl1, hl2⟩ := wf_entries hl
  obtain ⟨les, lcs⟩ := l
  have hlch := shape_children (wf_iff_shape.1 hl)
  simp only [Node.Entries] at hnl hl1 hl2
  have hnlen : (nes.length : Int) = minEntries m - 1 := by
    have := hn.1; have := hn.2.1; simp only [Node.Entries] at *; omega
  have hnch := shape_children hn
  have hhalf : (lcs = [] ∧ ncs = []) ∨ lcs.length = les.length + 1 := by
    rcases hlch with ⟨h0, a⟩ | ⟨h', hh, hcnt, -⟩
    · rcases hnch with ⟨-, b⟩ | ⟨h'', hh'', -⟩
      · exact Or.inl ⟨a, b⟩
      · omega
    · exact Or.inr hcnt
  have hfn : flatten (Node.mk (les ++ sep :: nes) (lcs ++ ncs))
      = flatten (.mk les lcs) ++ sep :: flatten (.mk nes ncs) :=
    flatten_halves les nes sep lcs ncs hhalf
  have hfl : flatten (Node.mk (ea ++ eb) (ca ++ Node.mk (les ++ sep :: nes) (lcs ++ ncs) :: cb))
      = flatten (.mk (ea ++ sep :: eb) (ca ++ .mk les lcs :: .mk nes ncs :: cb)) := by
    rw [flatten_one ea eb ca cb _ hea heb, flatten_two ea eb sep ca cb _ _ hea heb, hfn]
    simp
  have hwf : WF m h (Node.mk (les ++ sep :: nes) (lcs ++ ncs)) := by
    refine wf_mk (by simp; omega) (by simp; omega) ?_
    rcases hlch with ⟨h0, a⟩ | ⟨h', hh, hcnt, hall⟩
    · rcases hnch with ⟨-, b⟩ | ⟨h'', hh'', -⟩
      · exact Or.inl ⟨h0, by simp [a, b]⟩
      · omega
    · rcases hnch with ⟨h0, -⟩ | ⟨h'', hh'', hcnt', hall'⟩
      · omega
      · have : h'' = h' := by omega
        subst this
        refine Or.inr ⟨h'', hh, by simp [hcnt, hcnt']; omega, ?_⟩
        intro x hx
        rcases List.mem_append.1 hx with hx | hx
        · exact hall x hx
        · exact hall' x hx
  refine ⟨_, _, _, mergeLeft_eq ea eb sep ca cb les nes lcs ncs hea hi hli, hwf, by simp; omega, ?_,
    hfl, ?_⟩
  · refine ⟨by simp [Node.Entries], by simp [Node.Entries], ?_, ?_⟩
    · simp [Node.Children, Node.Entries, hea, heb]; omega
    · intro c hc
      simp only [Node.Children, List.mem_append, List.mem_cons] at hc
      rcases hc with hc | rfl | hc
      · exact hca c hc
      · exact hwf
      · exact hcb c hc
  · intro hp
    have hea0 : ea = [] := by
      cases ea with
      | nil => rfl
      | cons _ _ => simp at hp
    have heb0 : eb = [] := by
      cases eb with
      | nil => rfl
      | cons _ _ => simp at hp
    subst hea0 heb0
    have hca0 : ca = [] := List.length_eq_zero.1 hea.symm
    have hcb0 : cb = [] := List.length_eq_zero.1 heb.symm
    subst hca0 hcb0
    rw [← hfl]
    simp [inter_cons_nil]

end btree

namespace btree
variable {K V : Type}

/-! ## One round of `rebalance` -/

theorem leftSibling_eq {cmp : K → K → Int} {P : Node K V} {key : K} {n : Int} {f : Bool}
    (hs : search cmp P key = some (n, f)) :
    leftSibling cmp P key
      = some (if n - 1 ≥ 0 ∧ n - 1 < P.Children.length then some (n - 1) else none) := by
  simp only [leftSibling, hs, Option.bind_eq_bind, Option.some_bind, Option.pure_def]
  split_ifs <;> rfl

theorem rightSibling_eq {cmp : K → K → Int} {P : Node K V} {key : K} {n : Int} {f : Bool}
    (hs : search cmp P key = some (n, f)) :
    rightSibling cmp P key
      = some (if n + 1 < P.Children.length then some (n + 1) else none) := by
  simp only [rightSibling, hs, Option.bind_eq_bind, Option.some_bind, Option.pure_def]
  split_ifs <;> rfl

section order
variable [LinearOrder K]


/-- The search by the deleted key in the parent ends at the position of the hole. -/
theorem search_loc {cmp : K → K → Int} (hc : LawfulCmp cmp) (key : K)
    (ea eb : List (Entry K V)) (cs : List (Node K V)) (hs : SortedE (ea ++ eb))
    (h1 : ∀ e ∈ ea, e.Key < key) (h2 : ∀ e ∈ eb, key ≤ e.Key) :
    ∃ f, search cmp (.mk (ea ++ eb) cs) key = some ((ea.length : Int), f) := by
  cases eb with
  | nil =>
    exact ⟨false, search_absent cmp key ea [] cs (fun e he => cmp_pos_of_lt hc (h1 e he))
      (by simp)⟩
  | cons x eb =>
    have hx := (List.pairwise_cons.1 hs.right).1
    rcases eq_or_lt_of_le (h2 x (by simp)) with heq | hlt
    · exact ⟨true, search_present cmp key ea eb x cs (fun e he => cmp_pos_of_lt hc (h1 e he))
        (cmp_zero_of_eq hc heq) (fun e he => cmp_neg_of_lt hc (heq ▸ hx e he))⟩
    · refine ⟨false, search_absent cmp key ea (x :: eb) cs
        (fun e he => cmp_pos_of_lt hc (h1 e he)) ?_⟩
      intro e he
      rcases List.mem_cons.1 he with rfl | he
      · exact cmp_neg_of_lt hc hlt
      · exact cmp_neg_of_lt hc (lt_trans hlt (hx e he))

end order
end btree

namespace btree
variable {K V : Type}

theorem canLend_none (m : Int) (pcs : List (Node K V)) : canLend m pcs none = some false := rfl

theorem canLend_some (m : Int) (pcs : List (Node K V)) (si : Int) (s : Node K V)
    (h : getIdx pcs si = some s) :
    canLend m pcs (some si) = some (decide ((s.Entries.length : Int) > minEntries m)) := by
  simp [canLend, h]

section order
variable [LinearOrder K]

/-- One round of `rebalance` for a node that is one entry short, below a parent whose
entries bracket the deleted key: a borrow leaves a well-formed parent with as many entries
as before; a merge leaves a well-formed merged node and a parent with one entry less.
Either way the in-order sequence of the parent is unchanged. -/
theorem rebalanceStep_spec {cmp : K → K → Int} (hc : LawfulCmp cmp) {m : Int} (hm : 3 ≤ m)
    {h : Nat} (ea eb : List (Entry K V)) (ca cb : List (Node K V)) (nes : List (Entry K V))
    (ncs : List (Node K V)) (key : K)
    (hea : ea.length = ca.length) (heb : eb.length = cb.length)
    (hca : ∀ c ∈ ca, WF m h c) (hcb : ∀ c ∈ cb, WF m h c)
    (hn : Shape m (minEntries m - 1) (minEntries m - 1) h (.mk nes ncs))
    (hpe : 1 ≤ (ea ++ eb).length)
    (hs : SortedE (flatten (.mk (ea ++ eb) (ca ++ .mk nes ncs :: cb))))
    (hl1 : ∀ e ∈ ea, e.Key < key) (hl2 : ∀ e ∈ eb, key ≤ e.Key) :
    (∃ P', rebalanceStep m cmp (.mk (ea ++ eb) (ca ++ .mk nes ncs :: cb)) (ca.length : Int) key
          = some (Step.done P') ∧
        Shape m ((ea ++ eb).length) ((ea ++ eb).length) (h + 1) P' ∧
        flatten P' = flatten (.mk (ea ++ eb) (ca ++ .mk nes ncs :: cb))) ∨
    (∃ node' pes pcs sep,
        rebalanceStep m cmp (.mk (ea ++ eb) (ca ++ .mk nes ncs :: cb)) (ca.length : Int) key
          = some (Step.merged node' (.mk pes pcs) sep.Key) ∧
        WF m h node' ∧ pes.length + 1 = (ea ++ eb).length ∧
        Shape m pes.length pes.length (h + 1) (.mk pes pcs) ∧
        flatten (.mk pes pcs) = flatten (.mk (ea ++ eb) (ca ++ .mk nes ncs :: cb)) ∧
        sep ∈ flatten (.mk (ea ++ eb) (ca ++ .mk nes ncs :: cb)) ∧
        (pes = [] → flatten node' = flatten (.mk (ea ++ eb) (ca ++ .mk nes ncs :: cb)))) := by
  have hses : SortedE (ea ++ eb) := by
    rw [flatten_mk] at hs; exact hs.entries
  obtain ⟨f, hsearch⟩ := search_loc hc key ea eb (ca ++ .mk nes ncs :: cb) hses hl1 hl2
  have hleft := leftSibling_eq hsearch
  have hright := rightSibling_eq hsearch
  simp only [Node.Children] at hleft hright
  -- the part played by the right sibling, once the left one does not lend
  have hR : ∀ (left : Option Int),
      (∀ li, left = some li → ∃ ea' sepL ca' l, ea = ea' ++ [sepL] ∧ ca = ca' ++ [l] ∧
        li = (ca'.length : Int) ∧ ¬ minEntries m < (l.Entries.length : Int)) →
      (left = none → ea = []) →
      ∃ st, (match rightSibling cmp (.mk (ea ++ eb) (ca ++ .mk nes ncs :: cb)) key with
        | none => none
        | some right =>
          match canLend m (ca ++ .mk nes ncs :: cb) right, right with
          | none, _ => none
          | some true, some ri =>
            (borrowRight (.mk (ea ++ eb) (ca ++ .mk nes ncs :: cb)) (ca.length : Int) ri).map
              Step.done
          | some true, none => none
          | some false, some ri =>
            (mergeRight (.mk (ea ++ eb) (ca ++ .mk nes ncs :: cb)) (ca.length : Int) ri).map
              fun r => Step.merged r.1 r.2.1 r.2.2
          | some false, none =>
            match left with
            | some li =>
              (mergeLeft (.mk (ea ++ eb) (ca ++ .mk nes ncs :: cb)) (ca.length : Int) li).map
                fun r => Step.merged r.1 r.2.1 r.2.2
            | none => (getIdx (ca ++ .mk nes ncs :: cb) (ca.length : Int)).map
                fun node => Step.merged node (.mk (ea ++ eb) (ca ++ .mk nes ncs :: cb)) key)
        = some st ∧
        ((∃ P', st = Step.done P' ∧
          Shape m ((ea ++ eb).length) ((ea ++ eb).length) (h + 1) P' ∧
          flatten P' = flatten (.mk (ea ++ eb) (ca ++ .mk nes ncs :: cb))) ∨
        (∃ node' pes pcs sep, st = Step.merged node' (.mk pes pcs) sep.Key ∧
          WF m h node' ∧ pes.length + 1 = (ea ++ eb).length ∧
          Shape m pes.length pes.length (h + 1) (.mk pes pcs) ∧
          flatten (.mk pes pcs) = flatten (.mk (ea ++ eb) (ca ++ .mk nes ncs :: cb)) ∧
          sep ∈ flatten (.mk (ea ++ eb) (ca ++ .mk nes ncs :: cb)) ∧
          (pes = [] → flatten node' = flatten (.mk (ea ++ eb) (ca ++ .mk nes ncs :: cb))))) := by
    intro left hleftS hleftN
    cases cb with
    | cons r cb' =>
      cases eb with
      | nil => simp at heb
      | cons sepR eb' =>
        simp only [List.length_cons, Nat.add_right_cancel_iff] at heb
        have hri : (ea.length : Int) + 1 = ca.length + 1 := by omega
        have hr : rightSibling cmp (.mk (ea ++ sepR :: eb') (ca ++ .mk nes ncs :: r :: cb')) key
            = some (some ((ca.length : Int) + 1)) := by
          rw [hright, if_pos (by simp; omega), hri]
        have hrw : WF m h r := hcb r (by simp)
        have hcb' : ∀ c ∈ cb', WF m h c := fun c hc' => hcb c (by simp [hc'])
        have hcl := canLend_some m (ca ++ .mk nes ncs :: r :: cb') ((ca.length : Int) + 1) r
          (getIdx_at2 rfl)
        have hsepmem : sepR ∈ flatten (Node.mk (ea ++ sepR :: eb')
            (ca ++ .mk nes ncs :: r :: cb')) := by
          rw [flatten_mk]
          exact (entries_sublist _ _).subset (by simp)
        by_cases hlend : minEntries m < (r.Entries.length : Int)
        · obtain ⟨P', hb, hsh, hfl⟩ := borrowRight_ok hm ea eb' sepR ca cb' r nes ncs hea heb
            hca hcb' hrw hlend hn (i := (ca.length : Int)) rfl
            (show (ca.length : Int) + 1 = _ from rfl)
          refine ⟨Step.done P', ?_, Or.inl ⟨P', rfl, hsh, hfl⟩⟩
          have : decide ((r.Entries.length : Int) > minEntries m) = true := decide_eq_true hlend
          simp only [hr, hcl, this, hb, Option.map_some']
        · obtain ⟨node', pes, pcs, hb, hwf, hlen, hsh, hfl, hroot⟩ := mergeRight_ok hm ea eb'
            sepR ca cb' r nes ncs hea heb hca hcb' hrw hlend hn (i := (ca.length : Int))
            rfl (show (ca.length : Int) + 1 = _ from rfl)
          refine ⟨Step.merged node' (.mk pes pcs) sepR.Key, ?_,
            Or.inr ⟨node', pes, pcs, sepR, rfl, hwf, hlen, hsh, hfl, hsepmem, hroot⟩⟩
          have : decide ((r.Entries.length : Int) > minEntries m) = false :=
            decide_eq_false hlend
          simp only [hr, hcl, this, hb, Option.map_some']
    | nil =>
      have heb0 : eb = [] := List.length_eq_zero.1 heb
      subst heb0
      have hr : rightSibling cmp (.mk (ea ++ []) (ca ++ [.mk nes ncs])) key = some none := by
        rw [hright, if_neg (by simp; omega)]
      cases left with
      | none =>
        have := hleftN rfl
        subst this
        simp at hpe
      | some li =>
        obtain ⟨ea', sepL, ca', l, rfl, rfl, hli, hnl⟩ := hleftS li rfl
        have hea' : ea'.length = ca'.length := by simpa using hea
        have hlw : WF m h l := hca l (by simp)
        have hca' : ∀ c ∈ ca', WF m h c := fun c hc' => hca c (by simp [hc'])
        obtain ⟨node', pes, pcs, hb, hwf, hlen, hsh, hfl, hroot⟩ := mergeLeft_ok hm ea' []
          sepL ca' [] l nes ncs hea' rfl hca' (by simp) hlw hnl hn
          (i := ((ca' ++ [l]).length : Int)) (by simp) hli
        have e1 : ea' ++ [sepL] ++ [] = ea' ++ sepL :: ([] : List (Entry K V)) := by simp
        have e2 : ca' ++ [l] ++ [Node.mk nes ncs] = ca' ++ l :: Node.mk nes ncs :: [] := by simp
        have hsepmem : sepL ∈ flatten (Node.mk (ea' ++ sepL :: [])
            (ca' ++ l :: .mk nes ncs :: [])) := by
          rw [flatten_mk]
          exact (entries_sublist _ _).subset (by simp)
        rw [e1, e2] at hr ⊢
        refine ⟨Step.merged node' (.mk pes pcs) sepL.Key, ?_,
          Or.inr ⟨node', pes, pcs, sepL, rfl, hwf, hlen, hsh, hfl, hsepmem, hroot⟩⟩
        simp only [hr, canLend_none, hb, Option.map_some']
  -- the part played by the left sibling
  rcases List.eq_nil_or_concat ea with hea0 | ⟨ea', sepL, hea1⟩
  · subst hea0
    have hl : leftSibling cmp (.mk ([] ++ eb) (ca ++ .mk nes ncs :: cb)) key = some none := by
      rw [hleft, if_neg (by simp)]
    obtain ⟨st, hst, hres⟩ := hR none (by simp) (by simp)
    simp only [rebalanceStep, hl, canLend_none, Node.Children]
    rcases hres with ⟨P', rfl, h1, h2⟩ | ⟨node', pes, pcs, sep, rfl, h1⟩
    · exact Or.inl ⟨P', hst, h1, h2⟩
    · exact Or.inr ⟨node', pes, pcs, sep, hst, h1⟩
  · have hea2 : ea = ea' ++ [sepL] := by simpa using hea1
    subst hea2
    obtain ⟨ca', l, hca1⟩ : ∃ ca' l, ca = ca' ++ [l] := by
      rcases List.eq_nil_or_concat ca with h0 | ⟨ca', l, h1⟩
      · subst h0; simp at hea
      · exact ⟨ca', l, by simpa using h1⟩
    subst hca1
    have hea' : ea'.length = ca'.length := by simpa using hea
    have hlw : WF m h l := hca l (by simp)
    have hca' : ∀ c ∈ ca', WF m h c := fun c hc' => hca c (by simp [hc'])
    have hl : leftSibling cmp (.mk (ea' ++ [sepL] ++ eb) (ca' ++ [l] ++ .mk nes ncs :: cb)) key
        = some (some (ca'.length : Int)) := by
      rw [hleft, if_pos (by simp; omega)]
      simp [hea']
    have hcl := canLend_some m (ca' ++ [l] ++ .mk nes ncs :: cb) (ca'.length : Int) l
      (by simp [getIdx_at])
    by_cases hlend : minEntries m < (l.Entries.length : Int)
    · have e1 : ea' ++ [sepL] ++ eb = ea' ++ sepL :: eb := by simp
      have e2 : ca' ++ [l] ++ Node.mk nes ncs :: cb = ca' ++ l :: Node.mk nes ncs :: cb := by
        simp
      obtain ⟨P', hb, hsh, hfl⟩ := borrowLeft_ok hm ea' eb sepL ca' cb l nes ncs hea' heb
        hca' hcb hlw hlend hn (i := ((ca' ++ [l]).length : Int))
        (by simp) (show (ca'.length : Int) = _ from rfl)
      refine Or.inl ⟨P', ?_, ?_, ?_⟩
      · have : decide ((l.Entries.length : Int) > minEntries m) = true := decide_eq_true hlend
        simp only [rebalanceStep, hl, hcl, this, Node.Children]
        rw [e1, e2, hb]
        rfl
      · rw [e1]; exact hsh
      · rw [e1, e2]; exact hfl
    · obtain ⟨st, hst, hres⟩ := hR (some (ca'.length : Int))
        (by
          intro li hli
          cases hli
          exact ⟨ea', sepL, ca', l, rfl, rfl, rfl, hlend⟩)
        (by simp)
      have : decide ((l.Entries.length : Int) > minEntries m) = false := decide_eq_false hlend
      simp only [rebalanceStep, hl, hcl, this, Node.Children]
      rcases hres with ⟨P', rfl, h1, h2⟩ | ⟨node', pes, pcs, sep, rfl, h1⟩
      · exact Or.inl ⟨P', hst, h1, h2⟩
      · exact Or.inr ⟨node', pes, pcs, sep, hst, h1⟩

end order
end btree

namespace btree
variable {K V : Type}

theorem Shape.mono {m lo hi lo' hi' : Int} {h : Nat} {n : Node K V} (hs : Shape m lo hi h n)
    (h1 : lo' ≤ lo) (h2 : hi ≤ hi') : Shape m lo' hi' h n :=
  ⟨le_trans h1 hs.1, le_trans hs.2.1 h2, hs.2.2⟩

/-- The in-order sequence around a hole, seen from one level higher. -/
theorem ctx_cons (ea eb : List (Entry K V)) (ca cb : List (Node K V)) (c0 n : Node K V)
    (rest : List (Frame K V)) (ha : ea.length = ca.length) (hb : eb.length = cb.length) :
    ctxL (⟨.mk (ea ++ eb) (ca ++ c0 :: cb), (ca.length : Int)⟩ :: rest) ++
        (flatten n ++ ctxR (⟨.mk (ea ++ eb) (ca ++ c0 :: cb), (ca.length : Int)⟩ :: rest))
      = ctxL rest ++ (flatten (.mk (ea ++ eb) (ca ++ n :: cb)) ++ ctxR rest) := by
  rw [flatten_mk, inter_around_child ea eb ca cb n ha hb]
  simp [ctxL, ctxR, before_split ea eb ca cb c0 ha, after_split ea eb ca cb c0 ha]

section order
variable [LinearOrder K]

/-- An entry inside the hole of a sorted tree is bracketed by the entries of the parent
on top of the chain. -/
theorem locTop_of_mem {m : Int} {h : Nat} {path : List (Frame K V)} (hp : PathWF m h path)
    {mid : List (Entry K V)} (hs : SortedE (ctxL path ++ (mid ++ ctxR path)))
    {x : Entry K V} (hx : x ∈ mid) : LocTop x.Key path := by
  cases hp with
  | nil h => trivial
  | @cons h ea eb ca cb c0 rest ha hb hca hcb hmax hlo1 hlo2 hrest =>
    refine locTop_split ea eb ca cb c0 rest ha ?_ ?_
    · intro e he
      have he' : e ∈ ctxL (⟨.mk (ea ++ eb) (ca ++ c0 :: cb), (ca.length : Int)⟩ :: rest) := by
        simp only [ctxL, before_split ea eb ca cb c0 ha, List.mem_append]
        exact Or.inr (mem_flatCE_of_mem ha he)
      exact hs.lt he' (List.mem_append_left _ hx)
    · intro e he
      have he' : e ∈ ctxR (⟨.mk (ea ++ eb) (ca ++ c0 :: cb), (ca.length : Int)⟩ :: rest) := by
        simp only [ctxR, after_split ea eb ca cb c0 ha, List.mem_append]
        exact Or.inl (mem_flatEC_of_mem hb he)
      exact le_of_lt (hs.right.lt hx he')

/-- `rebalance` from a node that is at most one entry short, below a non-empty well-formed
parent chain whose top brackets the deleted key: it returns a well-formed root with the
same in-order sequence. -/
theorem rebalance_spec {cmp : K → K → Int} (hc : LawfulCmp cmp) {m : Int} (hm : 3 ≤ m)
    {h : Nat} {path : List (Frame K V)} (hp : PathWF m h path) :
    ∀ (node : Node K V) (key : K), path ≠ [] →
      Shape m (minEntries m - 1) (maxEntries m) h node → LocTop key path →
      SortedE (ctxL path ++ (flatten node ++ ctxR path)) →
      ∃ root h', rebalance m cmp node path key = some root ∧
        Shape m 1 (maxEntries m) h' root ∧
        flatten root = ctxL path ++ (flatten node ++ ctxR path) := by
  obtain ⟨hmax, hmin1, -⟩ := order_facts hm
  induction hp with
  | nil h => intro node key hne; exact absurd rfl hne
  | @cons h ea eb ca cb c0 rest ha hb hca hcb hmaxP hlo1 hlo2 hrest ih =>
    intro node key _ hn hloc hs
    by_cases hge : (node.Entries.length : Int) ≥ minEntries m
    · obtain ⟨root, h', hr, hsh, hfl⟩ := plug_spec
        (@PathWF.cons K V m h ea eb ca cb c0 rest ha hb hca hcb hmaxP hlo1 hlo2 hrest) node
        (show Shape m (minEntries m) _ _ _ from ⟨hge, hn.2.1, hn.2.2⟩)
      refine ⟨root, h', ?_, hsh, hfl⟩
      rw [rebalance, if_pos hge, hr]
    · obtain ⟨nes, ncs⟩ := node
      replace hge : ¬ (nes.length : Int) ≥ minEntries m := hge
      have hn' : Shape m (minEntries m - 1) (minEntries m - 1) h (.mk nes ncs) :=
        ⟨hn.1, by have := hn.1; simp only [Node.Entries] at this ⊢; omega, hn.2.2⟩
      have hpe : 1 ≤ (ea ++ eb).length := by
        cases rest with
        | nil => exact hlo1 rfl
        | cons g rest' =>
          have := hlo2 (by simp)
          omega
      obtain ⟨hl1, hl2⟩ := (locTop_split_iff ea eb ca cb c0 rest ha).1 hloc
      rw [ctx_cons ea eb ca cb c0 (.mk nes ncs) rest ha hb] at hs ⊢
      have hsP : SortedE (flatten (.mk (ea ++ eb) (ca ++ .mk nes ncs :: cb))) := hs.right.left
      have hstep := rebalanceStep_spec hc hm ea eb ca cb nes ncs key ha hb hca hcb hn' hpe hsP
        hl1 hl2
      rcases hstep with ⟨P', hst, hsh, hfl⟩ | ⟨node', pes, pcs, sep, hst, hwf, hlen, hsh, hfl,
        hsep, hroot⟩
      · have hlo : loBound m rest ≤ ((ea ++ eb).length : Int) := by
          cases rest with
          | nil => simp only [loBound]; omega
          | cons g rest' => simp only [loBound]; exact hlo2 (by simp)
        obtain ⟨root, h', hr, hsh', hfl'⟩ := plug_spec hrest P' (hsh.mono hlo hmaxP)
        refine ⟨root, h', ?_, hsh', by rw [hfl', hfl]⟩
        simp only [rebalance, Node.Entries, if_neg hge, fill_split, hst, hr]
      · cases rest with
        | nil =>
          by_cases h0 : pes.length = 0
          · have hnil : pes = [] := List.length_eq_zero.1 h0
            refine ⟨node', h, ?_, (wf_iff_shape.1 hwf).mono hmin1 le_rfl, ?_⟩
            · simp only [rebalance, if_neg hge, fill_split, hst, Node.Entries, h0, if_true]
            · rw [hroot hnil]; simp [ctxL, ctxR]
          · refine ⟨.mk pes pcs, h + 1, ?_, hsh.mono (by omega) (by omega), ?_⟩
            · simp only [rebalance, if_neg hge, fill_split, hst, Node.Entries, h0, if_false]
            · rw [hfl]; simp [ctxL, ctxR]
        | cons g rest' =>
          have hlo := hlo2 (by simp)
          have hsh' : Shape m (minEntries m - 1) (maxEntries m) (h + 1) (.mk pes pcs) :=
            hsh.mono (by omega) (by omega)
          have hs' : SortedE (ctxL (g :: rest') ++ (flatten (.mk pes pcs) ++ ctxR (g :: rest')))
              := by rw [hfl]; exact hs
          have hloc' : LocTop sep.Key (g :: rest') := locTop_of_mem hrest hs hsep
          obtain ⟨root, h', hr, hshr, hflr⟩ := ih (.mk pes pcs) sep.Key (by simp) hsh' hloc' hs'
          refine ⟨root, h', ?_, hshr, by rw [hflr, hfl]⟩
          simp only [rebalance, Node.Entries, if_neg hge, fill_split, hst, hr]

end order
end btree

namespace btree
variable {K V : Type}

/-! ## The rightmost leaf -/

theorem rightLeafChild_last (cs0 : List (Node K V)) (last : Node K V)
    (p : List (Frame K V)) : rightLeafChild (cs0 ++ [last]) p = rightLeaf last p := by
  induction cs0 with
  | nil => simp [rightLeafChild]
  | cons c cs0 ih =>
    cases cs0 with
    | nil => simp [rightLeafChild]
    | cons c' cs0' =>
      simp only [List.cons_append, rightLeafChild] at ih ⊢
      exact ih

theorem ctxL_append (below p : List (Frame K V)) : ctxL (below ++ p) = ctxL p ++ ctxL below := by
  induction below with
  | nil => simp [ctxL]
  | cons f below ih => simp [ctxL, ih]

theorem ctxR_append (below p : List (Frame K V)) : ctxR (below ++ p) = ctxR below ++ ctxR p := by
  induction below with
  | nil => simp [ctxR]
  | cons f below ih => simp [ctxR, ih]

/-- `Tree.right` below a well-formed subtree: it ends at the leaf with the largest entry of
the subtree, and the chain it walked is well-formed, follows the last child everywhere,
and has all other entries of the subtree to its left. -/
theorem rightLeaf_spec {m : Int} (hm : 3 ≤ m) (h : Nat) :
    ∀ (c : Node K V), WF m h c →
      ∃ (les : List (Entry K V)) (pred : Entry K V) (below : List (Frame K V)),
        WF m 0 (.mk (les ++ [pred]) []) ∧
        flatten c = ctxL below ++ (les ++ [pred]) ∧ ctxR below = [] ∧
        ∀ p, rightLeaf c p = some (.mk (les ++ [pred]) [], below ++ p) ∧
          (PathWF m h p → PathWF m 0 (below ++ p)) ∧
          (Coherent c p → Coherent (.mk (les ++ [pred]) []) (below ++ p)) := by
  obtain ⟨hmax, hmin1, -⟩ := order_facts hm
  induction h with
  | zero =>
    intro c hc
    obtain ⟨es, cs⟩ := c
    obtain ⟨rfl, hlo, hhi⟩ := hc
    rcases List.eq_nil_or_concat es with h0 | ⟨les, pred, h1⟩
    · subst h0; simp at hlo; omega
    · have h2 : es = les ++ [pred] := by simpa using h1
      subst h2
      refine ⟨les, pred, [], ⟨rfl, hlo, hhi⟩, by simp [flatten, inter, ctxL], rfl, ?_⟩
      intro p
      exact ⟨by simp [rightLeaf, isLeaf, Node.Children], fun hp => hp, fun hp => hp⟩
  | succ h ih =>
    intro c hc
    obtain ⟨es, cs⟩ := c
    obtain ⟨hcnt, hlo, hhi, hall⟩ := hc
    rcases List.eq_nil_or_concat cs with h0 | ⟨cs0, last, h1⟩
    · subst h0; simp at hcnt
    · have h2 : cs = cs0 ++ [last] := by simpa using h1
      subst h2
      have hlen : es.length = cs0.length := by simpa using hcnt.symm
      obtain ⟨les, pred, below, hleaf, hfl, hcr, hrl⟩ := ih last (hall last (by simp))
      have hf : (⟨.mk es (cs0 ++ [last]), ((cs0 ++ [last]).length : Int) - 1⟩ : Frame K V)
          = ⟨.mk (es ++ []) (cs0 ++ last :: []), (cs0.length : Int)⟩ := by
        simp
      refine ⟨les, pred, below ++ [⟨.mk (es ++ []) (cs0 ++ last :: []), (cs0.length : Int)⟩],
        hleaf, ?_, ?_, ?_⟩
      · rw [ctxL_append, flatten_mk]
        have := inter_around_child es [] cs0 [] last hlen rfl
        simp only [List.append_nil] at this
        rw [this, hfl]
        have hb := before_split es [] cs0 [] last hlen
        simp only [List.append_nil] at hb
        simp [ctxL, hb, flatEC]
      · rw [ctxR_append, hcr]
        have hb := after_split es [] cs0 [] last hlen
        simp only [List.append_nil] at hb
        simp [ctxR, hb, flatEC]
      · intro p
        obtain ⟨hr, hpw, hco⟩ :=
          hrl (⟨.mk (es ++ []) (cs0 ++ last :: []), (cs0.length : Int)⟩ :: p)
        refine ⟨?_, ?_, ?_⟩
        · have hnl : isLeaf (Node.mk es (cs0 ++ [last])) = false := by
            simp [isLeaf, Node.Children]
          rw [rightLeaf, hnl]
          simp only [Bool.false_eq_true, if_false]
          rw [rightLeafChild_last, hf, hr]
          simp
        · intro hp
          have := hpw (@PathWF.cons K V m h es [] cs0 [] last p
            hlen rfl (fun c hc => hall c (by simp [hc])) (by simp) (by simpa using hhi)
            (fun _ => by simp; omega) (fun _ => by simpa using hlo) hp)
          simpa using this
        · intro hp
          have := hco ⟨getIdx_at rfl, by simpa using hp⟩
          simpa using this

section order
variable [LinearOrder K]

/-- A key above everything to the left of the hole and not above anything to its right is
bracketed by the entries of the parent on top of the chain. -/
theorem locTop_of_bounds {m : Int} {h : Nat} {path : List (Frame K V)} (hp : PathWF m h path)
    {key : K} (h1 : ∀ e ∈ ctxL path, e.Key < key) (h2 : ∀ e ∈ ctxR path, key ≤ e.Key) :
    LocTop key path := by
  cases hp with
  | nil h => trivial
  | @cons h ea eb ca cb c0 rest ha hb hca hcb hmax hlo1 hlo2 hrest =>
    refine locTop_split ea eb ca cb c0 rest ha ?_ ?_
    · intro e he
      apply h1
      simp only [ctxL, before_split ea eb ca cb c0 ha, List.mem_append]
      exact Or.inr (mem_flatCE_of_mem ha he)
    · intro e he
      apply h2
      simp only [ctxR, after_split ea eb ca cb c0 ha, List.mem_append]
      exact Or.inl (mem_flatEC_of_mem hb he)

end order
end btree

namespace btree
variable {K V : Type}

section order
variable [LinearOrder K]

theorem SortedE.remove {A B : List (Entry K V)} {x : Entry K V} (h : SortedE (A ++ x :: B)) :
    SortedE (A ++ B) :=
  List.Pairwise.sublist (List.Sublist.append_left (List.sublist_cons_self x B) A) h

/-- `delete` of the entry at a leaf below a well-formed parent chain. -/
theorem deleteLeaf_spec {cmp : K → K → Int} (hc : LawfulCmp cmp) {m : Int} (hm : 3 ≤ m)
    {path : List (Frame K V)} (hp : PathWF m 0 path) (a b : List (Entry K V)) (x : Entry K V)
    (hn : Shape m (loBound m path) (maxEntries m) 0 (.mk (a ++ x :: b) []))
    (hs : SortedE (ctxL path ++ (flatten (.mk (a ++ x :: b) []) ++ ctxR path)))
    (hloc : LocTop x.Key path) :
    ∃ L1 L2, ctxL path ++ (flatten (.mk (a ++ x :: b) []) ++ ctxR path) = L1 ++ x :: L2 ∧
      ((L1 ++ L2 = [] ∧
          deleteLeaf m cmp (.mk (a ++ x :: b) []) path (a.length : Int) = some none) ∨
        ∃ r h', deleteLeaf m cmp (.mk (a ++ x :: b) []) path (a.length : Int) = some (some r) ∧
          Shape m 1 (maxEntries m) h' r ∧ flatten r = L1 ++ L2) := by
  obtain ⟨hmax, hmin1, -⟩ := order_facts hm
  have hg : getIdx (a ++ x :: b) (a.length : Int) = some x := getIdx_at rfl
  have hd : deleteIdx (a ++ x :: b) (a.length : Int) = some (a ++ b) := deleteIdx_at rfl
  have hfl : flatten (.mk (a ++ x :: b) ([] : List (Node K V))) = a ++ x :: b := by
    simp [flatten, inter]
  have hfl' : flatten (.mk (a ++ b) ([] : List (Node K V))) = a ++ b := by
    simp [flatten, inter]
  refine ⟨ctxL path ++ a, b ++ ctxR path, by simp [hfl], ?_⟩
  cases path with
  | nil =>
    by_cases h0 : (a ++ b).length = 0
    · left
      refine ⟨by simpa [ctxL, ctxR] using h0, ?_⟩
      simp only [deleteLeaf, Node.Entries, hg, deleteEntry, hd, Node.Children, rebalance,
        Option.map_some', Option.bind_eq_bind, Option.some_bind, h0, if_true]
      rfl
    · right
      refine ⟨.mk (a ++ b) [], 0, ?_, ⟨?_, ?_, rfl⟩, by simp [hfl', ctxL, ctxR]⟩
      · simp only [deleteLeaf, Node.Entries, hg, deleteEntry, hd, Node.Children, rebalance,
          Option.map_some', Option.bind_eq_bind, Option.some_bind, h0, if_false]
        rfl
      · simp only [Node.Entries]; omega
      · have := hn.2.1
        simp only [Node.Entries, List.length_append, List.length_cons] at this ⊢
        push_cast at this ⊢
        omega
  | cons f rest =>
    have hlo := hn.1
    have hhi := hn.2.1
    simp only [loBound, Node.Entries, List.length_append, List.length_cons] at hlo hhi
    push_cast at hlo hhi
    have hsh : Shape m (minEntries m - 1) (maxEntries m) 0 (.mk (a ++ b) []) := by
      refine ⟨?_, ?_, rfl⟩ <;>
        simp only [Node.Entries, List.length_append] <;> push_cast <;> omega
    have hs' : SortedE (ctxL (f :: rest) ++ (flatten (.mk (a ++ b) []) ++ ctxR (f :: rest))) := by
      rw [hfl] at hs
      rw [hfl']
      have e1 : ctxL (f :: rest) ++ (a ++ x :: b ++ ctxR (f :: rest))
          = (ctxL (f :: rest) ++ a) ++ x :: (b ++ ctxR (f :: rest)) := by simp
      have e2 : ctxL (f :: rest) ++ (a ++ b ++ ctxR (f :: rest))
          = (ctxL (f :: rest) ++ a) ++ (b ++ ctxR (f :: rest)) := by simp
      rw [e2]
      rw [e1] at hs
      exact hs.remove
    obtain ⟨root, h', hr, hshr, hflr⟩ := rebalance_spec hc hm hp (.mk (a ++ b) []) x.Key
      (by simp) hsh hloc hs'
    right
    obtain ⟨res, rcs⟩ := root
    have hne : ¬ res.length = 0 := by
      have := hshr.1
      simp only [Node.Entries] at this
      omega
    refine ⟨.mk res rcs, h', ?_, hshr, by rw [hflr, hfl']; simp⟩
    simp only [deleteLeaf, Node.Entries, hg, deleteEntry, hd, Node.Children,
      Option.map_some', Option.bind_eq_bind, Option.some_bind, hr, hne, if_false]
    rfl

end order
end btree

namespace btree
variable {K V : Type}

section order
variable [LinearOrder K]

/-- `delete` of an entry of an internal node below a well-formed parent chain. -/
theorem deleteInternal_spec {cmp : K → K → Int} (hc : LawfulCmp cmp) {m : Int} (hm : 3 ≤ m)
    {h : Nat} {path : List (Frame K V)} (hp : PathWF m (h + 1) path)
    (a b : List (Entry K V)) (x : Entry K V) (cs : List (Node K V))
    (hn : Shape m (loBound m path) (maxEntries m) (h + 1) (.mk (a ++ x :: b) cs))
    (hs : SortedE (ctxL path ++ (flatten (.mk (a ++ x :: b) cs) ++ ctxR path))) :
    ∃ L1 L2, ctxL path ++ (flatten (.mk (a ++ x :: b) cs) ++ ctxR path) = L1 ++ x :: L2 ∧
      ∃ r h', deleteInternal m cmp (.mk (a ++ x :: b) cs) path (a.length : Int)
          = some (some r) ∧
        Shape m 1 (maxEntries m) h' r ∧ flatten r = L1 ++ L2 := by
  obtain ⟨hmax, hmin1, -⟩ := order_facts hm
  obtain ⟨hlo, hhi, hcnt, hall⟩ := hn
  simp only [Node.Entries, Node.Children] at hlo hhi hcnt hall
  obtain ⟨ca, child, cb, rfl, hca⟩ := exists_split_around cs a.length
    (by rw [hcnt]; simp; omega)
  have hea : a.length = ca.length := hca.symm
  have hcb : cb.length = b.length + 1 := by
    simp only [List.length_append, List.length_cons] at hcnt
    omega
  obtain ⟨c1, cb', rfl⟩ : ∃ c1 cb', cb = c1 :: cb' := by
    cases cb with
    | nil => simp at hcb
    | cons c1 cb' => exact ⟨c1, cb', rfl⟩
  have hbl : b.length = cb'.length := by simpa using hcb.symm
  have hchild : WF m h child := hall child (by simp)
  obtain ⟨les, pred, below, hleaf, hflc, hcr, hrl⟩ := rightLeaf_spec hm h child hchild
  have hidx : (a.length : Int) = (ca.length : Int) := by rw [hea]
  -- the parent chain of the leaf, with the entry already overwritten
  have hPW0 : PathWF m h
      (⟨.mk (a ++ pred :: b) (ca ++ child :: c1 :: cb'), (ca.length : Int)⟩ :: path) := by
    refine PathWF.cons hea (by simpa using hbl) (fun c hc' => hall c (by simp [hc']))
      (fun c hc' => hall c (by
        simp only [List.mem_append, List.mem_cons] at hc' ⊢
        tauto))
      (by simpa using hhi)
      (fun _ => by simp only [List.length_append, List.length_cons]; omega) (fun hne => ?_) hp
    cases path with
    | nil => exact absurd rfl hne
    | cons f rest => simpa [loBound] using hlo
  have hPW := (hrl _).2.1 hPW0
  have hrl0 : rightLeaf child [] = some (.mk (les ++ [pred]) [], below) := by
    have := (hrl []).1
    simpa using this
  -- the in-order sequence before and after
  have hflat : flatten (.mk (a ++ x :: b) (ca ++ child :: c1 :: cb'))
      = flatCE ca a ++ (ctxL below ++ (les ++ [pred]) ++ x :: (flatten c1 ++ flatEC b cb')) := by
    rw [flatten_one a (x :: b) ca (c1 :: cb') child hea (by simpa using hbl), hflc]
    simp [flatEC]
  have hE2 : ctxL (below ++
      ⟨.mk (a ++ pred :: b) (ca ++ child :: c1 :: cb'), (ca.length : Int)⟩ :: path)
      = ctxL path ++ flatCE ca a ++ ctxL below := by
    rw [ctxL_append]
    simp [ctxL, before_split a (pred :: b) ca (c1 :: cb') child hea]
  have hE3 : ctxR (below ++
      ⟨.mk (a ++ pred :: b) (ca ++ child :: c1 :: cb'), (ca.length : Int)⟩ :: path)
      = pred :: (flatten c1 ++ flatEC b cb' ++ ctxR path) := by
    rw [ctxR_append, hcr]
    simp [ctxR, after_split a (pred :: b) ca (c1 :: cb') child hea, flatEC]
  have hleafl : flatten (.mk les ([] : List (Node K V))) = les := by simp [flatten, inter]
  have hE1 : ctxL path ++ (flatten (.mk (a ++ x :: b) (ca ++ child :: c1 :: cb')) ++ ctxR path)
      = (ctxL path ++ flatCE ca a ++ ctxL below ++ les ++ [pred]) ++
          x :: (flatten c1 ++ flatEC b cb' ++ ctxR path) := by
    rw [hflat]; simp
  rw [hE1] at hs
  have hs1 : SortedE ((ctxL path ++ flatCE ca a ++ ctxL below ++ les ++ [pred]) ++
      (flatten c1 ++ flatEC b cb' ++ ctxR path)) := hs.remove
  have hsh : Shape m (minEntries m - 1) (maxEntries m) 0 (.mk les []) := by
    obtain ⟨-, h1, h2⟩ := hleaf
    simp only [List.length_append, List.length_singleton] at h1 h2
    push_cast at h1 h2
    refine ⟨?_, ?_, rfl⟩ <;> simp only [Node.Entries] <;> omega
  have hs' : SortedE (ctxL (below ++
      ⟨.mk (a ++ pred :: b) (ca ++ child :: c1 :: cb'), (ca.length : Int)⟩ :: path) ++
      (flatten (.mk les []) ++ ctxR (below ++
      ⟨.mk (a ++ pred :: b) (ca ++ child :: c1 :: cb'), (ca.length : Int)⟩ :: path))) := by
    rw [hE2, hE3, hleafl]
    simpa using hs1
  have hloc : LocTop pred.Key (below ++
      ⟨.mk (a ++ pred :: b) (ca ++ child :: c1 :: cb'), (ca.length : Int)⟩ :: path) := by
    refine locTop_of_bounds hPW ?_ ?_
    · rw [hE2]
      intro e he
      have hl : SortedE ((ctxL path ++ flatCE ca a ++ ctxL below ++ les) ++ [pred]) := hs1.left
      exact hl.lt (List.mem_append_left _ he) (List.mem_singleton_self _)
    · rw [hE3]
      intro e he
      rcases List.mem_cons.1 he with rfl | he'
      · exact le_rfl
      · exact le_of_lt (hs1.lt (by simp) he')
  obtain ⟨root, h', hr, hshr, hflr⟩ := rebalance_spec hc hm hPW (.mk les []) pred.Key
    (by simp) hsh hloc hs'
  refine ⟨_, _, hE1, root, h', ?_, hshr, ?_⟩
  · have hg1 : getIdx (ca ++ child :: c1 :: cb') (a.length : Int) = some child :=
      getIdx_at hidx
    have hg2 : getIdx (les ++ [pred]) (((les ++ [pred]).length : Int) - 1) = some pred :=
      getIdx_last les pred rfl
    have hset : setIdx (a ++ x :: b) (a.length : Int) pred = some (a ++ pred :: b) :=
      setIdx_at pred rfl
    have hdel : deleteIdx (les ++ [pred]) (((les ++ [pred]).length : Int) - 1) = some les :=
      deleteIdx_last les pred rfl
    rw [← hidx] at hr
    simp only [deleteInternal, Node.Children, Node.Entries, hg1, hrl0, hg2, hset,
      deleteEntry, hdel, Option.map_some', Option.bind_eq_bind, Option.some_bind, hr]
    rfl
  · rw [hflr, hE2, hE3, hleafl]
    simp

end order
end btree

namespace btree
variable {K V : Type}

theorem tree_nonempty {t : Tree K V} {root : Node K V} {h : Nat} (hr : t.Root = some root)
    (hsize : t.size = (t.entries.length : Int)) (hsh : Shape t.m 1 (maxEntries t.m) h root) :
    t.Empty = false := by
  simp only [Tree.entries, hr] at hsize
  have : 1 ≤ (flatten root).length := by
    obtain ⟨es, cs⟩ := root
    have h1 := hsh.1
    simp only [Node.Entries] at h1
    have := (entries_sublist es cs).length_le
    simp only [flatten_mk]
    omega
  simp only [Tree.Empty, hsize, beq_eq_false_iff_ne, ne_eq]
  omega

section order
variable [LinearOrder K]

/-- Filtering one key out of a key-sorted list removes exactly the entry that holds it. -/
theorem filter_remove {L1 L2 : List (Entry K V)} {x : Entry K V}
    (hs : SortedE (L1 ++ x :: L2)) :
    (L1 ++ x :: L2).filter (fun e => decide (e.Key ≠ x.Key)) = L1 ++ L2 := by
  have h1 : ∀ e ∈ L1, e.Key ≠ x.Key := fun e he =>
    ne_of_lt (hs.lt he (List.mem_cons_self _ _))
  have h2 : ∀ e ∈ L2, e.Key ≠ x.Key := fun e he =>
    ne_of_gt ((List.pairwise_cons.1 hs.right).1 e he)
  rw [List.filter_append, List.filter_cons]
  have e1 : L1.filter (fun e => decide (e.Key ≠ x.Key)) = L1 :=
    List.filter_eq_self.2 fun e he => decide_eq_true (h1 e he)
  have e2 : L2.filter (fun e => decide (e.Key ≠ x.Key)) = L2 :=
    List.filter_eq_self.2 fun e he => decide_eq_true (h2 e he)
  rw [e1, e2]
  simp

/-- `Remove` on a well-formed tree: it returns a well-formed tree whose in-order entries
are the old ones without the entry of the key; a tree without the key is returned as it
is. -/
theorem Remove_spec (t : Tree K V) (hc : LawfulCmp t.Comparator) (hi : t.Inv) (key : K) :
    ∃ t', t.Remove key = some t' ∧ t'.Inv ∧
      t'.entries = t.entries.filter (fun e => decide (e.Key ≠ key)) ∧
      t'.m = t.m ∧ t'.Comparator = t.Comparator ∧
      ((∀ e ∈ t.entries, e.Key ≠ key) → t' = t) := by
  have hi0 := hi
  obtain ⟨hm, hsize, hroot⟩ := hi
  cases hr : t.Root with
  | none =>
    refine ⟨t, ?_, hi0, ?_, rfl, rfl, fun _ => rfl⟩
    · simp [Tree.entries, hr] at hsize
      simp [Tree.Remove, Tree.searchRecursively, Tree.Empty, hsize]
    · simp [Tree.entries, hr]
  | some root =>
    rw [hr] at hroot
    obtain ⟨⟨h, hsh⟩, hs⟩ := hroot
    have hne : t.Empty = false := tree_nonempty hr hsize hsh
    have hent : t.entries = flatten root := by simp [Tree.entries, hr]
    have hs' : SortedE (ctxL ([] : List (Frame K V)) ++ (flatten root ++ ctxR [])) := by
      simpa [ctxL, ctxR] using hs
    rcases searchNode_spec hc key h root [] (PathWF.nil h) hsh hs' trivial with
      ⟨habs, hsn⟩ | ⟨h', a, x, b, cs', path', hsn, hx, hpw, hshn, hctx, hmem, hloc⟩
    · refine ⟨t, ?_, hi0, ?_, rfl, rfl, fun _ => rfl⟩
      · simp [Tree.Remove, Tree.searchRecursively, hne, hr, hsn]
      · rw [hent]
        exact (List.filter_eq_self.2 fun e he => decide_eq_true (habs e he)).symm
    · have htot : ctxL path' ++ (flatten (.mk (a ++ x :: b) cs') ++ ctxR path') = flatten root := by
        rw [hctx]; simp [ctxL, ctxR]
      have hsn' : SortedE (ctxL path' ++ (flatten (.mk (a ++ x :: b) cs') ++ ctxR path')) := by
        rw [htot]; exact hs
      have hdel : ∃ L1 L2, flatten root = L1 ++ x :: L2 ∧
          ((L1 ++ L2 = [] ∧
            delete t.m t.Comparator (.mk (a ++ x :: b) cs') path' (a.length : Int) = some none) ∨
          ∃ r h'', delete t.m t.Comparator (.mk (a ++ x :: b) cs') path' (a.length : Int)
              = some (some r) ∧
            Shape t.m 1 (maxEntries t.m) h'' r ∧ flatten r = L1 ++ L2) := by
        cases h' with
        | zero =>
          have hcs : cs' = [] := hshn.2.2
          subst hcs
          obtain ⟨L1, L2, hE, hres⟩ := deleteLeaf_spec hc hm hpw a b x hshn hsn'
            (by rw [← hx] at hloc; exact hloc)
          refine ⟨L1, L2, by rw [← htot, hE], ?_⟩
          have hl : isLeaf (Node.mk (a ++ x :: b) ([] : List (Node K V))) = true := by
            simp [isLeaf, Node.Children]
          simpa only [delete, hl, if_true] using hres
        | succ h1 =>
          obtain ⟨L1, L2, hE, hres⟩ := deleteInternal_spec hc hm hpw a b x cs' hshn hsn'
          refine ⟨L1, L2, by rw [← htot, hE], Or.inr ?_⟩
          have hl : isLeaf (Node.mk (a ++ x :: b) cs') = false := by
            have := hshn.2.2.1
            simp only [Node.Children, Node.Entries] at this
            simp [isLeaf, Node.Children, this]
          simpa only [delete, hl, Bool.false_eq_true, if_false] using hres
      obtain ⟨L1, L2, hE, hres⟩ := hdel
      have hsL : SortedE (L1 ++ x :: L2) := by rw [← hE]; exact hs
      have hfilter : t.entries.filter (fun e => decide (e.Key ≠ key)) = L1 ++ L2 := by
        rw [hent, hE, ← hx]
        exact filter_remove hsL
      have hlen : t.size - 1 = ((L1 ++ L2).length : Int) := by
        rw [hsize, hent, hE]
        simp only [List.length_append, List.length_cons]
        push_cast
        omega
      have hpres : ¬ ∀ e ∈ t.entries, e.Key ≠ key := by
        intro hall
        exact hall x (by rw [hent]; exact hmem) hx
      rcases hres with ⟨hnil, hd⟩ | ⟨r, h'', hd, hshr, hflr⟩
      · refine ⟨{ t with Root := none, size := t.size - 1 }, ?_, ⟨hm, ?_, trivial⟩, ?_, rfl, rfl,
          fun hall => absurd hall hpres⟩
        · simp [Tree.Remove, Tree.searchRecursively, hne, hr, hsn, hd]
        · simp only [Tree.entries]
          rw [hlen, hnil]
        · rw [hfilter, hnil]; rfl
      · refine ⟨{ t with Root := some r, size := t.size - 1 }, ?_,
          ⟨hm, ?_, ⟨h'', hshr⟩, ?_⟩, ?_, rfl, rfl, fun hall => absurd hall hpres⟩
        · simp [Tree.Remove, Tree.searchRecursively, hne, hr, hsn, hd]
        · simp only [Tree.entries]
          rw [hlen, hflr]
        · rw [hflr]; exact hsL.remove
        · exact hflr.trans hfilter.symm

end order
end btree

namespace btree
variable {K V : Type}

/-! ## From the invariant to the properties as the specification words them -/

theorem boundedNodesL_iff {m : Int} {cs : List (Node K V)} :
    boundedNodesL m cs ↔ ∀ c ∈ cs, boundedNodes m c := by
  induction cs with
  | nil => simp [boundedNodesL]
  | cons c cs ih => simp [boundedNodesL, ih]

theorem mem_leafDepthsL {cs : List (Node K V)} {d : Nat} :
    d ∈ leafDepthsL cs ↔ ∃ c ∈ cs, d ∈ leafDepths c := by
  induction cs with
  | nil => simp [leafDepthsL]
  | cons c cs ih => simp [leafDepthsL, ih]

/-- A well-formed subtree of height `h`: all its nodes are within the bounds and all its
leaves are `h` levels down. -/
theorem wf_bounded {m : Int} (h : Nat) :
    ∀ c : Node K V, WF m h c → boundedNodes m c ∧ ∀ d ∈ leafDepths c, d = h := by
  induction h with
  | zero =>
    rintro ⟨es, cs⟩ ⟨rfl, hlo, hhi⟩
    exact ⟨⟨hlo, hhi, trivial⟩, by simp [leafDepths]⟩
  | succ h ih =>
    rintro ⟨es, cs⟩ ⟨hcnt, hlo, hhi, hall⟩
    refine ⟨⟨hlo, hhi, boundedNodesL_iff.2 fun c hc => (ih c (hall c hc)).1⟩, ?_⟩
    intro d hd
    have hne : cs.isEmpty = false := by
      cases cs with
      | nil => simp at hcnt
      | cons _ _ => rfl
    simp only [leafDepths, hne, Bool.false_eq_true, if_false, List.mem_map] at hd
    obtain ⟨d', hd', rfl⟩ := hd
    obtain ⟨c, hc, hdc⟩ := mem_leafDepthsL.1 hd'
    rw [(ih c (hall c hc)).2 d' hdc]

theorem shape_fanout {m : Int} {lo : Int} {h : Nat} {r : Node K V}
    (hs : Shape m lo (maxEntries m) h r) :
    (r.Entries.length : Int) ≤ maxEntries m ∧ boundedNodesL m r.Children ∧
      ∃ d, ∀ x ∈ leafDepths r, x = d := by
  obtain ⟨es, cs⟩ := r
  obtain ⟨-, hhi, hch⟩ := hs
  cases h with
  | zero =>
    simp only [Node.Children] at hch
    subst hch
    exact ⟨hhi, trivial, 0, by simp [leafDepths]⟩
  | succ h =>
    obtain ⟨hcnt, hall⟩ := hch
    simp only [Node.Children, Node.Entries] at hcnt hall
    refine ⟨hhi, boundedNodesL_iff.2 fun c hc => (wf_bounded h c (hall c hc)).1, h + 1, ?_⟩
    intro d hd
    have hne : cs.isEmpty = false := by
      cases cs with
      | nil => simp at hcnt
      | cons _ _ => rfl
    simp only [leafDepths, hne, Bool.false_eq_true, if_false, List.mem_map] at hd
    obtain ⟨d', hd', rfl⟩ := hd
    obtain ⟨c, hc, hdc⟩ := mem_leafDepthsL.1 hd'
    rw [(wf_bounded h c (hall c hc)).2 d' hdc]

theorem searchShapeL_iff {cmp : K → K → Int} {cs : List (Node K V)} :
    searchShapeL cmp cs ↔ ∀ c ∈ cs, searchShape cmp c := by
  induction cs with
  | nil => simp [searchShapeL]
  | cons c cs ih => simp [searchShapeL, ih]

section order
variable [LinearOrder K]

theorem inv_fanout {t : Tree K V} (hi : t.Inv) : Fanout t := by
  obtain ⟨-, -, hroot⟩ := hi
  unfold Fanout
  cases hr : t.Root with
  | none => trivial
  | some r =>
    rw [hr] at hroot
    obtain ⟨⟨h, hsh⟩, -⟩ := hroot
    exact shape_fanout hsh

/-- A sorted subtree of the right shape has the search-tree shape in every node. -/
theorem searchShape_of_sorted {cmp : K → K → Int} (hc : LawfulCmp cmp) {m : Int} (h : Nat) :
    ∀ (n : Node K V) (lo hi : Int), Shape m lo hi h n → SortedE (flatten n) →
      searchShape cmp n := by
  induction h with
  | zero =>
    rintro ⟨es, cs⟩ lo hi ⟨-, -, hch⟩ hs
    simp only [Node.Children] at hch
    subst hch
    have hes : SortedE es := by simpa [flatten, inter] using hs
    refine ⟨hes.imp fun hab => cmp_neg_of_lt hc hab, Or.inl rfl, ?_, trivial⟩
    intro i c hi
    simp at hi
  | succ h ih =>
    rintro ⟨es, cs⟩ lo hi ⟨-, -, hcnt, hall⟩ hs
    simp only [Node.Children, Node.Entries] at hcnt hall
    have hes : SortedE es := by
      rw [flatten_mk] at hs; exact hs.entries
    have hsplit : ∀ i c, cs[i]? = some c → ∃ ea eb ca cb, es = ea ++ eb ∧ cs = ca ++ c :: cb ∧
        ea.length = i ∧ ca.length = i ∧ eb.length = cb.length := by
      intro i c hi
      have hlt : i < cs.length := (List.getElem?_eq_some_iff.1 hi).1
      obtain ⟨ca, c', cb, hcs, hca⟩ := exists_split_around cs i hlt
      have hc' : c' = c := by
        subst hcs
        rw [List.getElem?_append_right (by omega)] at hi
        simpa [hca] using hi
      subst hc'
      obtain ⟨ea, eb, hes', hea⟩ := exists_split_at es i (by omega)
      refine ⟨ea, eb, ca, cb, hes', hcs, hea, hca, ?_⟩
      subst hes' hcs
      simp only [List.length_append, List.length_cons] at hcnt
      omega
    refine ⟨hes.imp fun hab => cmp_neg_of_lt hc hab, Or.inr hcnt, ?_, ?_⟩
    · intro i c hi x hx
      obtain ⟨ea, eb, ca, cb, rfl, rfl, hea, hca, heb⟩ := hsplit i c hi
      rw [flatten_one ea eb ca cb c (by omega) heb] at hs
      refine ⟨?_, ?_⟩
      · intro e he
        rw [List.getElem?_append_right (by omega)] at he
        have he' : e ∈ eb := by
          have : eb[0]? = some e := by simpa [hea] using he
          exact List.mem_iff_getElem?.2 ⟨0, this⟩
        exact cmp_neg_of_lt hc (hs.right.lt hx (mem_flatEC_of_mem heb he'))
      · intro j e hj he
        have he' : e ∈ ea := by
          rw [List.getElem?_append_left (by omega)] at he
          exact List.mem_iff_getElem?.2 ⟨j, he⟩
        exact cmp_neg_of_lt hc
          (hs.lt (mem_flatCE_of_mem (by omega) he') (List.mem_append_left _ hx))
    · refine searchShapeL_iff.2 fun c hcm => ?_
      obtain ⟨i, hi⟩ := List.getElem?_of_mem hcm
      obtain ⟨ea, eb, ca, cb, rfl, rfl, hea, hca, heb⟩ := hsplit i c hi
      rw [flatten_one ea eb ca cb c (by omega) heb] at hs
      exact ih c _ _ (wf_iff_shape.1 (hall c hcm)) hs.right.left

end order
end btree

namespace btree
variable {K V : Type}

section order
variable [LinearOrder K]

theorem newWith_spec (m : Int) (hm : 3 ≤ m) (cmp : K → K → Int) :
    ∃ t : Tree K V, NewWith m cmp = some t ∧ t.Inv ∧ t.m = m ∧ t.Comparator = cmp ∧
      t.entries = [] := by
  refine ⟨{ Root := none, Comparator := cmp, size := 0, m := m }, ?_, ⟨hm, rfl, trivial⟩,
    rfl, rfl, rfl⟩
  simp only [NewWith]
  rw [if_neg (by omega)]

/-- A run of `Put`s and `Remove`s on a well-formed tree completes and leaves a well-formed
tree of the same order and comparator. -/
theorem runOps_spec (ops : List (Op K V)) :
    ∀ t : Tree K V, LawfulCmp t.Comparator → t.Inv →
      ∃ t', runOps t ops = some t' ∧ t'.Inv ∧ t'.m = t.m ∧ t'.Comparator = t.Comparator := by
  induction ops with
  | nil => intro t _ hi; exact ⟨t, rfl, hi, rfl, rfl⟩
  | cons op ops ih =>
    intro t hc hi
    have hstep : ∃ t1, t.apply op = some t1 ∧ t1.Inv ∧ t1.m = t.m ∧
        t1.Comparator = t.Comparator := by
      cases op with
      | put k v =>
        obtain ⟨t1, h1, h2, -, h3, h4, -⟩ := Put_spec t hc hi k v
        exact ⟨t1, h1, h2, h3, h4⟩
      | remove k =>
        obtain ⟨t1, h1, h2, -, h3, h4, -⟩ := Remove_spec t hc hi k
        exact ⟨t1, h1, h2, h3, h4⟩
    obtain ⟨t1, h1, hi1, hm1, hc1⟩ := hstep
    obtain ⟨t', h2, hi', hm', hc'⟩ := ih t1 (by rw [hc1]; exact hc) hi1
    exact ⟨t', by simp [runOps, h1, h2], hi', by rw [hm', hm1], by rw [hc', hc1]⟩

/-- A run of `Put`s on a well-formed tree completes and leaves a well-formed tree that
holds exactly the keys it held and the keys that were put. -/
theorem putAll_inv (ops : List (K × V)) :
    ∀ t : Tree K V, LawfulCmp t.Comparator → t.Inv →
      ∃ t', putAll t ops = some t' ∧ t'.Inv ∧ t'.m = t.m ∧ t'.Comparator = t.Comparator ∧
        ∀ k, k ∈ t'.entries.map Entry.Key ↔
          k ∈ t.entries.map Entry.Key ∨ k ∈ ops.map Prod.fst := by
  induction ops with
  | nil => intro t _ hi; exact ⟨t, rfl, hi, rfl, rfl, by simp⟩
  | cons op ops ih =>
    intro t hc hi
    obtain ⟨k, v⟩ := op
    obtain ⟨t1, h1, hi1, he1, hm1, hc1, -⟩ := Put_spec t hc hi k v
    obtain ⟨t', h2, hi', hm', hc', hk'⟩ := ih t1 (by rw [hc1]; exact hc) hi1
    refine ⟨t', by simp [putAll, h1, h2], hi', by rw [hm', hm1], by rw [hc', hc1], ?_⟩
    intro k'
    rw [hk' k', he1]
    simp only [List.mem_map, mem_insertE, List.map_cons, List.mem_cons]
    constructor
    · rintro (⟨e, (rfl | ⟨he, -⟩), rfl⟩ | h)
      · exact Or.inr (Or.inl rfl)
      · exact Or.inl ⟨e, he, rfl⟩
      · exact Or.inr (Or.inr h)
    · rintro (⟨e, he, rfl⟩ | rfl | h)
      · by_cases hek : e.Key = k
        · exact Or.inl ⟨⟨k, v⟩, Or.inl rfl, hek.symm⟩
        · exact Or.inl ⟨e, Or.inr ⟨he, hek⟩, rfl⟩
      · exact Or.inl ⟨⟨k', v⟩, Or.inl rfl, rfl⟩
      · exact Or.inr h

end order
end btree

namespace btree
variable {K V : Type}

theorem keysOnlyL_append (a b : List (Node K V)) :
    keysOnlyL (a ++ b) = keysOnlyL a ++ keysOnlyL b := by
  induction a with
  | nil => rfl
  | cons c a ih => simp [keysOnlyL, ih]

section order
variable [LinearOrder K]

/-- `insert` of a key that the subtree holds: the entry is overwritten where it is, and the
tree that results has the same nodes, keys and links. -/
theorem insert_present {cmp : K → K → Int} (hc : LawfulCmp cmp) {m : Int}
    (entry : Entry K V) (h : Nat) :
    ∀ (node : Node K V) (lo hi : Int), Shape m lo hi h node → SortedE (flatten node) →
      (∃ e ∈ flatten node, e.Key = entry.Key) →
      ∃ node', keysOnly node' = keysOnly node ∧
        ∀ path, insert m cmp node path entry = (plug node' path).map fun r => (r, false) := by
  induction h with
  | zero =>
    rintro ⟨es, cs⟩ lo hi ⟨-, -, hch⟩ hs ⟨e0, he0, hk0⟩
    simp only [Node.Children] at hch
    subst hch
    have hses : SortedE es := by simpa [flatten, inter] using hs
    have hleaf : isLeaf (Node.mk es ([] : List (Node K V))) = true := by
      simp [isLeaf, Node.Children]
    have he0' : e0 ∈ es := by simpa [flatten, inter] using he0
    rcases sorted_partition es hses entry.Key with
      ⟨a, b, he, ha, hb⟩ | ⟨a, x, b, he, ha, hx, hb⟩
    · subst he
      rcases List.mem_append.1 he0' with h1 | h1
      · exact absurd hk0 (ne_of_lt (ha e0 h1))
      · exact absurd hk0 (ne_of_gt (hb e0 h1))
    · subst he
      have hsearch := search_present cmp entry.Key a b x ([] : List (Node K V))
        (fun e he => cmp_pos_of_lt hc (ha e he)) (cmp_zero_of_eq hc hx.symm)
        (fun e he => cmp_neg_of_lt hc (hb e he))
      have hset : setIdx (a ++ x :: b) (a.length : Int) entry = some (a ++ entry :: b) :=
        setIdx_at entry rfl
      refine ⟨.mk (a ++ entry :: b) [], by simp [keysOnly, hx], ?_⟩
      intro path
      simp only [insert, hleaf, ↓reduceIte, insertIntoLeaf, hsearch, Node.Entries,
        Node.Children, hset, Option.bind_eq_bind, Option.some_bind, Option.pure_def]
      cases plug (Node.mk (a ++ entry :: b) ([] : List (Node K V))) path <;> rfl
  | succ h ih =>
    rintro ⟨es, cs⟩ lo hi ⟨-, -, hcnt, hall⟩ hs ⟨e0, he0, hk0⟩
    simp only [Node.Entries, Node.Children] at hcnt hall
    have hses : SortedE es := by
      rw [flatten_mk] at hs; exact hs.entries
    have hleaf : isLeaf (Node.mk es cs) = false := by
      simp [isLeaf, Node.Children]
      intro h0; rw [h0] at hcnt; simp at hcnt
    rcases sorted_partition es hses entry.Key with
      ⟨ea, eb, he, ha, hb⟩ | ⟨a, x, b, he, ha, hx, hb⟩
    · subst he
      obtain ⟨ca, c, cb, hcs, hca⟩ := exists_split_around cs ea.length (by
        rw [hcnt]; simp; omega)
      subst hcs
      have hea : ea.length = ca.length := hca.symm
      have heb : eb.length = cb.length := by
        simp at hcnt; omega
      have hsearch := search_absent cmp entry.Key ea eb (ca ++ c :: cb)
        (fun e he => cmp_pos_of_lt hc (ha e he)) (fun e he => cmp_neg_of_lt hc (hb e he))
      rw [flatten_one ea eb ca cb c hea heb] at hs he0
      have hA := flatCE_lt hea hs.left ha
      have hC := flatEC_gt heb hs.right.right hb
      have hin : e0 ∈ flatten c := by
        rcases List.mem_append.1 he0 with h1 | h1
        · exact absurd hk0 (ne_of_lt (hA e0 h1))
        · rcases List.mem_append.1 h1 with h2 | h2
          · exact h2
          · exact absurd hk0 (ne_of_gt (hC e0 h2))
      obtain ⟨c', hk, hins⟩ := ih c _ _ (wf_iff_shape.1 (hall c (by simp))) hs.right.left
        ⟨e0, hin, hk0⟩
      refine ⟨.mk (ea ++ eb) (ca ++ c' :: cb), ?_, ?_⟩
      · simp [keysOnly, keysOnlyL_append, keysOnlyL, hk]
      · intro path
        have hnn : ¬ ((ea.length : Int) < 0) := by omega
        simp only [insert, hleaf, hsearch, Bool.false_eq_true, ↓reduceIte, hnn,
          Int.toNat_ofNat]
        rw [hea, insertChild_at, hins]
        simp [plug, fill_split]
    · subst he
      have hsearch := search_present cmp entry.Key a b x cs
        (fun e he => cmp_pos_of_lt hc (ha e he)) (cmp_zero_of_eq hc hx.symm)
        (fun e he => cmp_neg_of_lt hc (hb e he))
      have hset : setIdx (a ++ x :: b) (a.length : Int) entry = some (a ++ entry :: b) :=
        setIdx_at entry rfl
      refine ⟨.mk (a ++ entry :: b) cs, by simp [keysOnly, hx], ?_⟩
      intro path
      simp only [insert, hleaf, hsearch, Bool.false_eq_true, ↓reduceIte, hset]

end order
end btree

namespace btree
variable {K V : Type}

section order
variable [LinearOrder K]

theorem lookupE_filter_self {L : List (Entry K V)} (hs : SortedE L) (k : K) :
    lookupE k (L.filter fun e => decide (e.Key ≠ k)) = none := by
  rw [Option.eq_none_iff_forall_not_mem]
  intro v hv
  obtain ⟨e, he, hk, -⟩ := (lookupE_eq_some_iff (hs.filter _) k v).1 hv
  simp [hk] at he

theorem lookupE_filter_ne {L : List (Entry K V)} (hs : SortedE L) {k k' : K} (hne : k' ≠ k) :
    lookupE k' (L.filter fun e => decide (e.Key ≠ k)) = lookupE k' L := by
  apply Option.ext
  intro v
  simp only [Option.mem_def]
  rw [lookupE_eq_some_iff (hs.filter _), lookupE_eq_some_iff hs]
  constructor
  · rintro ⟨e, he, hk, hv⟩
    exact ⟨e, (List.mem_filter.1 he).1, hk, hv⟩
  · rintro ⟨e, he, hk, hv⟩
    exact ⟨e, List.mem_filter.2 ⟨he, by simp [hk, hne]⟩, hk, hv⟩

theorem inv_sorted {t : Tree K V} (hi : t.Inv) : SortedE t.entries := by
  obtain ⟨-, -, hroot⟩ := hi
  unfold Tree.entries
  cases hr : t.Root with
  | none => exact List.Pairwise.nil
  | some r =>
    rw [hr] at hroot
    exact hroot.2

end order

/-- The run of the specification's scenario: order 3, `Put` of 10, 20, 30, 40, 50. -/
theorem five_puts : ((NewWith 3 IntComparator).bind fun t0 =>
      runOps t0 [Op.put (10 : Int) (100 : Int), .put 20 200, .put 30 300, .put 40 400,
        .put 50 500])
    = some ⟨some (.mk [⟨20, 200⟩, ⟨40, 400⟩]
        [.mk [⟨10, 100⟩] [], .mk [⟨30, 300⟩] [], .mk [⟨50, 500⟩] []]), IntComparator, 5, 3⟩ := by
  rfl

end btree

namespace btree
variable {K V : Type}

/-! ## The leftmost leaf -/

/-- `Tree.left` below a well-formed subtree: it ends at the leaf with the least entry of
the subtree, and the chain it walked is well-formed, follows the first child everywhere,
and has all other entries of the subtree to its right. -/
theorem leftLeaf_spec {m : Int} (hm : 3 ≤ m) (h : Nat) :
    ∀ (c : Node K V), WF m h c →
      ∃ (y : Entry K V) (lrest : List (Entry K V)) (below : List (Frame K V)),
        WF m 0 (.mk (y :: lrest) []) ∧
        flatten c = (y :: lrest) ++ ctxR below ∧ ctxL below = [] ∧
        ∀ p, leftLeaf c p = some ⟨.mk (y :: lrest) [], below ++ p⟩ ∧
          (PathWF m h p → PathWF m 0 (below ++ p)) ∧
          (Coherent c p → Coherent (.mk (y :: lrest) []) (below ++ p)) := by
  obtain ⟨hmax, hmin1, -⟩ := order_facts hm
  induction h with
  | zero =>
    intro c hc
    obtain ⟨es, cs⟩ := c
    obtain ⟨rfl, hlo, hhi⟩ := hc
    cases es with
    | nil => simp at hlo; omega
    | cons y lrest =>
      refine ⟨y, lrest, [], ⟨rfl, hlo, hhi⟩, by simp [flatten, inter, ctxR], rfl, ?_⟩
      intro p
      exact ⟨by simp [leftLeaf, isLeaf, Node.Children], fun hp => hp, fun hp => hp⟩
  | succ h ih =>
    intro c hc
    obtain ⟨es, cs⟩ := c
    obtain ⟨hcnt, hlo, hhi, hall⟩ := hc
    cases cs with
    | nil => simp at hcnt
    | cons c1 cs' =>
      have hlen : es.length = cs'.length := by simpa using hcnt.symm
      obtain ⟨y, lrest, below, hleaf, hfl, hcl, hrl⟩ := ih c1 (hall c1 (by simp))
      have hb := before_split [] es [] cs' c1 rfl
      have ha := after_split [] es [] cs' c1 rfl
      simp only [List.nil_append, List.length_nil, Nat.cast_zero] at hb ha
      refine ⟨y, lrest, below ++ [⟨.mk es (c1 :: cs'), 0⟩], hleaf, ?_, ?_, ?_⟩
      · rw [ctxR_append, flatten_mk, inter_eq_flatEC es c1 cs' hlen, hfl]
        simp [ctxR, ha]
      · rw [ctxL_append, hcl]
        simp [ctxL, hb, flatCE]
      · intro p
        obtain ⟨hr, hpw, hco⟩ := hrl (⟨.mk es (c1 :: cs'), 0⟩ :: p)
        refine ⟨?_, ?_, ?_⟩
        · have hnl : isLeaf (Node.mk es (c1 :: cs')) = false := by
            simp [isLeaf, Node.Children]
          rw [leftLeaf, hnl]
          simp only [Bool.false_eq_true, if_false, leftLeafChild]
          rw [hr]
          simp
        · intro hp
          have := hpw (@PathWF.cons K V m h [] es [] cs' c1 p
            rfl hlen (by simp) (fun c hc => hall c (by simp [hc])) (by simpa using hhi)
            (fun _ => by simp; omega) (fun _ => by simpa using hlo) hp)
          simpa using this
        · intro hp
          have := hco ⟨by simp [getIdx, Node.Children], by simpa using hp⟩
          simpa using this

/-- The entry a list holds before a given tail is determined by the tail. -/
theorem append_cons_cancel {α : Type} {A B R : List α} {x : α}
    (h : A ++ x :: R = B ++ x :: R) : A = B :=
  List.append_cancel_right h

theorem ItState.total {m : Int} {T L R : List (Entry K V)} {c : Cursor K V} {x : Entry K V}
    (hst : ItState m T c x L R) : T = L ++ x :: R := by
  obtain ⟨h, a, b, ca, cb, hn, hk, -, -, -, hT, hL, hR⟩ := hst
  rw [← hT, hn, hL, hR, flatten_mk]
  rcases hk with ⟨rfl, rfl⟩ | hk
  · simp
  · rw [inter_around_entry a b ca cb x hk]
    simp

end btree

namespace btree
variable {K V : Type}

/-! ## One step of the iterator -/

/-- The parent on top of a well-formed chain, with a well-formed child in the hole, has the
shape its place in the tree asks for. -/
theorem shape_parent {m : Int} {h : Nat} {ea eb : List (Entry K V)} {ca cb : List (Node K V)}
    {n : Node K V} {rest : List (Frame K V)}
    (ha : ea.length = ca.length) (hb : eb.length = cb.length)
    (hca : ∀ c ∈ ca, WF m h c) (hcb : ∀ c ∈ cb, WF m h c)
    (hmax : ((ea ++ eb).length : Int) ≤ maxEntries m)
    (hlo1 : rest = [] → 1 ≤ (ea ++ eb).length)
    (hlo2 : rest ≠ [] → minEntries m ≤ ((ea ++ eb).length : Int))
    (hn : WF m h n) :
    Shape m (loBound m rest) (maxEntries m) (h + 1) (.mk (ea ++ eb) (ca ++ n :: cb)) := by
  refine ⟨?_, hmax, ?_, ?_⟩
  · cases rest with
    | nil =>
      have := hlo1 rfl
      simp only [loBound, Node.Entries]
      omega
    | cons g rest' => exact hlo2 (by simp)
  · simp only [Node.Children, Node.Entries, List.length_append, List.length_cons]
    omega
  · intro c hc
    simp only [Node.Children, List.mem_append, List.mem_cons] at hc
    rcases hc with hc | rfl | hc
    · exact hca c hc
    · exact hn
    · exact hcb c hc

section order
variable [LinearOrder K]

/-- The climb of `Next()` from a subtree whose entries are used up: it ends the iteration
when nothing follows the subtree, and otherwise stops at the ancestor holding the entry
that follows. -/
theorem climbNext_spec {cmp : K → K → Int} (hc : LawfulCmp cmp) {m : Int}
    {T : List (Entry K V)} (hsT : SortedE T) {x : Entry K V}
    {h : Nat} {up : List (Frame K V)} (hp : PathWF m h up) :
    ∀ (node : Node K V), Shape m (loBound m up) (maxEntries m) h node → Coherent node up →
      ctxL up ++ (flatten node ++ ctxR up) = T → x ∈ flatten node →
      (ctxR up = [] ∧ climbNext cmp x.Key up = some none) ∨
      ∃ y R' c' L', ctxR up = y :: R' ∧ climbNext cmp x.Key up = some (some (c', y)) ∧
        ItState m T c' y L' R' := by
  induction hp with
  | nil h => intro node _ _ _ _; exact Or.inl ⟨rfl, rfl⟩
  | @cons h ea eb ca cb c0 rest ha hb hca hcb hmax hlo1 hlo2 hrest ih =>
    intro node hsh hco hT hx
    obtain ⟨hget, hco'⟩ := hco
    simp only [Node.Children] at hget hco'
    rw [getIdx_at rfl] at hget
    simp only [Option.some.injEq] at hget
    subst hget
    have hwf : WF m h c0 := wf_iff_shape.2 hsh
    have hP := shape_parent ha hb hca hcb hmax hlo1 hlo2 hwf
    have hTs := hsT
    rw [← hT] at hTs
    have hlt : ∀ e ∈ ea, e.Key < x.Key := by
      intro e he
      have he' : e ∈ ctxL (⟨.mk (ea ++ eb) (ca ++ c0 :: cb), (ca.length : Int)⟩ :: rest) := by
        simp only [ctxL, before_split ea eb ca cb c0 ha, List.mem_append]
        exact Or.inr (mem_flatCE_of_mem ha he)
      exact hTs.lt he' (List.mem_append_left _ hx)
    have hgt : ∀ e ∈ eb, x.Key < e.Key := by
      intro e he
      have he' : e ∈ ctxR (⟨.mk (ea ++ eb) (ca ++ c0 :: cb), (ca.length : Int)⟩ :: rest) := by
        simp only [ctxR, after_split ea eb ca cb c0 ha, List.mem_append]
        exact Or.inl (mem_flatEC_of_mem hb he)
      exact hTs.right.lt hx he'
    have hsearch := search_absent cmp x.Key ea eb (ca ++ c0 :: cb)
      (fun e he => cmp_pos_of_lt hc (hlt e he)) (fun e he => cmp_neg_of_lt hc (hgt e he))
    have hT' : ctxL rest ++ (flatten (.mk (ea ++ eb) (ca ++ c0 :: cb)) ++ ctxR rest) = T := by
      rw [← ctx_cons ea eb ca cb c0 c0 rest ha hb, hT]
    have hxP : x ∈ flatten (Node.mk (ea ++ eb) (ca ++ c0 :: cb)) := by
      rw [flatten_one ea eb ca cb c0 ha hb]
      simp [hx]
    cases eb with
    | nil =>
      have hcb0 : cb = [] := List.length_eq_zero.1 hb.symm
      subst hcb0
      have hafter : ctxR (⟨.mk (ea ++ []) (ca ++ [c0]), (ca.length : Int)⟩ :: rest)
          = ctxR rest := by
        have h1 := after_split ea [] ca [] c0 ha
        simp only [ctxR]
        rw [h1]
        simp [flatEC]
      have hcl : climbNext cmp x.Key
          (⟨.mk (ea ++ []) (ca ++ [c0]), (ca.length : Int)⟩ :: rest)
          = climbNext cmp x.Key rest := by
        simp only [climbNext, hsearch, Node.Entries]
        rw [if_neg (by simp)]
      rw [hafter, hcl]
      exact ih _ hP hco' hT' hxP
    | cons y eb' =>
      cases cb with
      | nil => simp at hb
      | cons c1 cb' =>
        have hb' : eb'.length = cb'.length := by simpa using hb
        refine Or.inr ⟨y, inter eb' (c1 :: cb') ++ ctxR rest,
          ⟨.mk (ea ++ y :: eb') (ca ++ c0 :: c1 :: cb'), rest⟩,
          ctxL rest ++ inter ea (ca ++ [c0]), ?_, ?_, ?_⟩
        · simp [ctxR, after_split ea (y :: eb') ca (c1 :: cb') c0 ha, flatEC,
            inter_eq_flatEC eb' c1 cb' hb']
        · simp only [climbNext, hsearch, Node.Entries]
          rw [if_pos (by simp), getIdx_at rfl]
          rfl
        · exact ⟨h + 1, ea, eb', ca ++ [c0], c1 :: cb', by simp, Or.inr (by simp [ha]), hrest,
            hP, hco', hT', rfl, rfl⟩

end order
end btree

namespace btree
variable {K V : Type}

theorem loBound_append (m : Int) (below : List (Frame K V)) (f : Frame K V)
    (up : List (Frame K V)) : loBound m (below ++ f :: up) = minEntries m := by
  cases below <;> rfl

/-- The part before the entry is determined by the entry and the part after it. -/
theorem ItState.step_left {m : Int} {T L R' L' : List (Entry K V)} {c c' : Cursor K V}
    {x y : Entry K V} (h1 : ItState m T c x L (y :: R')) (h2 : ItState m T c' y L' R') :
    L' = L ++ [x] := by
  have e1 := h1.total
  have e2 := h2.total
  rw [e1] at e2
  have e3 : (L ++ [x]) ++ y :: R' = L' ++ y :: R' := by simpa using e2
  exact (List.append_cancel_right e3).symm

section order
variable [LinearOrder K]

/-- `search` for the key of the entry the iterator stands on finds its index. -/
theorem search_at_entry {cmp : K → K → Int} (hc : LawfulCmp cmp) (a b : List (Entry K V))
    (x : Entry K V) (cs : List (Node K V)) (hs : SortedE (a ++ x :: b)) :
    search cmp (.mk (a ++ x :: b) cs) x.Key = some ((a.length : Int), true) :=
  search_present cmp x.Key a b x cs
    (fun _ he => cmp_pos_of_lt hc (hs.lt he (List.mem_cons_self _ _)))
    (cmp_zero_of_eq hc rfl)
    (fun e he => cmp_neg_of_lt hc ((List.pairwise_cons.1 hs.right).1 e he))

/-- One `Next()` in position `between`: it ends the iteration when no entry follows, and
otherwise moves to the entry that follows in in-order. -/
theorem nextBetween_spec {cmp : K → K → Int} (hc : LawfulCmp cmp) {m : Int} (hm : 3 ≤ m)
    {T L R : List (Entry K V)} (hsT : SortedE T) {c : Cursor K V} {x : Entry K V}
    (hst : ItState m T c x L R) :
    (R = [] ∧ nextBetween cmp c x = some none) ∨
      ∃ y R' c', R = y :: R' ∧ nextBetween cmp c x = some (some (c', y)) ∧
        ItState m T c' y (L ++ [x]) R' := by
  have hst0 := hst
  obtain ⟨h, a, b, ca, cb, hn, hk, hpw, hsh, hco, hT, hL, hR⟩ := hst
  obtain ⟨node, up⟩ := c
  simp only at hn hpw hsh hco hT hL hR
  subst hn
  have hTs := hsT
  rw [← hT] at hTs
  have hsn : SortedE (flatten (Node.mk (a ++ x :: b) (ca ++ cb))) := hTs.right.left
  have hse : SortedE (a ++ x :: b) := by rw [flatten_mk] at hsn; exact hsn.entries
  have hsearch := search_at_entry hc a b x (ca ++ cb) hse
  -- every outcome is turned into the statement by this
  have hfin : ∀ y R' c' L', R = y :: R' → nextBetween cmp ⟨.mk (a ++ x :: b) (ca ++ cb), up⟩ x
        = some (some (c', y)) → ItState m T c' y L' R' →
      ∃ y R' c', R = y :: R' ∧
        nextBetween cmp ⟨.mk (a ++ x :: b) (ca ++ cb), up⟩ x = some (some (c', y)) ∧
        ItState m T c' y (L ++ [x]) R' := by
    intro y R' c' L' hRy hnb hst'
    have hst1 : ItState m T ⟨.mk (a ++ x :: b) (ca ++ cb), up⟩ x L (y :: R') := by
      rw [← hRy]; exact hst0
    have := ItState.step_left hst1 hst'
    subst this
    exact ⟨y, R', c', hRy, hnb, hst'⟩
  rcases hk with ⟨rfl, rfl⟩ | hk
  · -- a leaf
    have hnc : ¬ ((a.length : Int) + 1 < ((([] : List (Node K V)) ++ []).length : Int)) := by
      simp; omega
    cases b with
    | cons y b' =>
      right
      refine hfin y (b' ++ ctxR up) ⟨.mk (a ++ x :: y :: b') ([] ++ []), up⟩
        (ctxL up ++ inter (a ++ [x]) []) (by simp [hR]) ?_
        ⟨h, a ++ [x], b', [], [], by simp, Or.inl ⟨rfl, rfl⟩, hpw, hsh, hco, hT, rfl, by simp⟩
      simp only [nextBetween, hsearch, Node.Children, Node.Entries]
      rw [if_neg hnc, if_pos (by simp), getIdx_at2 rfl]
      rfl
    | nil =>
      have hx : x ∈ flatten (Node.mk (a ++ [x]) (([] : List (Node K V)) ++ [])) := by simp
      have hnb : nextBetween cmp ⟨.mk (a ++ [x]) ([] ++ []), up⟩ x = climbNext cmp x.Key up := by
        simp only [nextBetween, hsearch, Node.Children, Node.Entries]
        rw [if_neg hnc, if_neg (by simp)]
      have hR' : R = ctxR up := by simp [hR]
      rcases climbNext_spec hc hsT hpw _ hsh hco hT hx with ⟨h1, h2⟩ | ⟨y, R', c', L', h1, h2, h3⟩
      · exact Or.inl ⟨by rw [hR', h1], by rw [hnb, h2]⟩
      · exact Or.inr (hfin y R' c' L' (by rw [hR', h1]) (by rw [hnb, h2]) h3)
  · -- an internal node
    obtain ⟨hlo, hhi, hch⟩ := hsh
    cases h with
    | zero =>
      simp only [Node.Children] at hch
      have : ca = [] := (List.append_eq_nil.1 hch).1
      subst this
      simp at hk
    | succ h' =>
      obtain ⟨hcnt, hall⟩ := hch
      simp only [Node.Children, Node.Entries] at hcnt hall hlo hhi
      have hcbl : cb.length = b.length + 1 := by
        simp only [List.length_append, List.length_cons] at hcnt
        omega
      obtain ⟨c1, cb', rfl⟩ : ∃ c1 cb', cb = c1 :: cb' := by
        cases cb with
        | nil => simp at hcbl
        | cons c1 cb' => exact ⟨c1, cb', rfl⟩
      have hbl : b.length = cb'.length := by simpa using hcbl.symm
      have hea : (a ++ [x]).length = ca.length := by simp [hk]
      have hidx : (a.length : Int) + 1 = (ca.length : Int) := by rw [hk]; push_cast; ring
      have hnode : Node.mk (a ++ x :: b) (ca ++ c1 :: cb')
          = Node.mk ((a ++ [x]) ++ b) (ca ++ c1 :: cb') := by simp
      have hc1 : WF m h' c1 := hall c1 (by simp)
      obtain ⟨y, lrest, below, hleaf, hfl, hcl, hrl⟩ := leftLeaf_spec hm h' c1 hc1
      obtain ⟨hll, hlpw, hlco⟩ :=
        hrl (⟨.mk ((a ++ [x]) ++ b) (ca ++ c1 :: cb'), (ca.length : Int)⟩ :: up)
      have hpw' : PathWF m h'
          (⟨.mk ((a ++ [x]) ++ b) (ca ++ c1 :: cb'), (ca.length : Int)⟩ :: up) := by
        refine PathWF.cons hea hbl (fun c hc' => hall c (by simp [hc']))
          (fun c hc' => hall c (by simp [hc'])) (by simpa using hhi)
          (fun _ => by simp only [List.length_append, List.length_cons]; omega)
          (fun hne => ?_) hpw
        cases up with
        | nil => exact absurd rfl hne
        | cons f rest => simpa [loBound] using hlo
      have hco' : Coherent c1
          (⟨.mk ((a ++ [x]) ++ b) (ca ++ c1 :: cb'), (ca.length : Int)⟩ :: up) := by
        refine ⟨getIdx_at rfl, ?_⟩
        rw [← hnode]; exact hco
      have hT' : ctxL (below ++
          ⟨.mk ((a ++ [x]) ++ b) (ca ++ c1 :: cb'), (ca.length : Int)⟩ :: up) ++
          (flatten (.mk (y :: lrest) []) ++ ctxR (below ++
          ⟨.mk ((a ++ [x]) ++ b) (ca ++ c1 :: cb'), (ca.length : Int)⟩ :: up)) = T := by
        rw [ctxL_append, ctxR_append, hcl, ← hT, hnode,
          ← ctx_cons (a ++ [x]) b ca cb' c1 c1 up hea hbl, hfl]
        simp
      right
      refine hfin y (lrest ++ ctxR (below ++
          ⟨.mk ((a ++ [x]) ++ b) (ca ++ c1 :: cb'), (ca.length : Int)⟩ :: up))
        ⟨.mk (y :: lrest) [], below ++
          ⟨.mk ((a ++ [x]) ++ b) (ca ++ c1 :: cb'), (ca.length : Int)⟩ :: up⟩
        (ctxL (below ++
          ⟨.mk ((a ++ [x]) ++ b) (ca ++ c1 :: cb'), (ca.length : Int)⟩ :: up) ++ inter [] [])
        ?_ ?_
        ⟨0, [], lrest, [], [], by simp, Or.inl ⟨rfl, rfl⟩, hlpw hpw', ?_, hlco hco', hT', rfl,
          by simp⟩
      · have hafter := after_split (a ++ [x]) b ca cb' c1 hea
        rw [hR, inter_eq_flatEC b c1 cb' hbl, hfl, ctxR_append]
        simp only [ctxR]
        rw [hafter]
        simp
      · have hlt : (a.length : Int) + 1 < ((ca ++ c1 :: cb').length : Int) := by
          simp only [List.length_append, List.length_cons]
          push_cast
          omega
        simp only [nextBetween, hsearch, Node.Children, Node.Entries]
        rw [if_pos hlt, hidx, getIdx_at rfl]
        simp only []
        rw [hnode, hll]
        simp [getIdx, Node.Entries]
      · simp only [loBound_append]
        exact wf_iff_shape.1 hleaf

end order
end btree

namespace btree
variable {K V : Type}

section order
variable [LinearOrder K]

/-- `Next()` in position `between`. -/
theorem Next_between {t : Tree K V} (hc : LawfulCmp t.Comparator) {m : Int} (hm : 3 ≤ m)
    {T L R : List (Entry K V)} (hsT : SortedE T) {c : Cursor K V} {x : Entry K V}
    (hst : ItState m T c x L R) :
    (R = [] ∧ (⟨t, some c, some x, .between⟩ : Iterator K V).Next
        = some (⟨t, none, none, .atEnd⟩, false)) ∨
      ∃ y R' c', R = y :: R' ∧ (⟨t, some c, some x, .between⟩ : Iterator K V).Next
          = some (⟨t, some c', some y, .between⟩, true) ∧
        ItState m T c' y (L ++ [x]) R' := by
  rcases nextBetween_spec hc hm hsT hst with ⟨h1, h2⟩ | ⟨y, R', c', h1, h2, h3⟩
  · exact Or.inl ⟨h1, by simp [Iterator.Next, h2, Iterator.End]⟩
  · exact Or.inr ⟨y, R', c', h1, by simp [Iterator.Next, h2], h3⟩

/-- `Next()` on a fresh iterator of a well-formed tree: it ends the iteration on the empty
tree and otherwise stands on the first entry. -/
theorem Next_begin (t : Tree K V) (hi : t.Inv) :
    (t.entries = [] ∧ t.Iterator.Next = some (⟨t, none, none, .atEnd⟩, false)) ∨
      ∃ x R c, t.entries = x :: R ∧
        t.Iterator.Next = some (⟨t, some c, some x, .between⟩, true) ∧
        ItState t.m t.entries c x [] R := by
  obtain ⟨hm, hsize, hroot⟩ := hi
  obtain ⟨hmax, hmin1, -⟩ := order_facts hm
  cases hr : t.Root with
  | none =>
    left
    simp [Tree.entries, hr] at hsize
    simp [Tree.entries, hr, Iterator.Next, Tree.Iterator, Tree.Left, Tree.Empty, hsize,
      Iterator.End]
  | some root =>
    right
    rw [hr] at hroot
    obtain ⟨⟨h, hsh⟩, hs⟩ := hroot
    have hne : t.Empty = false := tree_nonempty hr hsize hsh
    have hent : t.entries = flatten root := by simp [Tree.entries, hr]
    have hst : ∃ x R c, flatten root = x :: R ∧ leftLeaf root [] = some c ∧
        getIdx c.node.Entries 0 = some x ∧ ItState t.m (flatten root) c x [] R := by
      obtain ⟨es, cs⟩ := root
      obtain ⟨hlo, hhi, hch⟩ := hsh
      simp only [Node.Entries] at hlo hhi
      cases h with
      | zero =>
        simp only [Node.Children] at hch
        subst hch
        cases es with
        | nil => simp at hlo
        | cons x b =>
          refine ⟨x, b, ⟨.mk (x :: b) [], []⟩, by simp, by simp [leftLeaf, isLeaf, Node.Children],
            by simp [getIdx, Node.Entries], 0, [], b, [], [], rfl, Or.inl ⟨rfl, rfl⟩,
            PathWF.nil 0, ⟨hlo, hhi, rfl⟩, trivial, by simp [ctxL, ctxR], by simp [ctxL],
            by simp [ctxR]⟩
      | succ h' =>
        obtain ⟨hcnt, hall⟩ := hch
        simp only [Node.Children, Node.Entries] at hcnt hall
        cases cs with
        | nil => simp at hcnt
        | cons c1 cs' =>
          have hlen : es.length = cs'.length := by simpa using hcnt.symm
          obtain ⟨y, lrest, below, hleaf, hfl, hcl, hrl⟩ :=
            leftLeaf_spec hm h' c1 (hall c1 (by simp))
          obtain ⟨hll, hlpw, hlco⟩ := hrl [⟨.mk es (c1 :: cs'), 0⟩]
          have hb := before_split [] es [] cs' c1 rfl
          have ha := after_split [] es [] cs' c1 rfl
          simp only [List.nil_append, List.length_nil, Nat.cast_zero] at hb ha
          have hpw : PathWF t.m h' [⟨.mk es (c1 :: cs'), 0⟩] := by
            have := @PathWF.cons K V t.m h' [] es [] cs' c1 []
              rfl hlen (by simp) (fun c hc => hall c (by simp [hc])) (by simpa using hhi)
              (fun _ => by simp; omega) (fun hne => absurd rfl hne) (PathWF.nil _)
            simpa using this
          have hco : Coherent c1 [⟨.mk es (c1 :: cs'), 0⟩] :=
            ⟨by simp [getIdx, Node.Children], trivial⟩
          have hfr : flatten (Node.mk es (c1 :: cs'))
              = y :: (lrest ++ ctxR (below ++ [⟨.mk es (c1 :: cs'), 0⟩])) := by
            rw [flatten_mk, inter_eq_flatEC es c1 cs' hlen, hfl, ctxR_append]
            simp [ctxR, ha]
          have hcl' : ctxL (below ++ [⟨.mk es (c1 :: cs'), 0⟩]) = [] := by
            rw [ctxL_append, hcl]
            simp [ctxL, hb, flatCE]
          refine ⟨y, lrest ++ ctxR (below ++ [⟨.mk es (c1 :: cs'), 0⟩]),
            ⟨.mk (y :: lrest) [], below ++ [⟨.mk es (c1 :: cs'), 0⟩]⟩, hfr, ?_,
            by simp [getIdx, Node.Entries], 0, [], lrest, [], [], rfl, Or.inl ⟨rfl, rfl⟩,
            hlpw hpw, ?_, hlco hco, ?_, by simp [hcl'], by simp⟩
          · have hnl : isLeaf (Node.mk es (c1 :: cs')) = false := by
              simp [isLeaf, Node.Children]
            rw [leftLeaf, hnl]
            simp only [Bool.false_eq_true, if_false, leftLeafChild]
            exact hll
          · simp only [loBound_append]
            exact wf_iff_shape.1 hleaf
          · simp only [hcl', hfr]
            simp
    obtain ⟨x, R, c, h1, h2, h3, h4⟩ := hst
    refine ⟨x, R, c, by rw [hent, h1], ?_, by rw [hent]; exact h4⟩
    simp [Iterator.Next, Tree.Iterator, Tree.Left, hne, hr, h2, h3]

end order
end btree

namespace btree
variable {K V : Type}

section order
variable [LinearOrder K]

/-- The loop of `Keys()` between two entries fills the rest of the slice with the keys of
the entries that follow, in order, and stops. -/
theorem keysLoop_fill {t : Tree K V} (hc : LawfulCmp t.Comparator) {m : Int} (hm : 3 ≤ m)
    {T : List (Entry K V)} (hsT : SortedE T) (R : List (Entry K V)) :
    ∀ (c : Cursor K V) (x : Entry K V) (L : List (Entry K V)) (pre : List (Option K))
      (fuel : Nat), ItState m T c x L R → R.length < fuel →
      keysLoop fuel ⟨t, some c, some x, .between⟩ (pre.length : Int)
          (pre ++ List.replicate R.length none)
        = some (pre ++ R.map fun e => some e.Key) := by
  induction R with
  | nil =>
    intro c x L pre fuel hst hf
    obtain ⟨n, rfl⟩ : ∃ n, fuel = n + 1 := ⟨fuel - 1, by omega⟩
    rcases Next_between hc hm hsT hst with ⟨-, h2⟩ | ⟨y, R', c', h1, -, -⟩
    · simp [keysLoop, h2]
    · simp at h1
  | cons y R' ih =>
    intro c x L pre fuel hst hf
    obtain ⟨n, rfl⟩ : ∃ n, fuel = n + 1 := ⟨fuel - 1, by omega⟩
    rcases Next_between hc hm hsT hst with ⟨h1, -⟩ | ⟨y', R'', c', h1, h2, h3⟩
    · simp at h1
    · simp only [List.cons.injEq] at h1
      obtain ⟨rfl, rfl⟩ := h1
      have hset : setIdx (pre ++ List.replicate (y :: R').length none) (pre.length : Int)
          (some y.Key) = some ((pre ++ [some y.Key]) ++ List.replicate R'.length none) := by
        have := setIdx_at (a := pre) (b := List.replicate R'.length (none : Option K))
          (x := none) (i := (pre.length : Int)) (some y.Key) rfl
        simpa [List.replicate_succ] using this
      have := ih c' y (L ++ [x]) (pre ++ [some y.Key]) n h3 (by simp at hf; omega)
      simp only [keysLoop, h2, Iterator.Key, Option.map_some', hset]
      have hi : (pre.length : Int) + 1 = ((pre ++ [some y.Key]).length : Int) := by simp
      rw [hi, this]
      simp

/-- `Keys()` on a well-formed tree returns the keys of its entries in in-order, once the
iteration bound exceeds their number. -/
theorem Keys_entries (t : Tree K V) (hc : LawfulCmp t.Comparator) (hi : t.Inv) (fuel : Nat)
    (hf : t.entries.length < fuel) :
    t.Keys fuel = some (t.entries.map fun e => some e.Key) := by
  have hs := inv_sorted hi
  have hm := hi.1
  have hsize := hi.2.1
  obtain ⟨n, rfl⟩ : ∃ n, fuel = n + 1 := ⟨fuel - 1, by omega⟩
  have hnn : ¬ t.size < 0 := by omega
  rcases Next_begin t hi with ⟨h1, h2⟩ | ⟨x, R, c, h1, h2, h3⟩
  · have hz : t.size = 0 := by rw [hsize, h1]; rfl
    simp [Tree.Keys, hz, keysLoop, h2, h1]
  · rw [h1] at hf hsize
    have hrep : List.replicate t.size.toNat (none : Option K)
        = none :: List.replicate R.length none := by
      have : t.size.toNat = R.length + 1 := by
        rw [hsize]; simp
      rw [this, List.replicate_succ]
    have hset : setIdx (none :: List.replicate R.length (none : Option K)) 0 (some x.Key)
        = some ([some x.Key] ++ List.replicate R.length none) := by
      simp [setIdx]
    have := keysLoop_fill hc hm hs R c x [] [some x.Key] n h3 (by simp at hf; omega)
    simp only [Tree.Keys, hnn, if_false, keysLoop, h2, Iterator.Key, Option.map_some', hrep,
      hset]
    simp only [List.length_singleton, Nat.cast_one, zero_add] at this ⊢
    rw [this, h1]
    simp

/-- The loop `for it.Next() { ... it.Key() }` between two entries collects the keys of the
entries that follow and stops. -/
theorem nextLoop_between {t : Tree K V} (hc : LawfulCmp t.Comparator) {m : Int} (hm : 3 ≤ m)
    {T : List (Entry K V)} (hsT : SortedE T) (R : List (Entry K V)) :
    ∀ (c : Cursor K V) (x : Entry K V) (L : List (Entry K V)) (acc : List K)
      (fuel : Nat), ItState m T c x L R → R.length < fuel →
      nextLoop fuel ⟨t, some c, some x, .between⟩ acc = some (acc ++ R.map Entry.Key) ∧
      drain fuel ⟨t, some c, some x, .between⟩ = some ⟨t, none, none, .atEnd⟩ := by
  induction R with
  | nil =>
    intro c x L acc fuel hst hf
    obtain ⟨n, rfl⟩ : ∃ n, fuel = n + 1 := ⟨fuel - 1, by omega⟩
    rcases Next_between hc hm hsT hst with ⟨-, h2⟩ | ⟨y, R', c', h1, -, -⟩
    · simp [nextLoop, drain, h2]
    · simp at h1
  | cons y R' ih =>
    intro c x L acc fuel hst hf
    obtain ⟨n, rfl⟩ : ∃ n, fuel = n + 1 := ⟨fuel - 1, by omega⟩
    rcases Next_between hc hm hsT hst with ⟨h1, -⟩ | ⟨y', R'', c', h1, h2, h3⟩
    · simp at h1
    · simp only [List.cons.injEq] at h1
      obtain ⟨rfl, rfl⟩ := h1
      obtain ⟨ih1, ih2⟩ := ih c' y (L ++ [x]) (acc ++ [y.Key]) n h3 (by simp at hf; omega)
      simp only [nextLoop, drain, h2, Iterator.Key, Option.map_some', ih1, ih2]
      simp

/-- Forward iteration from a fresh iterator of a well-formed tree: the loop collects the
keys in in-order, and leaves the iterator where `End()` puts it. -/
theorem nextLoop_eq (t : Tree K V) (hc : LawfulCmp t.Comparator) (hi : t.Inv) (fuel : Nat)
    (hf : t.entries.length < fuel) :
    nextLoop fuel t.Iterator [] = some (t.entries.map Entry.Key) ∧
      drain fuel t.Iterator = some t.Iterator.End := by
  have hs := inv_sorted hi
  have hm := hi.1
  obtain ⟨n, rfl⟩ : ∃ n, fuel = n + 1 := ⟨fuel - 1, by omega⟩
  rcases Next_begin t hi with ⟨h1, h2⟩ | ⟨x, R, c, h1, h2, h3⟩
  · simp only [nextLoop, drain, h2, h1]
    simp [Iterator.End, Tree.Iterator]
  · rw [h1] at hf
    obtain ⟨ih1, ih2⟩ := nextLoop_between hc hm hs R c x [] [x.Key] n h3 (by simp at hf; omega)
    simp only [nextLoop, drain, h2, Iterator.Key, Option.map_some', List.nil_append, ih1, ih2,
      h1]
    simp [Iterator.End, Tree.Iterator]

end order
end btree

namespace btree
variable {K V : Type}

/-! ## One step of the iterator, backward -/

theorem flatCE_snoc (ca : List (Node K V)) (ea : List (Entry K V)) (w : Entry K V)
    (h : ca.length = ea.length + 1) : flatCE ca (ea ++ [w]) = inter ea ca ++ [w] := by
  rcases List.eq_nil_or_concat ca with h0 | ⟨ca0, c, h1⟩
  · subst h0; simp at h
  · have h2 : ca = ca0 ++ [c] := by simpa using h1
    subst h2
    have hl : ea.length = ca0.length := by simpa using h.symm
    rw [flatCE_append ca0 ea c w hl, inter_eq_flatCE ea ca0 c hl]
    simp

/-- The part after the entry is determined by the entry and the part before it. -/
theorem ItState.step_right {m : Int} {T L R L' R' : List (Entry K V)} {c c' : Cursor K V}
    {x w : Entry K V} (h1 : ItState m T c x L R) (h2 : ItState m T c' w L' R')
    (hL : L = L' ++ [w]) : R' = x :: R := by
  have e1 := h1.total
  have e2 := h2.total
  rw [e1, hL] at e2
  have e3 : L' ++ w :: x :: R = L' ++ w :: R' := by simpa using e2
  have e4 := List.append_cancel_left e3
  simp only [List.cons.injEq, true_and] at e4
  exact e4.symm

section order
variable [LinearOrder K]

/-- The climb of `Prev()` from a subtree whose entries are used up: it ends the iteration
when nothing precedes the subtree, and otherwise stops at the ancestor holding the entry
that precedes. -/
theorem climbPrev_spec {cmp : K → K → Int} (hc : LawfulCmp cmp) {m : Int}
    {T : List (Entry K V)} (hsT : SortedE T) {x : Entry K V}
    {h : Nat} {up : List (Frame K V)} (hp : PathWF m h up) :
    ∀ (node : Node K V), Shape m (loBound m up) (maxEntries m) h node → Coherent node up →
      ctxL up ++ (flatten node ++ ctxR up) = T → x ∈ flatten node →
      (ctxL up = [] ∧ climbPrev cmp x.Key up = some none) ∨
      ∃ w L' c' R', ctxL up = L' ++ [w] ∧ climbPrev cmp x.Key up = some (some (c', w)) ∧
        ItState m T c' w L' R' := by
  induction hp with
  | nil h => intro node _ _ _ _; exact Or.inl ⟨rfl, rfl⟩
  | @cons h ea eb ca cb c0 rest ha hb hca hcb hmax hlo1 hlo2 hrest ih =>
    intro node hsh hco hT hx
    obtain ⟨hget, hco'⟩ := hco
    simp only [Node.Children] at hget hco'
    rw [getIdx_at rfl] at hget
    simp only [Option.some.injEq] at hget
    subst hget
    have hwf : WF m h c0 := wf_iff_shape.2 hsh
    have hP := shape_parent ha hb hca hcb hmax hlo1 hlo2 hwf
    have hTs := hsT
    rw [← hT] at hTs
    have hlt : ∀ e ∈ ea, e.Key < x.Key := by
      intro e he
      have he' : e ∈ ctxL (⟨.mk (ea ++ eb) (ca ++ c0 :: cb), (ca.length : Int)⟩ :: rest) := by
        simp only [ctxL, before_split ea eb ca cb c0 ha, List.mem_append]
        exact Or.inr (mem_flatCE_of_mem ha he)
      exact hTs.lt he' (List.mem_append_left _ hx)
    have hgt : ∀ e ∈ eb, x.Key < e.Key := by
      intro e he
      have he' : e ∈ ctxR (⟨.mk (ea ++ eb) (ca ++ c0 :: cb), (ca.length : Int)⟩ :: rest) := by
        simp only [ctxR, after_split ea eb ca cb c0 ha, List.mem_append]
        exact Or.inl (mem_flatEC_of_mem hb he)
      exact hTs.right.lt hx he'
    have hsearch := search_absent cmp x.Key ea eb (ca ++ c0 :: cb)
      (fun e he => cmp_pos_of_lt hc (hlt e he)) (fun e he => cmp_neg_of_lt hc (hgt e he))
    have hT' : ctxL rest ++ (flatten (.mk (ea ++ eb) (ca ++ c0 :: cb)) ++ ctxR rest) = T := by
      rw [← ctx_cons ea eb ca cb c0 c0 rest ha hb, hT]
    have hxP : x ∈ flatten (Node.mk (ea ++ eb) (ca ++ c0 :: cb)) := by
      rw [flatten_one ea eb ca cb c0 ha hb]
      simp [hx]
    have hbefore := before_split ea eb ca cb c0 ha
    rcases List.eq_nil_or_concat ea with h0 | ⟨ea', w, h1⟩
    · subst h0
      have hca0 : ca = [] := List.length_eq_zero.1 ha.symm
      subst hca0
      have hcl : climbPrev cmp x.Key
          (⟨.mk ([] ++ eb) ([] ++ c0 :: cb), (([] : List (Node K V)).length : Int)⟩ :: rest)
          = climbPrev cmp x.Key rest := by
        simp only [climbPrev, hsearch]
        rw [if_neg (by simp)]
      have hb0 : ctxL (⟨.mk ([] ++ eb) ([] ++ c0 :: cb),
          (([] : List (Node K V)).length : Int)⟩ :: rest) = ctxL rest := by
        simp only [ctxL]
        rw [hbefore]
        simp [flatCE]
      rw [hb0, hcl]
      exact ih _ hP hco' hT' hxP
    · have h2 : ea = ea' ++ [w] := by simpa using h1
      subst h2
      have hk : ca.length = ea'.length + 1 := by simpa using ha.symm
      refine Or.inr ⟨w, ctxL rest ++ inter ea' ca,
        ⟨.mk (ea' ++ [w] ++ eb) (ca ++ c0 :: cb), rest⟩, inter eb (c0 :: cb) ++ ctxR rest,
        ?_, ?_, ?_⟩
      · simp only [ctxL]
        rw [hbefore, flatCE_snoc ca ea' w hk]
        simp
      · simp only [climbPrev, hsearch]
        rw [if_pos (by simp)]
        have : getIdx (ea' ++ [w] ++ eb) (((ea' ++ [w]).length : Int) - 1) = some w := by
          have e1 : ea' ++ [w] ++ eb = ea' ++ w :: eb := by simp
          rw [e1]
          exact getIdx_at (by simp)
        simp only [Node.Entries, this, Option.map_some']
      · exact ⟨h + 1, ea', eb, ca, c0 :: cb, by simp, Or.inr hk, hrest, hP, hco', hT', rfl, rfl⟩

end order
end btree

namespace btree
variable {K V : Type}

section order
variable [LinearOrder K]

/-- One `Prev()` in position `between`: it ends the iteration when no entry precedes, and
otherwise moves to the entry that precedes in in-order. -/
theorem prevBetween_spec {cmp : K → K → Int} (hc : LawfulCmp cmp) {m : Int} (hm : 3 ≤ m)
    {T L R : List (Entry K V)} (hsT : SortedE T) {c : Cursor K V} {x : Entry K V}
    (hst : ItState m T c x L R) :
    (L = [] ∧ prevBetween cmp c x = some none) ∨
      ∃ w L' c', L = L' ++ [w] ∧ prevBetween cmp c x = some (some (c', w)) ∧
        ItState m T c' w L' (x :: R) := by
  have hst0 := hst
  obtain ⟨h, a, b, ca, cb, hn, hk, hpw, hsh, hco, hT, hL, hR⟩ := hst
  obtain ⟨node, up⟩ := c
  simp only at hn hpw hsh hco hT hL hR
  subst hn
  have hTs := hsT
  rw [← hT] at hTs
  have hsn : SortedE (flatten (Node.mk (a ++ x :: b) (ca ++ cb))) := hTs.right.left
  have hse : SortedE (a ++ x :: b) := by rw [flatten_mk] at hsn; exact hsn.entries
  have hsearch := search_at_entry hc a b x (ca ++ cb) hse
  -- every outcome is turned into the statement by this
  have hfin : ∀ w L' c' R', L = L' ++ [w] → prevBetween cmp ⟨.mk (a ++ x :: b) (ca ++ cb), up⟩ x
        = some (some (c', w)) → ItState m T c' w L' R' →
      ∃ w L' c', L = L' ++ [w] ∧
        prevBetween cmp ⟨.mk (a ++ x :: b) (ca ++ cb), up⟩ x = some (some (c', w)) ∧
        ItState m T c' w L' (x :: R) := by
    intro w L' c' R' hLw hnb hst'
    have := ItState.step_right hst0 hst' hLw
    subst this
    exact ⟨w, L', c', hLw, hnb, hst'⟩
  rcases hk with ⟨rfl, rfl⟩ | hk
  · -- a leaf
    have hnc : ¬ ((a.length : Int) < ((([] : List (Node K V)) ++ []).length : Int)) := by
      simp
    rcases List.eq_nil_or_concat a with h0 | ⟨a', w, h1⟩
    · subst h0
      have hx : x ∈ flatten (Node.mk ([] ++ x :: b) (([] : List (Node K V)) ++ [])) := by simp
      have hnb : prevBetween cmp ⟨.mk ([] ++ x :: b) ([] ++ []), up⟩ x
          = climbPrev cmp x.Key up := by
        simp only [prevBetween, hsearch, Node.Children, Node.Entries]
        rw [if_neg hnc, if_neg (by simp)]
      have hL' : L = ctxL up := by simp [hL]
      rcases climbPrev_spec hc hsT hpw _ hsh hco hT hx with
        ⟨h1, h2⟩ | ⟨w, L', c', R', h1, h2, h3⟩
      · exact Or.inl ⟨by rw [hL', h1], by rw [hnb, h2]⟩
      · exact Or.inr (hfin w L' c' R' (by rw [hL', h1]) (by rw [hnb, h2]) h3)
    · have h2 : a = a' ++ [w] := by simpa using h1
      subst h2
      right
      refine hfin w (ctxL up ++ inter a' []) ⟨.mk (a' ++ [w] ++ x :: b) ([] ++ []), up⟩
        (inter (x :: b) [] ++ ctxR up) (by simp [hL]) ?_
        ⟨h, a', x :: b, [], [], by simp, Or.inl ⟨rfl, rfl⟩, hpw, hsh, hco, hT, rfl, rfl⟩
      simp only [prevBetween, hsearch, Node.Children, Node.Entries]
      rw [if_neg hnc, if_pos (by simp)]
      have : getIdx (a' ++ [w] ++ x :: b) (((a' ++ [w]).length : Int) - 1) = some w := by
        have e1 : a' ++ [w] ++ x :: b = a' ++ w :: x :: b := by simp
        rw [e1]
        exact getIdx_at (by simp)
      rw [this]
      rfl
  · -- an internal node
    obtain ⟨hlo, hhi, hch⟩ := hsh
    cases h with
    | zero =>
      simp only [Node.Children] at hch
      have : ca = [] := (List.append_eq_nil.1 hch).1
      subst this
      simp at hk
    | succ h' =>
      obtain ⟨hcnt, hall⟩ := hch
      simp only [Node.Children, Node.Entries] at hcnt hall hlo hhi
      have hcbl : cb.length = b.length + 1 := by
        simp only [List.length_append, List.length_cons] at hcnt
        omega
      obtain ⟨ca0, cl, rfl⟩ : ∃ ca0 cl, ca = ca0 ++ [cl] := by
        rcases List.eq_nil_or_concat ca with h0 | ⟨ca0, cl, h1⟩
        · subst h0; simp at hk
        · exact ⟨ca0, cl, by simpa using h1⟩
      have hea : a.length = ca0.length := by simpa using hk.symm
      have heb : (x :: b).length = cb.length := by simp [hcbl]
      have hidx : (a.length : Int) = (ca0.length : Int) := by rw [hea]
      have hnode : Node.mk (a ++ x :: b) (ca0 ++ [cl] ++ cb)
          = Node.mk (a ++ x :: b) (ca0 ++ cl :: cb) := by simp
      have hcw : WF m h' cl := hall cl (by simp)
      obtain ⟨les, pred, below, hleaf, hfl, hcr, hrl⟩ := rightLeaf_spec hm h' cl hcw
      obtain ⟨hll, hlpw, hlco⟩ :=
        hrl (⟨.mk (a ++ x :: b) (ca0 ++ cl :: cb), (ca0.length : Int)⟩ :: up)
      have hpw' : PathWF m h'
          (⟨.mk (a ++ x :: b) (ca0 ++ cl :: cb), (ca0.length : Int)⟩ :: up) := by
        refine PathWF.cons hea heb (fun c hc' => hall c (by simp [hc']))
          (fun c hc' => hall c (by simp [hc'])) (by simpa using hhi)
          (fun _ => by simp only [List.length_append, List.length_cons]; omega)
          (fun hne => ?_) hpw
        cases up with
        | nil => exact absurd rfl hne
        | cons f rest => simpa [loBound] using hlo
      have hco' : Coherent cl
          (⟨.mk (a ++ x :: b) (ca0 ++ cl :: cb), (ca0.length : Int)⟩ :: up) := by
        refine ⟨getIdx_at rfl, ?_⟩
        rw [← hnode]; exact hco
      have hT' : ctxL (below ++
          ⟨.mk (a ++ x :: b) (ca0 ++ cl :: cb), (ca0.length : Int)⟩ :: up) ++
          (flatten (.mk (les ++ [pred]) []) ++ ctxR (below ++
          ⟨.mk (a ++ x :: b) (ca0 ++ cl :: cb), (ca0.length : Int)⟩ :: up)) = T := by
        rw [ctxL_append, ctxR_append, hcr, ← hT, hnode,
          ← ctx_cons a (x :: b) ca0 cb cl cl up hea heb, hfl]
        simp
      have hbefore := before_split a (x :: b) ca0 cb cl hea
      right
      refine hfin pred (ctxL (below ++
          ⟨.mk (a ++ x :: b) (ca0 ++ cl :: cb), (ca0.length : Int)⟩ :: up) ++ inter les [])
        ⟨.mk (les ++ [pred]) [], below ++
          ⟨.mk (a ++ x :: b) (ca0 ++ cl :: cb), (ca0.length : Int)⟩ :: up⟩
        (inter [] [] ++ ctxR (below ++
          ⟨.mk (a ++ x :: b) (ca0 ++ cl :: cb), (ca0.length : Int)⟩ :: up))
        ?_ ?_
        ⟨0, les, [], [], [], by simp, Or.inl ⟨rfl, rfl⟩, hlpw hpw', ?_, hlco hco', hT', rfl,
          rfl⟩
      · rw [hL, inter_eq_flatCE a ca0 cl hea, hfl, ctxL_append]
        simp only [ctxL]
        rw [hbefore]
        simp
      · have hlt : (a.length : Int) < ((ca0 ++ [cl] ++ cb).length : Int) := by
          simp only [List.length_append, List.length_cons, List.length_nil]
          push_cast
          omega
        simp only [prevBetween, hsearch, Node.Children, Node.Entries]
        have hcs : ca0 ++ [cl] ++ cb = ca0 ++ cl :: cb := by simp
        rw [if_pos hlt]
        simp only [hcs]
        try rw [hidx]
        rw [getIdx_at rfl]
        simp only []
        rw [hll]
        simp only [Node.Entries]
        rw [getIdx_last les pred rfl]
        rfl
      · simp only [loBound_append]
        exact wf_iff_shape.1 hleaf

end order
end btree

namespace btree
variable {K V : Type}

section order
variable [LinearOrder K]

/-- `Prev()` in position `between`. -/
theorem Prev_between {t : Tree K V} (hc : LawfulCmp t.Comparator) {m : Int} (hm : 3 ≤ m)
    {T L R : List (Entry K V)} (hsT : SortedE T) {c : Cursor K V} {x : Entry K V}
    (hst : ItState m T c x L R) :
    (L = [] ∧ (⟨t, some c, some x, .between⟩ : Iterator K V).Prev
        = some (⟨t, none, none, .begin⟩, false)) ∨
      ∃ w L' c', L = L' ++ [w] ∧ (⟨t, some c, some x, .between⟩ : Iterator K V).Prev
          = some (⟨t, some c', some w, .between⟩, true) ∧
        ItState m T c' w L' (x :: R) := by
  rcases prevBetween_spec hc hm hsT hst with ⟨h1, h2⟩ | ⟨w, L', c', h1, h2, h3⟩
  · exact Or.inl ⟨h1, by simp [Iterator.Prev, h2, Iterator.Begin]⟩
  · exact Or.inr ⟨w, L', c', h1, by simp [Iterator.Prev, h2], h3⟩

/-- `Prev()` on an iterator at the end of a well-formed tree: it ends the iteration on the
empty tree and otherwise stands on the last entry. -/
theorem Prev_end (t : Tree K V) (hi : t.Inv) :
    (t.entries = [] ∧ t.Iterator.End.Prev = some (⟨t, none, none, .begin⟩, false)) ∨
      ∃ x L c, t.entries = L ++ [x] ∧
        t.Iterator.End.Prev = some (⟨t, some c, some x, .between⟩, true) ∧
        ItState t.m t.entries c x L [] := by
  obtain ⟨hm, hsize, hroot⟩ := hi
  obtain ⟨hmax, hmin1, -⟩ := order_facts hm
  cases hr : t.Root with
  | none =>
    left
    simp [Tree.entries, hr] at hsize
    simp [Tree.entries, hr, Iterator.Prev, Tree.Iterator, Tree.Right, Tree.Empty, hsize,
      Iterator.End, Iterator.Begin]
  | some root =>
    right
    rw [hr] at hroot
    obtain ⟨⟨h, hsh⟩, hs⟩ := hroot
    have hne : t.Empty = false := tree_nonempty hr hsize hsh
    have hent : t.entries = flatten root := by simp [Tree.entries, hr]
    have hst : ∃ x L leaf up, flatten root = L ++ [x] ∧ rightLeaf root [] = some (leaf, up) ∧
        getIdx leaf.Entries ((leaf.Entries.length : Int) - 1) = some x ∧
        ItState t.m (flatten root) ⟨leaf, up⟩ x L [] := by
      obtain ⟨es, cs⟩ := root
      obtain ⟨hlo, hhi, hch⟩ := hsh
      simp only [Node.Entries] at hlo hhi
      cases h with
      | zero =>
        simp only [Node.Children] at hch
        subst hch
        rcases List.eq_nil_or_concat es with h0 | ⟨les, x, h1⟩
        · subst h0; simp at hlo
        · have h2 : es = les ++ [x] := by simpa using h1
          subst h2
          refine ⟨x, les, .mk (les ++ [x]) [], [], by simp,
            by simp [rightLeaf, isLeaf, Node.Children], getIdx_last les x rfl, 0, les, [], [],
            [], rfl, Or.inl ⟨rfl, rfl⟩, PathWF.nil 0, ⟨hlo, hhi, rfl⟩, trivial,
            by simp [ctxL, ctxR], by simp [ctxL], by simp [ctxR]⟩
      | succ h' =>
        obtain ⟨hcnt, hall⟩ := hch
        simp only [Node.Children, Node.Entries] at hcnt hall
        rcases List.eq_nil_or_concat cs with h0 | ⟨cs0, last, h1⟩
        · subst h0; simp at hcnt
        · have h2 : cs = cs0 ++ [last] := by simpa using h1
          subst h2
          have hlen : es.length = cs0.length := by simpa using hcnt.symm
          obtain ⟨les, pred, below, hleaf, hfl, hcr, hrl⟩ :=
            rightLeaf_spec hm h' last (hall last (by simp))
          obtain ⟨hll, hlpw, hlco⟩ :=
            hrl [⟨.mk (es ++ []) (cs0 ++ last :: []), (cs0.length : Int)⟩]
          have hb := before_split es [] cs0 [] last hlen
          have ha := after_split es [] cs0 [] last hlen
          have hpw : PathWF t.m h' [⟨.mk (es ++ []) (cs0 ++ last :: []), (cs0.length : Int)⟩] :=
            @PathWF.cons K V t.m h' es [] cs0 [] last []
              hlen rfl (fun c hc => hall c (by simp [hc])) (by simp) (by simpa using hhi)
              (fun _ => by simp; omega) (fun hne => absurd rfl hne) (PathWF.nil _)
          have hco : Coherent last
              [⟨.mk (es ++ []) (cs0 ++ last :: []), (cs0.length : Int)⟩] :=
            ⟨getIdx_at rfl, trivial⟩
          have hcr' : ctxR (below ++
              [⟨.mk (es ++ []) (cs0 ++ last :: []), (cs0.length : Int)⟩]) = [] := by
            rw [ctxR_append, hcr]
            simp only [ctxR]
            rw [ha]
            simp [flatEC]
          have hfr : flatten (Node.mk es (cs0 ++ [last]))
              = (ctxL (below ++
                  [⟨.mk (es ++ []) (cs0 ++ last :: []), (cs0.length : Int)⟩]) ++ les)
                ++ [pred] := by
            rw [flatten_mk, inter_eq_flatCE es cs0 last hlen, hfl, ctxL_append]
            simp only [ctxL]
            rw [hb]
            simp
          refine ⟨pred, ctxL (below ++
              [⟨.mk (es ++ []) (cs0 ++ last :: []), (cs0.length : Int)⟩]) ++ les,
            .mk (les ++ [pred]) [],
            below ++ [⟨.mk (es ++ []) (cs0 ++ last :: []), (cs0.length : Int)⟩], hfr, ?_,
            getIdx_last les pred rfl, 0, les, [], [], [], rfl, Or.inl ⟨rfl, rfl⟩,
            hlpw hpw, ?_, hlco hco, ?_, by simp, by rw [hcr']; simp⟩
          · have hnl : isLeaf (Node.mk es (cs0 ++ [last])) = false := by
              simp [isLeaf, Node.Children]
            have hf : (⟨.mk es (cs0 ++ [last]), ((cs0 ++ [last]).length : Int) - 1⟩ : Frame K V)
                = ⟨.mk (es ++ []) (cs0 ++ last :: []), (cs0.length : Int)⟩ := by
              simp
            rw [rightLeaf, hnl]
            simp only [Bool.false_eq_true, if_false]
            rw [rightLeafChild_last, hf, hll]
          · simp only [loBound_append]
            exact wf_iff_shape.1 hleaf
          · simp only [hcr', hfr]
            simp
    obtain ⟨x, L, leaf, up, h1, h2, h3, h4⟩ := hst
    refine ⟨x, L, ⟨leaf, up⟩, by rw [hent, h1], ?_, by rw [hent]; exact h4⟩
    simp [Iterator.Prev, Tree.Iterator, Iterator.End, Tree.Right, hne, hr, h2, h3]

/-- The loop `for it.Prev() { ... it.Key() }` between two entries collects the keys of the
entries that precede, nearest first, and stops. -/
theorem prevLoop_back {t : Tree K V} (hc : LawfulCmp t.Comparator) {m : Int} (hm : 3 ≤ m)
    {T : List (Entry K V)} (hsT : SortedE T) (n : Nat) :
    ∀ (L : List (Entry K V)) (c : Cursor K V) (x : Entry K V) (R : List (Entry K V))
      (acc : List K) (fuel : Nat), L.length = n → ItState m T c x L R → L.length < fuel →
      prevLoop fuel ⟨t, some c, some x, .between⟩ acc
        = some (acc ++ (L.map Entry.Key).reverse) := by
  induction n with
  | zero =>
    intro L c x R acc fuel hl hst hf
    obtain ⟨k, rfl⟩ : ∃ k, fuel = k + 1 := ⟨fuel - 1, by omega⟩
    have hL : L = [] := List.length_eq_zero.1 hl
    subst hL
    rcases Prev_between hc hm hsT hst with ⟨-, h2⟩ | ⟨w, L', c', h1, -, -⟩
    · simp [prevLoop, h2]
    · simp at h1
  | succ n ih =>
    intro L c x R acc fuel hl hst hf
    obtain ⟨k, rfl⟩ : ∃ k, fuel = k + 1 := ⟨fuel - 1, by omega⟩
    rcases Prev_between hc hm hsT hst with ⟨h1, -⟩ | ⟨w, L', c', h1, h2, h3⟩
    · subst h1; simp at hl
    · subst h1
      have hl' : L'.length = n := by simpa using hl
      have := ih L' c' w (x :: R) (acc ++ [w.Key]) k hl' h3 (by simp at hf; omega)
      simp only [prevLoop, h2, Iterator.Key, Option.map_some', this]
      simp

/-- Backward iteration from the end of a well-formed tree collects the keys in reversed
in-order. -/
theorem prevLoop_eq (t : Tree K V) (hc : LawfulCmp t.Comparator) (hi : t.Inv) (fuel : Nat)
    (hf : t.entries.length < fuel) :
    prevLoop fuel t.Iterator.End [] = some ((t.entries.map Entry.Key).reverse) := by
  have hs := inv_sorted hi
  have hm := hi.1
  obtain ⟨n, rfl⟩ : ∃ n, fuel = n + 1 := ⟨fuel - 1, by omega⟩
  rcases Prev_end t hi with ⟨h1, h2⟩ | ⟨x, L, c, h1, h2, h3⟩
  · simp only [prevLoop, h2, h1]
    simp
  · rw [h1] at hf
    have := prevLoop_back hc hm hs L.length L c x [] [x.Key] n rfl h3
      (by simp at hf; omega)
    simp only [prevLoop, h2, Iterator.Key, Option.map_some', List.nil_append, this, h1]
    simp

end order
end btree

namespace btree
variable {K V : Type}

/-! ## The claims about the B-tree -/

section order
variable [LinearOrder K]

/-- C3: `Remove` keeps the fanout property. On every B-tree of order at least 3 (keys in
ascending in-order, one child more than entries in an internal node, the count equal to the
number of entries) in which no node holds more than `maxEntries` entries, every node but the
root holds at least `minEntries` and all leaves are at the same depth, `Remove(key)`
completes for every key and the tree it leaves has the same order and again has every node
but the root within `minEntries` and `maxEntries`, no node above `maxEntries`, and all
leaves at one depth. -/
theorem btree_remove_preserves_fanout (t : Tree K V) (hc : LawfulCmp t.Comparator)
    (hi : t.Inv) (key : K) :
    Fanout t ∧ ∃ t', t.Remove key = some t' ∧ t'.m = t.m ∧ Fanout t' := by
  obtain ⟨t', h1, h2, -, h3, -, -⟩ := Remove_spec t hc hi key
  exact ⟨inv_fanout hi, t', h1, h3, inv_fanout h2⟩

theorem btree_remove_preserves_fanout_witness :
    LawfulCmp IntComparator ∧
      (⟨some (.mk [⟨20, 200⟩] [.mk [⟨10, 100⟩] [], .mk [⟨30, 300⟩] []]), IntComparator, 3, 3⟩ :
        Tree Int Int).Inv ∧
      (Fanout (⟨some (.mk [⟨20, 200⟩] [.mk [⟨10, 100⟩] [], .mk [⟨30, 300⟩] []]),
          IntComparator, 3, 3⟩ : Tree Int Int) ∧
        ∃ t', (⟨some (.mk [⟨20, 200⟩] [.mk [⟨10, 100⟩] [], .mk [⟨30, 300⟩] []]),
            IntComparator, 3, 3⟩ : Tree Int Int).Remove 10 = some t' ∧ t'.m = 3 ∧ Fanout t') :=
  have hi : (⟨some (.mk [⟨20, 200⟩] [.mk [⟨10, 100⟩] [], .mk [⟨30, 300⟩] []]),
      IntComparator, 3, 3⟩ : Tree Int Int).Inv := by
    refine ⟨by decide, by simp [Tree.entries, flatten, inter], ⟨1, ?_⟩, ?_⟩
    · simp [Shape, WF, Node.Entries, Node.Children, minEntries, maxEntries, minChildren,
        maxChildren]
      decide
    · simp [SortedE, flatten, inter]
  ⟨avltree.lawfulCmp_IntComparator, hi,
    btree_remove_preserves_fanout _ avltree.lawfulCmp_IntComparator hi 10⟩

/-- C4: `Put` keeps the fanout property. For every order at least 3 and every finite
sequence of `Put`s applied to an empty B-tree, the run completes and in the tree it leaves
no node holds more than `maxEntries` entries, every node but the root holds at least
`minEntries`, and all leaves are at the same depth. -/
theorem btree_put_preserves_fanout (m : Int) (hm : 3 ≤ m) (cmp : K → K → Int)
    (hc : LawfulCmp cmp) (ops : List (K × V)) :
    ∃ t0 t, NewWith m cmp = some t0 ∧ putAll t0 ops = some t ∧ t.m = m ∧ Fanout t := by
  obtain ⟨t0, h0, hi0, hm0, hc0, -⟩ := newWith_spec (V := V) m hm cmp
  obtain ⟨t, h1, hi1, hm1, -, -⟩ := putAll_inv ops t0 (by rw [hc0]; exact hc) hi0
  exact ⟨t0, t, h0, h1, by rw [hm1, hm0], inv_fanout hi1⟩

theorem btree_put_preserves_fanout_witness :
    (3 : Int) ≤ 3 ∧ LawfulCmp IntComparator ∧
      ∃ t0 t, NewWith 3 IntComparator = some t0 ∧
        putAll t0 [((10 : Int), (100 : Int)), (20, 200), (30, 300), (40, 400), (50, 500)]
          = some t ∧ t.m = 3 ∧ Fanout t :=
  ⟨by decide, avltree.lawfulCmp_IntComparator,
    btree_put_preserves_fanout 3 (by decide) IntComparator avltree.lawfulCmp_IntComparator _⟩

/-- C5: the search-tree shape. For every order at least 3 and every finite sequence of
`Put`s and `Remove`s applied to an empty B-tree, the run completes and in the tree it leaves
every node has its entries in strictly ascending comparator order, has no children or one
child more than entries, and has below child `i` only keys strictly greater than the key of
entry `i - 1` and strictly less than the key of entry `i`. -/
theorem btree_search_tree_shape (m : Int) (hm : 3 ≤ m) (cmp : K → K → Int)
    (hc : LawfulCmp cmp) (ops : List (Op K V)) :
    ∃ t0 t, NewWith m cmp = some t0 ∧ runOps t0 ops = some t ∧
      ∀ r, t.Root = some r → searchShape cmp r := by
  obtain ⟨t0, h0, hi0, hm0, hc0, -⟩ := newWith_spec (V := V) m hm cmp
  obtain ⟨t, h1, hi1, -, -⟩ := runOps_spec ops t0 (by rw [hc0]; exact hc) hi0
  refine ⟨t0, t, h0, h1, ?_⟩
  intro r hr
  obtain ⟨-, -, hroot⟩ := hi1
  rw [hr] at hroot
  obtain ⟨⟨h, hsh⟩, hs⟩ := hroot
  exact searchShape_of_sorted hc h r _ _ hsh hs

theorem btree_search_tree_shape_witness :
    (3 : Int) ≤ 3 ∧ LawfulCmp IntComparator ∧
      ∃ t0 t, NewWith 3 IntComparator = some t0 ∧
        runOps t0 [Op.put (10 : Int) (100 : Int), .put 20 200, .put 30 300, .remove 20,
          .put 40 400] = some t ∧
        ∀ r, t.Root = some r → searchShape IntComparator r :=
  ⟨by decide, avltree.lawfulCmp_IntComparator,
    btree_search_tree_shape 3 (by decide) IntComparator avltree.lawfulCmp_IntComparator _⟩

/-- C7: `Put` and `Get` as map operations. For every order at least 3, every B-tree built
from empty by `Put`s, every key `k` and value `v`: `Put(k, v)` completes, afterwards
`Get(k)` is `(v, true)` and `Get(k')` returns what it returned before for every other key
`k'`; when `k` was present, the tree keeps its nodes, keys and links and its count, so only
the value stored under `k` changes. -/
theorem btree_put_get (m : Int) (hm : 3 ≤ m) (cmp : K → K → Int) (hc : LawfulCmp cmp)
    (ops : List (K × V)) (k : K) (v : V) :
    ∃ t0 t t', NewWith m cmp = some t0 ∧ putAll t0 ops = some t ∧ t.Put k v = some t' ∧
      t'.Get k = some (some v) ∧ (∀ k', k' ≠ k → t'.Get k' = t.Get k') ∧
      (k ∈ t.entries.map Entry.Key →
        t'.Root.map keysOnly = t.Root.map keysOnly ∧ t'.Size = t.Size) := by
  obtain ⟨t0, h0, hi0, hm0, hc0, -⟩ := newWith_spec (V := V) m hm cmp
  have hc0' : LawfulCmp t0.Comparator := by rw [hc0]; exact hc
  obtain ⟨t, h1, hi1, -, hc1, -⟩ := putAll_inv ops t0 hc0' hi0
  have hc1' : LawfulCmp t.Comparator := by rw [hc1]; exact hc0'
  obtain ⟨t', h2, hi2, he2, -, hc2, -⟩ := Put_spec t hc1' hi1 k v
  have hc2' : LawfulCmp t'.Comparator := by rw [hc2]; exact hc1'
  have hs := inv_sorted hi1
  refine ⟨t0, t, t', h0, h1, h2, ?_, ?_, ?_⟩
  · rw [Get_spec t' hc2' hi2, he2]
    exact congrArg some (lookupE_insertE_self ⟨k, v⟩ t.entries hs)
  · intro k' hne
    rw [Get_spec t' hc2' hi2, Get_spec t hc1' hi1, he2]
    exact congrArg some (lookupE_insertE_ne ⟨k, v⟩ t.entries hs k' hne)
  · intro hk
    obtain ⟨e0, he0, hk0⟩ := List.mem_map.1 hk
    obtain ⟨-, -, hroot⟩ := hi1
    cases hr : t.Root with
    | none => simp [Tree.entries, hr] at he0
    | some r =>
      rw [hr] at hroot
      obtain ⟨⟨h, hsh⟩, hsr⟩ := hroot
      have he0' : e0 ∈ flatten r := by simpa [Tree.entries, hr] using he0
      obtain ⟨r', hkr, hins⟩ := insert_present hc1' (m := t.m) ⟨k, v⟩ h r _ _ hsh hsr
        ⟨e0, he0', hk0⟩
      have hput : t.Put k v = some { t with Root := some r', size := t.size } := by
        simp [Tree.Put, hr, hins [], plug]
      rw [hput] at h2
      simp only [Option.some.injEq] at h2
      subst h2
      exact ⟨by simp [hkr], rfl⟩

theorem btree_put_get_witness :
    (3 : Int) ≤ 3 ∧ LawfulCmp IntComparator ∧
      ∃ t0 t t', NewWith 3 IntComparator = some t0 ∧
        putAll t0 [((10 : Int), (100 : Int)), (20, 200), (30, 300), (40, 400), (50, 500)]
          = some t ∧ t.Put 20 201 = some t' ∧
        t'.Get 20 = some (some 201) ∧ (∀ k', k' ≠ 20 → t'.Get k' = t.Get k') ∧
        (20 ∈ t.entries.map Entry.Key →
          t'.Root.map keysOnly = t.Root.map keysOnly ∧ t'.Size = t.Size) :=
  ⟨by decide, avltree.lawfulCmp_IntComparator,
    btree_put_get 3 (by decide) IntComparator avltree.lawfulCmp_IntComparator _ 20 201⟩

/-- C8: `Remove` as a map operation. For every order at least 3, every B-tree built from
empty by `Put`s and `Remove`s and every key `k`, `Remove(k)` completes, afterwards `Get(k)`
reports not-found and `Get(k')` returns what it returned before for every other key `k'`
(so every other present key keeps its value), wherever `k` was stored and whatever repair
the removal needed; the tree left is again a well-formed B-tree. -/
theorem btree_remove_semantics (m : Int) (hm : 3 ≤ m) (cmp : K → K → Int)
    (hc : LawfulCmp cmp) (ops : List (Op K V)) (k : K) :
    ∃ t0 t t', NewWith m cmp = some t0 ∧ runOps t0 ops = some t ∧ t.Remove k = some t' ∧
      t'.Get k = some none ∧ (∀ k', k' ≠ k → t'.Get k' = t.Get k') ∧ t'.Inv := by
  obtain ⟨t0, h0, hi0, hm0, hc0, -⟩ := newWith_spec (V := V) m hm cmp
  have hc0' : LawfulCmp t0.Comparator := by rw [hc0]; exact hc
  obtain ⟨t, h1, hi1, -, hc1⟩ := runOps_spec ops t0 hc0' hi0
  have hc1' : LawfulCmp t.Comparator := by rw [hc1]; exact hc0'
  obtain ⟨t', h2, hi2, he2, -, hc2, -⟩ := Remove_spec t hc1' hi1 k
  have hc2' : LawfulCmp t'.Comparator := by rw [hc2]; exact hc1'
  refine ⟨t0, t, t', h0, h1, h2, ?_, ?_, hi2⟩
  · rw [Get_spec t' hc2' hi2, he2, lookupE_filter_self (inv_sorted hi1)]
  · intro k' hne
    rw [Get_spec t' hc2' hi2, Get_spec t hc1' hi1, he2, lookupE_filter_ne (inv_sorted hi1) hne]

theorem btree_remove_semantics_witness :
    (3 : Int) ≤ 3 ∧ LawfulCmp IntComparator ∧
      ∃ t0 t t', NewWith 3 IntComparator = some t0 ∧
        runOps t0 [Op.put (10 : Int) (100 : Int), .put 20 200, .put 30 300, .put 40 400,
          .put 50 500] = some t ∧
        t.Remove 10 = some t' ∧ t'.Get 10 = some none ∧ t'.Get 20 = some (some 200) ∧
        t'.Get 30 = some (some 300) ∧ t'.Get 40 = some (some 400) ∧
        t'.Get 50 = some (some 500) := by
  obtain ⟨t0, t, t', h0, h1, h2, h3, h4, -⟩ :=
    btree_remove_semantics 3 (by decide) IntComparator avltree.lawfulCmp_IntComparator
      [Op.put (10 : Int) (100 : Int), .put 20 200, .put 30 300, .put 40 400, .put 50 500] 10
  have e := five_puts
  simp only [h0, Option.some_bind, h1, Option.some.injEq] at e
  subst e
  exact ⟨by decide, avltree.lawfulCmp_IntComparator, t0, _, t', h0, h1, h2, h3,
    (h4 20 (by decide)).trans (by rfl), (h4 30 (by decide)).trans (by rfl),
    (h4 40 (by decide)).trans (by rfl), (h4 50 (by decide)).trans (by rfl)⟩

/-- C15: the count. For every order at least 3 and every finite sequence of `Put`s and
`Remove`s applied to an empty B-tree, the run completes and `Size()` is the total number of
entries held by the nodes of the tree, whose keys are pairwise distinct and are exactly the
keys that `Get` finds; a `Put` of a key that is present and a `Remove` of a key that is
absent complete and leave `Size()` as it was. -/
theorem btree_size (m : Int) (hm : 3 ≤ m) (cmp : K → K → Int) (hc : LawfulCmp cmp)
    (ops : List (Op K V)) :
    ∃ t0 t, NewWith m cmp = some t0 ∧ runOps t0 ops = some t ∧
      t.Size = (t.entries.length : Int) ∧ (t.entries.map Entry.Key).Nodup ∧
      (∀ k, k ∈ t.entries.map Entry.Key ↔ ∃ v, t.Get k = some (some v)) ∧
      (∀ k v, k ∈ t.entries.map Entry.Key → ∃ t', t.Put k v = some t' ∧ t'.Size = t.Size) ∧
      (∀ k, k ∉ t.entries.map Entry.Key → ∃ t', t.Remove k = some t' ∧ t'.Size = t.Size) := by
  obtain ⟨t0, h0, hi0, hm0, hc0, -⟩ := newWith_spec (V := V) m hm cmp
  have hc0' : LawfulCmp t0.Comparator := by rw [hc0]; exact hc
  obtain ⟨t, h1, hi1, -, hc1⟩ := runOps_spec ops t0 hc0' hi0
  have hc1' : LawfulCmp t.Comparator := by rw [hc1]; exact hc0'
  have hs := inv_sorted hi1
  refine ⟨t0, t, h0, h1, hi1.2.1, ?_, ?_, ?_, ?_⟩
  · have : (t.entries.map Entry.Key).Pairwise (· < ·) := List.pairwise_map.2 hs
    exact this.imp ne_of_lt
  · intro k
    rw [Get_spec t hc1' hi1]
    simp only [Option.some.injEq, lookupE_eq_some_iff hs, List.mem_map]
    constructor
    · rintro ⟨e, he, hk⟩
      exact ⟨e.Value, e, he, hk, rfl⟩
    · rintro ⟨v, e, he, hk, -⟩
      exact ⟨e, he, hk⟩
  · intro k v hk
    obtain ⟨t', h2, hi2, he2, -, -, -⟩ := Put_spec t hc1' hi1 k v
    refine ⟨t', h2, ?_⟩
    have h3 := hi2.2.1
    have h4 := hi1.2.1
    have h5 := length_insertE ⟨k, v⟩ t.entries hs
    have h6 : ¬ ∀ e ∈ t.entries, e.Key ≠ k := by
      intro hall
      obtain ⟨e, he, hek⟩ := List.mem_map.1 hk
      exact hall e he hek
    rw [if_neg h6] at h5
    simp only [Tree.Size]
    rw [h3, he2, h5, h4]
    simp
  · intro k hk
    obtain ⟨t', h2, -, -, -, -, hsame⟩ := Remove_spec t hc1' hi1 k
    refine ⟨t', h2, ?_⟩
    rw [hsame fun e he hek => hk (List.mem_map.2 ⟨e, he, hek⟩)]

theorem btree_size_witness :
    (3 : Int) ≤ 3 ∧ LawfulCmp IntComparator ∧
      ∃ t0 t, NewWith 3 IntComparator = some t0 ∧
        runOps t0 [Op.put (10 : Int) (100 : Int), .put 20 200, .put 10 101, .remove 30,
          .put 30 300, .remove 20] = some t ∧
        t.Size = (t.entries.length : Int) ∧ (t.entries.map Entry.Key).Nodup ∧
        (∀ k, k ∈ t.entries.map Entry.Key ↔ ∃ v, t.Get k = some (some v)) ∧
        (∀ k v, k ∈ t.entries.map Entry.Key → ∃ t', t.Put k v = some t' ∧ t'.Size = t.Size) ∧
        (∀ k, k ∉ t.entries.map Entry.Key →
          ∃ t', t.Remove k = some t' ∧ t'.Size = t.Size) :=
  ⟨by decide, avltree.lawfulCmp_IntComparator,
    btree_size 3 (by decide) IntComparator avltree.lawfulCmp_IntComparator _⟩

end order

/-- C20: `NewWith(order, comparator)` panics exactly when the order is below 3; otherwise
it returns a tree without root, of size 0, with the given order and comparator. -/
theorem btree_newWith_order (order : Int) (cmp : K → K → Int) :
    ((NewWith order cmp : Option (Tree K V)) = none ↔ order < 3) ∧
      ∀ t : Tree K V, NewWith order cmp = some t →
        t.Root = none ∧ t.Size = 0 ∧ t.Empty = true ∧ t.m = order ∧ t.Comparator = cmp := by
  unfold NewWith
  by_cases h : order < 3
  · simp [h]
  · simp only [h, if_false, false_iff, not_false_eq_true, Option.some.injEq, true_and,
      reduceCtorEq]
    rintro t rfl
    exact ⟨rfl, rfl, rfl, rfl, rfl⟩

end btree

namespace btree
variable {K V : Type}

section order
variable [LinearOrder K]

/-- C11: forward iteration. For every order at least 3 and every finite sequence of `Put`s
applied to an empty B-tree, the run completes, and both `Keys()` and the loop that calls
`Next()` on a fresh iterator until it answers false (reading `Key()` after each call) stop
as soon as the iteration bound exceeds the number of keys and yield the same sequence: it is
strictly ascending, without repetition, and its members are exactly the keys that were
put. -/
theorem btree_forward_iteration (m : Int) (hm : 3 ≤ m) (cmp : K → K → Int)
    (hc : LawfulCmp cmp) (ops : List (K × V)) :
    ∃ (t0 t : Tree K V) (ks : List K), NewWith m cmp = some t0 ∧ putAll t0 ops = some t ∧
      (∀ fuel, ks.length < fuel → t.Keys fuel = some (ks.map some)) ∧
      (∀ fuel, ks.length < fuel → nextLoop fuel t.Iterator [] = some ks) ∧
      ks.Sorted (· < ·) ∧ ks.Nodup ∧ ∀ k, k ∈ ks ↔ k ∈ ops.map Prod.fst := by
  obtain ⟨t0, h0, hi0, hm0, hc0, he0⟩ := newWith_spec (V := V) m hm cmp
  have hc0' : LawfulCmp t0.Comparator := by rw [hc0]; exact hc
  obtain ⟨t, h1, hi1, -, hc1, hk⟩ := putAll_inv ops t0 hc0' hi0
  have hc1' : LawfulCmp t.Comparator := by rw [hc1]; exact hc0'
  have hs : (t.entries.map Entry.Key).Sorted (· < ·) := List.pairwise_map.2 (inv_sorted hi1)
  refine ⟨t0, t, t.entries.map Entry.Key, h0, h1, ?_, ?_, hs, hs.nodup, ?_⟩
  · intro fuel hf
    rw [Keys_entries t hc1' hi1 fuel (by simpa using hf)]
    simp [List.map_map, Function.comp_def]
  · intro fuel hf
    exact (nextLoop_eq t hc1' hi1 fuel (by simpa using hf)).1
  · intro k
    rw [hk k, he0]
    simp

theorem btree_forward_iteration_witness :
    (3 : Int) ≤ 3 ∧ LawfulCmp IntComparator ∧
      ∃ (t0 t : Tree Int Int) (ks : List Int), NewWith 3 IntComparator = some t0 ∧
        putAll t0 [((30 : Int), (300 : Int)), (10, 100), (50, 500), (20, 200), (40, 400)]
          = some t ∧
        (∀ fuel, ks.length < fuel → t.Keys fuel = some (ks.map some)) ∧
        (∀ fuel, ks.length < fuel → nextLoop fuel t.Iterator [] = some ks) ∧
        ks.Sorted (· < ·) ∧ ks.Nodup ∧
        ∀ k, k ∈ ks ↔
          k ∈ ([((30 : Int), (300 : Int)), (10, 100), (50, 500), (20, 200), (40, 400)]).map
            Prod.fst :=
  ⟨by decide, avltree.lawfulCmp_IntComparator,
    btree_forward_iteration 3 (by decide) IntComparator avltree.lawfulCmp_IntComparator _⟩

/-- C13: backward iteration is the reverse of forward iteration. For every order at least 3
and every B-tree built from empty by `Put`s, with `ks` the key sequence that forward
iteration with `Next()` yields: running `Next()` on a fresh iterator until it answers false
leaves the iterator in the state `End()` sets, and calling `Prev()` from there until it
answers false yields exactly `ks` reversed; each loop stops as soon as the iteration bound
exceeds the number of keys. -/
theorem btree_backward_iteration (m : Int) (hm : 3 ≤ m) (cmp : K → K → Int)
    (hc : LawfulCmp cmp) (ops : List (K × V)) :
    ∃ (t0 t : Tree K V) (ks : List K), NewWith m cmp = some t0 ∧ putAll t0 ops = some t ∧
      (∀ fuel, ks.length < fuel → nextLoop fuel t.Iterator [] = some ks) ∧
      (∀ fuel, ks.length < fuel → drain fuel t.Iterator = some t.Iterator.End) ∧
      (∀ fuel, ks.length < fuel → prevLoop fuel t.Iterator.End [] = some ks.reverse) := by
  obtain ⟨t0, h0, hi0, hm0, hc0, he0⟩ := newWith_spec (V := V) m hm cmp
  have hc0' : LawfulCmp t0.Comparator := by rw [hc0]; exact hc
  obtain ⟨t, h1, hi1, -, hc1, hk⟩ := putAll_inv ops t0 hc0' hi0
  have hc1' : LawfulCmp t.Comparator := by rw [hc1]; exact hc0'
  refine ⟨t0, t, t.entries.map Entry.Key, h0, h1, ?_, ?_, ?_⟩
  · intro fuel hf
    exact (nextLoop_eq t hc1' hi1 fuel (by simpa using hf)).1
  · intro fuel hf
    exact (nextLoop_eq t hc1' hi1 fuel (by simpa using hf)).2
  · intro fuel hf
    exact prevLoop_eq t hc1' hi1 fuel (by simpa using hf)

theorem btree_backward_iteration_witness :
    (3 : Int) ≤ 3 ∧ LawfulCmp IntComparator ∧
      ∃ (t0 t : Tree Int Int) (ks : List Int), NewWith 3 IntComparator = some t0 ∧
        putAll t0 [((30 : Int), (300 : Int)), (10, 100), (50, 500), (20, 200), (40, 400)]
          = some t ∧
        (∀ fuel, ks.length < fuel → nextLoop fuel t.Iterator [] = some ks) ∧
        (∀ fuel, ks.length < fuel → drain fuel t.Iterator = some t.Iterator.End) ∧
        (∀ fuel, ks.length < fuel → prevLoop fuel t.Iterator.End [] = some ks.reverse) :=
  ⟨by decide, avltree.lawfulCmp_IntComparator,
    btree_backward_iteration 3 (by decide) IntComparator avltree.lawfulCmp_IntComparator _⟩

end order

/-- C17: `Key()` and `Value()` of the B-tree iterator read `it.entry.Key` and
`it.entry.Value` without a test for nil, and `entry` is nil on a fresh iterator and after
`Begin()` and `End()` (so also after a `Next()` or `Prev()` that answered false): the read
is a nil dereference, on every tree. The iterator of the AVL tree tests its node for nil
and returns nil. -/
theorem btree_iterator_key_before_next_panics (t : Tree K V) (it : Iterator K V) :
    t.Iterator.Key = none ∧ t.Iterator.Value = none ∧
      it.Begin.Key = none ∧ it.Begin.Value = none ∧
      it.End.Key = none ∧ it.End.Value = none := by
  refine ⟨rfl, rfl, rfl, rfl, rfl, rfl⟩

end btree

namespace btree
variable {K V : Type}

/-- C21: in a B-tree of order 3 with the integer comparator, putting the keys 10, 20, 30, 40,
50 in that order into an empty tree succeeds and gives a root with exactly the entries 20 and
40 and exactly three children, each a leaf, holding 10, 30 and 50 in that order (whatever the
values stored with the keys are); the count is 5. -/
theorem btree_split_scenario (v1 v2 v3 v4 v5 : V) :
    ((NewWith 3 IntComparator).bind fun t0 =>
        runOps t0 [Op.put (10 : Int) v1, .put 20 v2, .put 30 v3, .put 40 v4, .put 50 v5])
      = some ⟨some (.mk [⟨20, v2⟩, ⟨40, v4⟩]
          [.mk [⟨10, v1⟩] [], .mk [⟨30, v3⟩] [], .mk [⟨50, v5⟩] []]), IntComparator, 5, 3⟩ := by
  have h1 : (⟨none, IntComparator, 0, 3⟩ : Tree Int V).Put 10 v1
      = some ⟨some (.mk [⟨10, v1⟩] []), IntComparator, 1, 3⟩ := by with_unfolding_all rfl
  have h2 : (⟨some (.mk [⟨10, v1⟩] []), IntComparator, 1, 3⟩ : Tree Int V).Put 20 v2
      = some ⟨some (.mk [⟨10, v1⟩, ⟨20, v2⟩] []), IntComparator, 2, 3⟩ := by with_unfolding_all rfl
  have h3 : (⟨some (.mk [⟨10, v1⟩, ⟨20, v2⟩] []), IntComparator, 2, 3⟩ : Tree Int V).Put 30 v3
      = some ⟨some (.mk [⟨20, v2⟩] [.mk [⟨10, v1⟩] [], .mk [⟨30, v3⟩] []]),
          IntComparator, 3, 3⟩ := by with_unfolding_all rfl
  have h4 : (⟨some (.mk [⟨20, v2⟩] [.mk [⟨10, v1⟩] [], .mk [⟨30, v3⟩] []]),
        IntComparator, 3, 3⟩ : Tree Int V).Put 40 v4
      = some ⟨some (.mk [⟨20, v2⟩] [.mk [⟨10, v1⟩] [], .mk [⟨30, v3⟩, ⟨40, v4⟩] []]),
          IntComparator, 4, 3⟩ := by with_unfolding_all rfl
  have h5 : (⟨some (.mk [⟨20, v2⟩] [.mk [⟨10, v1⟩] [], .mk [⟨30, v3⟩, ⟨40, v4⟩] []]),
        IntComparator, 4, 3⟩ : Tree Int V).Put 50 v5
      = some ⟨some (.mk [⟨20, v2⟩, ⟨40, v4⟩]
          [.mk [⟨10, v1⟩] [], .mk [⟨30, v3⟩] [], .mk [⟨50, v5⟩] []]), IntComparator, 5, 3⟩ := by with_unfolding_all rfl
  have h0 : NewWith 3 IntComparator = some (⟨none, IntComparator, 0, 3⟩ : Tree Int V) := by with_unfolding_all rfl
  simp only [h0, Option.some_bind, runOps, Tree.apply, h1, h2, h3, h4, h5]

/-- Split sizes respect the fanout bounds, in unbounded integers. For every order `m` of at
least 3, `minEntries = (m+1)/2 - 1`, which is `ceil(m/2) - 1`, `maxEntries = m - 1` and
`middle = (m-1)/2`; a node with `m` entries (one more than `maxEntries`) is split by
`splitRoot`, and by `splitNonRoot` into a parent whose search puts the middle key at a
valid position, into a left node with the `middle` entries before the middle entry and a
right node with the `m - 1 - middle` entries after it, both counts within
`[minEntries, maxEntries]`, and exactly the middle entry is promoted. -/
theorem btree_split_sizes (m : Int) (hm : 3 ≤ m) (cmp : K → K → Int)
    (es : List (Entry K V)) (cs : List (Node K V)) (hlen : (es.length : Int) = m)
    (hcs : cs = [] ∨ cs.length = es.length + 1) :
    minEntries m = (m + 1) / 2 - 1 ∧ minEntries m = ⌈(m : ℚ) / 2⌉ - 1 ∧
      maxEntries m = m - 1 ∧ middle m = (m - 1) / 2 ∧ (es.length : Int) = maxEntries m + 1 ∧
      ∃ le e re lc rc, es = le ++ e :: re ∧ cs = lc ++ rc ∧
        (le.length : Int) = middle m ∧ (re.length : Int) = m - 1 - middle m ∧
        minEntries m ≤ (le.length : Int) ∧ (le.length : Int) ≤ maxEntries m ∧
        minEntries m ≤ (re.length : Int) ∧ (re.length : Int) ≤ maxEntries m ∧
        splitRoot m (.mk es cs) = some (.mk [e] [.mk le lc, .mk re rc]) ∧
        ∀ (ea eb : List (Entry K V)) (ca cb : List (Node K V)) (c0 : Node K V) (found : Bool),
          ea.length = ca.length →
          search cmp (.mk (ea ++ eb) (ca ++ c0 :: cb)) e.Key = some ((ea.length : Int), found) →
          splitNonRoot m cmp (.mk es cs) (.mk (ea ++ eb) (ca ++ c0 :: cb))
            = some (.mk (ea ++ e :: eb) (ca ++ .mk le lc :: .mk re rc :: cb)) := by
  obtain ⟨hmax, hmin1, hmid0, hminmid, hminr, hrmax, hmidmax, -, -, -⟩ := order_facts hm
  have e1 := Int.tdiv_eq_ediv (a := m + 1) (b := 2) (by omega) (by omega)
  have e2 := Int.tdiv_eq_ediv (a := m - 1) (b := 2) (by omega) (by omega)
  have hmin : minEntries m = (m + 1) / 2 - 1 := by
    simp only [minEntries, minChildren, e1]
  have hmid : middle m = (m - 1) / 2 := by simp only [middle, e2]
  have hceil : ⌈(m : ℚ) / 2⌉ = (m + 1) / 2 := by
    rw [Int.ceil_eq_iff]
    have h2 : ((2 : Int) : ℚ) = 2 := by norm_num
    constructor
    · rw [lt_div_iff₀ (by norm_num : (0 : ℚ) < 2)]
      have : ((m + 1) / 2 - 1) * 2 < m := by omega
      have := (Int.cast_lt (R := ℚ)).2 this
      push_cast at this
      linarith
    · rw [div_le_iff₀ (by norm_num : (0 : ℚ) < 2)]
      have : m ≤ ((m + 1) / 2) * 2 := by omega
      have := (Int.cast_le (R := ℚ)).2 this
      push_cast at this
      linarith
  obtain ⟨le, e, re, lc, rc, he, hc, hle, hlr⟩ := split_parts hm es cs hlen hcs
  have hre : (re.length : Int) = m - 1 - middle m := by
    have : es.length = le.length + (re.length + 1) := by rw [he]; simp
    omega
  have hshape : (lc = [] ∧ rc = []) ∨ lc.length = le.length + 1 := by
    rcases hlr with ⟨a, b, -⟩ | ⟨a, -⟩
    · exact Or.inl ⟨a, b⟩
    · exact Or.inr a
  refine ⟨hmin, by rw [hceil, hmin], hmax, hmid, by omega, le, e, re, lc, rc, he, hc, hle, hre,
    by omega, by omega, by omega, by omega, ?_, ?_⟩
  · rw [he, hc]; exact splitRoot_eq le re e lc rc hle hshape
  · intro ea eb ca cb c0 found hea hs
    subst he hc
    have h1 : sliceTo (le ++ e :: re) (middle m) = some le := sliceTo_at hle.symm
    have h2 : sliceFrom (le ++ e :: re) (middle m + 1) = some re := by
      have : le ++ e :: re = (le ++ [e]) ++ re := by simp
      rw [this]
      exact sliceFrom_at (by simp [hle])
    have h3 : getIdx (le ++ e :: re) (middle m) = some e := getIdx_at hle.symm
    have h7 : insertIdx (ea ++ eb) (ea.length : Int) e = some (ea ++ e :: eb) :=
      insertIdx_at e rfl
    have h8 : setIdx (ca ++ c0 :: cb) (ea.length : Int) (.mk le lc)
        = some (ca ++ .mk le lc :: cb) := setIdx_at _ (by rw [hea])
    have h9 : insertIdx (ca ++ .mk le lc :: cb) ((ea.length : Int) + 1) (.mk re rc)
        = some (ca ++ .mk le lc :: .mk re rc :: cb) := by
      have e1 : ca ++ Node.mk le lc :: cb = (ca ++ [Node.mk le lc]) ++ cb := by simp
      have e2 : ca ++ Node.mk le lc :: Node.mk re rc :: cb
          = (ca ++ [Node.mk le lc]) ++ Node.mk re rc :: cb := by simp
      rw [e1, e2]
      exact insertIdx_at _ (by simp [hea])
    rcases hshape with ⟨rfl, rfl⟩ | h
    · simp [splitNonRoot, Node.Entries, Node.Children, isLeaf, h1, h2, h3, hs, h7, h8, h9]
    · have h4 : sliceTo (lc ++ rc) (middle m + 1) = some lc :=
        sliceTo_at (by rw [h]; simp [hle])
      have h5 : sliceFrom (lc ++ rc) (middle m + 1) = some rc :=
        sliceFrom_at (by rw [h]; simp [hle])
      have h6 : lc ≠ [] := by intro h0; rw [h0] at h; simp at h
      simp [splitNonRoot, Node.Entries, Node.Children, isLeaf, h1, h2, h3, h4, h5, h6, hs, h7,
        h8, h9]

theorem btree_split_sizes_witness :
    (3 : Int) ≤ 3 ∧
      (([⟨1, 10⟩, ⟨2, 20⟩, ⟨3, 30⟩] : List (Entry Int Int)).length : Int) = 3 ∧
      minEntries 3 = 1 ∧ maxEntries 3 = 2 ∧ middle 3 = 1 ∧
      splitRoot 3 (.mk ([⟨1, 10⟩, ⟨2, 20⟩, ⟨3, 30⟩] : List (Entry Int Int)) [])
        = some (.mk [⟨2, 20⟩] [.mk [⟨1, 10⟩] [], .mk [⟨3, 30⟩] []]) ∧
      (minEntries 3 = (3 + 1) / 2 - 1 ∧ minEntries 3 = ⌈((3 : Int) : ℚ) / 2⌉ - 1 ∧
      maxEntries 3 = 3 - 1 ∧ middle 3 = (3 - 1) / 2 ∧
      (([⟨1, 10⟩, ⟨2, 20⟩, ⟨3, 30⟩] : List (Entry Int Int)).length : Int) = maxEntries 3 + 1 ∧
      ∃ le e re lc rc, ([⟨1, 10⟩, ⟨2, 20⟩, ⟨3, 30⟩] : List (Entry Int Int)) = le ++ e :: re ∧
        ([] : List (Node Int Int)) = lc ++ rc ∧
        (le.length : Int) = middle 3 ∧ (re.length : Int) = 3 - 1 - middle 3 ∧
        minEntries 3 ≤ (le.length : Int) ∧ (le.length : Int) ≤ maxEntries 3 ∧
        minEntries 3 ≤ (re.length : Int) ∧ (re.length : Int) ≤ maxEntries 3 ∧
        splitRoot 3 (.mk [⟨1, 10⟩, ⟨2, 20⟩, ⟨3, 30⟩] []) = some (.mk [e] [.mk le lc, .mk re rc]) ∧
        ∀ (ea eb : List (Entry Int Int)) (ca cb : List (Node Int Int)) (c0 : Node Int Int)
          (found : Bool), ea.length = ca.length →
          search IntComparator (.mk (ea ++ eb) (ca ++ c0 :: cb)) e.Key
            = some ((ea.length : Int), found) →
          splitNonRoot 3 IntComparator (.mk [⟨1, 10⟩, ⟨2, 20⟩, ⟨3, 30⟩] [])
              (.mk (ea ++ eb) (ca ++ c0 :: cb))
            = some (.mk (ea ++ e :: eb) (ca ++ .mk le lc :: .mk re rc :: cb))) :=
  ⟨by decide, by decide, by decide, by decide, by decide, by with_unfolding_all rfl,
    btree_split_sizes 3 (by decide) IntComparator [⟨1, 10⟩, ⟨2, 20⟩, ⟨3, 30⟩] []
      (by decide) (Or.inl rfl)⟩

/-- Below the largest order the 64-bit order arithmetic is the unbounded one. -/
theorem order64_eq (m : Int) (hm : 3 ≤ m) (hmax : m < 2 ^ 63 - 1) :
    maxChildren64 m = maxChildren m ∧ minChildren64 m = minChildren m ∧
      maxEntries64 m = maxEntries m ∧ minEntries64 m = minEntries m ∧
      middle64 m = middle m := by
  have w : ∀ x : Int, -(2 ^ 63) ≤ x → x < 2 ^ 63 → int64 x = x := by
    intro x h1 h2
    unfold int64
    omega
  have e1 := Int.tdiv_eq_ediv (a := m + 1) (b := 2) (by omega) (by omega)
  have e2 := Int.tdiv_eq_ediv (a := m - 1) (b := 2) (by omega) (by omega)
  have h1 : int64 m = m := w m (by omega) (by omega)
  have h2 : int64 (m + 1) = m + 1 := w _ (by omega) (by omega)
  have h3 : int64 (m - 1) = m - 1 := w _ (by omega) (by omega)
  have h4 : int64 ((m + 1) / 2 - 1) = (m + 1) / 2 - 1 := w _ (by omega) (by omega)
  simp only [maxChildren64, minChildren64, maxEntries64, minEntries64, middle64, maxChildren,
    minChildren, maxEntries, minEntries, middle, h1, h2, h3, e1, e2, h4, and_self]

/-- In unbounded integers `minEntries` is `ceil(m/2) - 1` and `middle` is `(m - 1) / 2`. -/
theorem order_ceil (m : Int) (hm : 3 ≤ m) :
    minEntries m = (m + 1) / 2 - 1 ∧ minEntries m = ⌈(m : ℚ) / 2⌉ - 1 ∧
      middle m = (m - 1) / 2 := by
  have e1 := Int.tdiv_eq_ediv (a := m + 1) (b := 2) (by omega) (by omega)
  have e2 := Int.tdiv_eq_ediv (a := m - 1) (b := 2) (by omega) (by omega)
  have hmin : minEntries m = (m + 1) / 2 - 1 := by
    simp only [minEntries, minChildren, e1]
  have hceil : ⌈(m : ℚ) / 2⌉ = (m + 1) / 2 := by
    rw [Int.ceil_eq_iff]
    constructor
    · rw [lt_div_iff₀ (by norm_num : (0 : ℚ) < 2)]
      have : ((m + 1) / 2 - 1) * 2 < m := by omega
      have := (Int.cast_lt (R := ℚ)).2 this
      push_cast at this
      linarith
    · rw [div_le_iff₀ (by norm_num : (0 : ℚ) < 2)]
      have : m ≤ ((m + 1) / 2) * 2 := by omega
      have := (Int.cast_le (R := ℚ)).2 this
      push_cast at this
      linarith
  exact ⟨hmin, by rw [hceil, hmin], by simp only [middle, e2]⟩

/-- C24: the order arithmetic at the largest order. `NewWith` accepts the order `2^63 - 1`;
there `minChildren()` computes `(t.m + 1) / 2` with a sum that wraps to `-2^63`, so it
returns `-2^62` and `minEntries()` returns `-2^62 - 1 = -4611686018427387905`, while
`ceil(m/2) - 1` is `4611686018427387903` (the comment on `minChildren` says the result is
`ceil(m/2)`); `maxEntries()` and `middle()` are `m - 1` and `(m - 1) / 2` there. For every
order from 3 up to `2^63 - 2` nothing wraps: `minEntries()` is `ceil(m/2) - 1`,
`maxEntries()` is `m - 1`, `middle()` is `(m - 1) / 2`, and the two parts of a split, of
`middle` and `m - 1 - middle` entries, lie within `[minEntries, maxEntries]`. -/
theorem btree_min_entries_wraps_at_largest_order :
    (NewWith (2 ^ 63 - 1) IntComparator : Option (Tree Int Int)).isSome = true ∧
      minChildren64 (2 ^ 63 - 1) = -4611686018427387904 ∧
      minEntries64 (2 ^ 63 - 1) = -4611686018427387905 ∧
      ⌈(((2 ^ 63 - 1 : Int) : ℚ)) / 2⌉ - 1 = 4611686018427387903 ∧
      maxEntries64 (2 ^ 63 - 1) = 2 ^ 63 - 2 ∧ middle64 (2 ^ 63 - 1) = 2 ^ 62 - 1 ∧
      ∀ m : Int, 3 ≤ m → m < 2 ^ 63 - 1 →
        minEntries64 m = (m + 1) / 2 - 1 ∧ minEntries64 m = ⌈(m : ℚ) / 2⌉ - 1 ∧
        maxEntries64 m = m - 1 ∧ middle64 m = (m - 1) / 2 ∧
        minEntries64 m ≤ middle64 m ∧ middle64 m ≤ maxEntries64 m ∧
        minEntries64 m ≤ m - 1 - middle64 m ∧ m - 1 - middle64 m ≤ maxEntries64 m := by
  refine ⟨by decide, by decide, by decide, ?_, by decide, by decide, ?_⟩
  · have h : ⌈(((2 ^ 63 - 1 : Int) : ℚ)) / 2⌉ = 4611686018427387904 := by
      rw [Int.ceil_eq_iff]
      constructor <;> norm_num
    rw [h]
    norm_num
  · intro m hm hmax
    obtain ⟨-, -, h3, h4, h5⟩ := order64_eq m hm hmax
    obtain ⟨hmaxE, -, -, hminmid, hminr, hrmax, hmidmax, -, -, -⟩ := order_facts hm
    obtain ⟨g1, g2, g3⟩ := order_ceil m hm
    rw [h3, h4, h5]
    exact ⟨g1, g2, hmaxE, g3, hminmid, hmidmax, hminr, hrmax⟩

end btree

namespace btree
variable {K V : Type}

section order
variable [LinearOrder K]

/-- `Clear` leaves a well-formed (empty) tree of the same order and comparator. -/
theorem clear_inv (t : Tree K V) (hi : t.Inv) : t.Clear.Inv :=
  ⟨hi.1, by simp [Tree.Clear, Tree.entries], by simp [Tree.Clear]⟩

/-- A run of `Put`s, `Remove`s and `Clear`s on a well-formed tree completes and leaves a
well-formed tree of the same order and comparator. -/
theorem runCalls_spec (cs : List (Call K V)) :
    ∀ t : Tree K V, LawfulCmp t.Comparator → t.Inv →
      ∃ t', runCalls t cs = some t' ∧ t'.Inv ∧ t'.m = t.m ∧ t'.Comparator = t.Comparator := by
  induction cs with
  | nil => intro t _ hi; exact ⟨t, rfl, hi, rfl, rfl⟩
  | cons c cs ih =>
    intro t hc hi
    have hstep : ∃ t1, t.call c = some t1 ∧ t1.Inv ∧ t1.m = t.m ∧
        t1.Comparator = t.Comparator := by
      cases c with
      | put k v =>
        obtain ⟨t1, h1, h2, -, h3, h4, -⟩ := Put_spec t hc hi k v
        exact ⟨t1, h1, h2, h3, h4⟩
      | remove k =>
        obtain ⟨t1, h1, h2, -, h3, h4, -⟩ := Remove_spec t hc hi k
        exact ⟨t1, h1, h2, h3, h4⟩
      | clear => exact ⟨t.Clear, rfl, clear_inv t hi, rfl, rfl⟩
    obtain ⟨t1, h1, hi1, hm1, hc1⟩ := hstep
    obtain ⟨t', h2, hi', hm', hc'⟩ := ih t1 (by rw [hc1]; exact hc) hi1
    exact ⟨t', by simp [runCalls, h1, h2], hi', by rw [hm', hm1], by rw [hc', hc1]⟩

/-- In a well-formed tree the root is absent exactly when the count is zero, and a present
root holds at least one entry. -/
theorem inv_root_size {t : Tree K V} (hi : t.Inv) :
    (t.Root = none ↔ t.Size = 0) ∧ (t.Root = none ↔ t.Empty = true) ∧
      ∀ r, t.Root = some r → 1 ≤ r.Entries.length := by
  obtain ⟨-, hsize, hroot⟩ := hi
  cases hr : t.Root with
  | none =>
    simp only [Tree.entries, hr] at hsize
    simp [Tree.Size, Tree.Empty, hsize]
  | some r =>
    rw [hr] at hroot
    obtain ⟨⟨h, hsh⟩, -⟩ := hroot
    simp only [Tree.entries, hr] at hsize
    obtain ⟨es, cs⟩ := r
    have h1 := hsh.1
    simp only [Node.Entries] at h1
    have h2 := (entries_sublist es cs).length_le
    simp only [flatten_mk] at hsize
    have h3 : t.size ≠ 0 := by omega
    refine ⟨by simp [Tree.Size, h3], by simp [Tree.Empty, h3], ?_⟩
    intro r hr'
    cases hr'
    simp only [Node.Entries]
    omega

/-- C25: root presence matches the count. For every order at least 3 and every finite
sequence of `Put`, `Remove` and `Clear` calls applied to an empty B-tree, the run completes
and in the tree it leaves the root is absent exactly when `Size()` is 0 (equally: exactly
when `Empty()` holds), and a present root holds at least one entry. Every prefix of a run is
a run, so this holds after every call. -/
theorem btree_root_presence (m : Int) (hm : 3 ≤ m) (cmp : K → K → Int) (hc : LawfulCmp cmp)
    (calls : List (Call K V)) :
    ∃ t0 t, NewWith m cmp = some t0 ∧ runCalls t0 calls = some t ∧
      (t.Root = none ↔ t.Size = 0) ∧ (t.Root = none ↔ t.Empty = true) ∧
      ∀ r, t.Root = some r → 1 ≤ r.Entries.length := by
  obtain ⟨t0, h0, hi0, -, hc0, -⟩ := newWith_spec (V := V) m hm cmp
  obtain ⟨t, h1, hi1, -, -⟩ := runCalls_spec calls t0 (by rw [hc0]; exact hc) hi0
  exact ⟨t0, t, h0, h1, inv_root_size hi1⟩

theorem btree_root_presence_witness :
    (3 : Int) ≤ 3 ∧ LawfulCmp IntComparator ∧
      ∃ t0 t, NewWith 3 IntComparator = some t0 ∧
        runCalls t0 [Call.put (10 : Int) (100 : Int), .put 20 200, .put 30 300, .remove 20,
          .remove 10, .remove 30, .put 40 400, .clear, .put 50 500] = some t ∧
      (t.Root = none ↔ t.Size = 0) ∧ (t.Root = none ↔ t.Empty = true) ∧
      ∀ r, t.Root = some r → 1 ≤ r.Entries.length :=
  ⟨by decide, avltree.lawfulCmp_IntComparator,
    btree_root_presence 3 (by decide) IntComparator avltree.lawfulCmp_IntComparator _⟩

end order
end btree

namespace avlptr
variable {K V : Type}

/-- More fuel does not change a result of `put`. -/
theorem put_fuel_succ (key : K) (value : V) (fuel : Nat) :
    ∀ (parent : Nat) (target : Slot) (t : Tree K V) (r : Tree K V × Bool),
      put key value fuel parent target t = some r →
      put key value (fuel + 1) parent target t = some r := by
  induction fuel with
  | zero => intro parent target t r h; simp [put] at h
  | succ n ih =>
    intro parent target t r h
    rw [put] at h ⊢
    cases hl : t.load target with
    | none => simp [hl] at h
    | some cur =>
      simp only [hl, Option.bind_eq_bind, Option.some_bind] at h ⊢
      by_cases hc : cur = 0
      · simpa [hc] using h
      · simp only [hc, if_false] at h ⊢
        cases hn : t.read cur with
        | none => simp [hn] at h
        | some nd =>
          simp only [hn, Option.some_bind] at h ⊢
          by_cases h0 : t.Comparator key nd.Key = 0
          · simpa [h0] using h
          · simp only [h0, if_false] at h ⊢
            cases hp : put key value n cur (Slot.child cur (if t.Comparator key nd.Key < 0 then 0 else 1)) t with
            | none => simp [hp] at h
            | some r1 =>
              rw [ih _ _ _ _ hp]
              simpa [hp] using h

/-- C22: the rotation scenario. With the integer comparator, putting the keys 1, 2, 3 in
that order into an empty AVL tree completes; the root is the node with key 2 and tag 0, its
left child is the node with key 1 and tag 0, its right child is the node with key 3 and tag
0, both children are leaves, the `Parent` field of each child is the address of the root and
the `Parent` field of the root is nil; the count is 3. The tree of the algebraic embedding is
the same tree. -/
theorem avl_rotation_scenario (v1 v2 v3 : V) :
    (∃ t root left right,
      putAll (NewWith IntComparator) [((1 : Int), v1), (2, v2), (3, v3)] = some t ∧
      t.Root = root ∧ root ≠ 0 ∧ left ≠ 0 ∧ right ≠ 0 ∧ t.size = 3 ∧
      t.read root = some ⟨2, v2, 0, left, right, 0⟩ ∧
      t.read left = some ⟨1, v1, root, 0, 0, 0⟩ ∧
      t.read right = some ⟨3, v3, root, 0, 0, 0⟩ ∧
      subtree t 3 t.Root = .node 2 v2 0 (.node 1 v1 0 .nil .nil) (.node 3 v3 0 .nil .nil)) ∧
    (avltree.putAll (avltree.NewWith IntComparator) [((1 : Int), v1), (2, v2), (3, v3)]).map
        (fun t => (t.Root, t.size))
      = some (.node 2 v2 0 (.node 1 v1 0 .nil .nil) (.node 3 v3 0 .nil .nil), 3) := by
  have p1 : (NewWith IntComparator : Tree Int V).Put 1 v1
      = some ⟨[⟨1, v1, 0, 0, 0, 0⟩], 1, IntComparator, 1⟩ := by with_unfolding_all rfl
  have p2 : (⟨[⟨1, v1, 0, 0, 0, 0⟩], 1, IntComparator, 1⟩ : Tree Int V).Put 2 v2
      = some ⟨[⟨1, v1, 0, 0, 2, 1⟩, ⟨2, v2, 1, 0, 0, 0⟩], 1, IntComparator, 2⟩ := by
    with_unfolding_all rfl
  have p3 : (⟨[⟨1, v1, 0, 0, 2, 1⟩, ⟨2, v2, 1, 0, 0, 0⟩], 1, IntComparator, 2⟩ :
        Tree Int V).Put 3 v3
      = some ⟨[⟨1, v1, 2, 0, 0, 0⟩, ⟨2, v2, 0, 1, 3, 0⟩, ⟨3, v3, 2, 0, 0, 0⟩], 2,
          IntComparator, 3⟩ := by
    with_unfolding_all rfl
  have q1 : (avltree.NewWith IntComparator : avltree.Tree Int V).Put 1 v1
      = some ⟨.node 1 v1 0 .nil .nil, IntComparator, 1⟩ := by with_unfolding_all rfl
  have q2 : (⟨.node 1 v1 0 .nil .nil, IntComparator, 1⟩ : avltree.Tree Int V).Put 2 v2
      = some ⟨.node 1 v1 1 .nil (.node 2 v2 0 .nil .nil), IntComparator, 2⟩ := by
    with_unfolding_all rfl
  have q3 : (⟨.node 1 v1 1 .nil (.node 2 v2 0 .nil .nil), IntComparator, 2⟩ :
        avltree.Tree Int V).Put 3 v3
      = some ⟨.node 2 v2 0 (.node 1 v1 0 .nil .nil) (.node 3 v3 0 .nil .nil),
          IntComparator, 3⟩ := by
    with_unfolding_all rfl
  refine ⟨⟨⟨[⟨1, v1, 2, 0, 0, 0⟩, ⟨2, v2, 0, 1, 3, 0⟩, ⟨3, v3, 2, 0, 0, 0⟩], 2, IntComparator, 3⟩,
    2, 1, 3, ?_, rfl, by decide, by decide, by decide, rfl, rfl, rfl, rfl, rfl⟩, ?_⟩
  · simp only [putAll, p1, p2, p3, Option.some_bind]
  · simp only [avltree.putAll, q1, q2, q3, Option.some_bind, Option.map_some']

end avlptr

/-! # Properties of the binary heap -/

namespace binaryheap
variable {α : Type}

/-! ## The array list -/

theorem Get_natCast (l : List α) (i : Nat) : Get l (i : Int) = l[i]? := by
  unfold Get
  by_cases h : i < l.length
  · have : (0 : Int) ≤ i ∧ (i : Int) < l.length := ⟨by omega, by omega⟩
    simp [this]
  · have : ¬ ((0 : Int) ≤ i ∧ (i : Int) < l.length) := by omega
    rw [if_neg this, List.getElem?_eq_none (by omega)]

theorem Get_neg (l : List α) (i : Int) (h : i < 0) : Get l i = none := by
  unfold Get
  rw [if_neg (by omega)]

theorem Swap_natCast (l : List α) (i j : Nat) {a b : α} (ha : l[i]? = some a)
    (hb : l[j]? = some b) : Swap l (i : Int) (j : Int) = (l.set i b).set j a := by
  simp [Swap, Get_natCast, ha, hb]

theorem getElem?_swap {l : List α} {i j : Nat} {a b : α} (hij : i ≠ j) (ha : l[i]? = some a)
    (hb : l[j]? = some b) (n : Nat) :
    ((l.set i b).set j a)[n]? = if n = j then some a else if n = i then some b else l[n]? := by
  have hi : i < l.length := (List.getElem?_eq_some_iff.1 ha).1
  have hj : j < l.length := (List.getElem?_eq_some_iff.1 hb).1
  rw [List.getElem?_set, List.getElem?_set]
  by_cases h1 : n = j
  · subst h1; simp [hj]
  · by_cases h2 : n = i
    · subst h2; simp [hi, h1, Ne.symm h1]
    · simp [h1, h2, Ne.symm h1, Ne.symm h2]

theorem swap_perm [DecidableEq α] {l : List α} {i j : Nat} {a b : α} (ha : l[i]? = some a)
    (hb : l[j]? = some b) : ((l.set i b).set j a).Perm l := by
  obtain ⟨hi, hia⟩ := List.getElem?_eq_some_iff.1 ha
  obtain ⟨hj, hjb⟩ := List.getElem?_eq_some_iff.1 hb
  rw [List.perm_iff_count]
  intro c
  have hj' : j < (l.set i b).length := by simpa using hj
  rw [List.count_set _ _ _ _ hj', List.count_set _ _ _ _ hi]
  have h1 : (l.set i b)[j] = if i = j then b else l[j] := List.getElem_set _
  rw [h1, hia]
  have hpa : a = c → 0 < l.count c := fun h =>
    h ▸ List.count_pos_iff.2 (hia ▸ List.getElem_mem hi)
  have hpb : b = c → 0 < l.count c := fun h =>
    h ▸ List.count_pos_iff.2 (hjb ▸ List.getElem_mem hj)
  simp only [beq_iff_eq, hjb]
  by_cases hij : i = j
  · subst hij
    rw [hia] at hjb
    subst hjb
    simp only [if_true]
    by_cases h : a = c
    · have := hpa h
      simp only [h, if_true]; omega
    · simp only [h, if_false]; omega
  · simp only [hij, if_false]
    by_cases h1 : a = c <;> by_cases h2 : b = c
    · have := hpa h1
      simp only [h1, h2, if_true]; omega
    · have := hpa h1
      simp only [h1, h2, if_true, if_false]; omega
    · have := hpb h2
      simp only [h1, h2, if_true, if_false]; omega
    · simp only [h1, h2, if_false]; omega

theorem shr_pred (k : Nat) (hk : 0 < k) : ((k : Int) - 1) >>> (1 : Nat) = (((k - 1) / 2 : Nat) : Int) := by
  rw [Int.shiftRight_eq_div_pow]
  simp
  omega

theorem shr_neg_one : ((0 : Int) - 1) >>> (1 : Nat) = -1 := by decide

/-- `Pop` on an empty heap answers `(nil, false)` and changes nothing. -/
theorem Pop_empty (h : Heap α) (he : h.list = []) : h.Pop = some (none, h) := by
  simp [Heap.Pop, Get, he]

section order
variable [LinearOrder α]

theorem cmp_le_iff {cmp : α → α → Int} (hc : LawfulCmp cmp) (a b : α) : cmp a b ≤ 0 ↔ a ≤ b := by
  rw [le_iff_lt_or_eq, le_iff_lt_or_eq, hc.lt_iff, hc.eq_iff]

theorem cmp_pos_iff {cmp : α → α → Int} (hc : LawfulCmp cmp) (a b : α) : cmp a b > 0 ↔ b < a := by
  rw [gt_iff_lt, ← not_le, cmp_le_iff hc, not_le]

end order
end binaryheap

namespace binaryheap
variable {α : Type}

section order
variable [LinearOrder α]

/-! ## `bubbleUp` -/

/-- The loop of `bubbleUp` ends, permutes the list and turns the state `UpInv` into heap
order. -/
theorem bubbleUpLoop_spec {cmp : α → α → Int} (hc : LawfulCmp cmp) :
    ∀ (fuel : Nat) (l : List α) (k : Nat), k < fuel → k < l.length → UpInv l k →
      ∃ l', bubbleUpLoop cmp fuel l (k : Int) = some l' ∧ l'.Perm l ∧ HeapFrom l' 0 := by
  intro fuel
  induction fuel with
  | zero => intro l k h; omega
  | succ n ih =>
    intro l k hk hlen hinv
    rw [bubbleUpLoop]
    rcases Nat.eq_zero_or_pos k with rfl | hpos
    · have h0 : ¬ ((((0 : Nat) : Int) - 1) >>> (1 : Nat) ≥ 0) := by decide
      simp only [h0, if_false]
      exact ⟨l, rfl, List.Perm.refl _, fun i hi _ => hinv.1 i hi (by omega)⟩
    · have hp : (k - 1) / 2 < k := by omega
      obtain ⟨kv, hkv⟩ : ∃ kv, l[k]? = some kv := ⟨l[k], List.getElem?_eq_getElem hlen⟩
      obtain ⟨pv, hpv⟩ : ∃ pv, l[(k - 1) / 2]? = some pv :=
        ⟨l[(k - 1) / 2], List.getElem?_eq_getElem (by omega)⟩
      have hge : ((((k - 1) / 2 : Nat) : Int) ≥ 0) := by omega
      simp only [shr_pred k hpos, Get_natCast, hkv, hpv, compareValues, hge, if_true]
      by_cases hle : cmp pv kv ≤ 0
      · simp only [hle, if_true]
        refine ⟨l, rfl, List.Perm.refl _, ?_⟩
        intro i hi _
        by_cases hik : i = k
        · subst hik
          intro x p hx hp'
          rw [hkv] at hx
          rw [hpv] at hp'
          cases hx
          cases hp'
          exact (cmp_le_iff hc _ _).1 hle
        · exact hinv.1 i hi hik
      · simp only [hle, if_false]
        have hlt : kv < pv := not_le.1 (fun h => hle ((cmp_le_iff hc pv kv).2 h))
        rw [Swap_natCast l k ((k - 1) / 2) hkv hpv]
        have hget := getElem?_swap (by omega : k ≠ (k - 1) / 2) hkv hpv
        have hinv' : UpInv ((l.set k pv).set ((k - 1) / 2) kv) ((k - 1) / 2) := by
          constructor
          · intro i hi hip x q hx hq
            rw [hget] at hx hq
            simp only [hip, if_false] at hx
            by_cases hik : i = k
            · subst hik
              simp at hx hq
              subst hx hq
              exact hlt.le
            · simp only [hik, if_false] at hx
              by_cases h1 : (i - 1) / 2 = (k - 1) / 2
              · simp only [h1, if_true] at hq
                cases hq
                exact hlt.le.trans (hinv.1 i hi hik x pv hx (h1 ▸ hpv))
              · simp only [h1, if_false] at hq
                by_cases h2 : (i - 1) / 2 = k
                · simp only [h2, if_true] at hq
                  cases hq
                  exact hinv.2 hpos i x _ hi h2 hx hpv
                · simp only [h2, if_false] at hq
                  exact hinv.1 i hi hik x q hx hq
          · intro hp0 i x g hi hip hx hg
            rw [hget] at hx hg
            have e1 : (((k - 1) / 2 - 1) / 2 = (k - 1) / 2) = False := by
              simp only [eq_iff_iff, iff_false]; omega
            have e2 : (((k - 1) / 2 - 1) / 2 = k) = False := by
              simp only [eq_iff_iff, iff_false]; omega
            have e3 : (i = (k - 1) / 2) = False := by
              simp only [eq_iff_iff, iff_false]; omega
            simp only [e1, e2, if_false] at hg
            simp only [e3, if_false] at hx
            have hgp : g ≤ pv := hinv.1 ((k - 1) / 2) hp0 (by omega) pv g hpv hg
            by_cases hik : i = k
            · simp only [hik, if_true] at hx
              cases hx
              exact hgp
            · simp only [hik, if_false] at hx
              exact hgp.trans (hinv.1 i hi hik x pv hx (hip ▸ hpv))
        obtain ⟨l'', h1, h2, h3⟩ := ih _ ((k - 1) / 2) (by omega) (by simp; omega) hinv'
        exact ⟨l'', h1, h2.trans (swap_perm hkv hpv), h3⟩

/-- `bubbleUp` after appending one value to a list in heap order. -/
theorem bubbleUp_spec {cmp : α → α → Int} (hc : LawfulCmp cmp) (l : List α) (x : α)
    (hl : HeapFrom l 0) :
    ∃ l', bubbleUp cmp (Add l [x]) = some l' ∧ l'.Perm (l ++ [x]) ∧ HeapFrom l' 0 := by
  have hinv : UpInv (l ++ [x]) l.length := by
    constructor
    · intro i hi hik y p hy hp
      have hil : i < l.length := by
        have := (List.getElem?_eq_some_iff.1 hy).1
        simp at this
        omega
      rw [List.getElem?_append_left hil] at hy
      rw [List.getElem?_append_left (by omega)] at hp
      exact hl i hi (Nat.zero_le _) y p hy hp
    · intro _ i y g _ hip hy _
      have := (List.getElem?_eq_some_iff.1 hy).1
      simp at this
      omega
  have hsz : Size (Add l [x]) - 1 = ((l.length : Nat) : Int) := by
    simp [Size, Add]
  unfold bubbleUp
  rw [hsz]
  exact bubbleUpLoop_spec hc _ _ _
    (by simp only [Add, List.length_append, List.length_singleton]; omega)
    (by simp only [Add, List.length_append, List.length_singleton]; omega) hinv

end order
end binaryheap

namespace binaryheap
variable {α : Type}

section order
variable [LinearOrder α]

/-! ## `bubbleDownIndex` -/

/-- The choice of the smaller child in `bubbleDownIndex`. -/
theorem rightIsSmaller_spec {cmp : α → α → Int} (hc : LawfulCmp cmp) (l : List α) (k : Nat)
    (hleft : 2 * k + 1 < l.length) :
    ∃ (b : Bool) (c : Nat) (cv : α),
      rightIsSmaller cmp l (l.length : Int) (2 * (k : Int) + 1) = some b ∧
      (if b = true then 2 * (k : Int) + 1 + 1 else 2 * (k : Int) + 1) = (c : Int) ∧
      (c = 2 * k + 1 ∨ c = 2 * k + 2) ∧ l[c]? = some cv ∧
      ∀ i x, 0 < i → (i - 1) / 2 = k → l[i]? = some x → cv ≤ x := by
  have e1 : 2 * (k : Int) + 1 = ((2 * k + 1 : Nat) : Int) := by push_cast; ring
  have e2 : 2 * (k : Int) + 1 + 1 = ((2 * k + 2 : Nat) : Int) := by push_cast; ring
  obtain ⟨lv, hlv⟩ : ∃ lv, l[2 * k + 1]? = some lv :=
    ⟨l[2 * k + 1], List.getElem?_eq_getElem hleft⟩
  unfold rightIsSmaller
  by_cases hright : 2 * k + 2 < l.length
  · obtain ⟨rv, hrv⟩ : ∃ rv, l[2 * k + 2]? = some rv :=
      ⟨l[2 * k + 2], List.getElem?_eq_getElem hright⟩
    have hr : 2 * (k : Int) + 1 + 1 < (l.length : Int) := by omega
    rw [if_pos hr, e2, e1, Get_natCast, Get_natCast, hlv, hrv]
    simp only [compareValues, Option.map_some']
    by_cases hgt : cmp lv rv > 0
    · have hlt : rv < lv := (cmp_pos_iff hc lv rv).1 hgt
      refine ⟨true, 2 * k + 2, rv, by simp [hgt], by simp, Or.inr rfl, hrv, ?_⟩
      intro i x hi hik hx
      have : i = 2 * k + 1 ∨ i = 2 * k + 2 := by omega
      rcases this with rfl | rfl
      · rw [hlv] at hx; cases hx; exact hlt.le
      · rw [hrv] at hx; cases hx; exact le_refl _
    · have hle : lv ≤ rv := not_lt.1 (fun h => hgt ((cmp_pos_iff hc lv rv).2 h))
      refine ⟨false, 2 * k + 1, lv, by simp [hgt], by simp, Or.inl rfl, hlv, ?_⟩
      intro i x hi hik hx
      have : i = 2 * k + 1 ∨ i = 2 * k + 2 := by omega
      rcases this with rfl | rfl
      · rw [hlv] at hx; cases hx; exact le_refl _
      · rw [hrv] at hx; cases hx; exact hle
  · have hr : ¬ (2 * (k : Int) + 1 + 1 < (l.length : Int)) := by omega
    rw [if_neg hr]
    refine ⟨false, 2 * k + 1, lv, rfl, by simp, Or.inl rfl, hlv, ?_⟩
    intro i x hi hik hx
    have hil := (List.getElem?_eq_some_iff.1 hx).1
    have : i = 2 * k + 1 := by omega
    subst this
    rw [hlv] at hx; cases hx; exact le_refl _

/-- The loop of `bubbleDownIndex` ends, permutes the list and turns the state `DownInv` into
heap order from `s` on. -/
theorem bubbleDownLoop_spec {cmp : α → α → Int} (hc : LawfulCmp cmp) :
    ∀ (fuel : Nat) (l : List α) (s k : Nat), 0 < fuel → l.length ≤ fuel + k → s ≤ k →
      DownInv l s k →
      ∃ l', bubbleDownLoop cmp (l.length : Int) fuel l (k : Int) = some l' ∧ l'.Perm l ∧
        HeapFrom l' s := by
  intro fuel
  induction fuel with
  | zero => intro l s k h; omega
  | succ n ih =>
    intro l s k _ hfuel hsk hinv
    rw [bubbleDownLoop]
    by_cases hleft : 2 * k + 1 < l.length
    · have hl : 2 * (k : Int) + 1 < (l.length : Int) := by omega
      obtain ⟨b, c, cv, hb, hbc, hck, hcv, hmin⟩ := rightIsSmaller_spec hc l k hleft
      have hklen : k < l.length := by omega
      obtain ⟨kv, hkv⟩ : ∃ kv, l[k]? = some kv := ⟨l[k], List.getElem?_eq_getElem hklen⟩
      have hpc : (c - 1) / 2 = k := by omega
      have hc0 : 0 < c := by omega
      have hclen : c < l.length := (List.getElem?_eq_some_iff.1 hcv).1
      simp only [hl, if_true, hb, hbc, Get_natCast, hkv, hcv, compareValues]
      by_cases hgt : cmp kv cv > 0
      · simp only [hgt, if_true]
        have hlt : cv < kv := (cmp_pos_iff hc kv cv).1 hgt
        rw [Swap_natCast l k c hkv hcv]
        have hget := getElem?_swap (by omega : k ≠ c) hkv hcv
        have hinv' : DownInv ((l.set k cv).set c kv) s c := by
          constructor
          · intro i hi hsi hic x p hx hp
            rw [hget] at hx hp
            simp only [hic, if_false] at hp
            by_cases h1 : (i - 1) / 2 = k
            · simp only [h1, if_true] at hp
              cases hp
              by_cases h2 : i = c
              · simp only [h2, if_true] at hx
                cases hx
                exact hlt.le
              · have h3 : (i = k) = False := by
                  simp only [eq_iff_iff, iff_false]; omega
                simp only [h2, h3, if_false] at hx
                exact hmin i x hi h1 hx
            · simp only [h1, if_false] at hp
              have h2 : (i = c) = False := by
                simp only [eq_iff_iff, iff_false]; omega
              simp only [h2, if_false] at hx
              by_cases h3 : i = k
              · simp only [h3, if_true] at hx
                cases hx
                subst h3
                exact hinv.2 hi hsi c _ p hc0 hpc hcv hp
              · simp only [h3, if_false] at hx
                exact hinv.1 i hi hsi h1 x p hx hp
          · intro _ _ i x g hi hip hx hg
            rw [hget] at hx hg
            have h2 : (i = c) = False := by
              simp only [eq_iff_iff, iff_false]; omega
            have h3 : (i = k) = False := by
              simp only [eq_iff_iff, iff_false]; omega
            have h4 : (k = c) = False := by
              simp only [eq_iff_iff, iff_false]; omega
            simp only [hpc, h4, if_false, if_true] at hg
            simp only [h2, h3, if_false] at hx
            cases hg
            exact hinv.1 i hi (by omega) (by omega) x _ hx (hip ▸ hcv)
        obtain ⟨l'', h1, h2, h3⟩ := ih _ s c (by omega) (by simp; omega) (by omega) hinv'
        refine ⟨l'', ?_, h2.trans (swap_perm hkv hcv), h3⟩
        rw [← h1]
        simp
      · simp only [hgt, if_false]
        have hle : kv ≤ cv := not_lt.1 (fun h => hgt ((cmp_pos_iff hc kv cv).2 h))
        refine ⟨l, rfl, List.Perm.refl _, ?_⟩
        intro i hi hsi x p hx hp
        by_cases h1 : (i - 1) / 2 = k
        · rw [h1, hkv] at hp
          cases hp
          exact hle.trans (hmin i x hi h1 hx)
        · exact hinv.1 i hi hsi h1 x p hx hp
    · have hl : ¬ (2 * (k : Int) + 1 < (l.length : Int)) := by omega
      simp only [hl, if_false]
      refine ⟨l, rfl, List.Perm.refl _, ?_⟩
      intro i hi hsi x p hx hp
      by_cases h1 : (i - 1) / 2 = k
      · have := (List.getElem?_eq_some_iff.1 hx).1
        omega
      · exact hinv.1 i hi hsi h1 x p hx hp

/-- `bubbleDownIndex(k)` on a list in the state `DownInv`. -/
theorem bubbleDownIndex_spec {cmp : α → α → Int} (hc : LawfulCmp cmp) (l : List α)
    (s k : Nat) (hsk : s ≤ k) (hinv : DownInv l s k) :
    ∃ l', bubbleDownIndex cmp l (k : Int) = some l' ∧ l'.Perm l ∧ HeapFrom l' s :=
  bubbleDownLoop_spec hc (l.length + 1) l s k (by omega) (by omega) hsk hinv

end order
end binaryheap

namespace binaryheap
variable {α : Type}

section order
variable [LinearOrder α]

/-! ## `Push` and `Pop` -/

/-- The heapifying loop of `Push`: with heap order from `n` on it ends in heap order. -/
theorem heapifyLoop_spec {cmp : α → α → Int} (hc : LawfulCmp cmp) :
    ∀ (n : Nat) (l : List α), HeapFrom l n →
      ∃ l', heapifyLoop cmp n l = some l' ∧ l'.Perm l ∧ HeapFrom l' 0 := by
  intro n
  induction n with
  | zero => intro l h; exact ⟨l, rfl, List.Perm.refl _, h⟩
  | succ i ih =>
    intro l h
    have hinv : DownInv l i i := by
      constructor
      · intro j hj hij hne
        exact h j hj (by omega)
      · intro h0 h1
        omega
    obtain ⟨l1, e1, p1, h1⟩ := bubbleDownIndex_spec hc l i i (le_refl _) hinv
    obtain ⟨l2, e2, p2, h2⟩ := ih l1 h1
    exact ⟨l2, by simp [heapifyLoop, e1, e2], p2.trans p1, h2⟩

/-- `Push` keeps heap order and adds exactly the pushed values. -/
theorem Push_spec (h : Heap α) (hc : LawfulCmp h.Comparator) (hh : HeapFrom h.list 0)
    (values : List α) :
    ∃ h', h.Push values = some h' ∧ h'.Comparator = h.Comparator ∧
      h'.list.Perm (h.list ++ values) ∧ HeapFrom h'.list 0 := by
  have hmulti : ∀ vs : List α,
      ∃ l', heapifyLoop h.Comparator
          (Int.tdiv (Size (Add h.list vs)) 2 - 1 + 1).toNat (Add h.list vs) = some l' ∧
        l'.Perm (h.list ++ vs) ∧ HeapFrom l' 0 := by
    intro vs
    have e : (Int.tdiv (Size (Add h.list vs)) 2 - 1 + 1).toNat = (h.list ++ vs).length / 2 := by
      have := Int.tdiv_eq_ediv (a := Size (Add h.list vs)) (b := 2)
        (by simp [Size]) (by omega)
      simp only [Size, Add] at this ⊢
      omega
    rw [e]
    exact heapifyLoop_spec hc _ (h.list ++ vs) (by
      intro i hi hs x p hx _
      have := (List.getElem?_eq_some_iff.1 hx).1
      omega)
  rcases values with _ | ⟨v, _ | ⟨w, t⟩⟩
  · obtain ⟨l', e, p, hl'⟩ := hmulti []
    exact ⟨{ h with list := l' }, by simp only [Heap.Push, e, Option.map_some'], rfl, p, hl'⟩
  · obtain ⟨l', e, p, hl'⟩ := bubbleUp_spec hc h.list v hh
    exact ⟨{ h with list := l' }, by simp only [Heap.Push, e, Option.map_some'], rfl, p, hl'⟩
  · obtain ⟨l', e, p, hl'⟩ := hmulti (v :: w :: t)
    exact ⟨{ h with list := l' }, by simp only [Heap.Push, e, Option.map_some'], rfl, p, hl'⟩

/-- In heap order the first element is a least one. -/
theorem heap_min {l : List α} (hh : HeapFrom l 0) {m : α} (hm : l[0]? = some m) :
    ∀ (i : Nat) (x : α), l[i]? = some x → m ≤ x := by
  intro i
  induction i using Nat.strong_induction_on with
  | _ i ih =>
    intro x hx
    rcases Nat.eq_zero_or_pos i with rfl | hpos
    · rw [hm] at hx; cases hx; exact le_refl _
    · have hil := (List.getElem?_eq_some_iff.1 hx).1
      have hplen : (i - 1) / 2 < l.length := by omega
      have hp : l[(i - 1) / 2]? = some l[(i - 1) / 2] := List.getElem?_eq_getElem hplen
      exact (ih _ (by omega) _ hp).trans (hh i hpos (Nat.zero_le _) x _ hx hp)

/-- `Pop` on a heap in heap order hands out the first element, keeps the rest and restores
heap order. -/
theorem Pop_spec (h : Heap α) (hc : LawfulCmp h.Comparator) (hh : HeapFrom h.list 0)
    (m : α) (t : List α) (hl : h.list = m :: t) :
    ∃ l', h.Pop = some (some m, { h with list := l' }) ∧ l'.Perm t ∧ HeapFrom l' 0 ∧
      ∀ y ∈ h.list, m ≤ y := by
  have hmin : ∀ y ∈ h.list, m ≤ y := by
    intro y hy
    obtain ⟨i, hi⟩ := List.mem_iff_getElem?.1 hy
    exact heap_min hh (by simp [hl]) i y hi
  have hg0 : Get h.list 0 = some m := by
    have := Get_natCast h.list 0
    simp only [Nat.cast_zero] at this
    rw [this, hl]; simp
  rcases List.eq_nil_or_concat t with rfl | ⟨mid, last, rfl⟩ <;>
    try simp only [List.concat_eq_append] at hl ⊢
  · refine ⟨[], ?_, List.Perm.refl _, ?_, hmin⟩
    · simp [Heap.Pop, hg0, hl, Size, Swap, Get, Remove, bubbleDown, bubbleDownIndex,
        bubbleDownLoop]
    · intro i _ _ x p hx
      simp at hx
  · have hlast : h.list[mid.length + 1]? = some last := by
      rw [hl]; simp
    have h0 : h.list[0]? = some m := by rw [hl]; simp
    have hsz : Size h.list - 1 = ((mid.length + 1 : Nat) : Int) := by
      simp [Size, hl]
    have hsw : Swap h.list (0 : Int) ((mid.length + 1 : Nat) : Int)
        = last :: (mid ++ [m]) := by
      have := Swap_natCast h.list 0 (mid.length + 1) h0 hlast
      simp only [Nat.cast_zero] at this
      rw [this, hl]
      simp
    have hrm : Remove (last :: (mid ++ [m])) ((mid.length + 1 : Nat) : Int) = last :: mid := by
      unfold Remove
      rw [if_pos (by simp; omega)]
      simp [List.eraseIdx_append_of_length_le (le_refl mid.length) [m]]
    have hinv : DownInv (last :: mid) 0 0 := by
      constructor
      · intro i hi _ hne x p hx hp
        obtain ⟨j, rfl⟩ : ∃ j, i = j + 1 := ⟨i - 1, by omega⟩
        obtain ⟨q, hq⟩ : ∃ q, (j + 1 - 1) / 2 = q + 1 := ⟨(j + 1 - 1) / 2 - 1, by omega⟩
        rw [hq] at hp
        simp only [List.getElem?_cons_succ] at hx hp
        have hj := (List.getElem?_eq_some_iff.1 hx).1
        have hq' := (List.getElem?_eq_some_iff.1 hp).1
        refine hh (j + 1) hi (Nat.zero_le _) x p ?_ ?_
        · rw [hl]
          simp only [List.getElem?_cons_succ]
          rw [List.getElem?_append_left hj]
          exact hx
        · rw [hq, hl]
          simp only [List.getElem?_cons_succ]
          rw [List.getElem?_append_left hq']
          exact hp
      · intro h0
        omega
    obtain ⟨l', e, p, hl'⟩ := bubbleDownIndex_spec hc (last :: mid) 0 0 (le_refl _) hinv
    simp only [Nat.cast_zero] at e
    refine ⟨l', ?_, p.trans (List.perm_append_singleton last mid).symm, hl', hmin⟩
    simp only [Heap.Pop, hg0, hsz, hsw, hrm, bubbleDown, e, Option.map_some']

/-- Heap order in the order of the keys is the min-heap property under the comparator. -/
theorem isMinHeap_iff {cmp : α → α → Int} (hc : LawfulCmp cmp) (l : List α) :
    IsMinHeap cmp l ↔ HeapFrom l 0 := by
  constructor
  · intro h i hi _ x p hx hp
    exact not_lt.1 (fun hlt => h i x p hi hx hp ((hc.lt_iff x p).2 hlt))
  · intro h i x p hi hx hp hlt
    exact absurd ((hc.lt_iff x p).1 hlt) (not_lt.2 (h i hi (Nat.zero_le _) x p hx hp))

/-- A run of `Push` and `Pop` calls on a heap in heap order completes and leaves heap
order. -/
theorem runOps_heap (ops : List (Op α)) :
    ∀ h : Heap α, LawfulCmp h.Comparator → HeapFrom h.list 0 →
      ∃ h', runOps h ops = some h' ∧ h'.Comparator = h.Comparator ∧ HeapFrom h'.list 0 := by
  induction ops with
  | nil => intro h _ hh; exact ⟨h, rfl, rfl, hh⟩
  | cons op ops ih =>
    intro h hc hh
    have hstep : ∃ h1, h.apply op = some h1 ∧ h1.Comparator = h.Comparator ∧
        HeapFrom h1.list 0 := by
      cases op with
      | push values =>
        obtain ⟨h1, e, c1, -, hh1⟩ := Push_spec h hc hh values
        exact ⟨h1, e, c1, hh1⟩
      | pop =>
        cases hl : h.list with
        | nil => exact ⟨h, by simp [Heap.apply, Pop_empty h hl], rfl, hh⟩
        | cons m t =>
          obtain ⟨l', e, -, hh1, -⟩ := Pop_spec h hc hh m t hl
          exact ⟨{ h with list := l' }, by simp [Heap.apply, e], rfl, hh1⟩
    obtain ⟨h1, e1, c1, hh1⟩ := hstep
    obtain ⟨h', e2, c2, hh'⟩ := ih h1 (by rw [c1]; exact hc) hh1
    exact ⟨h', by simp [runOps, e1, e2], by rw [c2, c1], hh'⟩

end order
end binaryheap

namespace binaryheap
variable {α : Type}

section order
variable [LinearOrder α]

/-- C27: `Pop` returns a minimum. For every comparator whose sign decides the order of the
values and every finite sequence of `Push` calls (with one value, with several, with none)
and `Pop` calls on an empty heap, the run completes and the backing list has the min-heap
property: no element compares less than its parent at index `(i - 1) / 2`. On the heap it
leaves, `Pop` answers `(nil, false)` and leaves the list empty when the list is empty;
otherwise it answers `(x, true)` where `x` is held and no held value compares less than `x`,
the list afterwards is the old one with exactly one occurrence of `x` taken out, and it has
the min-heap property again. -/
theorem heap_pop_returns_minimum (cmp : α → α → Int) (hc : LawfulCmp cmp) (ops : List (Op α)) :
    ∃ h, runOps (NewWith cmp) ops = some h ∧ IsMinHeap cmp h.list ∧
      (h.list = [] → ∃ h', h.Pop = some (none, h') ∧ h'.list = []) ∧
      (h.list ≠ [] → ∃ x h', h.Pop = some (some x, h') ∧ x ∈ h.list ∧
        (∀ y ∈ h.list, ¬ cmp y x < 0) ∧ (∀ y ∈ h.list, cmp x y ≤ 0) ∧
        h'.list.Perm (h.list.erase x) ∧ IsMinHeap cmp h'.list) := by
  have h0 : HeapFrom (NewWith cmp).list 0 := by
    intro i _ _ x p hx
    simp [NewWith] at hx
  obtain ⟨h, e, hcmp, hh⟩ := runOps_heap ops (NewWith cmp) hc h0
  have hcmp' : h.Comparator = cmp := hcmp
  have hc' : LawfulCmp h.Comparator := by rw [hcmp']; exact hc
  refine ⟨h, e, (isMinHeap_iff hc _).2 hh, ?_, ?_⟩
  · intro hl
    exact ⟨h, Pop_empty h hl, hl⟩
  · intro hne
    obtain ⟨m, t, hl⟩ := List.exists_cons_of_ne_nil hne
    obtain ⟨l', e1, p1, hh1, hmin⟩ := Pop_spec h hc' hh m t hl
    refine ⟨m, { h with list := l' }, e1, by simp [hl], ?_, ?_, ?_, (isMinHeap_iff hc _).2 hh1⟩
    · intro y hy hlt
      exact absurd ((hc.lt_iff y m).1 hlt) (not_lt.2 (hmin y hy))
    · intro y hy
      exact (cmp_le_iff hc m y).2 (hmin y hy)
    · rw [hl]
      simpa using p1

theorem heap_pop_returns_minimum_witness :
    LawfulCmp IntComparator ∧
      ((runOps (NewWith IntComparator)
          [Op.push [5], .push [3], .push [8, 1, 9, 2], .pop, .push [], .push [0]]).map
        fun h => h.list) = some [0, 3, 2, 5, 9, 8] ∧
      ∃ h, runOps (NewWith IntComparator)
          [Op.push [5], .push [3], .push [8, 1, 9, 2], .pop, .push [], .push [0]] = some h ∧
        IsMinHeap IntComparator h.list ∧
        (h.list = [] → ∃ h', h.Pop = some (none, h') ∧ h'.list = []) ∧
        (h.list ≠ [] → ∃ x h', h.Pop = some (some x, h') ∧ x ∈ h.list ∧
          (∀ y ∈ h.list, ¬ IntComparator y x < 0) ∧ (∀ y ∈ h.list, IntComparator x y ≤ 0) ∧
          h'.list.Perm (h.list.erase x) ∧ IsMinHeap IntComparator h'.list) :=
  ⟨avltree.lawfulCmp_IntComparator, by decide,
    heap_pop_returns_minimum IntComparator avltree.lawfulCmp_IntComparator _⟩

end order
end binaryheap

/-! ## Claims about both trees -/

/-- C19: `Remove` of an absent key is a silent no-op. On every AVL tree, whatever its shape
and tags, `Remove` of a key that no stored key compares equal to completes and returns the
tree as it is: the same nodes, keys, values and balance tags and the same count. On every
well-formed B-tree, `Remove` of a key that no entry holds completes and returns the tree as
it is. -/
theorem remove_absent_is_noop {K V : Type} [LinearOrder K] (ta : avltree.Tree K V) (ka : K)
    (ha : ∀ k ∈ avltree.keys ta.Root, ta.Comparator ka k ≠ 0)
    (tb : btree.Tree K V) (hc : LawfulCmp tb.Comparator) (hi : tb.Inv) (kb : K)
    (hb : ∀ e ∈ tb.entries, e.Key ≠ kb) :
    ta.Remove ka = some ta ∧ tb.Remove kb = some tb := by
  constructor
  · simp [avltree.Tree.Remove, avltree.remove_absent ta.Comparator ka ta.Root ta.size ha]
  · obtain ⟨t', h1, -, -, -, -, h2⟩ := btree.Remove_spec tb hc hi kb
    rw [h1, h2 hb]

theorem remove_absent_is_noop_witness :
    (∀ k ∈ avltree.keys (avltree.Node.node (2 : Int) (20 : Int) 1 .nil (.node 3 30 0 .nil .nil)),
        IntComparator 5 k ≠ 0) ∧
      LawfulCmp IntComparator ∧
      (⟨some (.mk [⟨20, 200⟩] [.mk [⟨10, 100⟩] [], .mk [⟨30, 300⟩] []]), IntComparator, 3, 3⟩ :
        btree.Tree Int Int).Inv ∧
      (∀ e ∈ (⟨some (.mk [⟨20, 200⟩] [.mk [⟨10, 100⟩] [], .mk [⟨30, 300⟩] []]),
          IntComparator, 3, 3⟩ : btree.Tree Int Int).entries, e.Key ≠ 25) ∧
      (⟨.node 2 20 1 .nil (.node 3 30 0 .nil .nil), IntComparator, 2⟩ :
          avltree.Tree Int Int).Remove 5
        = some ⟨.node 2 20 1 .nil (.node 3 30 0 .nil .nil), IntComparator, 2⟩ ∧
      (⟨some (.mk [⟨20, 200⟩] [.mk [⟨10, 100⟩] [], .mk [⟨30, 300⟩] []]), IntComparator, 3, 3⟩ :
          btree.Tree Int Int).Remove 25
        = some ⟨some (.mk [⟨20, 200⟩] [.mk [⟨10, 100⟩] [], .mk [⟨30, 300⟩] []]),
            IntComparator, 3, 3⟩ :=
  have ha : ∀ k ∈ avltree.keys
      (avltree.Node.node (2 : Int) (20 : Int) 1 .nil (.node 3 30 0 .nil .nil)),
      IntComparator 5 k ≠ 0 := by
    simp [IntComparator]
  have hi : (⟨some (.mk [⟨20, 200⟩] [.mk [⟨10, 100⟩] [], .mk [⟨30, 300⟩] []]),
      IntComparator, 3, 3⟩ : btree.Tree Int Int).Inv := by
    refine ⟨by decide, by simp [btree.Tree.entries, btree.flatten, btree.inter], ⟨1, ?_⟩, ?_⟩
    · simp [btree.Shape, btree.WF, btree.Node.Entries, btree.Node.Children, btree.minEntries,
        btree.maxEntries, btree.minChildren, btree.maxChildren]
      decide
    · simp [btree.SortedE, btree.flatten, btree.inter]
  have hb : ∀ e ∈ (⟨some (.mk [⟨20, 200⟩] [.mk [⟨10, 100⟩] [], .mk [⟨30, 300⟩] []]),
      IntComparator, 3, 3⟩ : btree.Tree Int Int).entries, e.Key ≠ 25 := by
    simp [btree.Tree.entries, btree.flatten, btree.inter]
  ⟨ha, avltree.lawfulCmp_IntComparator, hi, hb,
    remove_absent_is_noop ⟨.node 2 20 1 .nil (.node 3 30 0 .nil .nil), IntComparator, 2⟩ 5 ha
      ⟨some (.mk [⟨20, 200⟩] [.mk [⟨10, 100⟩] [], .mk [⟨30, 300⟩] []]), IntComparator, 3, 3⟩
      avltree.lawfulCmp_IntComparator hi 25 hb⟩
